import Mathlib

/-!
# mbsolve: the OpenMP Runge-Kutta Maxwell-Bloch solver (`solver_openmp_clvl_rk`)

A shallow embedding of `solver-openmp/src/solver_openmp_clvl_rk.cpp`.

* `real` (a C++ floating-point type) is modelled by `ℚ`: arithmetic is exact.
* Raw C++ arrays are total maps from an index to a value; a store is
  `Function.update`. Loops are folds of their body over the index range, in
  the order the C++ loop runs.
* Machine integers are `Nat`/`Int`; where the C++ code mixes `int`,
  `unsigned int` and `uint64_t` the wrap-around is written out (`wrap32`,
  `wrap64`, `to_int32`).
-/

namespace mbsolve

/-- The C++ type `real`, with exact arithmetic. -/
abbrev real := ℚ

/-- Redundant calculation overlap: `const unsigned int OL = 32`. -/
def OL : Nat := 32

/-- Vector length: `const unsigned int VEC = 4`. -/
def VEC : Nat := 4

/-- Value of a mathematical integer stored in an `unsigned int`. -/
def wrap32 (x : Int) : Nat := (x % 4294967296).toNat

/-- Value of a mathematical integer stored in a `uint64_t`. -/
def wrap64 (x : Int) : Nat := (x % 18446744073709551616).toNat

/-- Value of an `unsigned int` converted to `int` (two's complement). -/
def to_int32 (x : Nat) : Int :=
  if x % 4294967296 < 2147483648 then ((x % 4294967296 : Nat) : Int)
  else ((x % 4294967296 : Nat) : Int) - 4294967296

/-- Coefficient record `sim_constants_clvl_rk<num_lvl>`; vectors and matrices
have the adjoint dimension `num_adj`. -/
structure sim_constants_clvl_rk (num_adj : Nat) where
  M_CE : real
  M_CH : real
  M_CP : real
  sigma : real
  has_qm : Bool
  has_dipole : Bool
  v : Fin num_adj → real
  M : Matrix (Fin num_adj) (Fin num_adj) real
  U : Matrix (Fin num_adj) (Fin num_adj) real
  d_eq : Fin num_adj → real
  d_init : Fin num_adj → real
  d_x_inv : real
  d_t : real

/-- The arrays of one worker: `m_d[tid]`, `m_e[tid]`, `m_e_o[tid]`,
`m_h[tid]`, `m_p[tid]`, `m_mat_indices[tid]`. -/
structure arena (num_adj : Nat) where
  d : Nat → Fin num_adj → real
  e : Nat → real
  e_o : Nat → real
  h : Nat → real
  p : Nat → real
  mat_indices : Nat → Nat

/-- Points per worker: `chunk_base = num_gridpoints / P`. -/
def chunk_base (N P : Nat) : Nat := N / P

/-- Left-over points: `chunk_rem = num_gridpoints % P`. -/
def chunk_rem (N P : Nat) : Nat := N % P

/-- Owned points of worker `tid`:
`chunk = chunk_base; if (tid == P - 1) chunk += chunk_rem;`. -/
def chunk (N P tid : Nat) : Nat :=
  if tid = P - 1 then chunk_base N P + chunk_rem N P else chunk_base N P

/-- Array length of worker `tid`: `size = chunk + 2 * OL`. -/
def arena_size (N P tid : Nat) : Nat := chunk N P tid + 2 * OL

/-- The index `global_idx = tid * chunk_base + (i - OL)` of the constructor:
`i - OL` is evaluated in `unsigned int` (`int i`, `unsigned int OL`) and then
widened to `uint64_t`. -/
def global_idx (N P tid i : Nat) : Nat :=
  wrap64 ((tid : Int) * (chunk_base N P : Int) + (wrap32 ((i : Int) - (OL : Int)) : Int))

/-- Body of the initialisation loop of the constructor (one index `i`). The
test `global_idx >= 0` on a `uint64_t` is always true. -/
def init_body {num_adj : Nat} (l_mat_indices : Nat → Nat)
    (l_sim_consts : Nat → sim_constants_clvl_rk num_adj) (N P tid : Nat)
    (a : arena num_adj) (i : Nat) : arena num_adj :=
  let g := global_idx N P tid i
  let a1 : arena num_adj :=
    if g < N then
      let mat_idx := l_mat_indices g
      { a with mat_indices := Function.update a.mat_indices i mat_idx,
               d := Function.update a.d i (l_sim_consts mat_idx).d_init }
    else
      { a with mat_indices := Function.update a.mat_indices i 0,
               d := Function.update a.d i 0 }
  { a1 with e := Function.update a1.e i 0,
            e_o := Function.update a1.e_o i 0,
            p := Function.update a1.p i 0,
            h := Function.update a1.h i 0 }

/-- The initialisation loop `for (int i = 0; i < size; i++)` of worker `tid`,
run on the freshly allocated (arbitrary) arrays `a0`. -/
def init_arena {num_adj : Nat} (l_mat_indices : Nat → Nat)
    (l_sim_consts : Nat → sim_constants_clvl_rk num_adj) (N P tid : Nat)
    (a0 : arena num_adj) : arena num_adj :=
  (List.range (arena_size N P tid)).foldl (init_body l_mat_indices l_sim_consts N P tid) a0

/-! ## Halo exchange -/

/-- One iteration of the left copy loop of worker `t`, reading the arrays
`pv` of worker `tid - 1`: `t_d[i] = p_d[chunk_base + i]` and likewise for
`e`, `e_o`, `h`. -/
def exchange_left_body {num_adj : Nat} (cb : Nat) (pv : arena num_adj)
    (t : arena num_adj) (i : Nat) : arena num_adj :=
  { t with d := Function.update t.d i (pv.d (cb + i)),
           e := Function.update t.e i (pv.e (cb + i)),
           e_o := Function.update t.e_o i (pv.e_o (cb + i)),
           h := Function.update t.h i (pv.h (cb + i)) }

/-- One iteration of the right copy loop of worker `t`, reading the arrays
`nx` of worker `tid + 1`: `t_d[OL + chunk_base + i] = n_d[OL + i]` and
likewise for `e`, `e_o`, `h`. -/
def exchange_right_body {num_adj : Nat} (cb : Nat) (nx : arena num_adj)
    (t : arena num_adj) (i : Nat) : arena num_adj :=
  { t with d := Function.update t.d (OL + cb + i) (nx.d (OL + i)),
           e := Function.update t.e (OL + cb + i) (nx.e (OL + i)),
           e_o := Function.update t.e_o (OL + cb + i) (nx.e_o (OL + i)),
           h := Function.update t.h (OL + cb + i) (nx.h (OL + i)) }

/-- The exchange code of one worker: `if (tid > 0) { left loop }` then
`if (tid < P - 1) { right loop }`; `pv` and `nx` are the arrays of the two
neighbours as the worker reads them. -/
def exchange_worker {num_adj : Nat} (N P tid : Nat) (pv t nx : arena num_adj) :
    arena num_adj :=
  let t1 := if 0 < tid then
      (List.range OL).foldl (exchange_left_body (chunk_base N P) pv) t
    else t
  if tid < P - 1 then
    (List.range OL).foldl (exchange_right_body (chunk_base N P) nx) t1
  else t1

/-- The exchange phase of all `P` workers, between two barriers: every worker
reads its neighbours as they are when the phase starts. -/
def exchange_all {num_adj : Nat} (N P : Nat) (ar : Nat → arena num_adj) :
    Nat → arena num_adj :=
  fun tid =>
    if tid < P then exchange_worker N P tid (ar (tid - 1)) (ar tid) (ar (tid + 1))
    else ar tid

/-- The exchange phase with the workers taking their turn one after the
other, in the order given: each reads its neighbours as they are at its
turn. -/
def exchange_seq {num_adj : Nat} (N P : Nat) (order : List Nat)
    (ar : Nat → arena num_adj) : Nat → arena num_adj :=
  order.foldl
    (fun cur tid =>
      Function.update cur tid
        (exchange_worker N P tid (cur (tid - 1)) (cur tid) (cur (tid + 1))))
    ar

/-! ## The update kernels -/

/-- Loop bound `size - border - 1` of the update loops, in `uint64_t`. -/
def loop_end (size border : Nat) : Nat :=
  wrap64 ((size : Int) - (border : Int) - 1)

/-- Indices visited by `for (int i = border; i < size - border - 1; i++)`. -/
def loop_range (size border : Nat) : List Nat :=
  List.range' border (loop_end size border - border)

/-- Body of the loop of `update_d` (Runge-Kutta step of the coherence
vector, then the polarization). -/
def update_d_body {num_adj : Nat} (l_sim_consts : Nat → sim_constants_clvl_rk num_adj)
    (a : arena num_adj) (i : Nat) : arena num_adj :=
  let sc := l_sim_consts (a.mat_indices i)
  if sc.has_qm then
    let t_e_avg : real := (a.e_o i + a.e i) / 2
    let k1 : Fin num_adj → real :=
      sc.d_t • ((sc.M + a.e_o i • sc.U).mulVec (a.d i) + sc.d_eq)
    let k2 : Fin num_adj → real :=
      sc.d_t • ((sc.M + t_e_avg • sc.U).mulVec (a.d i + fun j => k1 j / 2) + sc.d_eq)
    let k3 : Fin num_adj → real :=
      sc.d_t • ((sc.M + t_e_avg • sc.U).mulVec (a.d i + fun j => k2 j / 2) + sc.d_eq)
    let k4 : Fin num_adj → real :=
      sc.d_t • ((sc.M + a.e i • sc.U).mulVec (a.d i + k3) + sc.d_eq)
    let d_new : Fin num_adj → real :=
      a.d i + fun j => (k1 j + 2 * k2 j + 2 * k3 j + k4 j) / 6
    { a with d := Function.update a.d i d_new,
             p := Function.update a.p i
               (Matrix.dotProduct (sc.M_CP • sc.v) (sc.M.mulVec d_new + sc.d_eq)) }
  else
    { a with p := Function.update a.p i 0 }

/-- The function `update_d`. -/
def update_d {num_adj : Nat} (size border : Nat)
    (l_sim_consts : Nat → sim_constants_clvl_rk num_adj) (a : arena num_adj) :
    arena num_adj :=
  (loop_range size border).foldl (update_d_body l_sim_consts) a

/-- Body of the loop of `update_fdtd`. -/
def update_fdtd_body {num_adj : Nat} (l_sim_consts : Nat → sim_constants_clvl_rk num_adj)
    (a : arena num_adj) (i : Nat) : arena num_adj :=
  let sc := l_sim_consts (a.mat_indices i)
  let j : real := sc.sigma * a.e i
  { a with e_o := Function.update a.e_o i (a.e i),
           e := Function.update a.e i
             (a.e i + sc.M_CE * (-j - a.p i + (a.h (i + 1) - a.h i) * sc.d_x_inv)) }

/-- The function `update_fdtd`. -/
def update_fdtd {num_adj : Nat} (size border : Nat)
    (l_sim_consts : Nat → sim_constants_clvl_rk num_adj) (a : arena num_adj) :
    arena num_adj :=
  (loop_range size border).foldl (update_fdtd_body l_sim_consts) a

/-- Body of the loop of `update_h`. -/
def update_h_body {num_adj : Nat} (border : Nat)
    (l_sim_consts : Nat → sim_constants_clvl_rk num_adj)
    (a : arena num_adj) (i : Nat) : arena num_adj :=
  let sc := l_sim_consts (a.mat_indices i)
  if border + 1 ≤ i then
    { a with h := Function.update a.h i (a.h i + sc.M_CH * (a.e i - a.e (i - 1))) }
  else a

/-- The function `update_h`. -/
def update_h {num_adj : Nat} (size border : Nat)
    (l_sim_consts : Nat → sim_constants_clvl_rk num_adj) (a : arena num_adj) :
    arena num_adj :=
  (loop_range size border).foldl (update_h_body border l_sim_consts) a

/-! ## Sources -/

/-- The enumeration `source::type`. -/
inductive source_type where
  | hard_source
  | soft_source
  | other
  deriving DecidableEq, Repr

/-- The struct `sim_source`. -/
structure sim_source where
  type : source_type
  x_idx : Nat
  data_base_idx : Nat
  deriving DecidableEq, Repr

/-- Local index `int at = x_idx - base_pos + OL` (computed in `unsigned int`,
stored in an `int`). -/
def source_at (src : sim_source) (base_pos : Nat) : Int :=
  to_int32 (wrap32 ((src.x_idx : Int) - (base_pos : Int) + (OL : Int)))

/-- Body of the loop of `apply_sources_rk` for one source. -/
def apply_source_body (source_data : Nat → real) (time base_pos chunk : Nat)
    (t_e : Nat → real) (src : sim_source) : Nat → real :=
  let pos := source_at src base_pos
  if 0 < pos ∧ pos < ((chunk + 2 * OL : Nat) : Int) then
    let v := source_data (src.data_base_idx + time)
    match src.type with
    | source_type.hard_source => Function.update t_e pos.toNat v
    | source_type.soft_source => Function.update t_e pos.toNat (t_e pos.toNat + v)
    | source_type.other => t_e
  else t_e

/-- The function `apply_sources_rk`; it only touches `t_e`. The parameter
`base_pos` is an `unsigned int`. -/
def apply_sources_rk (t_e : Nat → real) (source_data : Nat → real)
    (l_sim_sources : List sim_source) (time base_pos chunk : Nat) : Nat → real :=
  l_sim_sources.foldl (apply_source_body source_data time base_pos chunk) t_e

/-! ## Recording -/

/-- The enumeration `record::type`, as far as `run` distinguishes it. -/
inductive record_type where
  | electric
  | inversion
  | density
  | other
  deriving DecidableEq, Repr

/-- What `run` reads from a `copy_list_entry` (the class is declared in a
header outside this file): the results of `hasto_record(iteration)`,
`get_position()`, `get_cols()`, `get_row_idx()`, `get_col_idx()`,
`get_type()` and `get_offset_scratch_real(timestep, gridpoint)`. -/
structure copy_list_entry where
  hasto_record : Nat → Bool
  position : Nat
  cols : Nat
  row_idx : Nat
  col_idx : Nat
  type : record_type
  offset_scratch_real : Nat → Nat → Int

/-- Value of a `uint64_t` converted to `int64_t` (two's complement). -/
def to_int64 (x : Nat) : Int :=
  if x % 18446744073709551616 < 9223372036854775808 then
    ((x % 18446744073709551616 : Nat) : Int)
  else ((x % 18446744073709551616 : Nat) : Int) - 18446744073709551616

/-- Entry `v(k)` of a coefficient vector (`0` stands for a read outside the
vector). -/
def vec_get {num_adj : Nat} (v : Fin num_adj → real) (k : Nat) : real :=
  if hk : k < num_adj then v ⟨k, hk⟩ else 0

/-- One store `m_result_scratch[addr] = value`, with the window `k`, the
time step, the worker and the local index `i` it comes from. -/
structure scratch_write where
  k : Nat
  time : Nat
  tid : Nat
  i : Nat
  addr : Nat
  value : real

/-- `int64_t base_idx = tid * chunk_base - OL`. -/
def record_base_idx (N P tid : Nat) : Int :=
  to_int64 (wrap64 ((tid : Int) * (chunk_base N P : Int) - (OL : Int)))

/-- The stores of worker `tid` for window `k` at local index `i` (body of
the loop `for (uint64_t i = OL; i < chunk + OL; i++)`); `calc_population` is
`cv_representation::calc_population`. A density window with
`ridx != cidx`, or a window of another type, stores nothing. -/
def record_body {num_adj : Nat} (num_lvl : Nat)
    (calc_population : (Fin num_adj → real) → Nat → real)
    (N P tid time k : Nat) (cle : copy_list_entry) (a : arena num_adj) (i : Nat) :
    List scratch_write :=
  let base_idx := record_base_idx N P tid
  let off_r : Int :=
    cle.offset_scratch_real time (wrap64 (base_idx - (cle.position : Int)))
  let idx : Int := to_int64 (wrap64 (base_idx + (i : Int)))
  let addr : Nat := wrap64 (off_r + (i : Int))
  if wrap64 idx ≥ cle.position ∧ wrap64 idx < wrap64 ((cle.position : Int) + (cle.cols : Int)) then
    match cle.type with
    | record_type.electric => [⟨k, time, tid, i, addr, a.e i⟩]
    | record_type.inversion =>
        [⟨k, time, tid, i, addr, vec_get (a.d i) (num_lvl * (num_lvl - 1))⟩]
    | record_type.density =>
        if cle.row_idx = cle.col_idx then
          [⟨k, time, tid, i, addr, calc_population (a.d i) cle.row_idx⟩]
        else []
    | record_type.other => []
  else []

/-- The stores of worker `tid` for window `k` in one substep:
`if (l_copy_list[k].hasto_record(n * OL + m)) { for i ... }`. -/
def record_window {num_adj : Nat} (num_lvl : Nat)
    (calc_population : (Fin num_adj → real) → Nat → real)
    (N P tid time : Nat) (a : arena num_adj) (k : Nat) (cle : copy_list_entry) :
    List scratch_write :=
  if cle.hasto_record time then
    (List.range' OL (chunk N P tid)).flatMap
      (record_body num_lvl calc_population N P tid time k cle a)
  else []

/-- The stores of worker `tid` in one substep, over all windows
(`for (int k = 0; k < num_copy; k++)`), in program order. -/
def record_worker {num_adj : Nat} (num_lvl : Nat)
    (calc_population : (Fin num_adj → real) → Nat → real)
    (l_copy_list : List copy_list_entry)
    (N P tid time : Nat) (a : arena num_adj) : List scratch_write :=
  l_copy_list.enum.flatMap
    (fun kc => record_window num_lvl calc_population N P tid time a kc.1 kc.2)

/-- Effect of a list of stores on `m_result_scratch`, oldest first. -/
def apply_writes (scratch : Nat → real) (ws : List scratch_write) : Nat → real :=
  ws.foldl (fun sc w => Function.update sc w.addr w.value) scratch

/-! ## The solver object and `run` -/

/-- The members of the solver that `run` reads; `P` is
`omp_get_max_threads()`. -/
structure solver (num_adj : Nat) where
  num_lvl : Nat
  P : Nat
  num_gridpoints : Nat
  num_timesteps : Nat
  l_sim_consts : Nat → sim_constants_clvl_rk num_adj
  l_sim_sources : List sim_source
  m_source_data : Nat → real
  l_copy_list : List copy_list_entry
  calc_population : (Fin num_adj → real) → Nat → real

/-- The mutable memory of the solver: the arrays of every worker, the scratch
buffer, and (a history variable) every store made into the scratch buffer so
far, oldest first. -/
structure state (num_adj : Nat) where
  arenas : Nat → arena num_adj
  scratch : Nat → real
  log : List scratch_write

/-- `unsigned int border = m - (m % VEC)`. -/
def border (m : Nat) : Nat := m - m % VEC

/-- The field part of one substep of worker `tid`, in block `n` at substep
`m`: `update_d`, `update_fdtd`, `apply_sources_rk`, `update_h`, then the
boundary condition on `t_h`. -/
def substep_worker {num_adj : Nat} (s : solver num_adj) (n m tid : Nat)
    (a : arena num_adj) : arena num_adj :=
  let N := s.num_gridpoints
  let size := arena_size N s.P tid
  let a1 := update_d size (border m) s.l_sim_consts a
  let a2 := update_fdtd size (border m) s.l_sim_consts a1
  let a3 : arena num_adj :=
    { a2 with e := apply_sources_rk a2.e s.m_source_data s.l_sim_sources (n * OL + m)
                     (wrap32 ((tid : Int) * (chunk_base N s.P : Int))) (chunk N s.P tid) }
  let a4 := update_h size (border m) s.l_sim_consts a3
  let a5 : arena num_adj :=
    if tid = 0 then { a4 with h := Function.update a4.h OL 0 } else a4
  if tid = s.P - 1 then
    { a5 with h := Function.update a5.h (OL + chunk N s.P tid) 0 }
  else a5

/-- One substep of all workers (they touch only their own arrays and the
scratch buffer); the stores of the workers are listed by increasing `tid`. -/
def substep_all {num_adj : Nat} (s : solver num_adj) (n m : Nat)
    (st : state num_adj) : state num_adj :=
  let ar : Nat → arena num_adj :=
    fun tid => if tid < s.P then substep_worker s n m tid (st.arenas tid) else st.arenas tid
  let ws : List scratch_write :=
    (List.range s.P).flatMap
      (fun tid => record_worker s.num_lvl s.calc_population s.l_copy_list
        s.num_gridpoints s.P tid (n * OL + m) (ar tid))
  { arenas := ar, scratch := apply_writes st.scratch ws, log := st.log ++ ws }

/-- The steps of `run` between barriers: the halo exchange of block `n`, and
substep `m` of block `n`. -/
inductive action where
  | exchange (n : Nat)
  | substep (n m : Nat)
  deriving DecidableEq, Repr

/-- `subloop_ct = (n == num_timesteps/OL) ? num_timesteps % OL : OL`. -/
def subloop_ct (T n : Nat) : Nat := if n = T / OL then T % OL else OL

/-- The steps of block `n`: the exchange, then the sub-loop
`for (m = 0; m < subloop_ct; m++)`. -/
def block_actions (T n : Nat) : List action :=
  action.exchange n :: (List.range (subloop_ct T n)).map (action.substep n)

/-- The steps of the main loop `for (n = 0; n <= num_timesteps/OL; n++)`. -/
def run_actions (T : Nat) : List action :=
  (List.range (T / OL + 1)).flatMap (block_actions T)

/-- What may come directly after what in the steps of `run`: after an
exchange, substep 0 of the same block; after substep `m`, substep `m + 1` of
the same block or, when `m` is the last of `OL` substeps, the exchange of the
next block. -/
def action.follows : action → action → Prop
  | action.exchange n, action.substep n2 m2 => n2 = n ∧ m2 = 0
  | action.substep n m, action.substep n2 m2 => n2 = n ∧ m2 = m + 1
  | action.substep n m, action.exchange n2 => n2 = n + 1 ∧ m + 1 = OL
  | action.exchange _, action.exchange _ => False

/-- Global time index `n * OL + m` handed to the sources and the recorder in
a substep. -/
def action.time : action → Option Nat
  | action.exchange _ => none
  | action.substep n m => some (n * OL + m)

/-- Effect of one step on the memory. -/
def exec {num_adj : Nat} (s : solver num_adj) (st : state num_adj) :
    action → state num_adj
  | action.exchange _ =>
      { st with arenas := exchange_all s.num_gridpoints s.P st.arenas }
  | action.substep n m => substep_all s n m st

/-- Memory after a list of steps. -/
def exec_list {num_adj : Nat} (s : solver num_adj) (st : state num_adj)
    (l : List action) : state num_adj :=
  l.foldl (exec s) st

/-- The parallel region of `run()`, from the memory `st`. -/
def run {num_adj : Nat} (s : solver num_adj) (st : state num_adj) : state num_adj :=
  exec_list s st (run_actions s.num_timesteps)

/-- Memory when the constructor returns: every worker `tid < P` has run its
initialisation loop on its freshly allocated arrays `a0 tid`; the scratch
buffer `scratch0` is allocated but not written. -/
def init_state {num_adj : Nat} (s : solver num_adj) (l_mat_indices : Nat → Nat)
    (a0 : Nat → arena num_adj) (scratch0 : Nat → real) : state num_adj :=
  { arenas := fun tid =>
      if tid < s.P then
        init_arena l_mat_indices s.l_sim_consts s.num_gridpoints s.P tid (a0 tid)
      else a0 tid,
    scratch := scratch0,
    log := [] }

/-! ## The coefficient table built by the constructor -/

/-- What the constructor reads from a `qm_description` and from the
`cv_representation` made from it (both are classes of other modules): the
level count, the carrier density, and the operators in the adjoint
representation. -/
structure qm_description (num_adj : Nat) where
  num_levels : Nat
  carrier_density : real
  dipole_operator_vec : Fin num_adj → real
  hamiltonian : Matrix (Fin num_adj) (Fin num_adj) real
  relaxation_superop : Matrix (Fin num_adj) (Fin num_adj) real
  equilibrium_vec : Fin num_adj → real
  dipole_operator : Matrix (Fin num_adj) (Fin num_adj) real
  initial_vec : Fin num_adj → real

/-- What the constructor reads from a `material`. -/
structure material (num_adj : Nat) where
  id : String
  rel_permittivity : real
  rel_permeability : real
  losses : real
  overlap_factor : real
  qm : Option (qm_description num_adj)

/-- What the constructor reads from a `region`. -/
structure region where
  x_start : real
  x_end : real
  material_id : String

/-- What the constructor reads from the `device`: `get_regions()` and
`get_used_materials()`. -/
structure device where
  regions : List region
  used_materials : List String

/-- Constants and functions of other headers used for the coefficients:
`EPS0`, `MU0`, `sqrt`, and the library lookup `material::get_from_library`. -/
structure environment (num_adj : Nat) where
  EPS0 : real
  MU0 : real
  sqrt : real → real
  get_from_library : String → material num_adj

/-- Body of the loop over the used materials: the record `sc` of one
material, or the exception thrown for a level count that does not match. -/
def make_sim_constants {num_adj : Nat} (env : environment num_adj) (num_lvl : Nat)
    (timestep_size gridpoint_size : real) (mat : material num_adj) :
    Except String (sim_constants_clvl_rk num_adj) :=
  let M_CE := timestep_size / (env.EPS0 * mat.rel_permittivity)
  let M_CH := timestep_size / (env.MU0 * mat.rel_permeability * gridpoint_size)
  let sigma := env.sqrt (env.EPS0 * mat.rel_permittivity /
      (env.MU0 * mat.rel_permeability)) * mat.losses * 2
  match mat.qm with
  | some qm =>
      if qm.num_levels ≠ num_lvl then
        Except.error "Number of energy levels does not match selected solver!"
      else
        Except.ok
          { M_CE := M_CE, M_CH := M_CH, sigma := sigma,
            M_CP := (1 / 2) * mat.overlap_factor * qm.carrier_density,
            v := qm.dipole_operator_vec,
            M := qm.hamiltonian + qm.relaxation_superop,
            U := -qm.dipole_operator,
            d_eq := qm.equilibrium_vec,
            has_qm := true, has_dipole := true,
            d_init := qm.initial_vec,
            d_x_inv := 1 / gridpoint_size, d_t := timestep_size }
  | none =>
      Except.ok
        { M_CE := M_CE, M_CH := M_CH, sigma := sigma,
          M_CP := 0, has_qm := false, has_dipole := false,
          v := 0, M := 0, U := 0, d_eq := 0, d_init := 0,
          d_x_inv := 1 / gridpoint_size, d_t := timestep_size }

/-- The loop `for (const auto& mat_id : dev->get_used_materials())`, from the
table `acc` built so far (`m_sim_consts`), the map `id_to_idx` and the
counter `j`. -/
def build_sim_consts {num_adj : Nat} (env : environment num_adj) (num_lvl : Nat)
    (timestep_size gridpoint_size : real) :
    List String → List (sim_constants_clvl_rk num_adj) → (String → Nat) → Nat →
      Except String (List (sim_constants_clvl_rk num_adj) × (String → Nat))
  | [], acc, id_to_idx, _ => Except.ok (acc, id_to_idx)
  | mat_id :: rest, acc, id_to_idx, j =>
      let mat := env.get_from_library mat_id
      match make_sim_constants env num_lvl timestep_size gridpoint_size mat with
      | Except.error msg => Except.error msg
      | Except.ok sc =>
          build_sim_consts env num_lvl timestep_size gridpoint_size rest
            (acc ++ [sc]) (Function.update id_to_idx mat.id j) (j + 1)

/-- The first part of the constructor: the check of the region list, then the
coefficient table `m_sim_consts` and the map `id_to_idx`. -/
def construct_sim_consts {num_adj : Nat} (env : environment num_adj) (num_lvl : Nat)
    (timestep_size gridpoint_size : real) (dev : device) :
    Except String (List (sim_constants_clvl_rk num_adj) × (String → Nat)) :=
  if dev.regions.length = 0 then
    Except.error "No regions in device!"
  else
    build_sim_consts env num_lvl timestep_size gridpoint_size dev.used_materials
      [] (fun _ => 0) 0

/-! ## Predicates used in the statements -/

/-- All field entries of an array set of length `size` are zero. -/
def fields_zero {num_adj : Nat} (a : arena num_adj) (size : Nat) : Prop :=
  ∀ i, i < size → a.e i = 0 ∧ a.e_o i = 0 ∧ a.h i = 0 ∧ a.p i = 0

/-- The solver `s` run by a single worker. -/
def single_worker {num_adj : Nat} (s : solver num_adj) : solver num_adj :=
  { s with P := 1 }

/-- The arrays `a` of one worker of a run with several workers and the
arrays `b` of the single worker of a run with one worker agree, index `i` of
`a` standing for index `i + off` of `b`: the electric field, the previous
electric field and the quantum state at the indices `[le, hi)`, the magnetic
field at `[lh, hi)`, and the material indices at `[0, size)`. -/
def arenas_agree {num_adj : Nat} (a b : arena num_adj) (off le lh hi size : Nat) : Prop :=
  (∀ i, le ≤ i → i < hi →
    a.e i = b.e (i + off) ∧ a.e_o i = b.e_o (i + off) ∧ a.d i = b.d (i + off)) ∧
  (∀ i, lh ≤ i → i < hi → a.h i = b.h (i + off)) ∧
  (∀ i, i < size → a.mat_indices i = b.mat_indices (i + off))

/-- First index at which worker `tid` still agrees with the single worker on
the electric field, `k` substeps after an exchange: the left halo of a worker
other than the first goes stale from its outer end. -/
def agree_lo_e (tid k : Nat) : Nat := if tid = 0 then 0 else k - 1

/-- First index at which worker `tid` still agrees with the single worker on
the magnetic field, `k` substeps after an exchange. -/
def agree_lo_h (tid k : Nat) : Nat := if tid = 0 then 0 else k

/-- End of the indices at which worker `tid` still agrees with the single
worker, `k` substeps after an exchange: the right halo of a worker other than
the last goes stale from its outer end. -/
def agree_hi (N P tid k : Nat) : Nat :=
  if tid = P - 1 then arena_size N P tid else arena_size N P tid - k

/-- Every worker of the run of `s` agrees with the single worker of the run
of `single_worker s` on the index ranges of `k` substeps after an
exchange. -/
def states_agree {num_adj : Nat} (s : solver num_adj) (k : Nat)
    (st st1 : state num_adj) : Prop :=
  ∀ tid, tid < s.P →
    arenas_agree (st.arenas tid) (st1.arenas 0) (tid * chunk_base s.num_gridpoints s.P)
      (agree_lo_e tid k) (agree_lo_h tid k) (agree_hi s.num_gridpoints s.P tid k)
      (arena_size s.num_gridpoints s.P tid)

/-- Every worker of the run of `s` agrees with the single worker on its
owned points (the first worker also on its left halo, the last also on its
right halo). -/
def states_agree_owned {num_adj : Nat} (s : solver num_adj)
    (st st1 : state num_adj) : Prop :=
  ∀ tid, tid < s.P →
    arenas_agree (st.arenas tid) (st1.arenas 0) (tid * chunk_base s.num_gridpoints s.P)
      (agree_lo_h tid OL) (agree_lo_h tid OL) (agree_hi s.num_gridpoints s.P tid OL)
      (arena_size s.num_gridpoints s.P tid)

/-- What a store records, apart from where and by whom: the window, the time
step, the grid point `tid * chunk_base + i - OL` and the value (`cb` is the
`chunk_base` of the run). -/
def scratch_write.sample (cb : Nat) (w : scratch_write) : Nat × Nat × Nat × real :=
  (w.k, w.time, w.tid * cb + w.i - OL, w.value)

/-! ## Concrete data for the examples -/

/-- Coefficient record number `k` of the examples: no quantum system, unit
update factors, no loss, and the initial vector with all entries `k`. -/
def example_consts (k : Nat) : sim_constants_clvl_rk 3 :=
  { M_CE := 1, M_CH := 1, M_CP := 0, sigma := 0,
    has_qm := false, has_dipole := false,
    v := 0, M := 0, U := 0, d_eq := 0, d_init := fun _ => (k : real),
    d_x_inv := 1, d_t := 1 }

/-- Arrays filled with zeros. -/
def zero_arena : arena 3 :=
  { d := fun _ => 0, e := fun _ => 0, e_o := fun _ => 0, h := fun _ => 0,
    p := fun _ => 0, mat_indices := fun _ => 0 }

/-- A two-level solver of the examples on `N` grid points with `P` workers
and `T` time steps, with the given sources, source table and windows. -/
def example_solver (N P T : Nat) (sources : List sim_source)
    (source_data : Nat → real) (windows : List copy_list_entry) : solver 3 :=
  { num_lvl := 2, P := P, num_gridpoints := N, num_timesteps := T,
    l_sim_consts := example_consts,
    l_sim_sources := sources,
    m_source_data := source_data,
    l_copy_list := windows,
    calc_population := fun _ _ => 0 }

/-- An electric-field window of the examples over the grid points
`[pos, pos + cols)`, recorded at every time step, with the scratch offset
`offset + timestep * cols + gridpoint` (in `uint64_t`). -/
def example_window (pos cols offset : Nat) : copy_list_entry :=
  { hasto_record := fun _ => true,
    position := pos, cols := cols, row_idx := 0, col_idx := 0,
    type := record_type.electric,
    offset_scratch_real := fun t g =>
      to_int64 (wrap64 ((offset : Int) + (t : Int) * (cols : Int) + (g : Int))) }

/-- The solver of the example for a single hard source: 70 grid points, 2
workers, 40 time steps, a hard source at grid point 50 with the values
`1, 2, 3, ...`, and one electric-field window over the whole grid. -/
def hard_source_solver : solver 3 :=
  example_solver 70 2 40 [⟨source_type.hard_source, 50, 0⟩] (fun t => (t : real) + 1)
    [example_window 0 70 0]

/-- Memory of the example for the exchange: every worker holds `e[i] = i`,
all other arrays zero. -/
def ramp_arenas : Nat → arena 3 :=
  fun _ => { zero_arena with e := fun i => (i : real) }

/-- A density window of the examples for the element (row 0, column 1), over
grid point 0, selected at every time step. -/
def offdiag_window : copy_list_entry :=
  { example_window 0 1 0 with type := record_type.density, row_idx := 0, col_idx := 1 }

/-- The solver of the example for an off-diagonal density window: 1 grid
point, 1 worker, 1 time step, and the window `offdiag_window`. -/
def offdiag_solver : solver 3 :=
  example_solver 1 1 1 [] (fun _ => 0) [offdiag_window]

/-- The solver of the example for chunks smaller than the overlap: 2 grid
points, 2 workers, 2 time steps, one soft source at grid point 0 with the
values `1, 0`, no window. -/
def small_solver : solver 3 :=
  example_solver 2 2 2 [⟨source_type.soft_source, 0, 0⟩] (fun t => if t = 0 then 1 else 0) []

/-! ## Scratch layout and result assembly -/

/-- What the constructor reads from a `record` of the scenario:
`is_complex()`. -/
structure record where
  is_complex : Bool

/-- A `copy_list_entry` with the getters that the constructor and the bulk
copy at the end of `run` use in addition: `get_size()`, `is_complex()` and
`get_offset_scratch_imag(timestep, gridpoint)`. -/
structure copy_list_entry_sized extends copy_list_entry where
  size : Nat
  is_complex : Bool
  offset_scratch_imag : Nat → Nat → Int

/-- The loop `for (const auto& rec : scen->get_records())` of the
constructor, from the list `m_copy_list` built so far and the counter
`scratch_size` (a `uint64_t`); `mk_entry rec scratch_size` stands for the
constructor call `copy_list_entry entry(rec, scen, scratch_size)`. -/
def scratch_layout (mk_entry : record → Nat → copy_list_entry_sized) :
    List record → List copy_list_entry_sized → Nat → List copy_list_entry_sized × Nat
  | [], m_copy_list, scratch_size => (m_copy_list, scratch_size)
  | rec :: rest, m_copy_list, scratch_size =>
      let entry := mk_entry rec scratch_size
      let s1 := wrap64 ((scratch_size : Int) + (entry.size : Int))
      let s2 := if rec.is_complex then wrap64 ((s1 : Int) + (entry.size : Int)) else s1
      scratch_layout mk_entry rest (m_copy_list ++ [entry]) s2

/-- The two data arrays of a `result` container, from the positions that
`get_result_real(0, 0)` and `get_result_imag(0, 0)` point to. -/
structure result where
  real_part : Nat → real
  imag_part : Nat → real

/-- The call `std::copy(src + first, src + first + count, dest)`. -/
def std_copy (src : Nat → real) (first count : Nat) (dest : Nat → real) : Nat → real :=
  (List.range count).foldl (fun d j => Function.update d j (src (first + j))) dest

/-- Body of the loop `for (const auto& cle : m_copy_list)` at the end of
`run`, on the scratch buffer and the result containers (`results k` is the
container of entry number `k`, pushed to `m_results` together with the
entry). -/
def bulk_copy_body (mem : (Nat → real) × (Nat → result))
    (kc : Nat × copy_list_entry_sized) : (Nat → real) × (Nat → result) :=
  let cle := kc.2
  let r := mem.2 kc.1
  let r1 : result :=
    { r with real_part :=
        std_copy mem.1 (cle.offset_scratch_real 0 0).toNat cle.size r.real_part }
  let r2 : result :=
    if cle.is_complex then
      { r1 with imag_part :=
          std_copy mem.1 (cle.offset_scratch_imag 0 0).toNat cle.size r1.imag_part }
    else r1
  (mem.1, Function.update mem.2 kc.1 r2)

/-- The bulk copy of the results at the end of `run`. -/
def bulk_copy (m_copy_list : List copy_list_entry_sized) (scratch : Nat → real)
    (results : Nat → result) : (Nat → real) × (Nat → result) :=
  m_copy_list.enum.foldl bulk_copy_body (scratch, results)

/-- Scratch entries of a window as the claim counts them: `get_size()` times
2 for a complex record, times 1 otherwise. -/
def scratch_width (entry : copy_list_entry_sized) (rec : record) : Nat :=
  entry.size * (if rec.is_complex then 2 else 1)

/-- The Runge-Kutta step of the coherence vector `d` as the claim states it,
for the coefficient record `sc`, the previous electric field `e_o` and the
electric field `e` of the grid point. -/
def rk4_step {num_adj : Nat} (sc : sim_constants_clvl_rk num_adj) (e_o e : real)
    (d : Fin num_adj → real) : Fin num_adj → real :=
  let e_avg : real := (e_o + e) / 2
  let k1 : Fin num_adj → real := sc.d_t • ((sc.M + e_o • sc.U).mulVec d + sc.d_eq)
  let k2 : Fin num_adj → real :=
    sc.d_t • ((sc.M + e_avg • sc.U).mulVec (d + (1 / 2 : real) • k1) + sc.d_eq)
  let k3 : Fin num_adj → real :=
    sc.d_t • ((sc.M + e_avg • sc.U).mulVec (d + (1 / 2 : real) • k2) + sc.d_eq)
  let k4 : Fin num_adj → real := sc.d_t • ((sc.M + e • sc.U).mulVec (d + k3) + sc.d_eq)
  d + (1 / 6 : real) • (k1 + (2 : real) • k2 + (2 : real) • k3 + k4)

/-- The records of the example for the scratch layout: a real, a complex and
a real one. -/
def example_records : List record := [⟨false⟩, ⟨true⟩, ⟨false⟩]

/-- The entry constructor of the example for the scratch layout: every entry
has 5 samples and real and imaginary offsets `offset + ...` and
`offset + 5 + ...`. -/
def example_mk_entry ( rec : record) (offset : Nat) : copy_list_entry_sized :=
  { example_window 0 5 offset with
    size := 5, is_complex := rec.is_complex,
    offset_scratch_imag := fun t g =>
      to_int64 (wrap64 ((offset : Int) + 5 + (t : Int) * 5 + (g : Int))) }

/-- A coefficient record of the examples with a quantum system: unit time
step, `M = 0`, `U = 0` and the equilibrium vector with all entries 1. -/
def example_qm_consts : sim_constants_clvl_rk 3 :=
  { M_CE := 1, M_CH := 1, M_CP := 0, sigma := 0,
    has_qm := true, has_dipole := true,
    v := 0, M := 0, U := 0, d_eq := fun _ => 1, d_init := 0,
    d_x_inv := 1, d_t := 1 }

/-! ## Array indices used by one worker -/

/-- Indices of the arrays of the worker used by the loop of `update_d`:
`t_mat_indices[i]`, `t_e_o[i]`, `t_e[i]`, `t_d[i]`, `t_p[i]`. -/
def update_d_indices (size bd : Nat) : List Int :=
  (loop_range size bd).map (fun (i : Nat) => (i : Int))

/-- Indices used by the loop of `update_fdtd`: `i` and, for `t_h`, `i + 1`. -/
def update_fdtd_indices (size bd : Nat) : List Int :=
  (loop_range size bd).flatMap (fun (i : Nat) => [(i : Int), (i : Int) + 1])

/-- Indices used by the loop of `update_h`: `i` and, in the guarded
statement, `i - 1` for `t_e`. -/
def update_h_indices (size bd : Nat) : List Int :=
  (loop_range size bd).flatMap
    (fun (i : Nat) => if bd + 1 ≤ i then [(i : Int), (i : Int) - 1] else [(i : Int)])

/-- Indices at which `apply_sources_rk` reads or writes `t_e`. -/
def source_indices (l_sim_sources : List sim_source) (base_pos chunk : Nat) : List Int :=
  l_sim_sources.filterMap
    (fun src =>
      if 0 < source_at src base_pos ∧ source_at src base_pos < ((chunk + 2 * OL : Nat) : Int) then
        match src.type with
        | source_type.hard_source => some (source_at src base_pos)
        | source_type.soft_source => some (source_at src base_pos)
        | source_type.other => none
      else none)

/-- Indices of `t_h` written by the boundary condition of worker `tid`. -/
def pin_indices (N P tid : Nat) : List Int :=
  (if tid = 0 then [(OL : Int)] else []) ++
    (if tid = P - 1 then [((OL + chunk N P tid : Nat) : Int)] else [])

/-- Indices `i` of the recorder loop `for (uint64_t i = OL; i < chunk + OL; i++)`
of worker `tid`, at which it reads `t_e[i]` or `t_d[i]`. -/
def record_indices (N P tid : Nat) : List Int :=
  (List.range' OL (chunk N P tid)).map (fun (i : Nat) => (i : Int))

/-- All indices of its own arrays that worker `tid` uses in substep `m` of a
block. -/
def substep_indices {num_adj : Nat} (s : solver num_adj) (m tid : Nat) : List Int :=
  update_d_indices (arena_size s.num_gridpoints s.P tid) (border m) ++
  update_fdtd_indices (arena_size s.num_gridpoints s.P tid) (border m) ++
  source_indices s.l_sim_sources
    (wrap32 ((tid : Int) * (chunk_base s.num_gridpoints s.P : Int)))
    (chunk s.num_gridpoints s.P tid) ++
  update_h_indices (arena_size s.num_gridpoints s.P tid) (border m) ++
  pin_indices s.num_gridpoints s.P tid ++
  record_indices s.num_gridpoints s.P tid

/-- Indices of its own arrays that worker `tid` writes in the halo exchange:
`i` in the left loop, `OL + chunk_base + i` in the right loop. -/
def exchange_own_indices (N P tid : Nat) : List Int :=
  (if 0 < tid then (List.range OL).map (fun (i : Nat) => (i : Int)) else []) ++
    (if tid < P - 1 then
      (List.range OL).map (fun (i : Nat) => ((OL : Int) + (chunk_base N P : Int) + (i : Int)))
    else [])

/-- Indices of the arrays of worker `tid - 1` that worker `tid` reads in the
halo exchange: `chunk_base + i`. -/
def exchange_prev_indices (N P tid : Nat) : List Int :=
  if 0 < tid then (List.range OL).map (fun (i : Nat) => ((chunk_base N P : Int) + (i : Int)))
  else []

/-- Indices of the arrays of worker `tid + 1` that worker `tid` reads in the
halo exchange: `OL + i`. -/
def exchange_next_indices (P tid : Nat) : List Int :=
  if tid < P - 1 then (List.range OL).map (fun (i : Nat) => ((OL : Int) + (i : Int))) else []

/-! ## The source table built by the constructor -/

/-- What the constructor reads from a `source` of the scenario: `get_type()`,
`get_position()` and `get_value(t)`. -/
structure source where
  type : source_type
  position : real
  get_value : real → real

/-- Conversion of a `real` to `unsigned int`: truncation toward zero. -/
def real_to_uint (x : real) : Nat :=
  wrap32 (if 0 ≤ x then Int.floor x else Int.ceil x)

/-- The loop `for (unsigned int j = 0; j < num_timesteps; j++)` that stores
the values of one source: `m_source_data[base_idx + j] = src->get_value(j * dt)`,
with `base_idx + j` in `unsigned int`. -/
def fill_source_data (src : source) (num_timesteps : Nat) (dt : real) (base_idx : Nat)
    (m_source_data : Nat → real) : Nat → real :=
  (List.range num_timesteps).foldl
    (fun (d : Nat → real) (j : Nat) =>
      Function.update d (wrap32 ((base_idx : Int) + (j : Int))) (src.get_value ((j : real) * dt)))
    m_source_data

/-- Body of the loop `for (const auto& src : scen->get_sources())`, on
`m_sim_sources`, `m_source_data` and the `unsigned int base_idx`. -/
def build_sources_body (num_timesteps : Nat) (dt dx : real)
    (acc : List sim_source × (Nat → real) × Nat) (src : source) :
    List sim_source × (Nat → real) × Nat :=
  let s : sim_source :=
    { type := src.type, x_idx := real_to_uint (src.position / dx), data_base_idx := acc.2.2 }
  (acc.1 ++ [s], fill_source_data src num_timesteps dt acc.2.2 acc.2.1,
    wrap32 ((acc.2.2 : Int) + (num_timesteps : Int)))

/-- The source part of the constructor, from the freshly allocated table
`data0`. -/
def build_sources (srcs : List source) (num_timesteps : Nat) (dt dx : real)
    (data0 : Nat → real) : List sim_source × (Nat → real) × Nat :=
  srcs.foldl (build_sources_body num_timesteps dt dx) ([], data0, 0)

/-! ## The global material-index map built by the constructor -/

/-- The loop over the regions for one grid position `x`:
`mat_idx = 0; for (reg : regions) if (x >= x_start && x <= x_end)`
`{ mat_idx = id_to_idx[id]; break; }`. -/
def find_mat_idx (id_to_idx : String → Nat) (x : real) : List region → Nat
  | [] => 0
  | reg :: rest =>
      if reg.x_start ≤ x ∧ x ≤ reg.x_end then id_to_idx reg.material_id
      else find_mat_idx id_to_idx x rest

/-- The loop `for (unsigned int i = 0; i < num_gridpoints; i++)` that fills
`l_mat_indices`, with `x = i * gridpoint_size`. -/
def build_mat_indices (num_gridpoints : Nat) (dx : real) (regions : List region)
    (id_to_idx : String → Nat) (l0 : Nat → Nat) : Nat → Nat :=
  (List.range num_gridpoints).foldl
    (fun (l : Nat → Nat) (i : Nat) =>
      Function.update l i (find_mat_idx id_to_idx ((i : real) * dx) regions)) l0

/-! ## The stage vectors of the Runge-Kutta step -/

/-- Stage vector `k1` of `update_d`. -/
def rk4_k1 {num_adj : Nat} (sc : sim_constants_clvl_rk num_adj) (e_o : real)
    (d : Fin num_adj → real) : Fin num_adj → real :=
  sc.d_t • ((sc.M + e_o • sc.U).mulVec d + sc.d_eq)

/-- Stage vector `k2` of `update_d`. -/
def rk4_k2 {num_adj : Nat} (sc : sim_constants_clvl_rk num_adj) (e_o e : real)
    (d : Fin num_adj → real) : Fin num_adj → real :=
  sc.d_t • ((sc.M + ((e_o + e) / 2) • sc.U).mulVec (d + (1 / 2 : real) • rk4_k1 sc e_o d) +
    sc.d_eq)

/-- Stage vector `k3` of `update_d`. -/
def rk4_k3 {num_adj : Nat} (sc : sim_constants_clvl_rk num_adj) (e_o e : real)
    (d : Fin num_adj → real) : Fin num_adj → real :=
  sc.d_t • ((sc.M + ((e_o + e) / 2) • sc.U).mulVec (d + (1 / 2 : real) • rk4_k2 sc e_o e d) +
    sc.d_eq)

/-- Stage vector `k4` of `update_d`. -/
def rk4_k4 {num_adj : Nat} (sc : sim_constants_clvl_rk num_adj) (e_o e : real)
    (d : Fin num_adj → real) : Fin num_adj → real :=
  sc.d_t • ((sc.M + e • sc.U).mulVec (d + rk4_k3 sc e_o e d) + sc.d_eq)

/-! ## More concrete data for the examples -/

/-- The copy-list entry of the example for an off-diagonal density window:
the window `offdiag_window` with one sample. -/
def offdiag_entry : copy_list_entry_sized :=
  { offdiag_window with
    size := 1, is_complex := false, offset_scratch_imag := fun _ _ => 0 }

/-- The copy-list entry of the example for a complex window: an
electric-field window over grid point 0 with one sample, the real part at
scratch cell 0 and the imaginary part at scratch cell 1. -/
def complex_entry : copy_list_entry_sized :=
  { example_window 0 1 0 with
    size := 1, is_complex := true,
    offset_scratch_imag := fun t g =>
      to_int64 (wrap64 (1 + (t : Int) * 1 + (g : Int))) }

/-- The solver of the example for a complex window: 1 grid point, 1 worker,
1 time step and the window of `complex_entry`. -/
def complex_solver : solver 3 :=
  example_solver 1 1 1 [] (fun _ => 0) [complex_entry.tocopy_list_entry]

/-- A coefficient record of the examples with a quantum system whose
equilibrium is the vector with all entries 1: `M = -1`, `U = 0`,
`d_eq = (1, 1, 1)`. -/
def example_eq_consts : sim_constants_clvl_rk 3 :=
  { M_CE := 1, M_CH := 1, M_CP := 0, sigma := 0,
    has_qm := true, has_dipole := true,
    v := 0, M := -1, U := 0, d_eq := fun _ => 1, d_init := fun _ => 1,
    d_x_inv := 1, d_t := 1 }

/-- Arrays of the examples with the quantum state at the equilibrium of
`example_eq_consts` and all fields zero. -/
def eq_arena : arena 3 :=
  { zero_arena with d := fun _ _ => 1 }

/-- The environment of the example for the material-index map: unit
constants, and a library in which every identifier names a material without a
quantum system. -/
def example_env : environment 3 :=
  { EPS0 := 1, MU0 := 1, sqrt := fun x => x,
    get_from_library := fun id =>
      { id := id, rel_permittivity := 1, rel_permeability := 1, losses := 0,
        overlap_factor := 0, qm := none } }

/-- The device of the example for the material-index map: material `b` on
`[0, 4]`, material `a` on `[4, 9]`, and the used materials `a`, `b`. -/
def example_device : device :=
  { regions := [⟨0, 4, "b"⟩, ⟨4, 9, "a"⟩], used_materials := ["a", "b"] }

/-- The sources of the example for the source table: a hard source with the
values `t` and a soft source with the values `t + 10`. -/
def example_sources : List source :=
  [⟨source_type.hard_source, 3, fun t => t⟩, ⟨source_type.soft_source, 5, fun t => t + 10⟩]

/-- Coefficient record number `k` of the example with two materials: as
`example_consts`, but with the electric update factor `M_CE = k + 1`. -/
def two_material_consts (k : Nat) : sim_constants_clvl_rk 3 :=
  { example_consts k with M_CE := (k : real) + 1 }

/-- The global material-index map of the example with two materials: record
1 on the grid points `0 .. 31`, record 0 on the grid points from 32 on. -/
def two_material_map (g : Nat) : Nat := if g < 32 then 1 else 0

/-- The solver of the example with two materials: 64 grid points, 2 workers
(32 points each), 2 time steps, the coefficient records
`two_material_consts`, one hard source at grid point 32 with the constant
value 1, no window. -/
def two_material_solver : solver 3 :=
  { num_lvl := 2, P := 2, num_gridpoints := 64, num_timesteps := 2,
    l_sim_consts := two_material_consts,
    l_sim_sources := [⟨source_type.hard_source, 32, 0⟩],
    m_source_data := fun _ => 1,
    l_copy_list := [],
    calc_population := fun _ _ => 0 }

/-- The solver of the example for a window that reaches beyond the grid: 1
grid point, 1 worker, 1 time step and an electric-field window over the grid
points `0, 1`, selected at every time step. -/
def wide_window_solver : solver 3 :=
  example_solver 1 1 1 [] (fun _ => 0) [example_window 0 2 0]

end mbsolve

namespace mbsolve

/-! ## Machine arithmetic -/

theorem wrap32_of_lt (x : Int) (h0 : 0 ≤ x) (h1 : x < 4294967296) :
    wrap32 x = x.toNat := by
  unfold wrap32
  rw [Int.emod_eq_of_lt h0 h1]

theorem wrap64_of_lt (x : Int) (h0 : 0 ≤ x) (h1 : x < 18446744073709551616) :
    wrap64 x = x.toNat := by
  unfold wrap64
  rw [Int.emod_eq_of_lt h0 h1]

theorem wrap32_neg (x : Int) (h0 : x < 0) (h1 : -4294967296 ≤ x) :
    wrap32 x = (x + 4294967296).toNat := by
  unfold wrap32
  congr 1
  omega

theorem chunk_base_mul_le (N P tid : Nat) (hP : 1 ≤ P) (ht : tid < P) :
    tid * chunk_base N P + chunk N P tid ≤ N := by
  unfold chunk chunk_base chunk_rem
  have h1 : P * (N / P) + N % P = N := Nat.div_add_mod N P
  have h2 : tid * (N / P) + (N / P) ≤ P * (N / P) := by
    have : (tid + 1) * (N / P) ≤ P * (N / P) := Nat.mul_le_mul_right _ ht
    linarith [this, Nat.succ_mul tid (N / P)]
  split_ifs with h
  · subst h
    have h3 : (P - 1) * (N / P) + N / P = P * (N / P) := by
      have : (P - 1 + 1) * (N / P) = P * (N / P) := by
        rw [Nat.sub_add_cancel hP]
      linarith [this, Nat.succ_mul (P - 1) (N / P)]
    omega
  · omega

theorem last_chunk_end (N P : Nat) (hP : 1 ≤ P) :
    (P - 1) * chunk_base N P + chunk N P (P - 1) = N := by
  unfold chunk chunk_base chunk_rem
  have h1 : P * (N / P) + N % P = N := Nat.div_add_mod N P
  have h3 : (P - 1) * (N / P) + N / P = P * (N / P) := by
    have : (P - 1 + 1) * (N / P) = P * (N / P) := by
      rw [Nat.sub_add_cancel hP]
    linarith [this, Nat.succ_mul (P - 1) (N / P)]
  simp only [if_true]
  omega

theorem chunk_of_not_last (N P tid : Nat) (h : tid ≠ P - 1) :
    chunk N P tid = chunk_base N P := by
  unfold chunk
  rw [if_neg h]

/-- The owned ranges of two different workers have no grid point in common. -/
theorem chunk_ranges_disjoint (N P : Nat) :
    ∀ tid1 tid2 g, tid1 < P → tid2 < P →
      tid1 * chunk_base N P ≤ g → g < tid1 * chunk_base N P + chunk N P tid1 →
      tid2 * chunk_base N P ≤ g → g < tid2 * chunk_base N P + chunk N P tid2 →
      tid1 = tid2 := by
  have key : ∀ t1 t2 g, t1 < t2 → t2 < P →
      g < t1 * chunk_base N P + chunk N P t1 → t2 * chunk_base N P ≤ g → False := by
    intro t1 t2 g h12 h2 hg1 hg2
    rw [chunk_of_not_last N P t1 (by omega)] at hg1
    have : (t1 + 1) * chunk_base N P ≤ t2 * chunk_base N P :=
      Nat.mul_le_mul_right _ h12
    have e : (t1 + 1) * chunk_base N P = t1 * chunk_base N P + chunk_base N P := by ring
    omega
  intro t1 t2 g h1 h2 a1 b1 a2 b2
  rcases Nat.lt_trichotomy t1 t2 with h | h | h
  · exact (key t1 t2 g h h2 b1 a2).elim
  · exact h
  · exact (key t2 t1 g h h1 b2 a1).elim

/-- C7. Every worker but the last owns `N / P` points and the last owns
`N / P + N % P`; the owned ranges `[tid * chunk_base, tid * chunk_base + chunk)`
follow each other without gap, are pairwise disjoint, cover exactly `[0, N)`,
the chunk sizes add up to `N`, and the arrays of a worker have length
`chunk + 2 * OL`. -/
theorem domain_partition (N P : Nat) (hP : 1 ≤ P) :
    (∀ tid, tid < P → tid ≠ P - 1 → chunk N P tid = N / P) ∧
    chunk N P (P - 1) = N / P + N % P ∧
    (∀ tid, tid + 1 < P →
      tid * chunk_base N P + chunk N P tid = (tid + 1) * chunk_base N P) ∧
    (P - 1) * chunk_base N P + chunk N P (P - 1) = N ∧
    (∀ tid1 tid2 g, tid1 < P → tid2 < P →
      tid1 * chunk_base N P ≤ g → g < tid1 * chunk_base N P + chunk N P tid1 →
      tid2 * chunk_base N P ≤ g → g < tid2 * chunk_base N P + chunk N P tid2 →
      tid1 = tid2) ∧
    (∀ g, g < N ↔ ∃ tid, tid < P ∧ tid * chunk_base N P ≤ g ∧
      g < tid * chunk_base N P + chunk N P tid) ∧
    (∑ tid in Finset.range P, chunk N P tid) = N ∧
    (∀ tid, arena_size N P tid = chunk N P tid + 2 * OL) := by
  have hlast := last_chunk_end N P hP
  refine ⟨?_, ?_, ?_, hlast, ?_, ?_, ?_, fun _ => rfl⟩
  · intro tid _ h
    exact chunk_of_not_last N P tid h
  · simp [chunk, chunk_base, chunk_rem]
  · intro tid h
    rw [chunk_of_not_last N P tid (by omega)]
    ring
  · exact chunk_ranges_disjoint N P
  · intro g
    constructor
    · intro hg
      by_cases hc : g < (P - 1) * chunk_base N P
      · have hcb : 0 < chunk_base N P := by
          rcases Nat.eq_zero_or_pos (chunk_base N P) with h | h
          · rw [h] at hc; simp at hc
          · exact h
        refine ⟨g / chunk_base N P, ?_, ?_, ?_⟩
        · have : g / chunk_base N P < P - 1 := (Nat.div_lt_iff_lt_mul hcb).2 hc
          omega
        · exact Nat.div_mul_le_self g _
        · have hlt : g / chunk_base N P < P - 1 := (Nat.div_lt_iff_lt_mul hcb).2 hc
          rw [chunk_of_not_last N P _ (by omega)]
          have := Nat.lt_succ_self (g / chunk_base N P)
          have h2 : g < (g / chunk_base N P + 1) * chunk_base N P := by
            have := Nat.lt_mul_div_succ g hcb
            rw [Nat.mul_comm]
            exact this
          linarith [h2, Nat.succ_mul (g / chunk_base N P) (chunk_base N P)]
      · exact ⟨P - 1, by omega, by omega, by omega⟩
    · rintro ⟨tid, ht, _, h2⟩
      have := chunk_base_mul_le N P tid hP ht
      omega
  · obtain ⟨Q, rfl⟩ : ∃ Q, P = Q + 1 := ⟨P - 1, by omega⟩
    rw [Finset.sum_range_succ]
    have : ∑ tid in Finset.range Q, chunk N (Q + 1) tid
        = ∑ _tid in Finset.range Q, chunk_base N (Q + 1) := by
      apply Finset.sum_congr rfl
      intro x hx
      rw [Finset.mem_range] at hx
      exact chunk_of_not_last N (Q + 1) x (by simp; omega)
    rw [this, Finset.sum_const, Finset.card_range, smul_eq_mul]
    simpa using hlast

theorem domain_partition_witness :
    1 ≤ 3 ∧
    ((∀ tid, tid < 3 → tid ≠ 3 - 1 → chunk 10 3 tid = 10 / 3) ∧
    chunk 10 3 (3 - 1) = 10 / 3 + 10 % 3 ∧
    (∀ tid, tid + 1 < 3 →
      tid * chunk_base 10 3 + chunk 10 3 tid = (tid + 1) * chunk_base 10 3) ∧
    (3 - 1) * chunk_base 10 3 + chunk 10 3 (3 - 1) = 10 ∧
    (∀ tid1 tid2 g, tid1 < 3 → tid2 < 3 →
      tid1 * chunk_base 10 3 ≤ g → g < tid1 * chunk_base 10 3 + chunk 10 3 tid1 →
      tid2 * chunk_base 10 3 ≤ g → g < tid2 * chunk_base 10 3 + chunk 10 3 tid2 →
      tid1 = tid2) ∧
    (∀ g, g < 10 ↔ ∃ tid, tid < 3 ∧ tid * chunk_base 10 3 ≤ g ∧
      g < tid * chunk_base 10 3 + chunk 10 3 tid) ∧
    (∑ tid in Finset.range 3, chunk 10 3 tid) = 10 ∧
    (∀ tid, arena_size 10 3 tid = chunk 10 3 tid + 2 * OL)) :=
  ⟨by decide, domain_partition 10 3 (by decide)⟩

end mbsolve

namespace mbsolve

/-! ## Loops as folds -/

/-- A fold whose body at `x` writes only entry `x` of an array, with a value
that the other iterations do not change: the array afterwards, entry by
entry. -/
theorem foldl_pointwise {S β : Type} (body : S → Nat → S) (proj : S → Nat → β)
    (F : S → Nat → β)
    (hother : ∀ s x j, j ≠ x → proj (body s x) j = proj s j)
    (hself : ∀ s x, proj (body s x) x = F s x)
    (hstable : ∀ s x j, j ≠ x → F (body s x) j = F s j)
    (l : List Nat) (hl : l.Nodup) (s : S) (i : Nat) :
    proj (l.foldl body s) i = if i ∈ l then F s i else proj s i := by
  induction l generalizing s with
  | nil => simp
  | cons x xs ih =>
    rw [List.nodup_cons] at hl
    rw [List.foldl_cons, ih hl.2]
    by_cases hix : i = x
    · subst hix
      simp [hl.1, hself]
    · have : i ∈ x :: xs ↔ i ∈ xs := by simp [hix]
      by_cases hm : i ∈ xs
      · simp [hm, hstable _ _ _ hix]
      · simp [hm, hix, hother _ _ _ hix]

/-- A fold whose body never changes an array leaves it as it is. -/
theorem foldl_untouched {S α β : Type} (body : S → α → S) (proj : S → β)
    (h : ∀ s x, proj (body s x) = proj s) (l : List α) (s : S) :
    proj (l.foldl body s) = proj s := by
  induction l generalizing s with
  | nil => rfl
  | cons x xs ih => rw [List.foldl_cons, ih, h]

/-- A property kept by every iteration is kept by the loop. -/
theorem foldl_invariant {S α : Type} (Inv : S → Prop) (body : S → α → S)
    (l : List α) (h : ∀ s, ∀ x ∈ l, Inv s → Inv (body s x)) (s : S) (hs : Inv s) :
    Inv (l.foldl body s) := by
  induction l generalizing s with
  | nil => exact hs
  | cons x xs ih =>
    rw [List.foldl_cons]
    apply ih
    · intro s2 y hy
      exact h s2 y (List.mem_cons_of_mem _ hy)
    · exact h s x (List.mem_cons_self _ _) hs

/-! ## The initialisation loop -/

section init
variable {num_adj : Nat} (l_mat_indices : Nat → Nat)
  (l_sim_consts : Nat → sim_constants_clvl_rk num_adj) (N P tid : Nat)
  (a0 : arena num_adj)

theorem init_arena_mat_indices (i : Nat) :
    (init_arena l_mat_indices l_sim_consts N P tid a0).mat_indices i =
      if i < arena_size N P tid then
        (if global_idx N P tid i < N then l_mat_indices (global_idx N P tid i) else 0)
      else a0.mat_indices i := by
  unfold init_arena
  rw [foldl_pointwise (init_body l_mat_indices l_sim_consts N P tid)
    (fun a => a.mat_indices)
    (fun _ i => if global_idx N P tid i < N then l_mat_indices (global_idx N P tid i) else 0)
    _ _ _ _ (List.nodup_range _)]
  · simp
  · intro s x j hj
    by_cases hg : global_idx N P tid x < N <;>
      simp [init_body, hg, Function.update_noteq hj]
  · intro s x
    by_cases hg : global_idx N P tid x < N <;> simp [init_body, hg]
  · intro s x j _
    rfl

theorem init_arena_d (i : Nat) :
    (init_arena l_mat_indices l_sim_consts N P tid a0).d i =
      if i < arena_size N P tid then
        (if global_idx N P tid i < N then
          (l_sim_consts (l_mat_indices (global_idx N P tid i))).d_init else 0)
      else a0.d i := by
  unfold init_arena
  rw [foldl_pointwise (init_body l_mat_indices l_sim_consts N P tid)
    (fun a => a.d)
    (fun _ i => if global_idx N P tid i < N then
          (l_sim_consts (l_mat_indices (global_idx N P tid i))).d_init else 0)
    _ _ _ _ (List.nodup_range _)]
  · simp
  · intro s x j hj
    by_cases hg : global_idx N P tid x < N <;>
      simp [init_body, hg, Function.update_noteq hj]
  · intro s x
    by_cases hg : global_idx N P tid x < N <;> simp [init_body, hg]
  · intro s x j _
    rfl

theorem init_arena_fields (i : Nat) (hi : i < arena_size N P tid) :
    (init_arena l_mat_indices l_sim_consts N P tid a0).e i = 0 ∧
    (init_arena l_mat_indices l_sim_consts N P tid a0).e_o i = 0 ∧
    (init_arena l_mat_indices l_sim_consts N P tid a0).h i = 0 ∧
    (init_arena l_mat_indices l_sim_consts N P tid a0).p i = 0 := by
  unfold init_arena
  refine ⟨?_, ?_, ?_, ?_⟩
  · rw [foldl_pointwise (init_body l_mat_indices l_sim_consts N P tid)
      (fun a => a.e) (fun _ _ => 0) _ _ _ _ (List.nodup_range _)]
    · simp [hi]
    · intro s x j hj
      by_cases hg : global_idx N P tid x < N <;>
        simp [init_body, hg, Function.update_noteq hj]
    · intro s x
      by_cases hg : global_idx N P tid x < N <;> simp [init_body, hg]
    · intro s x j _
      rfl
  · rw [foldl_pointwise (init_body l_mat_indices l_sim_consts N P tid)
      (fun a => a.e_o) (fun _ _ => 0) _ _ _ _ (List.nodup_range _)]
    · simp [hi]
    · intro s x j hj
      by_cases hg : global_idx N P tid x < N <;>
        simp [init_body, hg, Function.update_noteq hj]
    · intro s x
      by_cases hg : global_idx N P tid x < N <;> simp [init_body, hg]
    · intro s x j _
      rfl
  · rw [foldl_pointwise (init_body l_mat_indices l_sim_consts N P tid)
      (fun a => a.h) (fun _ _ => 0) _ _ _ _ (List.nodup_range _)]
    · simp [hi]
    · intro s x j hj
      by_cases hg : global_idx N P tid x < N <;>
        simp [init_body, hg, Function.update_noteq hj]
    · intro s x
      by_cases hg : global_idx N P tid x < N <;> simp [init_body, hg]
    · intro s x j _
      rfl
  · rw [foldl_pointwise (init_body l_mat_indices l_sim_consts N P tid)
      (fun a => a.p) (fun _ _ => 0) _ _ _ _ (List.nodup_range _)]
    · simp [hi]
    · intro s x j hj
      by_cases hg : global_idx N P tid x < N <;>
        simp [init_body, hg, Function.update_noteq hj]
    · intro s x
      by_cases hg : global_idx N P tid x < N <;> simp [init_body, hg]
    · intro s x j _
      rfl

end init

/-- On the owned indices the constructor computes the intended global
index. -/
theorem global_idx_owned (N P tid i : Nat) (hN : N < 4294967296) (hP : 1 ≤ P)
    (ht : tid < P) (hi : OL ≤ i) (hi2 : i < OL + chunk N P tid) :
    global_idx N P tid i = tid * chunk_base N P + i - OL ∧
    global_idx N P tid i < N := by
  have hle := chunk_base_mul_le N P tid hP ht
  have hOL : OL = 32 := rfl
  have h1 : wrap32 ((i : Int) - (OL : Int)) = i - OL := by
    rw [wrap32_of_lt _ (by omega) (by omega)]
    omega
  unfold global_idx
  rw [h1, wrap64_of_lt _ (by positivity) (by
    have : ((tid * chunk_base N P + (i - OL) : Nat) : Int) < 18446744073709551616 := by
      have : tid * chunk_base N P + (i - OL) < 18446744073709551616 := by omega
      exact_mod_cast this
    push_cast at this
    exact this)]
  have : ((tid : Int) * (chunk_base N P : Int) + ((i - OL : Nat) : Int)).toNat
      = tid * chunk_base N P + (i - OL) := by
    have : ((tid : Int) * (chunk_base N P : Int) + ((i - OL : Nat) : Int))
        = ((tid * chunk_base N P + (i - OL) : Nat) : Int) := by push_cast; ring
    rw [this, Int.toNat_natCast]
  rw [this]
  omega

/-- C4. After construction, at every owned index of every worker, the
quantum state is the initial vector of the coefficient record that the global
material-index map selects at the corresponding global index, and the material
index is that map entry. -/
theorem initial_state_fidelity {num_adj : Nat} (s : solver num_adj)
    (l_mat_indices : Nat → Nat) (a0 : Nat → arena num_adj) (scratch0 : Nat → real)
    (tid i : Nat) (hN : s.num_gridpoints < 4294967296) (hP : 1 ≤ s.P)
    (ht : tid < s.P) (hi : OL ≤ i) (hi2 : i < OL + chunk s.num_gridpoints s.P tid) :
    ((init_state s l_mat_indices a0 scratch0).arenas tid).d i =
      (s.l_sim_consts
        (l_mat_indices (tid * chunk_base s.num_gridpoints s.P + i - OL))).d_init ∧
    ((init_state s l_mat_indices a0 scratch0).arenas tid).mat_indices i =
      l_mat_indices (tid * chunk_base s.num_gridpoints s.P + i - OL) := by
  obtain ⟨hg, hlt⟩ := global_idx_owned s.num_gridpoints s.P tid i hN hP ht hi hi2
  have hsz : i < arena_size s.num_gridpoints s.P tid := by
    unfold arena_size; omega
  simp only [init_state, ht, if_true]
  rw [init_arena_d, init_arena_mat_indices]
  rw [hg] at hlt
  simp [hsz, hlt, hg]

end mbsolve

namespace mbsolve

theorem initial_state_fidelity_witness :
    ((example_solver 10 3 0 [] (fun _ => 0) []).num_gridpoints < 4294967296 ∧
      1 ≤ (example_solver 10 3 0 [] (fun _ => 0) []).P ∧
      2 < (example_solver 10 3 0 [] (fun _ => 0) []).P ∧ OL ≤ 35 ∧
      35 < OL + chunk (example_solver 10 3 0 [] (fun _ => 0) []).num_gridpoints
        (example_solver 10 3 0 [] (fun _ => 0) []).P 2) ∧
    (((init_state (example_solver 10 3 0 [] (fun _ => 0) []) (fun g => g)
        (fun _ => zero_arena) (fun _ => 0)).arenas 2).d 35 =
      ((example_solver 10 3 0 [] (fun _ => 0) []).l_sim_consts
        ((fun g => g) (2 * chunk_base (example_solver 10 3 0 [] (fun _ => 0) []).num_gridpoints
          (example_solver 10 3 0 [] (fun _ => 0) []).P + 35 - OL))).d_init ∧
    ((init_state (example_solver 10 3 0 [] (fun _ => 0) []) (fun g => g)
        (fun _ => zero_arena) (fun _ => 0)).arenas 2).mat_indices 35 =
      (fun g => g) (2 * chunk_base (example_solver 10 3 0 [] (fun _ => 0) []).num_gridpoints
          (example_solver 10 3 0 [] (fun _ => 0) []).P + 35 - OL)) :=
  ⟨⟨by decide, by decide, by decide, by decide, by decide⟩,
    initial_state_fidelity (example_solver 10 3 0 [] (fun _ => 0) []) (fun g => g)
      (fun _ => zero_arena) (fun _ => 0) 2 35
      (by decide) (by decide) (by decide) (by decide) (by decide)⟩

/-- C8 (the code at the failing input). With 64 grid points and 2 workers,
index 0 of worker 1 stands for the global index `1 * 32 + 0 - 32 = 0`, which
lies in `[0, 64)`; the global material-index map has the entry 1 there, whose
record has the initial vector `(1, 1, 1)`. The constructor computes
`global_idx = 32 + 4294967264`, which is not below 64, and stores the material
index 0 and the zero vector, whatever the arrays held before. -/
theorem arena_init_left_halo_not_copied (a0 : arena 3) :
    (1 : Int) * (chunk_base 64 2 : Int) + 0 - (OL : Int) = 0 ∧
    global_idx 64 2 1 0 = 4294967296 ∧
    (fun g : Nat => if g = 0 then 1 else 0) 0 = 1 ∧
    (init_arena (fun g => if g = 0 then 1 else 0) example_consts 64 2 1
      a0).mat_indices 0 = 0 ∧
    (init_arena (fun g => if g = 0 then 1 else 0) example_consts 64 2 1
      a0).d 0 = 0 ∧
    (example_consts 1).d_init ≠ 0 := by
  have hg : global_idx 64 2 1 0 = 4294967296 := by decide
  refine ⟨by decide, hg, by decide, ?_, ?_, ?_⟩
  · rw [init_arena_mat_indices, hg, if_pos (by decide)]
    simp
  · rw [init_arena_d, hg, if_pos (by decide)]
    simp
  · intro h
    have := congrFun h 0
    simp [example_consts] at this

end mbsolve

namespace mbsolve

/-! ## Construction errors -/

theorem make_sim_constants_error {num_adj : Nat} (env : environment num_adj)
    (num_lvl : Nat) (dt dx : real) (mat : material num_adj) :
    (∃ msg, make_sim_constants env num_lvl dt dx mat = Except.error msg) ↔
      ∃ q, mat.qm = some q ∧ q.num_levels ≠ num_lvl := by
  unfold make_sim_constants
  cases hq : mat.qm with
  | none => simp
  | some q =>
    by_cases hl : q.num_levels = num_lvl
    · simp [hl]
    · simp [hl]

theorem build_sim_consts_error {num_adj : Nat} (env : environment num_adj)
    (num_lvl : Nat) (dt dx : real) (l : List String)
    (acc : List (sim_constants_clvl_rk num_adj)) (id_to_idx : String → Nat) (j : Nat) :
    (∃ msg, build_sim_consts env num_lvl dt dx l acc id_to_idx j = Except.error msg) ↔
      ∃ mat_id ∈ l, ∃ q, (env.get_from_library mat_id).qm = some q ∧
        q.num_levels ≠ num_lvl := by
  induction l generalizing acc id_to_idx j with
  | nil => simp [build_sim_consts]
  | cons x xs ih =>
    have hx := make_sim_constants_error env num_lvl dt dx (env.get_from_library x)
    unfold build_sim_consts
    cases hm : make_sim_constants env num_lvl dt dx (env.get_from_library x) with
    | error msg =>
      have h1 : ∃ q, (env.get_from_library x).qm = some q ∧ q.num_levels ≠ num_lvl :=
        hx.1 ⟨msg, hm⟩
      simp only [hm, List.mem_cons, exists_eq_or_imp]
      constructor
      · intro _
        exact Or.inl h1
      · intro _
        exact ⟨msg, rfl⟩
    | ok sc =>
      have h1 : ¬ ∃ q, (env.get_from_library x).qm = some q ∧ q.num_levels ≠ num_lvl := by
        intro h
        obtain ⟨msg, hmsg⟩ := hx.2 h
        rw [hm] at hmsg
        cases hmsg
      simp only [hm, List.mem_cons, exists_eq_or_imp]
      rw [ih]
      constructor
      · intro h
        exact Or.inr h
      · rintro (h | h)
        · exact (h1 h).elim
        · exact h

/-- C6. Construction of the coefficient table fails exactly when the device
has no regions or a used material has a quantum description whose level count
differs from `num_lvl`; without regions the error is the one of the region
check, whatever the materials are; and a device with regions whose used
materials have no quantum description is accepted. -/
theorem construction_fails_iff {num_adj : Nat} (env : environment num_adj)
    (num_lvl : Nat) (dt dx : real) (dev : device) :
    ((∃ msg, construct_sim_consts env num_lvl dt dx dev = Except.error msg) ↔
      (dev.regions = [] ∨
        ∃ mat_id ∈ dev.used_materials, ∃ q,
          (env.get_from_library mat_id).qm = some q ∧ q.num_levels ≠ num_lvl)) ∧
    (dev.regions = [] →
      construct_sim_consts env num_lvl dt dx dev = Except.error "No regions in device!") ∧
    (dev.regions ≠ [] →
      (∀ mat_id ∈ dev.used_materials, (env.get_from_library mat_id).qm = none) →
      ∃ r, construct_sim_consts env num_lvl dt dx dev = Except.ok r) := by
  have hiff : (∃ msg, construct_sim_consts env num_lvl dt dx dev = Except.error msg) ↔
      (dev.regions = [] ∨
        ∃ mat_id ∈ dev.used_materials, ∃ q,
          (env.get_from_library mat_id).qm = some q ∧ q.num_levels ≠ num_lvl) := by
    unfold construct_sim_consts
    by_cases hr : dev.regions = []
    · simp [hr]
    · have hlen : ¬ dev.regions.length = 0 := by
        intro h
        exact hr (List.length_eq_zero.1 h)
      rw [if_neg hlen, build_sim_consts_error]
      simp [hr]
  refine ⟨hiff, ?_, ?_⟩
  · intro hr
    simp [construct_sim_consts, hr]
  · intro hr hq
    cases hc : construct_sim_consts env num_lvl dt dx dev with
    | ok r => exact ⟨r, rfl⟩
    | error msg =>
      rcases hiff.1 ⟨msg, hc⟩ with h | ⟨mat_id, hmem, q, hq2, _⟩
      · exact (hr h).elim
      · rw [hq mat_id hmem] at hq2
        cases hq2

end mbsolve

namespace mbsolve

/-! ## The sequence of steps of `run` -/

theorem block_actions_time (T n : Nat) :
    (block_actions T n).filterMap action.time =
      (List.range (subloop_ct T n)).map (fun m => n * OL + m) := by
  unfold block_actions
  rw [List.filterMap_cons_none (by rfl), List.filterMap_map]
  rw [← List.filterMap_eq_map]
  rfl

theorem block_actions_exchanges (T n : Nat) :
    (block_actions T n).filter (fun a => a.time.isNone) = [action.exchange n] := by
  unfold block_actions
  rw [List.filter_cons_of_pos (by rfl), List.filter_map]
  congr 1
  rw [List.map_eq_nil_iff, List.filter_eq_nil_iff]
  intro a _
  simp [action.time]

theorem subloop_ct_full (T n : Nat) (h : n < T / OL) : subloop_ct T n = OL := by
  unfold subloop_ct
  rw [if_neg (by omega)]

theorem subloop_ct_last (T : Nat) : subloop_ct T (T / OL) = T % OL := by
  unfold subloop_ct
  rw [if_pos rfl]

theorem full_blocks_time (T K : Nat) (hK : K ≤ T / OL) :
    ((List.range K).flatMap (block_actions T)).filterMap action.time =
      List.range (K * OL) := by
  induction K with
  | zero => simp
  | succ K ih =>
    rw [List.range_succ, List.flatMap_append, List.filterMap_append, ih (by omega)]
    simp only [List.flatMap_cons, List.flatMap_nil, List.append_nil]
    rw [block_actions_time, subloop_ct_full T K (by omega), Nat.succ_mul, List.range_add]

theorem chain_map_range' {α : Type} (R : α → α → Prop) (f : Nat → α)
    (hR : ∀ k, R (f k) (f (k + 1))) (c : Nat) :
    ∀ (a : α) (s : Nat), (c ≠ 0 → R a (f s)) →
      List.Chain R a ((List.range' s c).map f) := by
  induction c with
  | zero =>
    intro a s _
    simp
  | succ c ih =>
    intro a s ha
    rw [List.range'_succ, List.map_cons, List.chain_cons]
    refine ⟨ha (by omega), ih (f s) (s + 1) ?_⟩
    intro _
    exact hR s

theorem block_actions_chain (T n : Nat) :
    List.Chain' action.follows (block_actions T n) := by
  unfold block_actions
  rw [List.range_eq_range']
  show List.Chain action.follows _ _
  apply chain_map_range'
  · intro k
    exact ⟨rfl, rfl⟩
  · intro _
    exact ⟨rfl, rfl⟩

theorem full_blocks_last (T K : Nat) (hK : K + 1 ≤ T / OL) :
    ((List.range (K + 1)).flatMap (block_actions T)).getLast? =
      some (action.substep K (OL - 1)) := by
  rw [List.range_succ, List.flatMap_append]
  simp only [List.flatMap_cons, List.flatMap_nil, List.append_nil]
  unfold block_actions
  rw [subloop_ct_full T K (by omega)]
  have : List.range OL = List.range (OL - 1) ++ [OL - 1] := by
    rw [← List.range_succ]
    rfl
  rw [this, List.map_append, List.map_singleton, ← List.cons_append, ← List.append_assoc,
    List.getLast?_concat]

theorem blocks_chain (T K : Nat) (hK : K ≤ T / OL + 1) :
    List.Chain' action.follows ((List.range K).flatMap (block_actions T)) := by
  induction K with
  | zero => simp
  | succ K ih =>
    have ih2 := ih (by omega)
    rw [List.range_succ, List.flatMap_append]
    simp only [List.flatMap_cons, List.flatMap_nil, List.append_nil]
    rw [List.chain'_append]
    refine ⟨ih2, block_actions_chain T K, ?_⟩
    intro x hx y hy
    cases K with
    | zero => simp at hx
    | succ K =>
      rw [full_blocks_last T K (by omega)] at hx
      simp only [Option.mem_def, Option.some.injEq] at hx
      subst hx
      simp only [block_actions, List.head?_cons, Option.mem_def, Option.some.injEq] at hy
      subst hy
      exact ⟨rfl, rfl⟩

/-- The time indices of the substeps of `run`, in order, are `0 .. T - 1`. -/
theorem run_actions_time (T : Nat) :
    (run_actions T).filterMap action.time = List.range T := by
  unfold run_actions
  rw [List.range_succ, List.flatMap_append, List.filterMap_append,
    full_blocks_time T (T / OL) (le_refl _)]
  simp only [List.flatMap_cons, List.flatMap_nil, List.append_nil]
  rw [block_actions_time, subloop_ct_last, ← List.range_add, Nat.mul_comm,
    Nat.div_add_mod]

end mbsolve

namespace mbsolve

/-! ## The update kernels, entry by entry -/

theorem loop_range_nodup (size border : Nat) : (loop_range size border).Nodup :=
  List.nodup_range' _ _

theorem mem_loop_range (size border i : Nat) :
    i ∈ loop_range size border ↔ border ≤ i ∧ i < loop_end size border := by
  unfold loop_range
  rw [List.mem_range'_1]
  omega

theorem loop_end_le (size border : Nat) (h : border + 1 ≤ size) :
    loop_end size border ≤ size - border - 1 := by
  unfold loop_end wrap64
  omega

theorem loop_end_eq (size border : Nat) (h : border + 1 ≤ size)
    (h2 : size < 18446744073709551616) :
    loop_end size border = size - border - 1 := by
  unfold loop_end
  rw [wrap64_of_lt _ (by omega) (by omega)]
  omega

section kernels
variable {num_adj : Nat} (c : Nat → sim_constants_clvl_rk num_adj)

theorem update_d_body_e (a : arena num_adj) (x : Nat) :
    (update_d_body c a x).e = a.e := by
  unfold update_d_body
  by_cases h : (c (a.mat_indices x)).has_qm = true <;> simp [h]

theorem update_d_body_e_o (a : arena num_adj) (x : Nat) :
    (update_d_body c a x).e_o = a.e_o := by
  unfold update_d_body
  by_cases h : (c (a.mat_indices x)).has_qm = true <;> simp [h]

theorem update_d_body_h (a : arena num_adj) (x : Nat) :
    (update_d_body c a x).h = a.h := by
  unfold update_d_body
  by_cases h : (c (a.mat_indices x)).has_qm = true <;> simp [h]

theorem update_d_body_mat_indices (a : arena num_adj) (x : Nat) :
    (update_d_body c a x).mat_indices = a.mat_indices := by
  unfold update_d_body
  by_cases h : (c (a.mat_indices x)).has_qm = true <;> simp [h]

theorem update_d_body_d_other (a : arena num_adj) (x j : Nat) (hj : j ≠ x) :
    (update_d_body c a x).d j = a.d j := by
  unfold update_d_body
  by_cases h : (c (a.mat_indices x)).has_qm = true <;>
    simp [h, Function.update_noteq hj]

theorem update_d_body_p_other (a : arena num_adj) (x j : Nat) (hj : j ≠ x) :
    (update_d_body c a x).p j = a.p j := by
  unfold update_d_body
  by_cases h : (c (a.mat_indices x)).has_qm = true <;>
    simp [h, Function.update_noteq hj]

/-- The body of `update_d` at `i` reads only entry `i` of `mat_indices`,
`e`, `e_o` and `d`. -/
theorem update_d_body_congr (a b : arena num_adj) (i j : Nat)
    (hm : a.mat_indices i = b.mat_indices j) (he : a.e i = b.e j)
    (heo : a.e_o i = b.e_o j) (hd : a.d i = b.d j) :
    (update_d_body c a i).d i = (update_d_body c b j).d j ∧
    (update_d_body c a i).p i = (update_d_body c b j).p j := by
  unfold update_d_body
  rw [hm, he, heo, hd]
  by_cases h : (c (b.mat_indices j)).has_qm = true <;> simp [h, hd]

theorem update_d_e (size border : Nat) (a : arena num_adj) :
    (update_d size border c a).e = a.e :=
  foldl_untouched _ (fun a => a.e) (update_d_body_e c) _ a

theorem update_d_e_o (size border : Nat) (a : arena num_adj) :
    (update_d size border c a).e_o = a.e_o :=
  foldl_untouched _ (fun a => a.e_o) (update_d_body_e_o c) _ a

theorem update_d_h (size border : Nat) (a : arena num_adj) :
    (update_d size border c a).h = a.h :=
  foldl_untouched _ (fun a => a.h) (update_d_body_h c) _ a

theorem update_d_mat_indices (size border : Nat) (a : arena num_adj) :
    (update_d size border c a).mat_indices = a.mat_indices :=
  foldl_untouched _ (fun a => a.mat_indices) (update_d_body_mat_indices c) _ a

theorem update_d_d (size border : Nat) (a : arena num_adj) (i : Nat) :
    (update_d size border c a).d i =
      if i ∈ loop_range size border then (update_d_body c a i).d i else a.d i := by
  unfold update_d
  apply foldl_pointwise (update_d_body c) (fun a => a.d)
    (fun a i => (update_d_body c a i).d i) _ _ _ _ (loop_range_nodup _ _)
  · intro s x j hj
    exact update_d_body_d_other c s x j hj
  · intro s x
    rfl
  · intro s x j hj
    exact (update_d_body_congr c _ _ j j
      (by rw [update_d_body_mat_indices]) (by rw [update_d_body_e])
      (by rw [update_d_body_e_o]) (update_d_body_d_other c s x j hj)).1

theorem update_d_p (size border : Nat) (a : arena num_adj) (i : Nat) :
    (update_d size border c a).p i =
      if i ∈ loop_range size border then (update_d_body c a i).p i else a.p i := by
  unfold update_d
  apply foldl_pointwise (update_d_body c) (fun a => a.p)
    (fun a i => (update_d_body c a i).p i) _ _ _ _ (loop_range_nodup _ _)
  · intro s x j hj
    exact update_d_body_p_other c s x j hj
  · intro s x
    rfl
  · intro s x j hj
    exact (update_d_body_congr c _ _ j j
      (by rw [update_d_body_mat_indices]) (by rw [update_d_body_e])
      (by rw [update_d_body_e_o]) (update_d_body_d_other c s x j hj)).2

/-! ### `update_fdtd` -/

theorem update_fdtd_body_e_self (a : arena num_adj) (i : Nat) :
    (update_fdtd_body c a i).e i =
      a.e i + (c (a.mat_indices i)).M_CE *
        (-((c (a.mat_indices i)).sigma * a.e i) - a.p i +
          (a.h (i + 1) - a.h i) * (c (a.mat_indices i)).d_x_inv) := by
  simp [update_fdtd_body]

theorem update_fdtd_body_e_o_self (a : arena num_adj) (i : Nat) :
    (update_fdtd_body c a i).e_o i = a.e i := by
  simp [update_fdtd_body]

theorem update_fdtd_e (size border : Nat) (a : arena num_adj) (i : Nat) :
    (update_fdtd size border c a).e i =
      if i ∈ loop_range size border then
        a.e i + (c (a.mat_indices i)).M_CE *
          (-((c (a.mat_indices i)).sigma * a.e i) - a.p i +
            (a.h (i + 1) - a.h i) * (c (a.mat_indices i)).d_x_inv)
      else a.e i := by
  unfold update_fdtd
  apply foldl_pointwise (update_fdtd_body c) (fun a => a.e)
    (fun a i => a.e i + (c (a.mat_indices i)).M_CE *
          (-((c (a.mat_indices i)).sigma * a.e i) - a.p i +
            (a.h (i + 1) - a.h i) * (c (a.mat_indices i)).d_x_inv))
    _ _ _ _ (loop_range_nodup _ _)
  · intro s x j hj
    simp [update_fdtd_body, Function.update_noteq hj]
  · intro s x
    exact update_fdtd_body_e_self c s x
  · intro s x j hj
    simp [update_fdtd_body, Function.update_noteq hj]

theorem update_fdtd_e_o (size border : Nat) (a : arena num_adj) (i : Nat) :
    (update_fdtd size border c a).e_o i =
      if i ∈ loop_range size border then a.e i else a.e_o i := by
  unfold update_fdtd
  apply foldl_pointwise (update_fdtd_body c) (fun a => a.e_o)
    (fun a i => a.e i) _ _ _ _ (loop_range_nodup _ _)
  · intro s x j hj
    simp [update_fdtd_body, Function.update_noteq hj]
  · intro s x
    exact update_fdtd_body_e_o_self c s x
  · intro s x j hj
    simp [update_fdtd_body, Function.update_noteq hj]

theorem update_fdtd_d (size border : Nat) (a : arena num_adj) :
    (update_fdtd size border c a).d = a.d :=
  foldl_untouched (update_fdtd_body c) (fun a => a.d) (fun _ _ => rfl) _ a

theorem update_fdtd_h (size border : Nat) (a : arena num_adj) :
    (update_fdtd size border c a).h = a.h :=
  foldl_untouched (update_fdtd_body c) (fun a => a.h) (fun _ _ => rfl) _ a

theorem update_fdtd_p (size border : Nat) (a : arena num_adj) :
    (update_fdtd size border c a).p = a.p :=
  foldl_untouched (update_fdtd_body c) (fun a => a.p) (fun _ _ => rfl) _ a

theorem update_fdtd_mat_indices (size border : Nat) (a : arena num_adj) :
    (update_fdtd size border c a).mat_indices = a.mat_indices :=
  foldl_untouched (update_fdtd_body c) (fun a => a.mat_indices) (fun _ _ => rfl) _ a

/-! ### `update_h` -/

theorem update_h_h (size border : Nat) (a : arena num_adj) (i : Nat) :
    (update_h size border c a).h i =
      if i ∈ loop_range size border ∧ border + 1 ≤ i then
        a.h i + (c (a.mat_indices i)).M_CH * (a.e i - a.e (i - 1))
      else a.h i := by
  unfold update_h
  rw [foldl_pointwise (update_h_body border c) (fun a => a.h)
    (fun a i => if border + 1 ≤ i then
        a.h i + (c (a.mat_indices i)).M_CH * (a.e i - a.e (i - 1)) else a.h i)
    _ _ _ _ (loop_range_nodup _ _)]
  · by_cases h1 : i ∈ loop_range size border <;> by_cases h2 : border + 1 ≤ i <;>
      simp [h1, h2]
  · intro s x j hj
    unfold update_h_body
    by_cases h : border + 1 ≤ x <;> simp [h, Function.update_noteq hj]
  · intro s x
    unfold update_h_body
    by_cases h : border + 1 ≤ x <;> simp [h]
  · intro s x j hj
    unfold update_h_body
    by_cases h : border + 1 ≤ x <;> simp [h, Function.update_noteq hj]

theorem update_h_body_e (border : Nat) (a : arena num_adj) (x : Nat) :
    (update_h_body border c a x).e = a.e := by
  unfold update_h_body
  by_cases h : border + 1 ≤ x <;> simp [h]

theorem update_h_body_e_o (border : Nat) (a : arena num_adj) (x : Nat) :
    (update_h_body border c a x).e_o = a.e_o := by
  unfold update_h_body
  by_cases h : border + 1 ≤ x <;> simp [h]

theorem update_h_body_d (border : Nat) (a : arena num_adj) (x : Nat) :
    (update_h_body border c a x).d = a.d := by
  unfold update_h_body
  by_cases h : border + 1 ≤ x <;> simp [h]

theorem update_h_body_p (border : Nat) (a : arena num_adj) (x : Nat) :
    (update_h_body border c a x).p = a.p := by
  unfold update_h_body
  by_cases h : border + 1 ≤ x <;> simp [h]

theorem update_h_body_mat_indices (border : Nat) (a : arena num_adj) (x : Nat) :
    (update_h_body border c a x).mat_indices = a.mat_indices := by
  unfold update_h_body
  by_cases h : border + 1 ≤ x <;> simp [h]

theorem update_h_e (size border : Nat) (a : arena num_adj) :
    (update_h size border c a).e = a.e :=
  foldl_untouched _ (fun a => a.e) (update_h_body_e c border) _ a

theorem update_h_e_o (size border : Nat) (a : arena num_adj) :
    (update_h size border c a).e_o = a.e_o :=
  foldl_untouched _ (fun a => a.e_o) (update_h_body_e_o c border) _ a

theorem update_h_d (size border : Nat) (a : arena num_adj) :
    (update_h size border c a).d = a.d :=
  foldl_untouched _ (fun a => a.d) (update_h_body_d c border) _ a

theorem update_h_p (size border : Nat) (a : arena num_adj) :
    (update_h size border c a).p = a.p :=
  foldl_untouched _ (fun a => a.p) (update_h_body_p c border) _ a

theorem update_h_mat_indices (size border : Nat) (a : arena num_adj) :
    (update_h size border c a).mat_indices = a.mat_indices :=
  foldl_untouched _ (fun a => a.mat_indices) (update_h_body_mat_indices c border) _ a

end kernels

end mbsolve

namespace mbsolve

/-! ## Source injection, entry by entry -/

theorem apply_source_body_apply (source_data : Nat → real) (time base_pos chunk : Nat)
    (t_e : Nat → real) (src : sim_source) (i : Nat) :
    apply_source_body source_data time base_pos chunk t_e src i =
      if 0 < source_at src base_pos ∧
          source_at src base_pos < ((chunk + 2 * OL : Nat) : Int) ∧
          (source_at src base_pos).toNat = i then
        (match src.type with
          | source_type.hard_source => source_data (src.data_base_idx + time)
          | source_type.soft_source => t_e i + source_data (src.data_base_idx + time)
          | source_type.other => t_e i)
      else t_e i := by
  unfold apply_source_body
  by_cases h1 : 0 < source_at src base_pos ∧
      source_at src base_pos < ((chunk + 2 * OL : Nat) : Int)
  · have h12 : source_at src base_pos < (chunk : Int) + 2 * (OL : Int) := by
      have := h1.2
      push_cast at this
      exact this
    by_cases h2 : (source_at src base_pos).toNat = i
    · subst h2
      cases hty : src.type <;> simp [h1.1, h12, hty]
    · have h3 : i ≠ (source_at src base_pos).toNat := fun h => h2 h.symm
      cases hty : src.type <;> simp [h1.1, h12, h2, hty, Function.update_noteq h3]
  · have h4 : ¬ (0 < source_at src base_pos ∧
        source_at src base_pos < ((chunk + 2 * OL : Nat) : Int) ∧
        (source_at src base_pos).toNat = i) := fun h => h1 ⟨h.1, h.2.1⟩
    rw [if_neg h1, if_neg h4]

/-- Two workers that apply the same sources at corresponding indices `i` and
`j` obtain the same value there. -/
theorem apply_sources_rk_congr (source_data : Nat → real) (time : Nat)
    (srcs : List sim_source) (base_a chunk_a base_b chunk_b i j : Nat)
    (hhit : ∀ src ∈ srcs,
      ((0 < source_at src base_a ∧
          source_at src base_a < ((chunk_a + 2 * OL : Nat) : Int) ∧
          (source_at src base_a).toNat = i) ↔
        (0 < source_at src base_b ∧
          source_at src base_b < ((chunk_b + 2 * OL : Nat) : Int) ∧
          (source_at src base_b).toNat = j))) :
    ∀ (ea eb : Nat → real), ea i = eb j →
      apply_sources_rk ea source_data srcs time base_a chunk_a i =
        apply_sources_rk eb source_data srcs time base_b chunk_b j := by
  induction srcs with
  | nil =>
    intro ea eb h
    exact h
  | cons src rest ih =>
    intro ea eb h
    unfold apply_sources_rk
    rw [List.foldl_cons, List.foldl_cons]
    apply ih (fun s hs => hhit s (List.mem_cons_of_mem _ hs))
    rw [apply_source_body_apply, apply_source_body_apply]
    have hh := hhit src (List.mem_cons_self _ _)
    by_cases hc : (0 < source_at src base_a ∧
          source_at src base_a < ((chunk_a + 2 * OL : Nat) : Int) ∧
          (source_at src base_a).toNat = i)
    · rw [if_pos hc, if_pos (hh.1 hc), h]
    · rw [if_neg hc, if_neg (fun h2 => hc (hh.2 h2)), h]

theorem apply_sources_rk_nil (t_e source_data : Nat → real) (time base_pos chunk : Nat) :
    apply_sources_rk t_e source_data [] time base_pos chunk = t_e := rfl

/-! ## The halo exchange, entry by entry -/

/-- A loop whose iteration `x` stores the value `G x` at index `idx x` of an
array and nothing else in it. -/
theorem foldl_store {S β : Type} (body : S → Nat → S) (proj : S → Nat → β)
    (idx : Nat → Nat) (G : Nat → β)
    (hother : ∀ s x j, j ≠ idx x → proj (body s x) j = proj s j)
    (hself : ∀ s x, proj (body s x) (idx x) = G x)
    (hinj : ∀ x y, idx x = idx y → x = y)
    (l : List Nat) (s : S) :
    (∀ x ∈ l, proj (l.foldl body s) (idx x) = G x) ∧
    (∀ j, (∀ x ∈ l, j ≠ idx x) → proj (l.foldl body s) j = proj s j) := by
  induction l generalizing s with
  | nil => simp
  | cons y ys ih =>
    obtain ⟨ih1, ih2⟩ := ih (body s y)
    rw [List.foldl_cons]
    constructor
    · intro x hx
      by_cases hxy : x ∈ ys
      · exact ih1 x hxy
      · have hxe : x = y := by
          rcases List.mem_cons.1 hx with h | h
          · exact h
          · exact (hxy h).elim
        subst hxe
        rw [ih2 _ (fun z hz hzz => hxy (by rw [hinj _ _ hzz]; exact hz))]
        exact hself s x
    · intro j hj
      rw [ih2 j (fun x hx => hj x (List.mem_cons_of_mem _ hx))]
      exact hother s y j (hj y (List.mem_cons_self _ _))

section exchange
variable {num_adj : Nat} (N P tid : Nat) (pv t nx : arena num_adj)

theorem exchange_worker_p : (exchange_worker N P tid pv t nx).p = t.p := by
  unfold exchange_worker
  have hl : ∀ (a : arena num_adj),
      ((List.range OL).foldl (exchange_left_body (chunk_base N P) pv) a).p = a.p :=
    fun a => foldl_untouched (exchange_left_body (chunk_base N P) pv) (fun a => a.p)
      (fun _ _ => rfl) _ a
  have hr : ∀ (a : arena num_adj),
      ((List.range OL).foldl (exchange_right_body (chunk_base N P) nx) a).p = a.p :=
    fun a => foldl_untouched (exchange_right_body (chunk_base N P) nx) (fun a => a.p)
      (fun _ _ => rfl) _ a
  by_cases h1 : 0 < tid <;> by_cases h2 : tid < P - 1 <;> simp [h1, h2, hl, hr]

theorem exchange_worker_mat_indices :
    (exchange_worker N P tid pv t nx).mat_indices = t.mat_indices := by
  unfold exchange_worker
  have hl : ∀ (a : arena num_adj),
      ((List.range OL).foldl (exchange_left_body (chunk_base N P) pv) a).mat_indices
        = a.mat_indices :=
    fun a => foldl_untouched (exchange_left_body (chunk_base N P) pv)
      (fun a => a.mat_indices) (fun _ _ => rfl) _ a
  have hr : ∀ (a : arena num_adj),
      ((List.range OL).foldl (exchange_right_body (chunk_base N P) nx) a).mat_indices
        = a.mat_indices :=
    fun a => foldl_untouched (exchange_right_body (chunk_base N P) nx)
      (fun a => a.mat_indices) (fun _ _ => rfl) _ a
  by_cases h1 : 0 < tid <;> by_cases h2 : tid < P - 1 <;> simp [h1, h2, hl, hr]

/-- The left copy loop, for any of the four exchanged arrays `proj`. -/
theorem exchange_left_loop {β : Type} (proj : arena num_adj → Nat → β) (cb : Nat)
    (hother : ∀ (s : arena num_adj) x j, j ≠ x →
      proj (exchange_left_body cb pv s x) j = proj s j)
    (hself : ∀ (s : arena num_adj) x,
      proj (exchange_left_body cb pv s x) x = proj pv (cb + x))
    (a : arena num_adj) (i : Nat) :
    proj ((List.range OL).foldl (exchange_left_body cb pv) a) i =
      if i < OL then proj pv (cb + i) else proj a i := by
  obtain ⟨h1, h2⟩ := foldl_store (exchange_left_body cb pv) proj (fun x => x)
    (fun x => proj pv (cb + x)) hother hself (fun _ _ h => h) (List.range OL) a
  by_cases hi : i < OL
  · rw [if_pos hi]
    exact h1 i (List.mem_range.2 hi)
  · rw [if_neg hi]
    apply h2
    intro x hx hix
    rw [List.mem_range] at hx
    omega

/-- The right copy loop, for any of the four exchanged arrays `proj`. -/
theorem exchange_right_loop {β : Type} (proj : arena num_adj → Nat → β) (cb : Nat)
    (hother : ∀ (s : arena num_adj) x j, j ≠ OL + cb + x →
      proj (exchange_right_body cb nx s x) j = proj s j)
    (hself : ∀ (s : arena num_adj) x,
      proj (exchange_right_body cb nx s x) (OL + cb + x) = proj nx (OL + x))
    (a : arena num_adj) (i : Nat) :
    proj ((List.range OL).foldl (exchange_right_body cb nx) a) i =
      if OL + cb ≤ i ∧ i < OL + cb + OL then proj nx (i - cb) else proj a i := by
  obtain ⟨h1, h2⟩ := foldl_store (exchange_right_body cb nx) proj (fun x => OL + cb + x)
    (fun x => proj nx (OL + x)) hother hself
    (fun x y h => by simp only at h; omega) (List.range OL) a
  by_cases hi : OL + cb ≤ i ∧ i < OL + cb + OL
  · rw [if_pos hi]
    have := h1 (i - (OL + cb)) (List.mem_range.2 (by omega))
    have e1 : OL + cb + (i - (OL + cb)) = i := by omega
    have e2 : OL + (i - (OL + cb)) = i - cb := by omega
    rw [e1, e2] at this
    exact this
  · rw [if_neg hi]
    apply h2
    intro x hx hix
    rw [List.mem_range] at hx
    omega

/-- The arrays `e`, `e_o`, `h`, `d` of a worker after its exchange code. -/
theorem exchange_worker_apply (i : Nat) :
    ((exchange_worker N P tid pv t nx).e i =
      if tid < P - 1 ∧ OL + chunk_base N P ≤ i ∧ i < OL + chunk_base N P + OL then
        nx.e (i - chunk_base N P)
      else if 0 < tid ∧ i < OL then pv.e (chunk_base N P + i) else t.e i) ∧
    ((exchange_worker N P tid pv t nx).e_o i =
      if tid < P - 1 ∧ OL + chunk_base N P ≤ i ∧ i < OL + chunk_base N P + OL then
        nx.e_o (i - chunk_base N P)
      else if 0 < tid ∧ i < OL then pv.e_o (chunk_base N P + i) else t.e_o i) ∧
    ((exchange_worker N P tid pv t nx).h i =
      if tid < P - 1 ∧ OL + chunk_base N P ≤ i ∧ i < OL + chunk_base N P + OL then
        nx.h (i - chunk_base N P)
      else if 0 < tid ∧ i < OL then pv.h (chunk_base N P + i) else t.h i) ∧
    ((exchange_worker N P tid pv t nx).d i =
      if tid < P - 1 ∧ OL + chunk_base N P ≤ i ∧ i < OL + chunk_base N P + OL then
        nx.d (i - chunk_base N P)
      else if 0 < tid ∧ i < OL then pv.d (chunk_base N P + i) else t.d i) := by
  have key : ∀ {β : Type} (proj : arena num_adj → Nat → β),
      (∀ (s : arena num_adj) x j, j ≠ x →
        proj (exchange_left_body (chunk_base N P) pv s x) j = proj s j) →
      (∀ (s : arena num_adj) x,
        proj (exchange_left_body (chunk_base N P) pv s x) x = proj pv (chunk_base N P + x)) →
      (∀ (s : arena num_adj) x j, j ≠ OL + chunk_base N P + x →
        proj (exchange_right_body (chunk_base N P) nx s x) j = proj s j) →
      (∀ (s : arena num_adj) x,
        proj (exchange_right_body (chunk_base N P) nx s x) (OL + chunk_base N P + x)
          = proj nx (OL + x)) →
      proj (exchange_worker N P tid pv t nx) i =
        if tid < P - 1 ∧ OL + chunk_base N P ≤ i ∧ i < OL + chunk_base N P + OL then
          proj nx (i - chunk_base N P)
        else if 0 < tid ∧ i < OL then proj pv (chunk_base N P + i) else proj t i := by
    intro β proj ho1 hs1 ho2 hs2
    unfold exchange_worker
    by_cases h1 : 0 < tid <;> by_cases h2 : tid < P - 1
    · simp only [h1, h2, if_true, true_and]
      rw [exchange_right_loop nx proj _ ho2 hs2, exchange_left_loop pv proj _ ho1 hs1]
    · simp only [h1, h2, if_true, if_false, true_and, false_and]
      rw [exchange_left_loop pv proj _ ho1 hs1]
    · simp only [h1, h2, if_true, if_false, true_and, false_and]
      rw [exchange_right_loop nx proj _ ho2 hs2]
    · simp only [h1, h2, if_false, false_and]
  refine ⟨?_, ?_, ?_, ?_⟩
  · exact key (fun a => a.e)
      (fun s x j hj => by simp [exchange_left_body, Function.update_noteq hj])
      (fun s x => by simp [exchange_left_body])
      (fun s x j hj => by simp [exchange_right_body, Function.update_noteq hj])
      (fun s x => by simp [exchange_right_body])
  · exact key (fun a => a.e_o)
      (fun s x j hj => by simp [exchange_left_body, Function.update_noteq hj])
      (fun s x => by simp [exchange_left_body])
      (fun s x j hj => by simp [exchange_right_body, Function.update_noteq hj])
      (fun s x => by simp [exchange_right_body])
  · exact key (fun a => a.h)
      (fun s x j hj => by simp [exchange_left_body, Function.update_noteq hj])
      (fun s x => by simp [exchange_left_body])
      (fun s x j hj => by simp [exchange_right_body, Function.update_noteq hj])
      (fun s x => by simp [exchange_right_body])
  · exact key (fun a => a.d)
      (fun s x j hj => by simp [exchange_left_body, Function.update_noteq hj])
      (fun s x => by simp [exchange_left_body])
      (fun s x j hj => by simp [exchange_right_body, Function.update_noteq hj])
      (fun s x => by simp [exchange_right_body])

end exchange

end mbsolve

namespace mbsolve

/-! ## Steps and prefixes of `run` -/

theorem subloop_ct_le (T n : Nat) : subloop_ct T n ≤ OL := by
  unfold subloop_ct
  have : T % OL < OL := Nat.mod_lt _ (by decide)
  split_ifs <;> omega

theorem mem_block_actions (T n : Nat) (a : action) :
    a ∈ block_actions T n ↔
      a = action.exchange n ∨ ∃ m, m < subloop_ct T n ∧ a = action.substep n m := by
  unfold block_actions
  simp only [List.mem_cons, List.mem_map, List.mem_range]
  constructor
  · rintro (h | ⟨m, hm, rfl⟩)
    · exact Or.inl h
    · exact Or.inr ⟨m, hm, rfl⟩
  · rintro (h | ⟨m, hm, rfl⟩)
    · exact Or.inl h
    · exact Or.inr ⟨m, hm, rfl⟩

theorem mem_run_actions (T : Nat) (a : action) :
    a ∈ run_actions T ↔
      ∃ n, n ≤ T / OL ∧
        (a = action.exchange n ∨ ∃ m, m < subloop_ct T n ∧ a = action.substep n m) := by
  unfold run_actions
  simp only [List.mem_flatMap, List.mem_range, mem_block_actions]
  constructor
  · rintro ⟨n, hn, h⟩
    exact ⟨n, by omega, h⟩
  · rintro ⟨n, hn, h⟩
    exact ⟨n, by omega, h⟩

/-- Every substep of `run` has a sub-loop index below `OL`. -/
theorem substep_index_lt (T n m : Nat) (h : action.substep n m ∈ run_actions T) :
    m < OL := by
  obtain ⟨n2, _, h2⟩ := (mem_run_actions T _).1 h
  rcases h2 with h2 | ⟨m2, hm2, h2⟩
  · cases h2
  · cases h2
    exact lt_of_lt_of_le hm2 (subloop_ct_le T n)

theorem border_le (m : Nat) : border m ≤ m := by
  unfold border
  omega

theorem exec_list_append {num_adj : Nat} (s : solver num_adj) (st : state num_adj)
    (l1 l2 : List action) :
    exec_list s st (l1 ++ l2) = exec_list s (exec_list s st l1) l2 := by
  unfold exec_list
  rw [List.foldl_append]

/-- A property of the memory that holds at the start and is kept by every
step of a list holds after every prefix of the list. -/
theorem exec_list_prefix_invariant {num_adj : Nat} (s : solver num_adj)
    (Inv : state num_adj → Prop) (l : List action)
    (hstep : ∀ a ∈ l, ∀ st, Inv st → Inv (exec s st a))
    (st : state num_adj) (h0 : Inv st) (j : Nat) :
    Inv (exec_list s st (l.take j)) := by
  unfold exec_list
  apply foldl_invariant Inv (exec s) (l.take j) _ st h0
  intro st2 a ha hst
  exact hstep a (List.mem_of_mem_take ha) st2 hst

/-! ## Zero-input invariant -/

theorem chunk_base_le_chunk (N P tid : Nat) : chunk_base N P ≤ chunk N P tid := by
  unfold chunk
  split_ifs <;> omega

theorem exchange_worker_fields_zero {num_adj : Nat} (N P tid : Nat)
    (pv t nx : arena num_adj)
    (hpv : 0 < tid → fields_zero pv (arena_size N P (tid - 1)))
    (ht : fields_zero t (arena_size N P tid))
    (hnx : tid < P - 1 → fields_zero nx (arena_size N P (tid + 1))) :
    fields_zero (exchange_worker N P tid pv t nx) (arena_size N P tid) := by
  intro i hi
  obtain ⟨he, heo, hh, _⟩ := exchange_worker_apply N P tid pv t nx i
  rw [he, heo, hh, exchange_worker_p]
  have hOL : OL = 32 := rfl
  by_cases h1 : tid < P - 1 ∧ OL + chunk_base N P ≤ i ∧ i < OL + chunk_base N P + OL
  · simp only [if_pos h1]
    have hz := hnx h1.1 (i - chunk_base N P) (by
      unfold arena_size
      have := chunk_base_le_chunk N P (tid + 1)
      omega)
    exact ⟨hz.1, hz.2.1, hz.2.2.1, (ht i hi).2.2.2⟩
  · simp only [if_neg h1]
    by_cases h2 : 0 < tid ∧ i < OL
    · simp only [if_pos h2]
      have hz := hpv h2.1 (chunk_base N P + i) (by
        unfold arena_size
        have := chunk_base_le_chunk N P (tid - 1)
        omega)
      exact ⟨hz.1, hz.2.1, hz.2.2.1, (ht i hi).2.2.2⟩
    · simp only [if_neg h2]
      exact ht i hi

theorem substep_worker_fields_zero {num_adj : Nat} (s : solver num_adj)
    (hsrc : s.l_sim_sources = []) (hqm : ∀ k, (s.l_sim_consts k).has_qm = false)
    (n m tid : Nat) (hm : m < OL) (a : arena num_adj)
    (ha : fields_zero a (arena_size s.num_gridpoints s.P tid)) :
    fields_zero (substep_worker s n m tid a) (arena_size s.num_gridpoints s.P tid) := by
  have hOL : OL = 32 := rfl
  have hb := border_le m
  have hsz : border m + 1 ≤ arena_size s.num_gridpoints s.P tid := by
    unfold arena_size; omega
  have hle := loop_end_le _ _ hsz
  -- after update_d
  have hp1 : ∀ i, i < arena_size s.num_gridpoints s.P tid →
      (update_d (arena_size s.num_gridpoints s.P tid) (border m) s.l_sim_consts a).p i = 0 := by
    intro i hi
    rw [update_d_p]
    split_ifs with h
    · unfold update_d_body
      simp [hqm]
    · exact (ha i hi).2.2.2
  -- the four arrays at the end of the substep
  have key : ∀ i, i < arena_size s.num_gridpoints s.P tid →
      (substep_worker s n m tid a).e i = 0 ∧ (substep_worker s n m tid a).e_o i = 0 ∧
      ((update_h (arena_size s.num_gridpoints s.P tid) (border m) s.l_sim_consts
        { (update_fdtd (arena_size s.num_gridpoints s.P tid) (border m) s.l_sim_consts
            (update_d (arena_size s.num_gridpoints s.P tid) (border m) s.l_sim_consts a)) with
          e := apply_sources_rk
            (update_fdtd (arena_size s.num_gridpoints s.P tid) (border m) s.l_sim_consts
              (update_d (arena_size s.num_gridpoints s.P tid) (border m) s.l_sim_consts a)).e
            s.m_source_data s.l_sim_sources (n * OL + m)
            (wrap32 ((tid : Int) * (chunk_base s.num_gridpoints s.P : Int)))
            (chunk s.num_gridpoints s.P tid) }).h i = 0) ∧
      (substep_worker s n m tid a).p i = 0 := by
    intro i hi
    have he : ∀ i, i < arena_size s.num_gridpoints s.P tid →
        (update_fdtd (arena_size s.num_gridpoints s.P tid) (border m) s.l_sim_consts
          (update_d (arena_size s.num_gridpoints s.P tid) (border m) s.l_sim_consts a)).e i
          = 0 := by
      intro i hi
      rw [update_fdtd_e]
      split_ifs with h
      · rw [mem_loop_range] at h
        rw [update_d_e, update_d_h, hp1 i hi, (ha i hi).1, (ha i hi).2.2.1,
          (ha (i + 1) (by omega)).2.2.1]
        simp
      · rw [update_d_e]
        exact (ha i hi).1
    refine ⟨?_, ?_, ?_, ?_⟩
    · unfold substep_worker
      simp only []
      split_ifs <;> simp only [update_h_e, hsrc, apply_sources_rk_nil] <;> exact he i hi
    · unfold substep_worker
      simp only []
      have : (update_fdtd (arena_size s.num_gridpoints s.P tid) (border m) s.l_sim_consts
          (update_d (arena_size s.num_gridpoints s.P tid) (border m) s.l_sim_consts a)).e_o i
          = 0 := by
        rw [update_fdtd_e_o]
        split_ifs
        · rw [update_d_e]; exact (ha i hi).1
        · rw [update_d_e_o]; exact (ha i hi).2.1
      split_ifs <;> simp only [update_h_e_o] <;> exact this
    · rw [update_h_h]
      simp only [hsrc, apply_sources_rk_nil, update_fdtd_h, update_d_h]
      split_ifs with h
      · rw [he i hi, he (i - 1) (by omega), (ha i hi).2.2.1]
        simp
      · exact (ha i hi).2.2.1
    · unfold substep_worker
      simp only []
      split_ifs <;> simp only [update_h_p, update_fdtd_p] <;> exact hp1 i hi
  intro i hi
  obtain ⟨h1, h2, h3, h4⟩ := key i hi
  refine ⟨h1, h2, ?_, h4⟩
  unfold substep_worker
  simp only []
  split_ifs with c1 c2 c2
  · simp only [Function.update_apply]
    split_ifs
    · rfl
    · rfl
    · exact h3
  · simp only [Function.update_apply]
    split_ifs
    · rfl
    · exact h3
  · simp only [Function.update_apply]
    split_ifs
    · rfl
    · exact h3
  · exact h3

end mbsolve

namespace mbsolve

/-- C2. Without sources and without a coefficient record that has a quantum
system, after every step of `run` (every exchange and every substep), from
the memory the constructor sets up: every entry of the electric field, the
previous electric field, the magnetic field and the polarization of every
worker is zero. -/
theorem zero_input_invariant {num_adj : Nat} (s : solver num_adj)
    (l_mat_indices : Nat → Nat) (a0 : Nat → arena num_adj) (scratch0 : Nat → real)
    (hsrc : s.l_sim_sources = []) (hqm : ∀ k, (s.l_sim_consts k).has_qm = false)
    (j tid i : Nat) (ht : tid < s.P) (hi : i < arena_size s.num_gridpoints s.P tid) :
    (((exec_list s (init_state s l_mat_indices a0 scratch0)
        ((run_actions s.num_timesteps).take j)).arenas tid).e i = 0) ∧
    (((exec_list s (init_state s l_mat_indices a0 scratch0)
        ((run_actions s.num_timesteps).take j)).arenas tid).e_o i = 0) ∧
    (((exec_list s (init_state s l_mat_indices a0 scratch0)
        ((run_actions s.num_timesteps).take j)).arenas tid).h i = 0) ∧
    (((exec_list s (init_state s l_mat_indices a0 scratch0)
        ((run_actions s.num_timesteps).take j)).arenas tid).p i = 0) := by
  have hinv := exec_list_prefix_invariant s
    (fun st => ∀ tid, tid < s.P →
      fields_zero (st.arenas tid) (arena_size s.num_gridpoints s.P tid))
    (run_actions s.num_timesteps) ?_ (init_state s l_mat_indices a0 scratch0) ?_ j
  · exact hinv tid ht i hi
  · intro a ha st hst tid ht
    cases a with
    | exchange n =>
      simp only [exec, exchange_all, ht, if_true]
      apply exchange_worker_fields_zero
      · intro h0
        exact hst (tid - 1) (by omega)
      · exact hst tid ht
      · intro h1
        exact hst (tid + 1) (by omega)
    | substep n m =>
      have hm := substep_index_lt _ n m ha
      simp only [exec, substep_all, ht, if_true]
      exact substep_worker_fields_zero s hsrc hqm n m tid hm _ (hst tid ht)
  · intro tid ht i hi
    simp only [init_state, ht, if_true]
    exact init_arena_fields _ _ _ _ _ _ i hi

theorem zero_input_invariant_witness :
    ((example_solver 70 2 40 [] (fun _ => 0) []).l_sim_sources = [] ∧
      (∀ k, ((example_solver 70 2 40 [] (fun _ => 0) []).l_sim_consts k).has_qm = false) ∧
      1 < (example_solver 70 2 40 [] (fun _ => 0) []).P ∧
      40 < arena_size (example_solver 70 2 40 [] (fun _ => 0) []).num_gridpoints
        (example_solver 70 2 40 [] (fun _ => 0) []).P 1) ∧
    ((((exec_list (example_solver 70 2 40 [] (fun _ => 0) [])
        (init_state (example_solver 70 2 40 [] (fun _ => 0) []) (fun _ => 0)
          (fun _ => zero_arena) (fun _ => 0))
        ((run_actions (example_solver 70 2 40 [] (fun _ => 0) []).num_timesteps).take 37)).arenas
          1).e 40 = 0) ∧
    (((exec_list (example_solver 70 2 40 [] (fun _ => 0) [])
        (init_state (example_solver 70 2 40 [] (fun _ => 0) []) (fun _ => 0)
          (fun _ => zero_arena) (fun _ => 0))
        ((run_actions (example_solver 70 2 40 [] (fun _ => 0) []).num_timesteps).take 37)).arenas
          1).e_o 40 = 0) ∧
    (((exec_list (example_solver 70 2 40 [] (fun _ => 0) [])
        (init_state (example_solver 70 2 40 [] (fun _ => 0) []) (fun _ => 0)
          (fun _ => zero_arena) (fun _ => 0))
        ((run_actions (example_solver 70 2 40 [] (fun _ => 0) []).num_timesteps).take 37)).arenas
          1).h 40 = 0) ∧
    (((exec_list (example_solver 70 2 40 [] (fun _ => 0) [])
        (init_state (example_solver 70 2 40 [] (fun _ => 0) []) (fun _ => 0)
          (fun _ => zero_arena) (fun _ => 0))
        ((run_actions (example_solver 70 2 40 [] (fun _ => 0) []).num_timesteps).take 37)).arenas
          1).p 40 = 0)) :=
  ⟨⟨rfl, fun _ => rfl, by decide, by decide⟩,
    zero_input_invariant (example_solver 70 2 40 [] (fun _ => 0) []) (fun _ => 0)
      (fun _ => zero_arena) (fun _ => 0) rfl (fun _ => rfl) 37 1 40 (by decide) (by decide)⟩

end mbsolve

namespace mbsolve

/-! ## More machine arithmetic -/

theorem to_int64_wrap64 (x : Int) (h1 : -9223372036854775808 ≤ x)
    (h2 : x < 9223372036854775808) : to_int64 (wrap64 x) = x := by
  unfold to_int64 wrap64
  split_ifs <;> omega

theorem to_int32_wrap32 (x : Int) (h1 : -2147483648 ≤ x) (h2 : x < 2147483648) :
    to_int32 (wrap32 x) = x := by
  unfold to_int32 wrap32
  split_ifs <;> omega

theorem wrap32_natCast (x : Nat) (h : x < 4294967296) : wrap32 (x : Int) = x := by
  unfold wrap32
  omega

theorem wrap64_natCast (x : Nat) (h : x < 18446744073709551616) : wrap64 (x : Int) = x := by
  unfold wrap64
  omega

/-- The local index of a source seen by a worker whose base position is
`b`, when nothing overflows. -/
theorem source_at_eq (src : sim_source) (b : Nat) (hb : b < 2147483648)
    (h1 : (-2147483648 : Int) ≤ (src.x_idx : Int) - (b : Int) + (OL : Int))
    (h2 : (src.x_idx : Int) - (b : Int) + (OL : Int) < 2147483648) :
    source_at src (wrap32 (b : Int)) = (src.x_idx : Int) - (b : Int) + (OL : Int) := by
  unfold source_at
  rw [wrap32_natCast b (by omega)]
  exact to_int32_wrap32 _ h1 h2

/-- The global index `idx = base_idx + i` of the recorder. -/
theorem record_idx_eq (N P tid i : Nat) (hi : OL ≤ i)
    (hs : tid * chunk_base N P + i < 9223372036854775808) :
    to_int64 (wrap64 (record_base_idx N P tid + (i : Int))) =
      ((tid * chunk_base N P + i - OL : Nat) : Int) := by
  have hOL : OL = 32 := rfl
  have hb : record_base_idx N P tid = ((tid * chunk_base N P : Nat) : Int) - 32 := by
    unfold record_base_idx
    rw [hOL]
    push_cast
    apply to_int64_wrap64
    · have : (0 : Int) ≤ ((tid * chunk_base N P : Nat) : Int) := Int.natCast_nonneg _
      push_cast at this
      omega
    · have : ((tid * chunk_base N P : Nat) : Int) < 9223372036854775808 := by omega
      push_cast at this
      omega
  rw [hb, to_int64_wrap64 _ (by omega) (by omega)]
  omega

end mbsolve

namespace mbsolve

/-! ## One substep of one worker, array by array -/

section substep
variable {num_adj : Nat} (s : solver num_adj) (n m tid : Nat) (a : arena num_adj)

theorem substep_worker_e :
    (substep_worker s n m tid a).e =
      apply_sources_rk
        (update_fdtd (arena_size s.num_gridpoints s.P tid) (border m) s.l_sim_consts
          (update_d (arena_size s.num_gridpoints s.P tid) (border m) s.l_sim_consts a)).e
        s.m_source_data s.l_sim_sources (n * OL + m)
        (wrap32 ((tid : Int) * (chunk_base s.num_gridpoints s.P : Int)))
        (chunk s.num_gridpoints s.P tid) := by
  unfold substep_worker
  simp only []
  split_ifs <;> simp only [update_h_e]

theorem substep_worker_e_o :
    (substep_worker s n m tid a).e_o =
      (update_fdtd (arena_size s.num_gridpoints s.P tid) (border m) s.l_sim_consts
        (update_d (arena_size s.num_gridpoints s.P tid) (border m) s.l_sim_consts a)).e_o := by
  unfold substep_worker
  simp only []
  split_ifs <;> simp only [update_h_e_o]

theorem substep_worker_d :
    (substep_worker s n m tid a).d =
      (update_d (arena_size s.num_gridpoints s.P tid) (border m) s.l_sim_consts a).d := by
  unfold substep_worker
  simp only []
  split_ifs <;> simp only [update_h_d, update_fdtd_d]

theorem substep_worker_p :
    (substep_worker s n m tid a).p =
      (update_d (arena_size s.num_gridpoints s.P tid) (border m) s.l_sim_consts a).p := by
  unfold substep_worker
  simp only []
  split_ifs <;> simp only [update_h_p, update_fdtd_p]

theorem substep_worker_mat_indices :
    (substep_worker s n m tid a).mat_indices = a.mat_indices := by
  unfold substep_worker
  simp only []
  split_ifs <;>
    simp only [update_h_mat_indices, update_fdtd_mat_indices, update_d_mat_indices]

theorem substep_worker_h (i : Nat) :
    (substep_worker s n m tid a).h i =
      if tid = s.P - 1 ∧ i = OL + chunk s.num_gridpoints s.P tid then 0
      else if tid = 0 ∧ i = OL then 0
      else
        (update_h (arena_size s.num_gridpoints s.P tid) (border m) s.l_sim_consts
          { (update_fdtd (arena_size s.num_gridpoints s.P tid) (border m) s.l_sim_consts
              (update_d (arena_size s.num_gridpoints s.P tid) (border m) s.l_sim_consts a)) with
            e := (substep_worker s n m tid a).e }).h i := by
  rw [substep_worker_e]
  unfold substep_worker
  simp only []
  by_cases c1 : tid = 0
  · by_cases c2 : tid = s.P - 1
    · rw [if_pos c1, if_pos c2]
      simp only [Function.update_apply, eq_true c1, eq_true c2, true_and]
    · rw [if_pos c1, if_neg c2]
      simp only [Function.update_apply, eq_true c1, eq_false c2, true_and, false_and,
        if_false]
  · by_cases c2 : tid = s.P - 1
    · rw [if_neg c1, if_pos c2]
      simp only [Function.update_apply, eq_false c1, eq_true c2, true_and, false_and,
        if_false]
    · rw [if_neg c1, if_neg c2]
      simp only [eq_false c1, eq_false c2, false_and, if_false]

end substep

/-! ## The stores of a substep -/

theorem getElem?_take_succ {α : Type} (l : List α) (j : Nat) (a : α)
    (h : l[j]? = some a) : l.take (j + 1) = l.take j ++ [a] := by
  rw [List.take_succ, h]
  rfl

theorem exec_list_take_succ {num_adj : Nat} (s : solver num_adj) (st : state num_adj)
    (l : List action) (j : Nat) (a : action) (h : l[j]? = some a) :
    exec_list s st (l.take (j + 1)) = exec s (exec_list s st (l.take j)) a := by
  rw [getElem?_take_succ l j a h, exec_list_append]
  rfl

/-- Every time index below `T` is the time index of a substep of `run`. -/
theorem substep_exists (T t : Nat) (ht : t < T) :
    ∃ (j n m : Nat), (run_actions T)[j]? = some (action.substep n m) ∧ n * OL + m = t := by
  have h1 := run_actions_time T
  have h2 : t ∈ (run_actions T).filterMap action.time := by
    rw [h1]
    exact List.mem_range.2 ht
  rw [List.mem_filterMap] at h2
  obtain ⟨a, ha, hat⟩ := h2
  cases a with
  | exchange n => simp [action.time] at hat
  | substep n m =>
    simp only [action.time, Option.some.injEq] at hat
    obtain ⟨j, hj⟩ := List.mem_iff_getElem?.1 ha
    exact ⟨j, n, m, hj, hat⟩

theorem mem_of_getElem? {α : Type} (l : List α) (j : Nat) (a : α) (h : l[j]? = some a) :
    a ∈ l :=
  List.mem_iff_getElem?.2 ⟨j, h⟩

theorem mem_record_body {num_adj : Nat} (num_lvl : Nat)
    (cp : (Fin num_adj → real) → Nat → real) (N P tid time k : Nat)
    (cle : copy_list_entry) (a : arena num_adj) (i : Nat) (wr : scratch_write)
    (h : wr ∈ record_body num_lvl cp N P tid time k cle a i) :
    wr.k = k ∧ wr.time = time ∧ wr.tid = tid ∧ wr.i = i ∧
    wr.addr = wrap64 (cle.offset_scratch_real time
      (wrap64 (record_base_idx N P tid - (cle.position : Int))) + (i : Int)) ∧
    (wrap64 (to_int64 (wrap64 (record_base_idx N P tid + (i : Int)))) ≥ cle.position ∧
      wrap64 (to_int64 (wrap64 (record_base_idx N P tid + (i : Int)))) <
        wrap64 ((cle.position : Int) + (cle.cols : Int))) ∧
    (cle.type = record_type.electric → wr.value = a.e i) ∧
    (cle.type = record_type.inversion →
      wr.value = vec_get (a.d i) (num_lvl * (num_lvl - 1))) ∧
    (cle.type = record_type.density →
      cle.row_idx = cle.col_idx ∧ wr.value = cp (a.d i) cle.row_idx) ∧
    cle.type ≠ record_type.other := by
  unfold record_body at h
  simp only [] at h
  by_cases hc : wrap64 (to_int64 (wrap64 (record_base_idx N P tid + (i : Int)))) ≥ cle.position ∧
      wrap64 (to_int64 (wrap64 (record_base_idx N P tid + (i : Int)))) <
        wrap64 ((cle.position : Int) + (cle.cols : Int))
  · rw [if_pos hc] at h
    cases hty : cle.type with
    | electric =>
      rw [hty] at h
      simp only [List.mem_singleton] at h
      subst h
      simp [hc.1, hc.2]
    | inversion =>
      rw [hty] at h
      simp only [List.mem_singleton] at h
      subst h
      simp [hc.1, hc.2]
    | density =>
      rw [hty] at h
      simp only [] at h
      by_cases hrc : cle.row_idx = cle.col_idx
      · rw [if_pos hrc] at h
        simp only [List.mem_singleton] at h
        subst h
        simp [hc.1, hc.2, hrc]
      · rw [if_neg hrc] at h
        exact absurd h (List.not_mem_nil _)
    | other =>
      rw [hty] at h
      exact absurd h (List.not_mem_nil _)
  · rw [if_neg hc] at h
    exact absurd h (List.not_mem_nil _)

theorem mem_record_worker {num_adj : Nat} (num_lvl : Nat)
    (cp : (Fin num_adj → real) → Nat → real) (l_copy_list : List copy_list_entry)
    (N P tid time : Nat) (a : arena num_adj) (wr : scratch_write) :
    wr ∈ record_worker num_lvl cp l_copy_list N P tid time a ↔
      ∃ k cle, l_copy_list[k]? = some cle ∧ cle.hasto_record time = true ∧
        ∃ i, OL ≤ i ∧ i < OL + chunk N P tid ∧
          wr ∈ record_body num_lvl cp N P tid time k cle a i := by
  unfold record_worker record_window
  simp only [List.mem_flatMap, Prod.exists, List.mk_mem_enum_iff_getElem?]
  constructor
  · rintro ⟨k, cle, hk, h⟩
    split_ifs at h with hr
    · rw [List.mem_flatMap] at h
      obtain ⟨i, hi, hw⟩ := h
      rw [List.mem_range'_1] at hi
      exact ⟨k, cle, hk, hr, i, hi.1, hi.2, hw⟩
    · simp at h
  · rintro ⟨k, cle, hk, hr, i, hi1, hi2, hw⟩
    refine ⟨k, cle, hk, ?_⟩
    rw [if_pos hr, List.mem_flatMap]
    exact ⟨i, List.mem_range'_1.2 ⟨hi1, hi2⟩, hw⟩

theorem substep_all_log {num_adj : Nat} (s : solver num_adj) (n m : Nat)
    (st : state num_adj) :
    (substep_all s n m st).log = st.log ++
      (List.range s.P).flatMap (fun tid =>
        record_worker s.num_lvl s.calc_population s.l_copy_list s.num_gridpoints s.P tid
          (n * OL + m) ((substep_all s n m st).arenas tid)) := rfl

theorem substep_all_arenas {num_adj : Nat} (s : solver num_adj) (n m : Nat)
    (st : state num_adj) (tid : Nat) (ht : tid < s.P) :
    (substep_all s n m st).arenas tid = substep_worker s n m tid (st.arenas tid) := by
  simp [substep_all, ht]

end mbsolve

namespace mbsolve

/-! ## Source fidelity -/

/-- After a substep, the owner of a single hard source holds the source value
at the source position. -/
theorem hard_source_owner_value {num_adj : Nat} (s : solver num_adj) (k : Nat)
    (hsrc : s.l_sim_sources = [⟨source_type.hard_source, k, 0⟩])
    (hN : s.num_gridpoints + 2 * OL < 2147483648) (hP : 1 ≤ s.P)
    (tid : Nat) (ht : tid < s.P)
    (hown1 : tid * chunk_base s.num_gridpoints s.P ≤ k)
    (hown2 : k < tid * chunk_base s.num_gridpoints s.P + chunk s.num_gridpoints s.P tid)
    (n m : Nat) (a : arena num_adj) :
    (substep_worker s n m tid a).e (k - tid * chunk_base s.num_gridpoints s.P + OL) =
      s.m_source_data (n * OL + m) := by
  have hOL : OL = 32 := rfl
  have hle := chunk_base_mul_le s.num_gridpoints s.P tid hP ht
  have hat : source_at ⟨source_type.hard_source, k, 0⟩
      (wrap32 ((tid : Int) * (chunk_base s.num_gridpoints s.P : Int))) =
      ((k - tid * chunk_base s.num_gridpoints s.P + OL : Nat) : Int) := by
    have := source_at_eq ⟨source_type.hard_source, k, 0⟩
      (tid * chunk_base s.num_gridpoints s.P) (by omega)
      (by simp only []; omega) (by simp only []; omega)
    push_cast at this
    rw [this]
    omega
  rw [substep_worker_e, hsrc]
  unfold apply_sources_rk
  rw [List.foldl_cons, List.foldl_nil, apply_source_body_apply, hat]
  rw [if_pos ⟨by omega, by omega, Int.toNat_natCast _⟩]
  simp

end mbsolve

namespace mbsolve

/-! ## Halo exchange -/

theorem arena_ext {num_adj : Nat} (a b : arena num_adj) (hd : a.d = b.d) (he : a.e = b.e)
    (heo : a.e_o = b.e_o) (hh : a.h = b.h) (hp : a.p = b.p)
    (hm : a.mat_indices = b.mat_indices) : a = b := by
  cases a
  cases b
  simp only [arena.mk.injEq]
  exact ⟨hd, he, heo, hh, hp, hm⟩

/-- The exchange code of a worker reads its left neighbour only at the
indices `[chunk_base, chunk_base + OL)` and its right neighbour only at
`[OL, 2 * OL)`. -/
theorem exchange_worker_congr {num_adj : Nat} (N P tid : Nat)
    (pv pv2 t nx nx2 : arena num_adj)
    (hpv : ∀ i, i < OL → pv.e (chunk_base N P + i) = pv2.e (chunk_base N P + i) ∧
      pv.e_o (chunk_base N P + i) = pv2.e_o (chunk_base N P + i) ∧
      pv.h (chunk_base N P + i) = pv2.h (chunk_base N P + i) ∧
      pv.d (chunk_base N P + i) = pv2.d (chunk_base N P + i))
    (hnx : ∀ i, i < OL → nx.e (OL + i) = nx2.e (OL + i) ∧
      nx.e_o (OL + i) = nx2.e_o (OL + i) ∧ nx.h (OL + i) = nx2.h (OL + i) ∧
      nx.d (OL + i) = nx2.d (OL + i)) :
    exchange_worker N P tid pv t nx = exchange_worker N P tid pv2 t nx2 := by
  have key : ∀ i,
      (exchange_worker N P tid pv t nx).e i = (exchange_worker N P tid pv2 t nx2).e i ∧
      (exchange_worker N P tid pv t nx).e_o i = (exchange_worker N P tid pv2 t nx2).e_o i ∧
      (exchange_worker N P tid pv t nx).h i = (exchange_worker N P tid pv2 t nx2).h i ∧
      (exchange_worker N P tid pv t nx).d i = (exchange_worker N P tid pv2 t nx2).d i := by
    intro i
    obtain ⟨a1, a2, a3, a4⟩ := exchange_worker_apply N P tid pv t nx i
    obtain ⟨b1, b2, b3, b4⟩ := exchange_worker_apply N P tid pv2 t nx2 i
    rw [a1, a2, a3, a4, b1, b2, b3, b4]
    by_cases h1 : tid < P - 1 ∧ OL + chunk_base N P ≤ i ∧ i < OL + chunk_base N P + OL
    · simp only [if_pos h1]
      have := hnx (i - chunk_base N P - OL) (by omega)
      have e : OL + (i - chunk_base N P - OL) = i - chunk_base N P := by omega
      rw [e] at this
      exact this
    · simp only [if_neg h1]
      by_cases h2 : 0 < tid ∧ i < OL
      · simp only [if_pos h2]
        exact hpv i h2.2
      · simp only [if_neg h2, and_self]
  apply arena_ext
  · funext i; exact (key i).2.2.2
  · funext i; exact (key i).1
  · funext i; exact (key i).2.1
  · funext i; exact (key i).2.2.1
  · rw [exchange_worker_p, exchange_worker_p]
  · rw [exchange_worker_mat_indices, exchange_worker_mat_indices]

/-- The exchange code of a worker changes its own arrays only in the two
halos. -/
theorem exchange_worker_interior {num_adj : Nat} (N P tid : Nat)
    (pv t nx : arena num_adj) (i : Nat) (hi : OL ≤ i)
    (hi2 : tid < P - 1 → i < OL + chunk_base N P) :
    (exchange_worker N P tid pv t nx).e i = t.e i ∧
    (exchange_worker N P tid pv t nx).e_o i = t.e_o i ∧
    (exchange_worker N P tid pv t nx).h i = t.h i ∧
    (exchange_worker N P tid pv t nx).d i = t.d i := by
  obtain ⟨a1, a2, a3, a4⟩ := exchange_worker_apply N P tid pv t nx i
  rw [a1, a2, a3, a4]
  have h1 : ¬ (tid < P - 1 ∧ OL + chunk_base N P ≤ i ∧ i < OL + chunk_base N P + OL) := by
    rintro ⟨h, h2, _⟩
    have := hi2 h
    omega
  have h2 : ¬ (0 < tid ∧ i < OL) := by
    rintro ⟨_, h⟩
    omega
  simp only [if_neg h1, if_neg h2, and_self]

/-- When every worker owns at least `OL` points, the exchange phase gives the
same memory whatever the order in which the workers take their turn: the
reads of one worker never meet the writes of another. -/
theorem exchange_seq_eq_exchange_all {num_adj : Nat} (N P : Nat)
    (hcb : OL ≤ chunk_base N P) (ar : Nat → arena num_adj) (order : List Nat)
    (hperm : order.Perm (List.range P)) :
    exchange_seq N P order ar = exchange_all N P ar := by
  have hnd : order.Nodup := hperm.nodup_iff.2 (List.nodup_range P)
  have hmem : ∀ t, t ∈ order ↔ t < P := fun t => by
    rw [hperm.mem_iff, List.mem_range]
  -- memory after the workers of a list have taken their turn
  have key : ∀ (l : List Nat), l.Nodup → (∀ t ∈ l, t < P) →
      ∀ cur : Nat → arena num_adj,
        (∀ t, t ∉ l → (cur t = ar t ∨ cur t = exchange_all N P ar t)) →
        (∀ t, t ∈ l → cur t = ar t) →
        ∀ t, exchange_seq N P l cur t =
          if t ∈ l then exchange_all N P ar t else cur t := by
    intro l
    induction l with
    | nil =>
      intro _ _ cur _ _ t
      simp [exchange_seq]
    | cons x xs ih =>
      intro hnd hlt cur hc1 hc2 t
      rw [List.nodup_cons] at hnd
      have hx : x < P := hlt x (List.mem_cons_self _ _)
      -- neighbours, as read, agree with the memory at the start
      have hread : ∀ u, (cur u = ar u ∨ cur u = exchange_all N P ar u) →
          (∀ i, i < OL →
            (cur u).e (chunk_base N P + i) = (ar u).e (chunk_base N P + i) ∧
            (cur u).e_o (chunk_base N P + i) = (ar u).e_o (chunk_base N P + i) ∧
            (cur u).h (chunk_base N P + i) = (ar u).h (chunk_base N P + i) ∧
            (cur u).d (chunk_base N P + i) = (ar u).d (chunk_base N P + i)) ∧
          (∀ i, i < OL → (cur u).e (OL + i) = (ar u).e (OL + i) ∧
            (cur u).e_o (OL + i) = (ar u).e_o (OL + i) ∧
            (cur u).h (OL + i) = (ar u).h (OL + i) ∧
            (cur u).d (OL + i) = (ar u).d (OL + i)) := by
        intro u hu
        rcases hu with hu | hu
        · rw [hu]
          exact ⟨fun _ _ => ⟨rfl, rfl, rfl, rfl⟩, fun _ _ => ⟨rfl, rfl, rfl, rfl⟩⟩
        · rw [hu]
          unfold exchange_all
          by_cases hup : u < P
          · rw [if_pos hup]
            constructor
            · intro i hi
              exact exchange_worker_interior N P u _ _ _ _ (by omega) (fun _ => by omega)
            · intro i hi
              exact exchange_worker_interior N P u _ _ _ _ (by omega) (fun _ => by omega)
          · rw [if_neg hup]
            exact ⟨fun _ _ => ⟨rfl, rfl, rfl, rfl⟩, fun _ _ => ⟨rfl, rfl, rfl, rfl⟩⟩
      have hcur : ∀ u, cur u = ar u ∨ cur u = exchange_all N P ar u := by
        intro u
        by_cases hu : u ∈ x :: xs
        · exact Or.inl (hc2 u hu)
        · exact hc1 u hu
      have hstep : exchange_worker N P x (cur (x - 1)) (cur x) (cur (x + 1)) =
          exchange_all N P ar x := by
        unfold exchange_all
        rw [if_pos hx, hc2 x (List.mem_cons_self _ _)]
        exact exchange_worker_congr N P x _ _ _ _ _ (hread _ (hcur _)).1 (hread _ (hcur _)).2
      show exchange_seq N P xs (Function.update cur x
        (exchange_worker N P x (cur (x - 1)) (cur x) (cur (x + 1)))) t = _
      rw [hstep, ih hnd.2 (fun u hu => hlt u (List.mem_cons_of_mem _ hu))]
      · by_cases htx : t = x
        · subst htx
          simp [hnd.1]
        · by_cases hts : t ∈ xs
          · simp [hts]
          · simp [hts, htx, Function.update_noteq htx]
      · intro u hu
        by_cases hux : u = x
        · subst hux
          right
          simp
        · rw [Function.update_noteq hux]
          exact hc1 u (by simp [hux, hu])
      · intro u hu
        have hux : u ≠ x := fun h => hnd.1 (h ▸ hu)
        rw [Function.update_noteq hux]
        exact hc2 u (List.mem_cons_of_mem _ hu)
  funext t
  rw [key order hnd (fun t ht => (hmem t).1 ht) ar (fun _ _ => Or.inl rfl) (fun _ _ => rfl)]
  by_cases ht : t ∈ order
  · rw [if_pos ht]
  · rw [if_neg ht]
    have : ¬ t < P := fun h => ht ((hmem t).2 h)
    simp [exchange_all, this]

end mbsolve

namespace mbsolve

/-- C9 as stated fails for 2 grid points and 2 workers (`chunk_base = 1`):
after the exchange, entry 0 of the left halo of worker 1 holds what worker 0
held at index `chunk_base + 0 = 1`, an entry of the left halo of worker 0; it
is not the value worker 0 held at any of its owned interior points (the only
one is index 32). -/
theorem halo_exchange_small_chunk_counterexample :
    ¬ (∀ i, i < OL → ∃ j, OL ≤ j ∧ j < OL + chunk 2 2 0 ∧
        (exchange_all 2 2 ramp_arenas 1).e i = (ramp_arenas 0).e j) := by
  intro h
  obtain ⟨j, hj1, hj2, hj3⟩ := h 0 (by decide)
  have hc : chunk 2 2 0 = 1 := by decide
  have hOL : OL = 32 := rfl
  have hj : j = 32 := by omega
  subst hj
  have hv : (exchange_all 2 2 ramp_arenas 1).e 0 = (ramp_arenas 0).e 1 := by
    unfold exchange_all
    rw [if_pos (by decide)]
    rw [(exchange_worker_apply 2 2 1 _ _ _ 0).1]
    rw [if_neg (by decide), if_pos (by decide)]
    rfl
  rw [hv] at hj3
  simp [ramp_arenas] at hj3

/-- C9, amended: when every worker owns at least `OL` points
(`OL <= N / P`), after the exchange phase every worker but the first has in
its left halo what its left neighbour held at its last `OL` owned points, every
worker but the last has in its right halo what its right neighbour held at its
first `OL` owned points, the owned entries of all arrays, the polarization and
the material indices are unchanged, and the result does not depend on the
order in which the workers take their turn. -/
theorem halo_exchange {num_adj : Nat} (N P : Nat) (hcb : OL ≤ chunk_base N P)
    (ar : Nat → arena num_adj) :
    (∀ tid i, 0 < tid → tid < P → i < OL →
      (OL ≤ chunk N P (tid - 1) + i ∧ chunk N P (tid - 1) + i < OL + chunk N P (tid - 1)) ∧
      (exchange_all N P ar tid).e i = (ar (tid - 1)).e (chunk N P (tid - 1) + i) ∧
      (exchange_all N P ar tid).e_o i = (ar (tid - 1)).e_o (chunk N P (tid - 1) + i) ∧
      (exchange_all N P ar tid).h i = (ar (tid - 1)).h (chunk N P (tid - 1) + i) ∧
      (exchange_all N P ar tid).d i = (ar (tid - 1)).d (chunk N P (tid - 1) + i)) ∧
    (∀ tid i, tid + 1 < P → i < OL →
      OL + i < OL + chunk N P (tid + 1) ∧
      (exchange_all N P ar tid).e (OL + chunk N P tid + i) = (ar (tid + 1)).e (OL + i) ∧
      (exchange_all N P ar tid).e_o (OL + chunk N P tid + i) = (ar (tid + 1)).e_o (OL + i) ∧
      (exchange_all N P ar tid).h (OL + chunk N P tid + i) = (ar (tid + 1)).h (OL + i) ∧
      (exchange_all N P ar tid).d (OL + chunk N P tid + i) = (ar (tid + 1)).d (OL + i)) ∧
    (∀ tid i, OL ≤ i → i < OL + chunk N P tid →
      (exchange_all N P ar tid).e i = (ar tid).e i ∧
      (exchange_all N P ar tid).e_o i = (ar tid).e_o i ∧
      (exchange_all N P ar tid).h i = (ar tid).h i ∧
      (exchange_all N P ar tid).d i = (ar tid).d i) ∧
    (∀ tid, (exchange_all N P ar tid).p = (ar tid).p ∧
      (exchange_all N P ar tid).mat_indices = (ar tid).mat_indices) ∧
    (∀ order : List Nat, order.Perm (List.range P) →
      exchange_seq N P order ar = exchange_all N P ar) := by
  have hOL : OL = 32 := rfl
  refine ⟨?_, ?_, ?_, ?_, fun order h => exchange_seq_eq_exchange_all N P hcb ar order h⟩
  · intro tid i h0 ht hi
    have hc : chunk N P (tid - 1) = chunk_base N P := chunk_of_not_last N P _ (by omega)
    rw [hc]
    refine ⟨⟨by omega, by omega⟩, ?_⟩
    unfold exchange_all
    rw [if_pos ht]
    obtain ⟨a1, a2, a3, a4⟩ := exchange_worker_apply N P tid (ar (tid - 1)) (ar tid)
      (ar (tid + 1)) i
    rw [a1, a2, a3, a4]
    have h1 : ¬ (tid < P - 1 ∧ OL + chunk_base N P ≤ i ∧ i < OL + chunk_base N P + OL) := by
      rintro ⟨_, h, _⟩
      omega
    simp only [if_neg h1, if_pos (And.intro h0 hi), and_self]
  · intro tid i ht hi
    have hc : chunk N P tid = chunk_base N P := chunk_of_not_last N P _ (by omega)
    have hc2 := chunk_base_le_chunk N P (tid + 1)
    rw [hc]
    refine ⟨by omega, ?_⟩
    unfold exchange_all
    rw [if_pos (by omega)]
    obtain ⟨a1, a2, a3, a4⟩ := exchange_worker_apply N P tid (ar (tid - 1)) (ar tid)
      (ar (tid + 1)) (OL + chunk_base N P + i)
    rw [a1, a2, a3, a4]
    have h1 : tid < P - 1 ∧ OL + chunk_base N P ≤ OL + chunk_base N P + i ∧
        OL + chunk_base N P + i < OL + chunk_base N P + OL := ⟨by omega, by omega, by omega⟩
    have e : OL + chunk_base N P + i - chunk_base N P = OL + i := by omega
    simp only [if_pos h1, e, and_self]
  · intro tid i hi hi2
    unfold exchange_all
    by_cases ht : tid < P
    · rw [if_pos ht]
      apply exchange_worker_interior N P tid _ _ _ i hi
      intro hlt
      rw [chunk_of_not_last N P tid (by omega)] at hi2
      exact hi2
    · rw [if_neg ht]
      exact ⟨rfl, rfl, rfl, rfl⟩
  · intro tid
    unfold exchange_all
    by_cases ht : tid < P
    · rw [if_pos ht, exchange_worker_p, exchange_worker_mat_indices]
      exact ⟨rfl, rfl⟩
    · rw [if_neg ht]
      exact ⟨rfl, rfl⟩

theorem halo_exchange_witness :
    OL ≤ chunk_base 70 2 ∧
    ((∀ tid i, 0 < tid → tid < 2 → i < OL →
      (OL ≤ chunk 70 2 (tid - 1) + i ∧ chunk 70 2 (tid - 1) + i < OL + chunk 70 2 (tid - 1)) ∧
      (exchange_all 70 2 ramp_arenas tid).e i =
        (ramp_arenas (tid - 1)).e (chunk 70 2 (tid - 1) + i) ∧
      (exchange_all 70 2 ramp_arenas tid).e_o i =
        (ramp_arenas (tid - 1)).e_o (chunk 70 2 (tid - 1) + i) ∧
      (exchange_all 70 2 ramp_arenas tid).h i =
        (ramp_arenas (tid - 1)).h (chunk 70 2 (tid - 1) + i) ∧
      (exchange_all 70 2 ramp_arenas tid).d i =
        (ramp_arenas (tid - 1)).d (chunk 70 2 (tid - 1) + i)) ∧
    (∀ tid i, tid + 1 < 2 → i < OL →
      OL + i < OL + chunk 70 2 (tid + 1) ∧
      (exchange_all 70 2 ramp_arenas tid).e (OL + chunk 70 2 tid + i) =
        (ramp_arenas (tid + 1)).e (OL + i) ∧
      (exchange_all 70 2 ramp_arenas tid).e_o (OL + chunk 70 2 tid + i) =
        (ramp_arenas (tid + 1)).e_o (OL + i) ∧
      (exchange_all 70 2 ramp_arenas tid).h (OL + chunk 70 2 tid + i) =
        (ramp_arenas (tid + 1)).h (OL + i) ∧
      (exchange_all 70 2 ramp_arenas tid).d (OL + chunk 70 2 tid + i) =
        (ramp_arenas (tid + 1)).d (OL + i)) ∧
    (∀ tid i, OL ≤ i → i < OL + chunk 70 2 tid →
      (exchange_all 70 2 ramp_arenas tid).e i = (ramp_arenas tid).e i ∧
      (exchange_all 70 2 ramp_arenas tid).e_o i = (ramp_arenas tid).e_o i ∧
      (exchange_all 70 2 ramp_arenas tid).h i = (ramp_arenas tid).h i ∧
      (exchange_all 70 2 ramp_arenas tid).d i = (ramp_arenas tid).d i) ∧
    (∀ tid, (exchange_all 70 2 ramp_arenas tid).p = (ramp_arenas tid).p ∧
      (exchange_all 70 2 ramp_arenas tid).mat_indices = (ramp_arenas tid).mat_indices) ∧
    (∀ order : List Nat, order.Perm (List.range 2) →
      exchange_seq 70 2 order ramp_arenas = exchange_all 70 2 ramp_arenas)) :=
  ⟨by decide, halo_exchange 70 2 (by decide) ramp_arenas⟩

end mbsolve

namespace mbsolve

/-! ## Counting the stores of a window -/

/-- Number of points of the window `[pos, pos + cols)` below `x`. -/
theorem countP_window_range' (pos cols a n : Nat) :
    List.countP (fun g => decide (pos ≤ g ∧ g < pos + cols)) (List.range' a n) =
      (min (a + n) (pos + cols) - min (a + n) pos) - (min a (pos + cols) - min a pos) := by
  induction n with
  | zero => simp
  | succ n ih =>
    rw [List.range'_concat, List.countP_append, ih, List.countP_singleton]
    simp only [Nat.one_mul]
    by_cases h : pos ≤ a + n ∧ a + n < pos + cols
    · simp only [h, and_self, decide_True, if_true]
      omega
    · simp only [h, decide_False]
      simp only [Bool.false_eq_true, if_false]
      omega

theorem length_flatMap_indicator {α β : Type} (f : α → List β) (c : α → Bool)
    (l : List α) (h : ∀ x ∈ l, (f x).length = if c x then 1 else 0) :
    (l.flatMap f).length = l.countP c := by
  induction l with
  | nil => rfl
  | cons x xs ih =>
    rw [List.flatMap_cons, List.length_append, List.countP_cons,
      ih (fun y hy => h y (List.mem_cons_of_mem _ hy)), h x (List.mem_cons_self _ _)]
    omega

theorem countP_flatMap_enumFrom_lt {α β : Type} (F : Nat × α → List β) (p : β → Bool)
    (k : Nat) (hp : ∀ kc : Nat × α, kc.1 ≠ k → List.countP p (F kc) = 0)
    (l : List α) (s : Nat) (hs : k < s) :
    List.countP p ((l.enumFrom s).flatMap F) = 0 := by
  induction l generalizing s with
  | nil => rfl
  | cons x xs ih =>
    rw [List.enumFrom_cons, List.flatMap_cons, List.countP_append, ih (s + 1) (by omega),
      hp (s, x) (by simp only []; omega)]

theorem countP_flatMap_enumFrom {α β : Type} (F : Nat × α → List β) (p : β → Bool)
    (k : Nat) (hp : ∀ kc : Nat × α, kc.1 ≠ k → List.countP p (F kc) = 0)
    (l : List α) (s : Nat) (hs : s ≤ k) (c : α) (hc : l[k - s]? = some c) :
    List.countP p ((l.enumFrom s).flatMap F) = List.countP p (F (k, c)) := by
  induction l generalizing s with
  | nil => simp at hc
  | cons x xs ih =>
    rw [List.enumFrom_cons, List.flatMap_cons, List.countP_append]
    by_cases hsk : s = k
    · subst hsk
      simp only [Nat.sub_self, List.getElem?_cons_zero, Option.some.injEq] at hc
      subst hc
      rw [countP_flatMap_enumFrom_lt F p s hp xs (s + 1) (by omega)]
      rfl
    · have e : k - s = (k - (s + 1)) + 1 := by omega
      rw [e, List.getElem?_cons_succ] at hc
      rw [ih (s + 1) (by omega) hc, hp (s, x) (by simp only []; exact hsk)]
      omega

theorem countP_flatMap_range {β : Type} (F : Nat → List β) (p : β → Bool) (G : Nat → Nat)
    (K : Nat) (h : ∀ t, t < K → List.countP p (F t) = G (t + 1) - G t)
    (hmono : ∀ t, t < K → G t ≤ G (t + 1)) :
    List.countP p ((List.range K).flatMap F) = G K - G 0 := by
  induction K with
  | zero => simp
  | succ K ih =>
    rw [List.range_succ, List.flatMap_append, List.countP_append,
      ih (fun t ht => h t (by omega)) (fun t ht => hmono t (by omega))]
    simp only [List.flatMap_cons, List.flatMap_nil, List.append_nil]
    rw [h K (by omega)]
    have h1 := hmono K (by omega)
    have h2 : G 0 ≤ G K := by
      clear ih h h1
      induction K with
      | zero => exact le_refl _
      | succ K ih2 =>
        exact le_trans (ih2 (fun t ht => hmono t (by omega))) (hmono K (by omega))
    omega

/-- Time indices of the substeps of `run` are below `num_timesteps`. -/
theorem substep_time_lt (T n m : Nat) (h : action.substep n m ∈ run_actions T) :
    n * OL + m < T := by
  obtain ⟨n2, hn2, h2⟩ := (mem_run_actions T _).1 h
  rcases h2 with h2 | ⟨m2, hm2, h2⟩
  · cases h2
  · cases h2
    have hOL : OL = 32 := rfl
    have hdm := Nat.div_add_mod T OL
    unfold subloop_ct at hm2
    split_ifs at hm2 with hc
    · subst hc
      rw [Nat.mul_comm]
      omega
    · have : (n + 1) * OL ≤ (T / OL) * OL := Nat.mul_le_mul_right _ (by omega)
      rw [Nat.mul_comm (T / OL)] at this
      rw [Nat.succ_mul] at this
      omega

end mbsolve

namespace mbsolve

section record_count
variable {num_adj : Nat} (num_lvl : Nat) (cp : (Fin num_adj → real) → Nat → real)
  (N P tid time k : Nat) (cle : copy_list_entry) (a : arena num_adj)

/-- The window test of the recorder, on the global index. -/
theorem record_cond_iff (i : Nat) (hi : OL ≤ i)
    (hs : tid * chunk_base N P + i < 9223372036854775808)
    (hw : cle.position + cle.cols < 18446744073709551616) :
    (wrap64 (to_int64 (wrap64 (record_base_idx N P tid + (i : Int)))) ≥ cle.position ∧
      wrap64 (to_int64 (wrap64 (record_base_idx N P tid + (i : Int)))) <
        wrap64 ((cle.position : Int) + (cle.cols : Int))) ↔
    (cle.position ≤ tid * chunk_base N P + i - OL ∧
      tid * chunk_base N P + i - OL < cle.position + cle.cols) := by
  rw [record_idx_eq N P tid i hi hs, wrap64_natCast _ (by omega)]
  have hp : wrap64 ((cle.position : Int) + (cle.cols : Int)) = cle.position + cle.cols := by
    have := wrap64_natCast (cle.position + cle.cols) hw
    push_cast at this
    exact this
  rw [hp]

theorem record_body_length (i : Nat) (hi : OL ≤ i)
    (hs : tid * chunk_base N P + i < 9223372036854775808)
    (hw : cle.position + cle.cols < 18446744073709551616)
    (hty : cle.type = record_type.electric ∨ cle.type = record_type.inversion ∨
      (cle.type = record_type.density ∧ cle.row_idx = cle.col_idx)) :
    (record_body num_lvl cp N P tid time k cle a i).length =
      if decide (cle.position ≤ tid * chunk_base N P + i - OL ∧
        tid * chunk_base N P + i - OL < cle.position + cle.cols) then 1 else 0 := by
  have hc := record_cond_iff N P tid cle i hi hs hw
  unfold record_body
  simp only []
  by_cases h : cle.position ≤ tid * chunk_base N P + i - OL ∧
      tid * chunk_base N P + i - OL < cle.position + cle.cols
  · rw [if_pos (hc.2 h)]
    simp only [h, and_self, decide_True, if_true]
    rcases hty with h1 | h1 | ⟨h1, h2⟩
    · rw [h1]; rfl
    · rw [h1]; rfl
    · rw [h1]
      simp only []
      rw [if_pos h2]
      rfl
  · rw [if_neg (fun h2 => h (hc.1 h2))]
    simp only [h, decide_False]
    rfl

theorem mem_record_window (wr : scratch_write)
    (h : wr ∈ record_window num_lvl cp N P tid time a k cle) :
    cle.hasto_record time = true ∧ ∃ i, OL ≤ i ∧ i < OL + chunk N P tid ∧
      wr ∈ record_body num_lvl cp N P tid time k cle a i := by
  unfold record_window at h
  by_cases hr : cle.hasto_record time = true
  · rw [if_pos hr, List.mem_flatMap] at h
    obtain ⟨i, hi, hw⟩ := h
    rw [List.mem_range'_1] at hi
    exact ⟨hr, i, hi.1, hi.2, hw⟩
  · rw [if_neg hr] at h
    exact absurd h (List.not_mem_nil _)

/-- Number of stores of one worker for one window in a substep. -/
theorem record_window_length (ht : tid < P) (hP : 1 ≤ P)
    (hN : N + 2 * OL < 2147483648) (hw : cle.position + cle.cols ≤ N)
    (hty : cle.type = record_type.electric ∨ cle.type = record_type.inversion ∨
      (cle.type = record_type.density ∧ cle.row_idx = cle.col_idx)) :
    (record_window num_lvl cp N P tid time a k cle).length =
      if cle.hasto_record time then
        (min (tid * chunk_base N P + chunk N P tid) (cle.position + cle.cols) -
            min (tid * chunk_base N P + chunk N P tid) cle.position) -
          (min (tid * chunk_base N P) (cle.position + cle.cols) -
            min (tid * chunk_base N P) cle.position)
      else 0 := by
  have hOL : OL = 32 := rfl
  have hle := chunk_base_mul_le N P tid hP ht
  unfold record_window
  by_cases hr : cle.hasto_record time = true
  · rw [if_pos hr, if_pos hr]
    rw [length_flatMap_indicator _
      (fun i => decide (cle.position ≤ tid * chunk_base N P + i - OL ∧
        tid * chunk_base N P + i - OL < cle.position + cle.cols))]
    · rw [← countP_window_range' cle.position cle.cols (tid * chunk_base N P) (chunk N P tid)]
      rw [List.range'_eq_map_range, List.range'_eq_map_range, List.countP_map,
        List.countP_map]
      apply List.countP_congr
      intro x _
      simp only [Function.comp, decide_eq_true_eq]
      have e : tid * chunk_base N P + (OL + x) - OL = tid * chunk_base N P + x := by omega
      rw [e]
    · intro i hi
      rw [List.mem_range'_1] at hi
      exact record_body_length num_lvl cp N P tid time k cle a i hi.1 (by omega)
        (by omega) hty
  · rw [if_neg hr, if_neg hr]
    rfl

/-- Number of stores of one worker for window `k` in a substep, among all
its stores. -/
theorem record_worker_count (l_copy_list : List copy_list_entry)
    (hk : l_copy_list[k]? = some cle) :
    List.countP (fun w => decide (w.k = k))
        (record_worker num_lvl cp l_copy_list N P tid time a) =
      (record_window num_lvl cp N P tid time a k cle).length := by
  unfold record_worker List.enum
  rw [countP_flatMap_enumFrom _ _ k _ l_copy_list 0 (Nat.zero_le _) cle hk]
  · rw [List.countP_eq_length]
    intro wr hwr
    obtain ⟨_, i, _, _, hb⟩ := mem_record_window num_lvl cp N P tid time k cle a wr hwr
    simp [(mem_record_body _ _ _ _ _ _ _ _ _ _ _ hb).1]
  · intro kc hkc
    rw [List.countP_eq_zero]
    intro wr hwr
    obtain ⟨_, i, _, _, hb⟩ := mem_record_window num_lvl cp N P tid time kc.1 kc.2 a wr hwr
    simp only [decide_eq_true_eq]
    rw [(mem_record_body _ _ _ _ _ _ _ _ _ _ _ hb).1]
    exact hkc

end record_count

/-- Number of stores of all workers for window `k` in one substep: the
number of columns of the window if the window is selected at this time, else
none. -/
theorem substep_all_count {num_adj : Nat} (s : solver num_adj) (n m : Nat)
    (ar : Nat → arena num_adj) (k : Nat) (cle : copy_list_entry)
    (hk : s.l_copy_list[k]? = some cle)
    (hty : cle.type = record_type.electric ∨ cle.type = record_type.inversion ∨
      (cle.type = record_type.density ∧ cle.row_idx = cle.col_idx))
    (hwin : cle.position + cle.cols ≤ s.num_gridpoints)
    (hN : s.num_gridpoints + 2 * OL < 2147483648) (hP : 1 ≤ s.P) :
    List.countP (fun w => decide (w.k = k))
        ((List.range s.P).flatMap (fun tid =>
          record_worker s.num_lvl s.calc_population s.l_copy_list s.num_gridpoints s.P tid
            (n * OL + m) (ar tid))) =
      if cle.hasto_record (n * OL + m) then cle.cols else 0 := by
  have hlast := last_chunk_end s.num_gridpoints s.P hP
  by_cases hr : cle.hasto_record (n * OL + m) = true
  · rw [if_pos hr]
    rw [countP_flatMap_range _ _
      (fun t => if t = s.P then
          (min s.num_gridpoints (cle.position + cle.cols) - min s.num_gridpoints cle.position)
        else (min (t * chunk_base s.num_gridpoints s.P) (cle.position + cle.cols) -
          min (t * chunk_base s.num_gridpoints s.P) cle.position)) s.P]
    · simp only [if_true]
      rw [if_neg (by omega)]
      simp only [Nat.zero_mul]
      omega
    · intro t ht
      rw [record_worker_count _ _ _ _ _ _ _ cle _ _ hk,
        record_window_length _ _ _ _ _ _ _ cle _ ht hP hN hwin hty, if_pos hr]
      by_cases htl : t + 1 = s.P
      · have : t = s.P - 1 := by omega
        subst this
        rw [hlast]
        simp only [htl, if_true]
        rw [if_neg (by omega)]
      · rw [if_neg htl, if_neg (by omega), chunk_of_not_last _ _ _ (by omega), Nat.succ_mul]
    · intro t ht
      have hle := chunk_base_mul_le s.num_gridpoints s.P t hP ht
      have hcb := chunk_base_le_chunk s.num_gridpoints s.P t
      by_cases htl : t + 1 = s.P
      · simp only [htl, if_true]
        rw [if_neg (by omega)]
        omega
      · rw [if_neg htl, if_neg (by omega), Nat.succ_mul]
        omega
  · rw [if_neg hr, List.countP_eq_zero]
    intro wr hwr
    rw [List.mem_flatMap] at hwr
    obtain ⟨tid, _, hwr⟩ := hwr
    rw [mem_record_worker] at hwr
    obtain ⟨k2, cle2, hk2, hr2, i, _, _, hb⟩ := hwr
    simp only [decide_eq_true_eq]
    intro hkk
    rw [(mem_record_body _ _ _ _ _ _ _ _ _ _ _ hb).1] at hkk
    subst hkk
    rw [hk] at hk2
    cases hk2
    exact hr hr2

end mbsolve

namespace mbsolve

/-! ## Scratch-buffer bound -/

/-- Number of stores for window `k` after a list of steps. -/
theorem exec_list_count {num_adj : Nat} (s : solver num_adj) (k : Nat)
    (cle : copy_list_entry) (hk : s.l_copy_list[k]? = some cle)
    (hty : cle.type = record_type.electric ∨ cle.type = record_type.inversion ∨
      (cle.type = record_type.density ∧ cle.row_idx = cle.col_idx))
    (hwin : cle.position + cle.cols ≤ s.num_gridpoints)
    (hN : s.num_gridpoints + 2 * OL < 2147483648) (hP : 1 ≤ s.P)
    (l : List action) (st : state num_adj) :
    List.countP (fun w => decide (w.k = k)) (exec_list s st l).log =
      List.countP (fun w => decide (w.k = k)) st.log +
        List.countP cle.hasto_record (l.filterMap action.time) * cle.cols := by
  induction l generalizing st with
  | nil => simp [exec_list]
  | cons a l ih =>
    have e : exec_list s st (a :: l) = exec_list s (exec s st a) l := rfl
    rw [e, ih]
    cases a with
    | exchange n =>
      rw [List.filterMap_cons_none (by rfl)]
      rfl
    | substep n m =>
      rw [List.filterMap_cons_some (by rfl : action.time (action.substep n m) = some (n * OL + m)),
        List.countP_cons]
      simp only [exec]
      rw [substep_all_log, List.countP_append,
        substep_all_count s n m _ k cle hk hty hwin hN hP]
      by_cases hr : cle.hasto_record (n * OL + m) = true
      · simp only [hr, if_true]
        rw [Nat.add_mul]
        omega
      · simp only [hr]
        simp only [Bool.false_eq_true, if_false, Nat.add_zero]

end mbsolve

namespace mbsolve

/-- Address of a store when the scratch offset of the window is a row start
plus the grid point, in `uint64_t`: the row start plus the column. -/
theorem scratch_addr_eq (R b pos i : Nat) (off_r : Int)
    (hoff : off_r = to_int64 (wrap64 ((R : Int) +
      (wrap64 (((b : Int) - 32) - (pos : Int)) : Int))))
    (hi : 32 ≤ i) (hg : pos ≤ b + i - 32)
    (hlt : R + (b + i - 32 - pos) < 18446744073709551616) :
    wrap64 (off_r + (i : Int)) = R + (b + i - 32 - pos) := by
  subst hoff
  unfold to_int64 wrap64
  split_ifs <;> omega

end mbsolve

namespace mbsolve

/-! ## Partition invariance: one substep -/

theorem substep_worker_single_h {num_adj : Nat} (s : solver num_adj) (n m : Nat)
    (b : arena num_adj) (j : Nat) :
    (substep_worker (single_worker s) n m 0 b).h j =
      if (0 : Nat) = 1 - 1 ∧ j = OL + chunk s.num_gridpoints 1 0 then 0
      else if (0 : Nat) = 0 ∧ j = OL then 0
      else
        (update_h (arena_size s.num_gridpoints 1 0) (border m) s.l_sim_consts
          { (update_fdtd (arena_size s.num_gridpoints 1 0) (border m) s.l_sim_consts
              (update_d (arena_size s.num_gridpoints 1 0) (border m) s.l_sim_consts b)) with
            e := (substep_worker (single_worker s) n m 0 b).e }).h j :=
  substep_worker_h (single_worker s) n m 0 b j

/-- One substep keeps a worker and the single worker in agreement, on index
ranges that satisfy the conditions `c1` to `c6` (no update reads outside the
range of agreement, and both sides treat an index the same way). -/
theorem substep_worker_agree {num_adj : Nat} (s : solver num_adj) (n m tid : Nat)
    (a b : arena num_adj) (le lh hi le2 lh2 hi2 : Nat)
    (hag : arenas_agree a b (tid * chunk_base s.num_gridpoints s.P) le lh hi
      (arena_size s.num_gridpoints s.P tid))
    (c1 : le ≤ le2 ∧ lh ≤ lh2 ∧ hi2 ≤ hi ∧ hi ≤ arena_size s.num_gridpoints s.P tid)
    (c2 : ∀ i, le2 ≤ i → i < hi2 →
      (i ∈ loop_range (arena_size s.num_gridpoints s.P tid) (border m) ↔
        i + tid * chunk_base s.num_gridpoints s.P ∈
          loop_range (arena_size s.num_gridpoints 1 0) (border m)))
    (c3 : ∀ i, le2 ≤ i → i < hi2 →
      i ∈ loop_range (arena_size s.num_gridpoints s.P tid) (border m) → lh ≤ i ∧ i + 1 < hi)
    (c4 : ∀ src ∈ s.l_sim_sources, ∀ i, le2 ≤ i → i < hi2 →
      ((0 < source_at src (wrap32 ((tid : Int) * (chunk_base s.num_gridpoints s.P : Int))) ∧
          source_at src (wrap32 ((tid : Int) * (chunk_base s.num_gridpoints s.P : Int))) <
            ((chunk s.num_gridpoints s.P tid + 2 * OL : Nat) : Int) ∧
          (source_at src
            (wrap32 ((tid : Int) * (chunk_base s.num_gridpoints s.P : Int)))).toNat = i) ↔
        (0 < source_at src (wrap32 (((0 : Nat) : Int) * (chunk_base s.num_gridpoints 1 : Int))) ∧
          source_at src (wrap32 (((0 : Nat) : Int) * (chunk_base s.num_gridpoints 1 : Int))) <
            ((chunk s.num_gridpoints 1 0 + 2 * OL : Nat) : Int) ∧
          (source_at src
            (wrap32 (((0 : Nat) : Int) * (chunk_base s.num_gridpoints 1 : Int)))).toNat =
              i + tid * chunk_base s.num_gridpoints s.P)))
    (c5 : ∀ i, lh2 ≤ i → i < hi2 →
      ((i ∈ loop_range (arena_size s.num_gridpoints s.P tid) (border m) ∧ border m + 1 ≤ i) ↔
        (i + tid * chunk_base s.num_gridpoints s.P ∈
            loop_range (arena_size s.num_gridpoints 1 0) (border m) ∧
          border m + 1 ≤ i + tid * chunk_base s.num_gridpoints s.P)) ∧
      (i ∈ loop_range (arena_size s.num_gridpoints s.P tid) (border m) → border m + 1 ≤ i →
        le2 ≤ i - 1 ∧ 1 ≤ i))
    (c6 : ∀ i, lh2 ≤ i → i < hi2 →
      ((tid = s.P - 1 ∧ i = OL + chunk s.num_gridpoints s.P tid) ↔
        ((0 : Nat) = 1 - 1 ∧
          i + tid * chunk_base s.num_gridpoints s.P = OL + chunk s.num_gridpoints 1 0)) ∧
      ((tid = 0 ∧ i = OL) ↔
        ((0 : Nat) = 0 ∧ i + tid * chunk_base s.num_gridpoints s.P = OL))) :
    arenas_agree (substep_worker s n m tid a) (substep_worker (single_worker s) n m 0 b)
      (tid * chunk_base s.num_gridpoints s.P) le2 lh2 hi2
      (arena_size s.num_gridpoints s.P tid) := by
  obtain ⟨hE, hH, hM⟩ := hag
  obtain ⟨c1a, c1b, c1c, c1d⟩ := c1
  -- the quantum state and the polarization after `update_d`
  have hd : ∀ i, le2 ≤ i → i < hi2 →
      (update_d (arena_size s.num_gridpoints s.P tid) (border m) s.l_sim_consts a).d i =
        (update_d (arena_size s.num_gridpoints 1 0) (border m) s.l_sim_consts b).d
          (i + tid * chunk_base s.num_gridpoints s.P) := by
    intro i h1 h2
    rw [update_d_d, update_d_d]
    obtain ⟨e1, e2, e3⟩ := hE i (by omega) (by omega)
    by_cases hr : i ∈ loop_range (arena_size s.num_gridpoints s.P tid) (border m)
    · rw [if_pos hr, if_pos ((c2 i h1 h2).1 hr)]
      exact (update_d_body_congr s.l_sim_consts a b _ _ (hM i (by omega)) e1 e2 e3).1
    · rw [if_neg hr, if_neg (fun h => hr ((c2 i h1 h2).2 h))]
      exact e3
  have hp : ∀ i, le2 ≤ i → i < hi2 →
      i ∈ loop_range (arena_size s.num_gridpoints s.P tid) (border m) →
      (update_d (arena_size s.num_gridpoints s.P tid) (border m) s.l_sim_consts a).p i =
        (update_d (arena_size s.num_gridpoints 1 0) (border m) s.l_sim_consts b).p
          (i + tid * chunk_base s.num_gridpoints s.P) := by
    intro i h1 h2 hr
    rw [update_d_p, update_d_p, if_pos hr, if_pos ((c2 i h1 h2).1 hr)]
    obtain ⟨e1, e2, e3⟩ := hE i (by omega) (by omega)
    exact (update_d_body_congr s.l_sim_consts a b _ _ (hM i (by omega)) e1 e2 e3).2
  -- the electric field after `update_fdtd`
  have he : ∀ i, le2 ≤ i → i < hi2 →
      (update_fdtd (arena_size s.num_gridpoints s.P tid) (border m) s.l_sim_consts
        (update_d (arena_size s.num_gridpoints s.P tid) (border m) s.l_sim_consts a)).e i =
      (update_fdtd (arena_size s.num_gridpoints 1 0) (border m) s.l_sim_consts
        (update_d (arena_size s.num_gridpoints 1 0) (border m) s.l_sim_consts b)).e
          (i + tid * chunk_base s.num_gridpoints s.P) := by
    intro i h1 h2
    rw [update_fdtd_e, update_fdtd_e]
    obtain ⟨e1, e2, e3⟩ := hE i (by omega) (by omega)
    simp only [update_d_e, update_d_h, update_d_mat_indices]
    by_cases hr : i ∈ loop_range (arena_size s.num_gridpoints s.P tid) (border m)
    · rw [if_pos hr, if_pos ((c2 i h1 h2).1 hr)]
      obtain ⟨g1, g2⟩ := c3 i h1 h2 hr
      rw [hp i h1 h2 hr, e1, hM i (by omega), hH i g1 (by omega), hH (i + 1) (by omega) g2]
      have : i + 1 + tid * chunk_base s.num_gridpoints s.P =
          i + tid * chunk_base s.num_gridpoints s.P + 1 := by omega
      rw [this]
    · rw [if_neg hr, if_neg (fun h => hr ((c2 i h1 h2).2 h))]
      exact e1
  have heo : ∀ i, le2 ≤ i → i < hi2 →
      (update_fdtd (arena_size s.num_gridpoints s.P tid) (border m) s.l_sim_consts
        (update_d (arena_size s.num_gridpoints s.P tid) (border m) s.l_sim_consts a)).e_o i =
      (update_fdtd (arena_size s.num_gridpoints 1 0) (border m) s.l_sim_consts
        (update_d (arena_size s.num_gridpoints 1 0) (border m) s.l_sim_consts b)).e_o
          (i + tid * chunk_base s.num_gridpoints s.P) := by
    intro i h1 h2
    rw [update_fdtd_e_o, update_fdtd_e_o]
    obtain ⟨e1, e2, e3⟩ := hE i (by omega) (by omega)
    simp only [update_d_e, update_d_e_o]
    by_cases hr : i ∈ loop_range (arena_size s.num_gridpoints s.P tid) (border m)
    · rw [if_pos hr, if_pos ((c2 i h1 h2).1 hr)]
      exact e1
    · rw [if_neg hr, if_neg (fun h => hr ((c2 i h1 h2).2 h))]
      exact e2
  -- the electric field after the sources
  have hes : ∀ i, le2 ≤ i → i < hi2 →
      (substep_worker s n m tid a).e i =
        (substep_worker (single_worker s) n m 0 b).e
          (i + tid * chunk_base s.num_gridpoints s.P) := by
    intro i h1 h2
    rw [substep_worker_e, substep_worker_e]
    exact apply_sources_rk_congr s.m_source_data (n * OL + m) s.l_sim_sources _ _ _ _ _ _
      (fun src hs => c4 src hs i h1 h2) _ _ (he i h1 h2)
  refine ⟨?_, ?_, ?_⟩
  · intro i h1 h2
    refine ⟨hes i h1 h2, ?_, ?_⟩
    · rw [substep_worker_e_o, substep_worker_e_o]
      exact heo i h1 h2
    · rw [substep_worker_d, substep_worker_d]
      exact hd i h1 h2
  · intro i h1 h2
    rw [substep_worker_h, substep_worker_single_h]
    obtain ⟨p1, p2⟩ := c6 i h1 h2
    by_cases q1 : tid = s.P - 1 ∧ i = OL + chunk s.num_gridpoints s.P tid
    · rw [if_pos q1, if_pos (p1.1 q1)]
    · rw [if_neg q1, if_neg (fun h => q1 (p1.2 h))]
      by_cases q2 : tid = 0 ∧ i = OL
      · rw [if_pos q2, if_pos (p2.1 q2)]
      · rw [if_neg q2, if_neg (fun h => q2 (p2.2 h))]
        rw [update_h_h, update_h_h]
        simp only [update_fdtd_h, update_d_h, update_fdtd_mat_indices, update_d_mat_indices]
        obtain ⟨r1, r2⟩ := c5 i h1 h2
        by_cases hr : i ∈ loop_range (arena_size s.num_gridpoints s.P tid) (border m) ∧
            border m + 1 ≤ i
        · rw [if_pos hr, if_pos (r1.1 hr)]
          obtain ⟨g1, g2⟩ := r2 hr.1 hr.2
          rw [hH i (by omega) (by omega), hM i (by omega), hes i (by omega) h2,
            hes (i - 1) g1 (by omega)]
          have : i - 1 + tid * chunk_base s.num_gridpoints s.P =
              i + tid * chunk_base s.num_gridpoints s.P - 1 := by omega
          rw [this]
        · rw [if_neg hr, if_neg (fun h => hr (r1.2 h))]
          exact hH i (by omega) (by omega)
  · intro i hi
    rw [substep_worker_mat_indices, substep_worker_mat_indices]
    exact hM i hi

end mbsolve

namespace mbsolve

theorem chunk_single (N : Nat) : chunk N 1 0 = N := by
  simp [chunk, chunk_base, chunk_rem, Nat.mod_one]

theorem chunk_base_single (N : Nat) : chunk_base N 1 = N := by
  simp [chunk_base]

theorem arena_size_single (N : Nat) : arena_size N 1 0 = N + 2 * OL := by
  unfold arena_size
  rw [chunk_single]

/-- A worker applies a source at its index `i` exactly when the single
worker applies it at the corresponding index, unless the worker's local index
of the source is 0. -/
theorem source_hits_iff (src : sim_source) (b chunkA N i : Nat) (hb : b + chunkA ≤ N)
    (hN : N + 2 * OL < 2147483648) (hi : i < chunkA + 2 * OL)
    (h0 : 0 < b → source_at src (wrap32 (b : Int)) ≠ 0) :
    (0 < source_at src (wrap32 (b : Int)) ∧
        source_at src (wrap32 (b : Int)) < ((chunkA + 2 * OL : Nat) : Int) ∧
        (source_at src (wrap32 (b : Int))).toNat = i) ↔
      (0 < source_at src (wrap32 0) ∧
        source_at src (wrap32 0) < ((N + 2 * OL : Nat) : Int) ∧
        (source_at src (wrap32 0)).toNat = i + b) := by
  have hOL : OL = 32 := rfl
  rw [hOL] at hN hi ⊢
  revert h0
  unfold source_at to_int32 wrap32
  rw [hOL]
  generalize src.x_idx = x
  intro h0
  push_cast
  by_cases hb0 : 0 < b
  · have h0b := h0 hb0
    clear h0
    split_ifs at h0b ⊢ <;> omega
  · clear h0
    have : b = 0 := by omega
    subst this
    split_ifs <;> omega

end mbsolve

namespace mbsolve

/-- Facts on the chunk of worker `tid` used for the index ranges. -/
theorem chunk_facts (N P tid : Nat) (hP : 1 ≤ P) (ht : tid < P) :
    tid * chunk_base N P + chunk N P tid ≤ N ∧
    (tid ≠ 0 → chunk_base N P ≤ tid * chunk_base N P) ∧
    (tid ≠ P - 1 → chunk N P tid = chunk_base N P ∧
      tid * chunk_base N P + chunk_base N P + chunk_base N P ≤ N) ∧
    (tid = P - 1 → tid * chunk_base N P + chunk N P tid = N) := by
  refine ⟨chunk_base_mul_le N P tid hP ht, ?_, ?_, ?_⟩
  · intro h
    exact Nat.le_mul_of_pos_left _ (by omega)
  · intro h
    have h1 := chunk_base_mul_le N P (tid + 1) hP (by omega)
    have h2 := chunk_base_le_chunk N P (tid + 1)
    rw [Nat.succ_mul] at h1
    exact ⟨chunk_of_not_last N P tid h, by omega⟩
  · intro h
    subst h
    exact last_chunk_end N P hP

/-- One substep, `m` substeps after an exchange, keeps worker `tid` in
agreement with the single worker on the index ranges of `m + 1` substeps
after the exchange. -/
theorem substep_worker_agree_step {num_adj : Nat} (s : solver num_adj)
    (hP : 1 ≤ s.P) (hcb : OL ≤ chunk_base s.num_gridpoints s.P)
    (hN : s.num_gridpoints + 2 * OL < 2147483648)
    (hsrc0 : ∀ src ∈ s.l_sim_sources, ∀ tid, 0 < tid → tid < s.P →
      source_at src (wrap32 ((tid : Int) * (chunk_base s.num_gridpoints s.P : Int))) ≠ 0)
    (n m tid : Nat) (ht : tid < s.P) (hm : m < OL) (a b : arena num_adj)
    (hag : arenas_agree a b (tid * chunk_base s.num_gridpoints s.P)
      (agree_lo_e tid m) (agree_lo_h tid m) (agree_hi s.num_gridpoints s.P tid m)
      (arena_size s.num_gridpoints s.P tid)) :
    arenas_agree (substep_worker s n m tid a) (substep_worker (single_worker s) n m 0 b)
      (tid * chunk_base s.num_gridpoints s.P)
      (agree_lo_e tid (m + 1)) (agree_lo_h tid (m + 1))
      (agree_hi s.num_gridpoints s.P tid (m + 1))
      (arena_size s.num_gridpoints s.P tid) := by
  have hOL : OL = 32 := rfl
  have hb := border_le m
  obtain ⟨f1, f2, f3, f4⟩ := chunk_facts s.num_gridpoints s.P tid hP ht
  have hsa : arena_size s.num_gridpoints s.P tid = chunk s.num_gridpoints s.P tid + 64 := by
    unfold arena_size; omega
  have hsb : arena_size s.num_gridpoints 1 0 = s.num_gridpoints + 64 := by
    rw [arena_size_single]; omega
  have hra : ∀ i, i ∈ loop_range (arena_size s.num_gridpoints s.P tid) (border m) ↔
      border m ≤ i ∧ i + border m + 1 < chunk s.num_gridpoints s.P tid + 64 := by
    intro i
    rw [mem_loop_range, loop_end_eq _ _ (by omega) (by omega), hsa]
    omega
  have hrb : ∀ j, j ∈ loop_range (arena_size s.num_gridpoints 1 0) (border m) ↔
      border m ≤ j ∧ j + border m + 1 < s.num_gridpoints + 64 := by
    intro j
    rw [mem_loop_range, loop_end_eq _ _ (by omega) (by omega), hsb]
    omega
  have e1 : (tid : Int) * (chunk_base s.num_gridpoints s.P : Int) =
      ((tid * chunk_base s.num_gridpoints s.P : Nat) : Int) := by push_cast; rfl
  have e2 : ((0 : Nat) : Int) * (chunk_base s.num_gridpoints 1 : Int) = 0 := by simp
  have hc4 : ∀ src ∈ s.l_sim_sources, ∀ i,
      i < chunk s.num_gridpoints s.P tid + 2 * OL →
      ((0 < source_at src (wrap32 ((tid : Int) * (chunk_base s.num_gridpoints s.P : Int))) ∧
          source_at src (wrap32 ((tid : Int) * (chunk_base s.num_gridpoints s.P : Int))) <
            ((chunk s.num_gridpoints s.P tid + 2 * OL : Nat) : Int) ∧
          (source_at src
            (wrap32 ((tid : Int) * (chunk_base s.num_gridpoints s.P : Int)))).toNat = i) ↔
        (0 < source_at src (wrap32 (((0 : Nat) : Int) * (chunk_base s.num_gridpoints 1 : Int))) ∧
          source_at src (wrap32 (((0 : Nat) : Int) * (chunk_base s.num_gridpoints 1 : Int))) <
            ((chunk s.num_gridpoints 1 0 + 2 * OL : Nat) : Int) ∧
          (source_at src
            (wrap32 (((0 : Nat) : Int) * (chunk_base s.num_gridpoints 1 : Int)))).toNat =
              i + tid * chunk_base s.num_gridpoints s.P)) := by
    intro src hsrc i hi
    rw [e1, e2, chunk_single]
    apply source_hits_iff src _ _ _ i f1 hN hi
    intro hpos
    have h0 : 0 < tid := by
      rcases Nat.eq_zero_or_pos tid with h | h
      · rw [h] at hpos; simp at hpos
      · exact h
    rw [← e1]
    exact hsrc0 src hsrc tid h0 ht
  by_cases ht0 : tid = 0
  · have hoff0 : tid * chunk_base s.num_gridpoints s.P = 0 := by rw [ht0]; simp
    by_cases htl : tid = s.P - 1
    · -- the only worker
      have f4' := f4 htl
      simp only [agree_lo_e, agree_lo_h, agree_hi, if_pos ht0, if_pos htl] at hag ⊢
      apply substep_worker_agree s n m tid a b _ _ _ _ _ _ hag
      · omega
      · intro i _ _; rw [hra, hrb]; omega
      · intro i _ h2 h3; rw [hra] at h3; omega
      · intro src hsrc i _ h2; exact hc4 src hsrc i (by omega)
      · intro i _ _; rw [hra, hrb]; omega
      · intro i _ _; rw [chunk_single]; omega
    · obtain ⟨f3a, f3b⟩ := f3 htl
      simp only [agree_lo_e, agree_lo_h, agree_hi, if_pos ht0, if_neg htl] at hag ⊢
      apply substep_worker_agree s n m tid a b _ _ _ _ _ _ hag
      · omega
      · intro i _ _; rw [hra, hrb]; omega
      · intro i _ h2 h3; rw [hra] at h3; omega
      · intro src hsrc i _ h2; exact hc4 src hsrc i (by omega)
      · intro i _ _; rw [hra, hrb]; omega
      · intro i _ _; rw [chunk_single]; omega
  · have f2' := f2 ht0
    by_cases htl : tid = s.P - 1
    · have f4' := f4 htl
      simp only [agree_lo_e, agree_lo_h, agree_hi, if_neg ht0, if_pos htl] at hag ⊢
      apply substep_worker_agree s n m tid a b _ _ _ _ _ _ hag
      · omega
      · intro i _ _; rw [hra, hrb]; omega
      · intro i _ h2 h3; rw [hra] at h3; omega
      · intro src hsrc i _ h2; exact hc4 src hsrc i (by omega)
      · intro i _ _; rw [hra, hrb]; omega
      · intro i _ _; rw [chunk_single]; omega
    · obtain ⟨f3a, f3b⟩ := f3 htl
      simp only [agree_lo_e, agree_lo_h, agree_hi, if_neg ht0, if_neg htl] at hag ⊢
      apply substep_worker_agree s n m tid a b _ _ _ _ _ _ hag
      · omega
      · intro i _ _; rw [hra, hrb]; omega
      · intro i _ h2 h3; rw [hra] at h3; omega
      · intro src hsrc i _ h2; exact hc4 src hsrc i (by omega)
      · intro i _ _; rw [hra, hrb]; omega
      · intro i _ _; rw [chunk_single]; omega

end mbsolve

namespace mbsolve

/-! ## Partition invariance: exchange and initial memory -/

theorem arenas_agree_mono {num_adj : Nat} (a b : arena num_adj)
    (off le lh hi size le2 lh2 hi2 : Nat) (h : arenas_agree a b off le lh hi size)
    (h1 : le ≤ le2) (h2 : lh ≤ lh2) (h3 : hi2 ≤ hi) :
    arenas_agree a b off le2 lh2 hi2 size :=
  ⟨fun i hi1 hi2 => h.1 i (by omega) (by omega),
    fun i hi1 hi2 => h.2.1 i (by omega) (by omega), h.2.2⟩

/-- With a single worker the exchange copies nothing. -/
theorem exchange_all_single {num_adj : Nat} (N : Nat) (ar : Nat → arena num_adj) :
    exchange_all N 1 ar 0 = ar 0 := by
  unfold exchange_all exchange_worker
  simp

/-- The exchange puts every worker whose owned points agree with the single
worker in agreement with it on its whole arrays. -/
theorem exchange_all_agree {num_adj : Nat} (N P : Nat) (hP : 1 ≤ P)
    (hcb : OL ≤ chunk_base N P) (ar : Nat → arena num_adj) (b : arena num_adj)
    (hint : ∀ tid, tid < P →
      arenas_agree (ar tid) b (tid * chunk_base N P) (agree_lo_h tid OL) (agree_lo_h tid OL)
        (agree_hi N P tid OL) (arena_size N P tid))
    (tid : Nat) (ht : tid < P) :
    arenas_agree (exchange_all N P ar tid) b (tid * chunk_base N P)
      (agree_lo_e tid 0) (agree_lo_h tid 0) (agree_hi N P tid 0) (arena_size N P tid) := by
  have hOL : OL = 32 := rfl
  obtain ⟨f1, f2, f3, f4⟩ := chunk_facts N P tid hP ht
  have hsz : arena_size N P tid = chunk N P tid + 64 := by unfold arena_size; omega
  -- all four exchanged arrays at once
  have key : ∀ i, i < arena_size N P tid →
      (exchange_all N P ar tid).e i = b.e (i + tid * chunk_base N P) ∧
      (exchange_all N P ar tid).e_o i = b.e_o (i + tid * chunk_base N P) ∧
      (exchange_all N P ar tid).h i = b.h (i + tid * chunk_base N P) ∧
      (exchange_all N P ar tid).d i = b.d (i + tid * chunk_base N P) := by
    intro i hi
    unfold exchange_all
    rw [if_pos ht]
    obtain ⟨a1, a2, a3, a4⟩ := exchange_worker_apply N P tid (ar (tid - 1)) (ar tid)
      (ar (tid + 1)) i
    rw [a1, a2, a3, a4]
    by_cases h1 : tid < P - 1 ∧ OL + chunk_base N P ≤ i ∧ i < OL + chunk_base N P + OL
    · simp only [if_pos h1]
      obtain ⟨g1, g2, _⟩ := hint (tid + 1) (by omega)
      obtain ⟨_, _, f3n, f4n⟩ := chunk_facts N P (tid + 1) hP (by omega)
      have hszn : arena_size N P (tid + 1) = chunk N P (tid + 1) + 64 := by
        unfold arena_size; omega
      have hcn := chunk_base_le_chunk N P (tid + 1)
      have hlo : agree_lo_h (tid + 1) OL ≤ i - chunk_base N P := by
        unfold agree_lo_h
        rw [if_neg (by omega)]
        omega
      have hhi : i - chunk_base N P < agree_hi N P (tid + 1) OL := by
        unfold agree_hi
        split_ifs
        · omega
        · omega
      have e : i - chunk_base N P + (tid + 1) * chunk_base N P =
          i + tid * chunk_base N P := by
        rw [Nat.succ_mul]; omega
      have q1 := g1 _ hlo hhi
      have q2 := g2 _ hlo hhi
      rw [e] at q1 q2
      exact ⟨q1.1, q1.2.1, q2, q1.2.2⟩
    · simp only [if_neg h1]
      by_cases h2 : 0 < tid ∧ i < OL
      · simp only [if_pos h2]
        obtain ⟨g1, g2, _⟩ := hint (tid - 1) (by omega)
        obtain ⟨_, _, f3p, _⟩ := chunk_facts N P (tid - 1) hP (by omega)
        obtain ⟨f3pa, _⟩ := f3p (by omega)
        have hszp : arena_size N P (tid - 1) = chunk N P (tid - 1) + 64 := by
          unfold arena_size; omega
        have hlo : agree_lo_h (tid - 1) OL ≤ chunk_base N P + i := by
          unfold agree_lo_h
          split_ifs <;> omega
        have hhi : chunk_base N P + i < agree_hi N P (tid - 1) OL := by
          unfold agree_hi
          rw [if_neg (by omega)]
          omega
        have e : chunk_base N P + i + (tid - 1) * chunk_base N P =
            i + tid * chunk_base N P := by
          have : tid = (tid - 1) + 1 := by omega
          conv_rhs => rw [this, Nat.succ_mul]
          omega
        have q1 := g1 _ hlo hhi
        have q2 := g2 _ hlo hhi
        rw [e] at q1 q2
        exact ⟨q1.1, q1.2.1, q2, q1.2.2⟩
      · simp only [if_neg h2]
        obtain ⟨g1, g2, _⟩ := hint tid ht
        have hlo : agree_lo_h tid OL ≤ i := by
          unfold agree_lo_h
          split_ifs <;> omega
        have hhi : i < agree_hi N P tid OL := by
          unfold agree_hi
          split_ifs with hl
          · exact hi
          · have := (f3 hl).1
            omega
        have q1 := g1 _ hlo hhi
        have q2 := g2 _ hlo hhi
        exact ⟨q1.1, q1.2.1, q2, q1.2.2⟩
  have hhi0 : agree_hi N P tid 0 = arena_size N P tid := by
    unfold agree_hi
    split_ifs <;> rfl
  rw [hhi0]
  refine ⟨?_, ?_, ?_⟩
  · intro i _ hi
    obtain ⟨k1, k2, _, k4⟩ := key i hi
    exact ⟨k1, k2, k4⟩
  · intro i _ hi
    exact (key i hi).2.2.1
  · intro i hi
    unfold exchange_all
    rw [if_pos ht, exchange_worker_mat_indices]
    exact (hint tid ht).2.2 i hi

end mbsolve

namespace mbsolve

theorem global_idx_right (N P tid i : Nat) (hi : OL ≤ i)
    (hs : tid * chunk_base N P + i < 4294967296) :
    global_idx N P tid i = tid * chunk_base N P + i - OL := by
  have hOL : OL = 32 := rfl
  have e1 : (tid : Int) * (chunk_base N P : Int) = ((tid * chunk_base N P : Nat) : Int) := by
    push_cast; rfl
  unfold global_idx wrap64 wrap32
  rw [e1, hOL]
  omega

theorem global_idx_left (N P tid i : Nat) (hi : i < OL)
    (hs : tid * chunk_base N P < 4294967296) :
    global_idx N P tid i = tid * chunk_base N P + 4294967264 + i := by
  have hOL : OL = 32 := rfl
  have e1 : (tid : Int) * (chunk_base N P : Int) = ((tid * chunk_base N P : Nat) : Int) := by
    push_cast; rfl
  unfold global_idx wrap64 wrap32
  rw [e1, hOL]
  omega

/-- After construction, the owned points of every worker, the left halo of
the first and the right halo of the last agree with the single worker; the
material indices agree everywhere when the global material-index map is 0 on
the `OL` points to the left of every chunk boundary (where the constructor
stores material index 0). -/
theorem init_arena_agree {num_adj : Nat} (l_mat_indices : Nat → Nat)
    (c : Nat → sim_constants_clvl_rk num_adj) (N P : Nat) (hP : 1 ≤ P)
    (hcb : OL ≤ chunk_base N P) (hN : N + 2 * OL < 2147483648)
    (hmat : ∀ tid i, 0 < tid → tid < P → i < OL →
      l_mat_indices (tid * chunk_base N P + i - OL) = 0)
    (a0 b0 : arena num_adj) (tid : Nat) (ht : tid < P) :
    arenas_agree (init_arena l_mat_indices c N P tid a0) (init_arena l_mat_indices c N 1 0 b0)
      (tid * chunk_base N P) (agree_lo_h tid OL) (agree_lo_h tid OL) (agree_hi N P tid OL)
      (arena_size N P tid) := by
  have hOL : OL = 32 := rfl
  obtain ⟨f1, f2, f3, f4⟩ := chunk_facts N P tid hP ht
  have hsa : arena_size N P tid = chunk N P tid + 64 := by unfold arena_size; omega
  have hsb : arena_size N 1 0 = N + 64 := by rw [arena_size_single]; omega
  have hhi : agree_hi N P tid OL ≤ arena_size N P tid := by
    unfold agree_hi
    split_ifs <;> omega
  -- the global index computed on both sides
  have hg : ∀ i, i < arena_size N P tid → (tid = 0 ∨ OL ≤ i) →
      global_idx N P tid i = global_idx N 1 0 (i + tid * chunk_base N P) := by
    intro i hi h
    by_cases h32 : OL ≤ i
    · rw [global_idx_right N P tid i h32 (by omega),
        global_idx_right N 1 0 _ (by omega) (by rw [chunk_base_single]; omega)]
      omega
    · have ht0 : tid = 0 := by omega
      subst ht0
      rw [global_idx_left N P 0 i (by omega) (by omega),
        global_idx_left N 1 0 _ (by omega) (by omega)]
      omega
  have hfa := fun i hi => init_arena_fields l_mat_indices c N P tid a0 i hi
  have hfb := fun j hj => init_arena_fields l_mat_indices c N 1 0 b0 j hj
  refine ⟨?_, ?_, ?_⟩
  · intro i h1 h2
    have hi : i < arena_size N P tid := by omega
    have hj : i + tid * chunk_base N P < arena_size N 1 0 := by omega
    obtain ⟨a1, a2, _, _⟩ := hfa i hi
    obtain ⟨b1, b2, _, _⟩ := hfb _ hj
    refine ⟨by rw [a1, b1], by rw [a2, b2], ?_⟩
    rw [init_arena_d, init_arena_d, if_pos hi, if_pos hj]
    rw [hg i hi (by
      unfold agree_lo_h at h1
      split_ifs at h1 with h0
      · exact Or.inl h0
      · exact Or.inr h1)]
  · intro i h1 h2
    have hi : i < arena_size N P tid := by omega
    have hj : i + tid * chunk_base N P < arena_size N 1 0 := by omega
    rw [(hfa i hi).2.2.1, (hfb _ hj).2.2.1]
  · intro i hi
    have hj : i + tid * chunk_base N P < arena_size N 1 0 := by omega
    rw [init_arena_mat_indices, init_arena_mat_indices, if_pos hi, if_pos hj]
    by_cases h : tid = 0 ∨ OL ≤ i
    · rw [hg i hi h]
    · have ht0 : 0 < tid := by omega
      have h32 : i < OL := by omega
      have f2' := f2 (by omega)
      rw [global_idx_left N P tid i h32 (by omega),
        global_idx_right N 1 0 _ (by omega) (by rw [chunk_base_single]; omega)]
      rw [if_neg (by omega)]
      have e : 0 * chunk_base N 1 + (i + tid * chunk_base N P) - OL =
          tid * chunk_base N P + i - OL := by omega
      rw [e, hmat tid i ht0 ht h32]
      split_ifs <;> rfl

end mbsolve

namespace mbsolve

/-! ## Partition invariance: the run -/

section partition
variable {num_adj : Nat} (s : solver num_adj)

theorem states_agree_to_owned (k : Nat) (hk : k ≤ OL) (st st1 : state num_adj)
    (h : states_agree s k st st1) : states_agree_owned s st st1 := by
  intro tid ht
  apply arenas_agree_mono _ _ _ _ _ _ _ _ _ _ (h tid ht)
  · unfold agree_lo_e agree_lo_h
    split_ifs <;> omega
  · unfold agree_lo_h
    split_ifs <;> omega
  · unfold agree_hi
    split_ifs <;> omega

theorem exec_exchange_agree (hP : 1 ≤ s.P) (hcb : OL ≤ chunk_base s.num_gridpoints s.P)
    (n : Nat) (st st1 : state num_adj) (h : states_agree_owned s st st1) :
    states_agree s 0 (exec s st (action.exchange n))
      (exec (single_worker s) st1 (action.exchange n)) := by
  intro tid ht
  have e1 : (exec (single_worker s) st1 (action.exchange n)).arenas 0 = st1.arenas 0 :=
    exchange_all_single s.num_gridpoints st1.arenas
  rw [e1]
  exact exchange_all_agree s.num_gridpoints s.P hP hcb st.arenas (st1.arenas 0) h tid ht

theorem exec_substep_agree (hP : 1 ≤ s.P) (hcb : OL ≤ chunk_base s.num_gridpoints s.P)
    (hN : s.num_gridpoints + 2 * OL < 2147483648)
    (hsrc0 : ∀ src ∈ s.l_sim_sources, ∀ tid, 0 < tid → tid < s.P →
      source_at src (wrap32 ((tid : Int) * (chunk_base s.num_gridpoints s.P : Int))) ≠ 0)
    (n m : Nat) (hm : m < OL) (st st1 : state num_adj) (h : states_agree s m st st1) :
    states_agree s (m + 1) (exec s st (action.substep n m))
      (exec (single_worker s) st1 (action.substep n m)) := by
  intro tid ht
  have e1 : (exec (single_worker s) st1 (action.substep n m)).arenas 0 =
      substep_worker (single_worker s) n m 0 (st1.arenas 0) :=
    substep_all_arenas (single_worker s) n m st1 0 (Nat.zero_lt_one)
  have e2 : (exec s st (action.substep n m)).arenas tid =
      substep_worker s n m tid (st.arenas tid) := substep_all_arenas s n m st tid ht
  rw [e1, e2]
  exact substep_worker_agree_step s hP hcb hN hsrc0 n m tid ht hm _ _ (h tid ht)

/-- The exchange of a block and its first `c` substeps. -/
theorem block_agree (hP : 1 ≤ s.P) (hcb : OL ≤ chunk_base s.num_gridpoints s.P)
    (hN : s.num_gridpoints + 2 * OL < 2147483648)
    (hsrc0 : ∀ src ∈ s.l_sim_sources, ∀ tid, 0 < tid → tid < s.P →
      source_at src (wrap32 ((tid : Int) * (chunk_base s.num_gridpoints s.P : Int))) ≠ 0)
    (n c : Nat) (hc : c ≤ OL) (st st1 : state num_adj) (h : states_agree_owned s st st1) :
    states_agree s c
      (exec_list s st (action.exchange n :: (List.range c).map (action.substep n)))
      (exec_list (single_worker s) st1
        (action.exchange n :: (List.range c).map (action.substep n))) := by
  induction c with
  | zero => exact exec_exchange_agree s hP hcb n st st1 h
  | succ c ih =>
    have e : action.exchange n :: (List.range (c + 1)).map (action.substep n) =
        (action.exchange n :: (List.range c).map (action.substep n)) ++
          [action.substep n c] := by
      rw [List.range_succ, List.map_append]
      rfl
    rw [e, exec_list_append, exec_list_append]
    exact exec_substep_agree s hP hcb hN hsrc0 n c (by omega) _ _ (ih (by omega))

/-- The first `K` blocks, all of them full. -/
theorem full_blocks_agree (hP : 1 ≤ s.P) (hcb : OL ≤ chunk_base s.num_gridpoints s.P)
    (hN : s.num_gridpoints + 2 * OL < 2147483648)
    (hsrc0 : ∀ src ∈ s.l_sim_sources, ∀ tid, 0 < tid → tid < s.P →
      source_at src (wrap32 ((tid : Int) * (chunk_base s.num_gridpoints s.P : Int))) ≠ 0)
    (T K : Nat) (hK : K ≤ T / OL) (st st1 : state num_adj)
    (h : states_agree_owned s st st1) :
    states_agree_owned s
      (exec_list s st ((List.range K).flatMap (block_actions T)))
      (exec_list (single_worker s) st1 ((List.range K).flatMap (block_actions T))) := by
  induction K with
  | zero => exact h
  | succ K ih =>
    rw [List.range_succ, List.flatMap_append, exec_list_append, exec_list_append]
    simp only [List.flatMap_cons, List.flatMap_nil, List.append_nil]
    unfold block_actions
    rw [subloop_ct_full T K (by omega)]
    exact states_agree_to_owned s OL (le_refl _) _ _
      (block_agree s hP hcb hN hsrc0 K OL (le_refl _) _ _ (ih (by omega)))

/-- Every prefix of the steps of `run` is a number of full blocks followed by
the exchange and the first substeps of the next block (or is empty). -/
theorem run_actions_take (T j : Nat) :
    (run_actions T).take j = [] ∨
    ∃ K c, K ≤ T / OL ∧ c ≤ OL ∧
      (run_actions T).take j = (List.range K).flatMap (block_actions T) ++
        (action.exchange K :: (List.range c).map (action.substep K)) := by
  have key : ∀ K2, K2 ≤ T / OL + 1 → ∀ j,
      ((List.range K2).flatMap (block_actions T)).take j = [] ∨
      ∃ K c, K < K2 ∧ c ≤ OL ∧
        ((List.range K2).flatMap (block_actions T)).take j =
          (List.range K).flatMap (block_actions T) ++
          (action.exchange K :: (List.range c).map (action.substep K)) := by
    intro K2
    induction K2 with
    | zero =>
      intro _ j
      left
      simp
    | succ K2 ih =>
      intro hK2 j
      rw [List.range_succ, List.flatMap_append, List.take_append_eq_append_take]
      simp only [List.flatMap_cons, List.flatMap_nil, List.append_nil]
      by_cases hj : j ≤ ((List.range K2).flatMap (block_actions T)).length
      · have e : j - ((List.range K2).flatMap (block_actions T)).length = 0 := by omega
        rw [e, List.take_zero, List.append_nil]
        rcases ih (by omega) j with h | ⟨K, c, h1, h2, h3⟩
        · exact Or.inl h
        · exact Or.inr ⟨K, c, by omega, h2, h3⟩
      · right
        rw [List.take_of_length_le (by omega)]
        obtain ⟨j2, hj2⟩ : ∃ j2,
            j - ((List.range K2).flatMap (block_actions T)).length = j2 + 1 :=
          ⟨j - ((List.range K2).flatMap (block_actions T)).length - 1, by omega⟩
        rw [hj2]
        unfold block_actions
        rw [List.take_succ_cons, ← List.map_take, List.take_range]
        exact ⟨K2, min j2 (subloop_ct T K2), by omega,
          le_trans (Nat.min_le_right _ _) (subloop_ct_le T K2), rfl⟩
  rcases key (T / OL + 1) (le_refl _) j with h | ⟨K, c, h1, h2, h3⟩
  · exact Or.inl h
  · exact Or.inr ⟨K, c, by omega, h2, h3⟩

/-- After every prefix of the steps of `run`, every worker agrees with the
single worker on its owned points. -/
theorem run_prefix_agree (hP : 1 ≤ s.P) (hcb : OL ≤ chunk_base s.num_gridpoints s.P)
    (hN : s.num_gridpoints + 2 * OL < 2147483648)
    (hsrc0 : ∀ src ∈ s.l_sim_sources, ∀ tid, 0 < tid → tid < s.P →
      source_at src (wrap32 ((tid : Int) * (chunk_base s.num_gridpoints s.P : Int))) ≠ 0)
    (T j : Nat) (st st1 : state num_adj) (h : states_agree_owned s st st1) :
    states_agree_owned s (exec_list s st ((run_actions T).take j))
      (exec_list (single_worker s) st1 ((run_actions T).take j)) := by
  rcases run_actions_take T j with h0 | ⟨K, c, hK, hc, h1⟩
  · rw [h0]
    exact h
  · rw [h1, exec_list_append, exec_list_append]
    exact states_agree_to_owned s c hc _ _
      (block_agree s hP hcb hN hsrc0 K c hc _ _
        (full_blocks_agree s hP hcb hN hsrc0 T K hK st st1 h))

end partition

end mbsolve

namespace mbsolve

/-! ## Partition invariance: the recorded samples -/

theorem flatMap_enumFrom_pick {α β : Type} (F : α → List β) (k : Nat) (l : List α)
    (s : Nat) :
    (l.enumFrom s).flatMap (fun kc => if kc.1 = k then F kc.2 else []) =
      if s ≤ k then (l[k - s]?).elim [] F else [] := by
  induction l generalizing s with
  | nil => simp
  | cons x xs ih =>
    rw [List.enumFrom_cons, List.flatMap_cons, ih (s + 1)]
    by_cases h1 : s = k
    · subst h1
      simp
    · by_cases h2 : s < k
      · have e : k - s = (k - (s + 1)) + 1 := by omega
        rw [if_neg h1, if_pos (show s + 1 ≤ k by omega), if_pos (show s ≤ k by omega), e,
          List.getElem?_cons_succ]
        rfl
      · rw [if_neg h1, if_neg (show ¬ s + 1 ≤ k by omega), if_neg (show ¬ s ≤ k by omega)]
        rfl

/-- The stores of a worker in a substep that belong to window `k`. -/
theorem record_worker_filter {num_adj : Nat} (num_lvl : Nat)
    (cp : (Fin num_adj → real) → Nat → real) (l_copy_list : List copy_list_entry)
    (N P tid time : Nat) (a : arena num_adj) (k : Nat) :
    (record_worker num_lvl cp l_copy_list N P tid time a).filter
        (fun w => decide (w.k = k)) =
      (l_copy_list[k]?).elim []
        (fun c => record_window num_lvl cp N P tid time a k c) := by
  unfold record_worker List.enum
  rw [List.filter_flatMap]
  have h : ∀ kc : Nat × copy_list_entry,
      (record_window num_lvl cp N P tid time a kc.1 kc.2).filter (fun w => decide (w.k = k)) =
        if kc.1 = k then record_window num_lvl cp N P tid time a k kc.2 else [] := by
    intro kc
    by_cases hk : kc.1 = k
    · rw [if_pos hk, ← hk, List.filter_eq_self]
      intro wr hwr
      obtain ⟨_, i, _, _, hb⟩ := mem_record_window num_lvl cp N P tid time kc.1 kc.2 a wr hwr
      simp [(mem_record_body _ _ _ _ _ _ _ _ _ _ _ hb).1]
    · rw [if_neg hk, List.filter_eq_nil_iff]
      intro wr hwr
      obtain ⟨_, i, _, _, hb⟩ := mem_record_window num_lvl cp N P tid time kc.1 kc.2 a wr hwr
      simp only [decide_eq_true_eq]
      rw [(mem_record_body _ _ _ _ _ _ _ _ _ _ _ hb).1]
      exact hk
  simp only [h]
  rw [flatMap_enumFrom_pick (fun c => record_window num_lvl cp N P tid time a k c) k
    l_copy_list 0]
  simp

/-- The chunks of the workers, one after the other, are the whole grid. -/
theorem chunks_concat (N P a : Nat) (hP : 1 ≤ P) :
    (List.range P).flatMap (fun tid => List.range' (a + tid * chunk_base N P) (chunk N P tid)) =
      List.range' a N := by
  obtain ⟨Q, rfl⟩ : ∃ Q, P = Q + 1 := ⟨P - 1, by omega⟩
  have key : ∀ K, K ≤ Q →
      (List.range K).flatMap
          (fun tid => List.range' (a + tid * chunk_base N (Q + 1)) (chunk N (Q + 1) tid)) =
        List.range' a (K * chunk_base N (Q + 1)) := by
    intro K
    induction K with
    | zero => simp
    | succ K ih =>
      intro hK
      rw [List.range_succ, List.flatMap_append, ih (by omega)]
      simp only [List.flatMap_cons, List.flatMap_nil, List.append_nil]
      rw [chunk_of_not_last N (Q + 1) K (by simp; omega), List.range'_append_1, Nat.succ_mul,
        Nat.add_comm (chunk_base N (Q + 1))]
  rw [List.range_succ, List.flatMap_append, key Q (le_refl _)]
  simp only [List.flatMap_cons, List.flatMap_nil, List.append_nil]
  rw [List.range'_append_1]
  have := last_chunk_end N (Q + 1) (by omega)
  simp only [Nat.add_sub_cancel] at this
  rw [Nat.add_comm, this]

/-- What a worker stores for an owned point is what the single worker stores
for it, when they agree at the point. -/
theorem record_body_sample {num_adj : Nat} (num_lvl : Nat)
    (cp : (Fin num_adj → real) → Nat → real) (N P tid time k : Nat)
    (cle : copy_list_entry) (a b : arena num_adj) (i : Nat)
    (hi : OL ≤ i) (hs : tid * chunk_base N P + i < 2147483648)
    (he : a.e i = b.e (i + tid * chunk_base N P))
    (hd : a.d i = b.d (i + tid * chunk_base N P)) :
    (record_body num_lvl cp N P tid time k cle a i).map
        (scratch_write.sample (chunk_base N P)) =
      (record_body num_lvl cp N 1 0 time k cle b (i + tid * chunk_base N P)).map
        (scratch_write.sample (chunk_base N 1)) := by
  have h1 := record_idx_eq N P tid i hi (by omega)
  have h2 := record_idx_eq N 1 0 (i + tid * chunk_base N P) (by omega) (by omega)
  have e : 0 * chunk_base N 1 + (i + tid * chunk_base N P) - OL =
      tid * chunk_base N P + i - OL := by omega
  rw [e] at h2
  unfold record_body
  simp only []
  rw [h1, h2, he, hd]
  by_cases hc : wrap64 ((tid * chunk_base N P + i - OL : Nat) : Int) ≥ cle.position ∧
      wrap64 ((tid * chunk_base N P + i - OL : Nat) : Int) <
        wrap64 ((cle.position : Int) + (cle.cols : Int))
  · rw [if_pos hc, if_pos hc]
    cases cle.type with
    | electric =>
      simp [scratch_write.sample]
      omega
    | inversion =>
      simp [scratch_write.sample]
      omega
    | density =>
      simp only []
      by_cases hrc : cle.row_idx = cle.col_idx
      · rw [if_pos hrc, if_pos hrc]
        simp [scratch_write.sample]
        omega
      · rw [if_neg hrc, if_neg hrc]
        rfl
    | other => rfl
  · rw [if_neg hc, if_neg hc]
    rfl

end mbsolve

namespace mbsolve

section samples
variable {num_adj : Nat} (s : solver num_adj)

/-- The samples of one worker for one window in a substep, listed by the
index of the single worker. -/
theorem record_window_sample (hP : 1 ≤ s.P) (hN : s.num_gridpoints + 2 * OL < 2147483648)
    (tid : Nat) (ht : tid < s.P) (time k : Nat) (cle : copy_list_entry)
    (a b : arena num_adj)
    (hag : arenas_agree a b (tid * chunk_base s.num_gridpoints s.P)
      (agree_lo_h tid OL) (agree_lo_h tid OL) (agree_hi s.num_gridpoints s.P tid OL)
      (arena_size s.num_gridpoints s.P tid)) :
    (record_window s.num_lvl s.calc_population s.num_gridpoints s.P tid time a k cle).map
        (scratch_write.sample (chunk_base s.num_gridpoints s.P)) =
      if cle.hasto_record time then
        (List.range' (OL + tid * chunk_base s.num_gridpoints s.P)
            (chunk s.num_gridpoints s.P tid)).flatMap
          (fun j => (record_body s.num_lvl s.calc_population s.num_gridpoints 1 0 time k cle
            b j).map (scratch_write.sample (chunk_base s.num_gridpoints 1)))
      else [] := by
  have hOL : OL = 32 := rfl
  obtain ⟨f1, _, f3, _⟩ := chunk_facts s.num_gridpoints s.P tid hP ht
  unfold record_window
  by_cases hr : cle.hasto_record time = true
  · rw [if_pos hr, if_pos hr, List.map_flatMap]
    have e : List.range' (OL + tid * chunk_base s.num_gridpoints s.P)
        (chunk s.num_gridpoints s.P tid) =
        (List.range' OL (chunk s.num_gridpoints s.P tid)).map
          (fun i => i + tid * chunk_base s.num_gridpoints s.P) := by
      rw [Nat.add_comm OL, ← List.map_add_range']
      apply List.map_congr_left
      intro i _
      omega
    rw [e, List.flatMap_map]
    apply List.flatMap_congr
    intro i hi
    rw [List.mem_range'_1] at hi
    have hlo : agree_lo_h tid OL ≤ i := by
      unfold agree_lo_h
      split_ifs <;> omega
    have hhi : i < agree_hi s.num_gridpoints s.P tid OL := by
      unfold agree_hi arena_size
      split_ifs <;> omega
    obtain ⟨q1, _, q3⟩ := hag.1 i hlo hhi
    exact record_body_sample _ _ _ _ _ _ _ _ _ _ _ hi.1 (by omega) q1 q3
  · rw [if_neg hr, if_neg hr]
    rfl

/-- The samples stored for window `k` in one substep by all workers
together are those stored by the single worker. -/
theorem substep_samples (hP : 1 ≤ s.P) (hN : s.num_gridpoints + 2 * OL < 2147483648)
    (time k : Nat) (ar ar1 : Nat → arena num_adj)
    (hag : ∀ tid, tid < s.P →
      arenas_agree (ar tid) (ar1 0) (tid * chunk_base s.num_gridpoints s.P)
        (agree_lo_h tid OL) (agree_lo_h tid OL) (agree_hi s.num_gridpoints s.P tid OL)
        (arena_size s.num_gridpoints s.P tid)) :
    (((List.range s.P).flatMap (fun tid =>
        record_worker s.num_lvl s.calc_population s.l_copy_list s.num_gridpoints s.P tid
          time (ar tid))).filter (fun w => decide (w.k = k))).map
        (scratch_write.sample (chunk_base s.num_gridpoints s.P)) =
      (((List.range 1).flatMap (fun tid =>
        record_worker s.num_lvl s.calc_population s.l_copy_list s.num_gridpoints 1 tid
          time (ar1 tid))).filter (fun w => decide (w.k = k))).map
        (scratch_write.sample (chunk_base s.num_gridpoints 1)) := by
  rw [List.filter_flatMap, List.map_flatMap, List.filter_flatMap, List.map_flatMap]
  simp only [record_worker_filter]
  have h1 : List.range 1 = [0] := rfl
  rw [h1, List.flatMap_singleton]
  cases hk : s.l_copy_list[k]? with
  | none =>
    simp only [Option.elim, List.map_nil]
    rw [List.flatMap_eq_nil_iff]
    intro _ _
    rfl
  | some cle =>
    simp only [Option.elim]
    have hl : ∀ tid ∈ List.range s.P,
        (record_window s.num_lvl s.calc_population s.num_gridpoints s.P tid time (ar tid)
            k cle).map (scratch_write.sample (chunk_base s.num_gridpoints s.P)) =
          (fun tid => if cle.hasto_record time then
            (List.range' (OL + tid * chunk_base s.num_gridpoints s.P)
                (chunk s.num_gridpoints s.P tid)).flatMap
              (fun j => (record_body s.num_lvl s.calc_population s.num_gridpoints 1 0 time k
                cle (ar1 0) j).map (scratch_write.sample (chunk_base s.num_gridpoints 1)))
            else []) tid := by
      intro tid ht
      rw [List.mem_range] at ht
      exact record_window_sample s hP hN tid ht time k cle _ _ (hag tid ht)
    rw [List.flatMap_congr hl]
    unfold record_window
    by_cases hr : cle.hasto_record time = true
    · simp only [hr, if_true]
      rw [← List.flatMap_assoc, chunks_concat s.num_gridpoints s.P OL hP, List.map_flatMap,
        chunk_single]
    · simp only [hr]
      simp only [Bool.false_eq_true, if_false, List.map_nil]
      rw [List.flatMap_eq_nil_iff]
      intro _ _
      rfl

/-- After every prefix of the steps of `run`, the samples stored so far for
each window by all workers together are those stored by the single worker, in
the same order. -/
theorem run_prefix_samples (hP : 1 ≤ s.P) (hcb : OL ≤ chunk_base s.num_gridpoints s.P)
    (hN : s.num_gridpoints + 2 * OL < 2147483648)
    (hsrc0 : ∀ src ∈ s.l_sim_sources, ∀ tid, 0 < tid → tid < s.P →
      source_at src (wrap32 ((tid : Int) * (chunk_base s.num_gridpoints s.P : Int))) ≠ 0)
    (T : Nat) (st st1 : state num_adj) (h : states_agree_owned s st st1)
    (hlog : st.log = []) (hlog1 : st1.log = []) (k j : Nat) :
    ((exec_list s st ((run_actions T).take j)).log.filter (fun w => decide (w.k = k))).map
        (scratch_write.sample (chunk_base s.num_gridpoints s.P)) =
      ((exec_list (single_worker s) st1 ((run_actions T).take j)).log.filter
        (fun w => decide (w.k = k))).map
        (scratch_write.sample (chunk_base s.num_gridpoints 1)) := by
  induction j with
  | zero =>
    simp [exec_list, hlog, hlog1]
  | succ j ih =>
    cases hj : (run_actions T)[j]? with
    | none =>
      rw [List.take_succ, hj]
      simpa using ih
    | some a =>
      have hag := run_prefix_agree s hP hcb hN hsrc0 T (j + 1) st st1 h
      rw [exec_list_take_succ s st _ j a hj,
        exec_list_take_succ (single_worker s) st1 _ j a hj] at hag ⊢
      cases a with
      | exchange n => exact ih
      | substep n m =>
        simp only [exec] at hag ⊢
        rw [substep_all_log, substep_all_log, List.filter_append, List.map_append,
          List.filter_append, List.map_append, ih]
        congr 1
        exact substep_samples s hP hN (n * OL + m) k _ _ hag

end samples

end mbsolve

namespace mbsolve

/-- Partition invariance where the slips of the constructor and of
`apply_sources_rk` do not show. Let every worker own at least `OL` points
(`OL <= N / P`),
let `N + 2 * OL` fit an `int`, let the global material-index map be 0 on the
`OL` points to the left of every chunk boundary, and let no source have the
local index 0 in a worker other than the first. Then after every step of
`run` (every exchange and every substep), from the memory the constructor sets
up, the electric field, the previous electric field, the magnetic field and
the quantum state of every worker at every owned index `i` are those of the
run with a single worker at the same grid point (index
`i + tid * chunk_base`), and for every window the samples (time step, grid
point, value) stored so far are the same, in the same order. -/
theorem partition_invariance {num_adj : Nat} (s : solver num_adj)
    (l_mat_indices : Nat → Nat) (a0 b0 : Nat → arena num_adj)
    (scratch0 scratch1 : Nat → real)
    (hP : 1 ≤ s.P) (hcb : OL ≤ chunk_base s.num_gridpoints s.P)
    (hN : s.num_gridpoints + 2 * OL < 2147483648)
    (hmat : ∀ tid i, 0 < tid → tid < s.P → i < OL →
      l_mat_indices (tid * chunk_base s.num_gridpoints s.P + i - OL) = 0)
    (hsrc0 : ∀ src ∈ s.l_sim_sources, ∀ tid, 0 < tid → tid < s.P →
      source_at src (wrap32 ((tid : Int) * (chunk_base s.num_gridpoints s.P : Int))) ≠ 0)
    (j : Nat) :
    (∀ tid i, tid < s.P → OL ≤ i → i < OL + chunk s.num_gridpoints s.P tid →
      ((exec_list s (init_state s l_mat_indices a0 scratch0)
          ((run_actions s.num_timesteps).take j)).arenas tid).e i =
        ((exec_list (single_worker s) (init_state (single_worker s) l_mat_indices b0 scratch1)
          ((run_actions s.num_timesteps).take j)).arenas 0).e
            (i + tid * chunk_base s.num_gridpoints s.P) ∧
      ((exec_list s (init_state s l_mat_indices a0 scratch0)
          ((run_actions s.num_timesteps).take j)).arenas tid).e_o i =
        ((exec_list (single_worker s) (init_state (single_worker s) l_mat_indices b0 scratch1)
          ((run_actions s.num_timesteps).take j)).arenas 0).e_o
            (i + tid * chunk_base s.num_gridpoints s.P) ∧
      ((exec_list s (init_state s l_mat_indices a0 scratch0)
          ((run_actions s.num_timesteps).take j)).arenas tid).h i =
        ((exec_list (single_worker s) (init_state (single_worker s) l_mat_indices b0 scratch1)
          ((run_actions s.num_timesteps).take j)).arenas 0).h
            (i + tid * chunk_base s.num_gridpoints s.P) ∧
      ((exec_list s (init_state s l_mat_indices a0 scratch0)
          ((run_actions s.num_timesteps).take j)).arenas tid).d i =
        ((exec_list (single_worker s) (init_state (single_worker s) l_mat_indices b0 scratch1)
          ((run_actions s.num_timesteps).take j)).arenas 0).d
            (i + tid * chunk_base s.num_gridpoints s.P)) ∧
    (∀ k,
      ((exec_list s (init_state s l_mat_indices a0 scratch0)
          ((run_actions s.num_timesteps).take j)).log.filter
            (fun w => decide (w.k = k))).map
          (scratch_write.sample (chunk_base s.num_gridpoints s.P)) =
        ((exec_list (single_worker s) (init_state (single_worker s) l_mat_indices b0 scratch1)
          ((run_actions s.num_timesteps).take j)).log.filter
            (fun w => decide (w.k = k))).map
          (scratch_write.sample (chunk_base s.num_gridpoints 1))) := by
  have hinit : states_agree_owned s (init_state s l_mat_indices a0 scratch0)
      (init_state (single_worker s) l_mat_indices b0 scratch1) := by
    intro tid ht
    have e1 : (init_state s l_mat_indices a0 scratch0).arenas tid =
        init_arena l_mat_indices s.l_sim_consts s.num_gridpoints s.P tid (a0 tid) := by
      simp [init_state, ht]
    have e2 : (init_state (single_worker s) l_mat_indices b0 scratch1).arenas 0 =
        init_arena l_mat_indices s.l_sim_consts s.num_gridpoints 1 0 (b0 0) := by
      simp [init_state, single_worker]
    rw [e1, e2]
    exact init_arena_agree l_mat_indices s.l_sim_consts s.num_gridpoints s.P hP hcb hN hmat
      (a0 tid) (b0 0) tid ht
  constructor
  · intro tid i ht hi1 hi2
    have hag := run_prefix_agree s hP hcb hN hsrc0 s.num_timesteps j _ _ hinit tid ht
    have hlo : agree_lo_h tid OL ≤ i := by
      unfold agree_lo_h
      split_ifs <;> omega
    have hhi : i < agree_hi s.num_gridpoints s.P tid OL := by
      unfold agree_hi arena_size
      have hOL : OL = 32 := rfl
      split_ifs <;> omega
    obtain ⟨q1, q2, q3⟩ := hag.1 i hlo hhi
    exact ⟨q1, q2, hag.2.1 i hlo hhi, q3⟩
  · intro k
    exact run_prefix_samples s hP hcb hN hsrc0 s.num_timesteps _ _ hinit rfl rfl k j

end mbsolve

namespace mbsolve

theorem partition_invariance_witness :
    (1 ≤ hard_source_solver.P ∧
      OL ≤ chunk_base hard_source_solver.num_gridpoints hard_source_solver.P ∧
      hard_source_solver.num_gridpoints + 2 * OL < 2147483648 ∧
      (∀ tid i, 0 < tid → tid < hard_source_solver.P → i < OL →
        (fun _ : Nat => 0)
          (tid * chunk_base hard_source_solver.num_gridpoints hard_source_solver.P + i - OL)
            = 0) ∧
      (∀ src ∈ hard_source_solver.l_sim_sources, ∀ tid, 0 < tid → tid < hard_source_solver.P →
        source_at src (wrap32 ((tid : Int) *
          (chunk_base hard_source_solver.num_gridpoints hard_source_solver.P : Int))) ≠ 0)) ∧
    ((∀ tid i, tid < hard_source_solver.P → OL ≤ i →
      i < OL + chunk hard_source_solver.num_gridpoints hard_source_solver.P tid →
      ((exec_list hard_source_solver
          (init_state hard_source_solver (fun _ => 0) (fun _ => zero_arena) (fun _ => 0))
          ((run_actions hard_source_solver.num_timesteps).take 37)).arenas tid).e i =
        ((exec_list (single_worker hard_source_solver)
          (init_state (single_worker hard_source_solver) (fun _ => 0) (fun _ => zero_arena)
            (fun _ => 0))
          ((run_actions hard_source_solver.num_timesteps).take 37)).arenas 0).e
            (i + tid * chunk_base hard_source_solver.num_gridpoints hard_source_solver.P) ∧
      ((exec_list hard_source_solver
          (init_state hard_source_solver (fun _ => 0) (fun _ => zero_arena) (fun _ => 0))
          ((run_actions hard_source_solver.num_timesteps).take 37)).arenas tid).e_o i =
        ((exec_list (single_worker hard_source_solver)
          (init_state (single_worker hard_source_solver) (fun _ => 0) (fun _ => zero_arena)
            (fun _ => 0))
          ((run_actions hard_source_solver.num_timesteps).take 37)).arenas 0).e_o
            (i + tid * chunk_base hard_source_solver.num_gridpoints hard_source_solver.P) ∧
      ((exec_list hard_source_solver
          (init_state hard_source_solver (fun _ => 0) (fun _ => zero_arena) (fun _ => 0))
          ((run_actions hard_source_solver.num_timesteps).take 37)).arenas tid).h i =
        ((exec_list (single_worker hard_source_solver)
          (init_state (single_worker hard_source_solver) (fun _ => 0) (fun _ => zero_arena)
            (fun _ => 0))
          ((run_actions hard_source_solver.num_timesteps).take 37)).arenas 0).h
            (i + tid * chunk_base hard_source_solver.num_gridpoints hard_source_solver.P) ∧
      ((exec_list hard_source_solver
          (init_state hard_source_solver (fun _ => 0) (fun _ => zero_arena) (fun _ => 0))
          ((run_actions hard_source_solver.num_timesteps).take 37)).arenas tid).d i =
        ((exec_list (single_worker hard_source_solver)
          (init_state (single_worker hard_source_solver) (fun _ => 0) (fun _ => zero_arena)
            (fun _ => 0))
          ((run_actions hard_source_solver.num_timesteps).take 37)).arenas 0).d
            (i + tid * chunk_base hard_source_solver.num_gridpoints hard_source_solver.P)) ∧
    (∀ k,
      ((exec_list hard_source_solver
          (init_state hard_source_solver (fun _ => 0) (fun _ => zero_arena) (fun _ => 0))
          ((run_actions hard_source_solver.num_timesteps).take 37)).log.filter
            (fun w => decide (w.k = k))).map
          (scratch_write.sample
            (chunk_base hard_source_solver.num_gridpoints hard_source_solver.P)) =
        ((exec_list (single_worker hard_source_solver)
          (init_state (single_worker hard_source_solver) (fun _ => 0) (fun _ => zero_arena)
            (fun _ => 0))
          ((run_actions hard_source_solver.num_timesteps).take 37)).log.filter
            (fun w => decide (w.k = k))).map
          (scratch_write.sample (chunk_base hard_source_solver.num_gridpoints 1)))) :=
  have h4 : ∀ tid i, 0 < tid → tid < hard_source_solver.P → i < OL →
      (fun _ : Nat => 0)
        (tid * chunk_base hard_source_solver.num_gridpoints hard_source_solver.P + i - OL)
          = 0 := fun _ _ _ _ _ => rfl
  have h5 : ∀ src ∈ hard_source_solver.l_sim_sources, ∀ tid, 0 < tid →
      tid < hard_source_solver.P →
      source_at src (wrap32 ((tid : Int) *
        (chunk_base hard_source_solver.num_gridpoints hard_source_solver.P : Int))) ≠ 0 := by
    intro src hsrc tid h0 h1
    have hl : hard_source_solver.l_sim_sources = [⟨source_type.hard_source, 50, 0⟩] := rfl
    have hp : hard_source_solver.P = 2 := rfl
    rw [hl, List.mem_singleton] at hsrc
    rw [hp] at h1
    have ht : tid = 1 := by omega
    subst ht
    subst hsrc
    decide
  ⟨⟨by decide, by decide, by decide, h4, h5⟩,
    partition_invariance hard_source_solver (fun _ => 0) (fun _ => zero_arena)
      (fun _ => zero_arena) (fun _ => 0) (fun _ => 0) (by decide) (by decide) (by decide)
      h4 h5 37⟩

end mbsolve

namespace mbsolve

/-! ## The example with chunks smaller than the overlap -/

theorem init_arena_e_h {num_adj : Nat} (l_mat_indices : Nat → Nat)
    (c : Nat → sim_constants_clvl_rk num_adj) (N P tid : Nat) (a0 : arena num_adj) (i : Nat) :
    (init_arena l_mat_indices c N P tid a0).e i =
      (if i < arena_size N P tid then 0 else a0.e i) ∧
    (init_arena l_mat_indices c N P tid a0).h i =
      (if i < arena_size N P tid then 0 else a0.h i) := by
  unfold init_arena
  constructor
  · rw [foldl_pointwise (init_body l_mat_indices c N P tid)
      (fun a => a.e) (fun _ _ => 0) _ _ _ _ (List.nodup_range _)]
    · simp
    · intro s x j hj
      by_cases hg : global_idx N P tid x < N <;>
        simp [init_body, hg, Function.update_noteq hj]
    · intro s x
      by_cases hg : global_idx N P tid x < N <;> simp [init_body, hg]
    · intro s x j _
      rfl
  · rw [foldl_pointwise (init_body l_mat_indices c N P tid)
      (fun a => a.h) (fun _ _ => 0) _ _ _ _ (List.nodup_range _)]
    · simp
    · intro s x j hj
      by_cases hg : global_idx N P tid x < N <;>
        simp [init_body, hg, Function.update_noteq hj]
    · intro s x
      by_cases hg : global_idx N P tid x < N <;> simp [init_body, hg]
    · intro s x j _
      rfl

/-- With the coefficient records of the examples, the electric field after
`update_d` and `update_fdtd`. -/
theorem example_fdtd_e (size bd : Nat) (a : arena 3) (i : Nat) :
    (update_fdtd size bd example_consts (update_d size bd example_consts a)).e i =
      if i ∈ loop_range size bd then a.e i + (a.h (i + 1) - a.h i) else a.e i := by
  rw [update_fdtd_e]
  by_cases hr : i ∈ loop_range size bd
  · rw [if_pos hr, if_pos hr, update_d_p, if_pos hr, update_d_e, update_d_h]
    simp [update_d_body, example_consts]
  · rw [if_neg hr, if_neg hr, update_d_e]

/-- With the coefficient records of the examples, the magnetic field after
`update_h`. -/
theorem example_update_h (size bd : Nat) (a : arena 3) (i : Nat) :
    (update_h size bd example_consts a).h i =
      if i ∈ loop_range size bd ∧ bd + 1 ≤ i then a.h i + (a.e i - a.e (i - 1))
      else a.h i := by
  rw [update_h_h]
  by_cases hr : i ∈ loop_range size bd ∧ bd + 1 ≤ i
  · rw [if_pos hr, if_pos hr]
    simp [example_consts]
  · rw [if_neg hr, if_neg hr]

end mbsolve

namespace mbsolve

/-- One substep of a worker of a solver with the coefficient records of the
examples and a single soft source at grid point 0. -/
theorem example_substep (s : solver 3) (hc : s.l_sim_consts = example_consts)
    (hsrc : s.l_sim_sources = [⟨source_type.soft_source, 0, 0⟩]) (n m tid : Nat)
    (a : arena 3) :
    (∀ i, (substep_worker s n m tid a).e i =
      (if i ∈ loop_range (arena_size s.num_gridpoints s.P tid) (border m) then
          a.e i + (a.h (i + 1) - a.h i) else a.e i) +
        (if 0 < source_at ⟨source_type.soft_source, 0, 0⟩
              (wrap32 ((tid : Int) * (chunk_base s.num_gridpoints s.P : Int))) ∧
            source_at ⟨source_type.soft_source, 0, 0⟩
              (wrap32 ((tid : Int) * (chunk_base s.num_gridpoints s.P : Int))) <
              ((chunk s.num_gridpoints s.P tid + 2 * OL : Nat) : Int) ∧
            (source_at ⟨source_type.soft_source, 0, 0⟩
              (wrap32 ((tid : Int) * (chunk_base s.num_gridpoints s.P : Int)))).toNat = i
          then s.m_source_data (n * OL + m) else 0)) ∧
    (∀ i, (substep_worker s n m tid a).h i =
      if tid = s.P - 1 ∧ i = OL + chunk s.num_gridpoints s.P tid then 0
      else if tid = 0 ∧ i = OL then 0
      else if i ∈ loop_range (arena_size s.num_gridpoints s.P tid) (border m) ∧
          border m + 1 ≤ i then
        a.h i + ((substep_worker s n m tid a).e i - (substep_worker s n m tid a).e (i - 1))
      else a.h i) := by
  constructor
  · intro i
    rw [substep_worker_e, hsrc, hc]
    unfold apply_sources_rk
    rw [List.foldl_cons, List.foldl_nil, apply_source_body_apply, example_fdtd_e]
    split_ifs <;> simp
  · intro i
    rw [substep_worker_h, hc, example_update_h]
    simp only [update_fdtd_h, update_d_h]

theorem small_solver_actions :
    (run_actions small_solver.num_timesteps).take 3 =
      [action.exchange 0, action.substep 0 0, action.substep 0 1] := by decide

/-- With fewer than `OL` owned points per worker the runs differ. For 2 grid
points, 2 workers and a soft source at grid point 0 with the values `1, 0`: index 32 of worker 1 is owned (grid point 1,
index 33 of the single worker), the third step of `run` is the substep with
time index 1, and after it the magnetic field of worker 1 there is 1, in the
run with a single worker it is 0. -/
theorem partition_small_chunk_counterexample :
    (1 < small_solver.P ∧ OL ≤ 32 ∧
      32 < OL + chunk small_solver.num_gridpoints small_solver.P 1 ∧
      32 + 1 * chunk_base small_solver.num_gridpoints small_solver.P = 33 ∧
      (run_actions small_solver.num_timesteps)[2]? = some (action.substep 0 1)) ∧
    ((exec_list small_solver
        (init_state small_solver (fun _ => 0) (fun _ => zero_arena) (fun _ => 0))
        ((run_actions small_solver.num_timesteps).take 3)).arenas 1).h 32 = 1 ∧
    ((exec_list (single_worker small_solver)
        (init_state (single_worker small_solver) (fun _ => 0) (fun _ => zero_arena)
          (fun _ => 0))
        ((run_actions small_solver.num_timesteps).take 3)).arenas 0).h 33 = 0 := by
  refine ⟨⟨by decide, by decide, by decide, by decide, by decide⟩, ?_, ?_⟩
  · rw [small_solver_actions]
    -- memory of worker 1 after the exchange: all fields zero
    have hz : ∀ t i,
        ((init_state small_solver (fun _ => 0) (fun _ => zero_arena)
          (fun _ => 0)).arenas t).e i = 0 ∧
        ((init_state small_solver (fun _ => 0) (fun _ => zero_arena)
          (fun _ => 0)).arenas t).h i = 0 := by
      intro t i
      simp only [init_state]
      split_ifs
      · obtain ⟨h1, h2⟩ := init_arena_e_h (fun _ => 0) small_solver.l_sim_consts
          small_solver.num_gridpoints small_solver.P t zero_arena i
        rw [h1, h2]
        simp [zero_arena]
      · simp [zero_arena]
    have hE : ∀ i,
        ((exec small_solver
          (init_state small_solver (fun _ => 0) (fun _ => zero_arena) (fun _ => 0))
          (action.exchange 0)).arenas 1).e i = 0 ∧
        ((exec small_solver
          (init_state small_solver (fun _ => 0) (fun _ => zero_arena) (fun _ => 0))
          (action.exchange 0)).arenas 1).h i = 0 := by
      intro i
      simp only [exec, exchange_all]
      rw [if_pos (by decide)]
      obtain ⟨a1, _, a3, _⟩ := exchange_worker_apply small_solver.num_gridpoints
        small_solver.P 1
        ((init_state small_solver (fun _ => 0) (fun _ => zero_arena) (fun _ => 0)).arenas (1 - 1))
        ((init_state small_solver (fun _ => 0) (fun _ => zero_arena) (fun _ => 0)).arenas 1)
        ((init_state small_solver (fun _ => 0) (fun _ => zero_arena) (fun _ => 0)).arenas (1 + 1))
        i
      rw [a1, a3]
      simp only [(hz _ _).1, (hz _ _).2]
      simp
    simp only [exec_list, List.foldl_cons, List.foldl_nil]
    generalize hst : exec small_solver
      (init_state small_solver (fun _ => 0) (fun _ => zero_arena) (fun _ => 0))
      (action.exchange 0) = stE at hE
    have e1 : (exec small_solver (exec small_solver stE (action.substep 0 0))
        (action.substep 0 1)).arenas 1 =
        substep_worker small_solver 0 1 1
          (substep_worker small_solver 0 0 1 (stE.arenas 1)) := by
      simp [exec, substep_all, small_solver, example_solver]
    rw [e1]
    obtain ⟨pA, qA⟩ := example_substep small_solver rfl rfl 0 0 1 (stE.arenas 1)
    obtain ⟨pB, qB⟩ := example_substep small_solver rfl rfl 0 1 1
      (substep_worker small_solver 0 0 1 (stE.arenas 1))
    have hat : source_at ⟨source_type.soft_source, 0, 0⟩
        (wrap32 (((1 : Nat) : Int) *
          (chunk_base small_solver.num_gridpoints small_solver.P : Int))) = 31 := by decide
    have hch : ((chunk small_solver.num_gridpoints small_solver.P 1 + 2 * OL : Nat) : Int)
        = 65 := by decide
    have hr : ∀ i, i ∈ loop_range (arena_size small_solver.num_gridpoints small_solver.P 1)
        0 ↔ i < 64 := by
      intro i
      rw [mem_loop_range]
      have h1 : loop_end (arena_size small_solver.num_gridpoints small_solver.P 1)
          0 = 64 := by decide
      rw [h1]
      omega
    have hb0 : border 0 = 0 := rfl
    have hb1 : border 1 = 0 := rfl
    have hd0 : small_solver.m_source_data (0 * OL + 0) = 1 := by
      simp [small_solver, example_solver]
    have hd1 : small_solver.m_source_data (0 * OL + 1) = 0 := by
      simp [small_solver, example_solver, OL]
    have hP1 : small_solver.P - 1 = 1 := rfl
    have hOLc : OL + chunk small_solver.num_gridpoints small_solver.P 1 = 33 := by decide
    have hOL : OL = 32 := rfl
    have htn : Int.toNat 31 = 31 := rfl
    -- after the substep with time index 0
    have A31 : (substep_worker small_solver 0 0 1 (stE.arenas 1)).e 31 = 1 := by
      rw [pA 31, hat, hch, hd0, (hE 31).1, (hE 31).2, (hE 32).2]
      norm_num [hb0, hb1, hr, hOL, htn]
    have A30 : (substep_worker small_solver 0 0 1 (stE.arenas 1)).e 30 = 0 := by
      rw [pA 30, hat, hch, hd0, (hE 30).1, (hE 30).2, (hE 31).2]
      norm_num [hb0, hb1, hr, hOL, htn]
    have A32 : (substep_worker small_solver 0 0 1 (stE.arenas 1)).e 32 = 0 := by
      rw [pA 32, hat, hch, hd0, (hE 32).1, (hE 32).2, (hE 33).2]
      norm_num [hb0, hb1, hr, hOL, htn]
    have Ah31 : (substep_worker small_solver 0 0 1 (stE.arenas 1)).h 31 = 1 := by
      rw [qA 31, A31, A30, (hE 31).2, hP1, hOLc]
      norm_num [hb0, hb1, hr, hOL, htn]
    have Ah32 : (substep_worker small_solver 0 0 1 (stE.arenas 1)).h 32 = -1 := by
      rw [qA 32, A32, A31, (hE 32).2, hP1, hOLc]
      norm_num [hb0, hb1, hr, hOL, htn]
    have Ah33 : (substep_worker small_solver 0 0 1 (stE.arenas 1)).h 33 = 0 := by
      rw [qA 33, hP1, hOLc]
      simp
    -- after the substep with time index 1
    have B31 : (substep_worker small_solver 0 1 1
        (substep_worker small_solver 0 0 1 (stE.arenas 1))).e 31 = -1 := by
      rw [pB 31, hat, hch, hd1, A31, Ah31, Ah32]
      norm_num [hb0, hb1, hr, hOL, htn]
    have B32 : (substep_worker small_solver 0 1 1
        (substep_worker small_solver 0 0 1 (stE.arenas 1))).e 32 = 1 := by
      rw [pB 32, hat, hch, hd1, A32, Ah32, Ah33]
      norm_num [hb0, hb1, hr, hOL, htn]
    rw [qB 32, B32, B31, Ah32, hP1, hOLc]
    norm_num [hb0, hb1, hr, hOL, htn]
  · rw [small_solver_actions]
    have hz : ∀ t i,
        ((init_state (single_worker small_solver) (fun _ => 0) (fun _ => zero_arena)
          (fun _ => 0)).arenas t).e i = 0 ∧
        ((init_state (single_worker small_solver) (fun _ => 0) (fun _ => zero_arena)
          (fun _ => 0)).arenas t).h i = 0 := by
      intro t i
      simp only [init_state]
      split_ifs
      · obtain ⟨h1, h2⟩ := init_arena_e_h (fun _ => 0)
          (single_worker small_solver).l_sim_consts
          (single_worker small_solver).num_gridpoints (single_worker small_solver).P t
          zero_arena i
        rw [h1, h2]
        simp [zero_arena]
      · simp [zero_arena]
    have hE : ∀ i,
        ((exec (single_worker small_solver)
          (init_state (single_worker small_solver) (fun _ => 0) (fun _ => zero_arena)
            (fun _ => 0))
          (action.exchange 0)).arenas 0).e i = 0 ∧
        ((exec (single_worker small_solver)
          (init_state (single_worker small_solver) (fun _ => 0) (fun _ => zero_arena)
            (fun _ => 0))
          (action.exchange 0)).arenas 0).h i = 0 := by
      intro i
      simp only [exec, exchange_all]
      rw [if_pos (by decide)]
      obtain ⟨a1, _, a3, _⟩ := exchange_worker_apply
        (single_worker small_solver).num_gridpoints (single_worker small_solver).P 0
        ((init_state (single_worker small_solver) (fun _ => 0) (fun _ => zero_arena)
          (fun _ => 0)).arenas (0 - 1))
        ((init_state (single_worker small_solver) (fun _ => 0) (fun _ => zero_arena)
          (fun _ => 0)).arenas 0)
        ((init_state (single_worker small_solver) (fun _ => 0) (fun _ => zero_arena)
          (fun _ => 0)).arenas (0 + 1))
        i
      rw [a1, a3]
      simp only [(hz _ _).1, (hz _ _).2]
      simp
    simp only [exec_list, List.foldl_cons, List.foldl_nil]
    generalize hst : exec (single_worker small_solver)
      (init_state (single_worker small_solver) (fun _ => 0) (fun _ => zero_arena)
        (fun _ => 0))
      (action.exchange 0) = stE at hE
    have e1 : (exec (single_worker small_solver)
        (exec (single_worker small_solver) stE (action.substep 0 0))
        (action.substep 0 1)).arenas 0 =
        substep_worker (single_worker small_solver) 0 1 0
          (substep_worker (single_worker small_solver) 0 0 0 (stE.arenas 0)) := by
      simp [exec, substep_all, single_worker]
    rw [e1]
    obtain ⟨pA, qA⟩ := example_substep (single_worker small_solver) rfl rfl 0 0 0
      (stE.arenas 0)
    obtain ⟨pB, qB⟩ := example_substep (single_worker small_solver) rfl rfl 0 1 0
      (substep_worker (single_worker small_solver) 0 0 0 (stE.arenas 0))
    have hat : source_at ⟨source_type.soft_source, 0, 0⟩
        (wrap32 (((0 : Nat) : Int) *
          (chunk_base (single_worker small_solver).num_gridpoints
            (single_worker small_solver).P : Int))) = 32 := by decide
    have hch : ((chunk (single_worker small_solver).num_gridpoints
        (single_worker small_solver).P 0 + 2 * OL : Nat) : Int) = 66 := by decide
    have hr : ∀ i, i ∈ loop_range (arena_size (single_worker small_solver).num_gridpoints
        (single_worker small_solver).P 0) 0 ↔ i < 65 := by
      intro i
      rw [mem_loop_range]
      have h1 : loop_end (arena_size (single_worker small_solver).num_gridpoints
          (single_worker small_solver).P 0) 0 = 65 := by decide
      rw [h1]
      omega
    have hb0 : border 0 = 0 := rfl
    have hb1 : border 1 = 0 := rfl
    have hd0 : (single_worker small_solver).m_source_data (0 * OL + 0) = 1 := by
      simp [single_worker, small_solver, example_solver]
    have hd1 : (single_worker small_solver).m_source_data (0 * OL + 1) = 0 := by
      simp [single_worker, small_solver, example_solver, OL]
    have hP1 : (single_worker small_solver).P - 1 = 0 := rfl
    have hOLc : OL + chunk (single_worker small_solver).num_gridpoints
        (single_worker small_solver).P 0 = 34 := by decide
    have hOL : OL = 32 := rfl
    have htn : Int.toNat 32 = 32 := rfl
    -- after the substep with time index 0
    have A32 : (substep_worker (single_worker small_solver) 0 0 0 (stE.arenas 0)).e 32
        = 1 := by
      rw [pA 32, hat, hch, hd0, (hE 32).1, (hE 32).2, (hE 33).2]
      norm_num [hb0, hb1, hr, hOL, htn]
    have A33 : (substep_worker (single_worker small_solver) 0 0 0 (stE.arenas 0)).e 33
        = 0 := by
      rw [pA 33, hat, hch, hd0, (hE 33).1, (hE 33).2, (hE 34).2]
      norm_num [hb0, hb1, hr, hOL, htn]
    have Ah32 : (substep_worker (single_worker small_solver) 0 0 0 (stE.arenas 0)).h 32
        = 0 := by
      rw [qA 32, hP1, hOLc]
      norm_num [hOL]
    have Ah33 : (substep_worker (single_worker small_solver) 0 0 0 (stE.arenas 0)).h 33
        = -1 := by
      rw [qA 33, A33, A32, (hE 33).2, hP1, hOLc]
      norm_num [hb0, hb1, hr, hOL, htn]
    have Ah34 : (substep_worker (single_worker small_solver) 0 0 0 (stE.arenas 0)).h 34
        = 0 := by
      rw [qA 34, hP1, hOLc]
      norm_num
    -- after the substep with time index 1
    have B32 : (substep_worker (single_worker small_solver) 0 1 0
        (substep_worker (single_worker small_solver) 0 0 0 (stE.arenas 0))).e 32 = 0 := by
      rw [pB 32, hat, hch, hd1, A32, Ah32, Ah33]
      norm_num [hb0, hb1, hr, hOL, htn]
    have B33 : (substep_worker (single_worker small_solver) 0 1 0
        (substep_worker (single_worker small_solver) 0 0 0 (stE.arenas 0))).e 33 = 1 := by
      rw [pB 33, hat, hch, hd1, A33, Ah33, Ah34]
      norm_num [hb0, hb1, hr, hOL, htn]
    rw [qB 33, B33, B32, Ah33, hP1, hOLc]
    norm_num [hb0, hb1, hr, hOL, htn]

end mbsolve

namespace mbsolve

/-! ## Scratch layout -/

theorem wrap64_add_small (a b : Nat) (h : a + b < 18446744073709551616) :
    wrap64 ((a : Int) + (b : Int)) = a + b := by
  unfold wrap64
  omega

/-- The layout loop appends one entry per record; when the counter does not
wrap, it ends at the start value plus the widths, and every entry is made with
the start value plus the widths before it. -/
theorem scratch_layout_spec (mk_entry : record → Nat → copy_list_entry_sized) :
    ∀ (recs : List record) (acc : List copy_list_entry_sized) (s : Nat),
      ∃ es : List copy_list_entry_sized,
        (scratch_layout mk_entry recs acc s).1 = acc ++ es ∧
        es.length = recs.length ∧
        (s + (List.zipWith scratch_width es recs).sum < 18446744073709551616 →
          (scratch_layout mk_entry recs acc s).2 =
            s + (List.zipWith scratch_width es recs).sum ∧
          ∀ k rec, recs[k]? = some rec →
            es[k]? = some (mk_entry rec
              (s + ((List.zipWith scratch_width es recs).take k).sum))) := by
  intro recs
  induction recs with
  | nil =>
    intro acc s
    refine ⟨[], by simp [scratch_layout], rfl, ?_⟩
    intro _
    simp [scratch_layout]
  | cons r rs ih =>
    intro acc s
    obtain ⟨es, h1, h2, h3⟩ := ih (acc ++ [mk_entry r s])
      (if r.is_complex then
        wrap64 ((wrap64 ((s : Int) + ((mk_entry r s).size : Int)) : Int) +
          ((mk_entry r s).size : Int))
       else wrap64 ((s : Int) + ((mk_entry r s).size : Int)))
    refine ⟨mk_entry r s :: es, ?_, by simp [h2], ?_⟩
    · simp only [scratch_layout]
      rw [h1]
      simp
    · intro hfit
      simp only [List.zipWith_cons_cons, List.sum_cons] at hfit
      have hs2 : (if r.is_complex then
            wrap64 ((wrap64 ((s : Int) + ((mk_entry r s).size : Int)) : Int) +
              ((mk_entry r s).size : Int))
          else wrap64 ((s : Int) + ((mk_entry r s).size : Int))) =
          s + scratch_width (mk_entry r s) r := by
        have hw : scratch_width (mk_entry r s) r =
            (mk_entry r s).size * (if r.is_complex then 2 else 1) := rfl
        rw [hw] at hfit ⊢
        generalize (List.zipWith scratch_width es rs).sum = W at hfit
        by_cases hc : r.is_complex = true
        · simp only [if_pos hc] at hfit ⊢
          have e1 := wrap64_add_small s (mk_entry r s).size (by omega)
          have e2 := wrap64_add_small (s + (mk_entry r s).size) (mk_entry r s).size
            (by omega)
          rw [e1, e2]
          omega
        · simp only [if_neg hc] at hfit ⊢
          have e1 := wrap64_add_small s (mk_entry r s).size (by omega)
          rw [e1]
          omega
      rw [hs2] at h3
      obtain ⟨h4, h5⟩ := h3 (by omega)
      constructor
      · simp only [scratch_layout]
        rw [hs2, h4]
        simp only [List.zipWith_cons_cons, List.sum_cons]
        omega
      · intro k rec hk
        cases k with
        | zero =>
          simp only [List.getElem?_cons_zero, Option.some.injEq] at hk
          subst hk
          simp
        | succ k =>
          simp only [List.getElem?_cons_succ] at hk ⊢
          rw [h5 k rec hk]
          simp only [List.zipWith_cons_cons, List.take_succ_cons, List.sum_cons]
          rw [Nat.add_assoc]

end mbsolve

namespace mbsolve

theorem sum_take_succ_getD (W : List Nat) :
    ∀ j, (W.take (j + 1)).sum = (W.take j).sum + W.getD j 0 := by
  induction W with
  | nil => intro j; simp
  | cons w W ih =>
    intro j
    cases j with
    | zero => simp
    | succ j =>
      simp only [List.take_succ_cons, List.sum_cons, List.getD_cons_succ]
      rw [ih j]
      omega

theorem sum_take_mono (W : List Nat) :
    ∀ a b, a ≤ b → (W.take a).sum ≤ (W.take b).sum := by
  induction W with
  | nil => intro a b _; simp
  | cons w W ih =>
    intro a b hab
    cases a with
    | zero => simp
    | succ a =>
      cases b with
      | zero => omega
      | succ b =>
        simp only [List.take_succ_cons, List.sum_cons]
        have := ih a b (by omega)
        omega

theorem sum_take_le (W : List Nat) (k : Nat) : (W.take k).sum ≤ W.sum := by
  by_cases hk : k ≤ W.length
  · have h := sum_take_mono W k W.length hk
    simpa using h
  · rw [List.take_of_length_le (by omega)]

end mbsolve

namespace mbsolve

/-- C11. The constructor makes one entry per record, in order. When the sum
of the widths (`get_size()` times 2 for a complex record, times 1 otherwise)
fits a `uint64_t`, the scratch size is that sum, the offset handed to the
entry of window `k` is the sum of the widths of the windows before it, the
region of a window ends where no later region has begun, and every region
ends inside `[0, scratch_size)`. -/
theorem scratch_layout_offsets (mk_entry : record → Nat → copy_list_entry_sized)
    (recs : List record)
    (hfit : (List.zipWith scratch_width (scratch_layout mk_entry recs [] 0).1 recs).sum <
      18446744073709551616) :
    (scratch_layout mk_entry recs [] 0).1.length = recs.length ∧
    (scratch_layout mk_entry recs [] 0).2 =
      (List.zipWith scratch_width (scratch_layout mk_entry recs [] 0).1 recs).sum ∧
    (∀ k rec, recs[k]? = some rec →
      (scratch_layout mk_entry recs [] 0).1[k]? = some (mk_entry rec
        ((List.zipWith scratch_width (scratch_layout mk_entry recs [] 0).1 recs).take k).sum)) ∧
    (∀ j k, j < k → k < recs.length →
      ((List.zipWith scratch_width (scratch_layout mk_entry recs [] 0).1 recs).take j).sum +
          (List.zipWith scratch_width (scratch_layout mk_entry recs [] 0).1 recs).getD j 0 ≤
        ((List.zipWith scratch_width (scratch_layout mk_entry recs [] 0).1 recs).take k).sum) ∧
    (∀ k, k < recs.length →
      ((List.zipWith scratch_width (scratch_layout mk_entry recs [] 0).1 recs).take k).sum +
          (List.zipWith scratch_width (scratch_layout mk_entry recs [] 0).1 recs).getD k 0 ≤
        (scratch_layout mk_entry recs [] 0).2) := by
  obtain ⟨es, h1, h2, h3⟩ := scratch_layout_spec mk_entry recs [] 0
  rw [List.nil_append] at h1
  rw [h1] at hfit ⊢
  obtain ⟨h4, h5⟩ := h3 (by omega)
  rw [h4]
  refine ⟨h2, by omega, ?_, ?_, ?_⟩
  · intro k rec hk
    rw [h5 k rec hk, Nat.zero_add]
  · intro j k hjk _
    rw [← sum_take_succ_getD]
    exact sum_take_mono _ _ _ hjk
  · intro k _
    rw [← sum_take_succ_getD, Nat.zero_add]
    exact sum_take_le _ _

theorem scratch_layout_offsets_witness :
    (List.zipWith scratch_width (scratch_layout example_mk_entry example_records [] 0).1
        example_records).sum < 18446744073709551616 ∧
    (scratch_layout example_mk_entry example_records [] 0).2 = 20 :=
  ⟨by decide,
    (scratch_layout_offsets example_mk_entry example_records (by decide)).2.1.trans
      (by decide)⟩

end mbsolve

namespace mbsolve

/-! ## The recorder writes of different workers -/

/-- Every store in the log of a run is made for a selected window by a
worker at an owned index, for a grid point of the window. -/
theorem run_log_owned {num_adj : Nat} (s : solver num_adj)
    (l_mat_indices : Nat → Nat) (a0 : Nat → arena num_adj) (scratch0 : Nat → real)
    (hN : s.num_gridpoints + 2 * OL < 9223372036854775808)
    (hwin : ∀ cle ∈ s.l_copy_list, cle.position + cle.cols < 18446744073709551616) :
    ∀ wr ∈ (run s (init_state s l_mat_indices a0 scratch0)).log,
      ∃ cle, s.l_copy_list[wr.k]? = some cle ∧ cle.hasto_record wr.time = true ∧
        wr.tid < s.P ∧ OL ≤ wr.i ∧ wr.i < OL + chunk s.num_gridpoints s.P wr.tid ∧
        cle.position ≤ wr.tid * chunk_base s.num_gridpoints s.P + wr.i - OL ∧
        wr.tid * chunk_base s.num_gridpoints s.P + wr.i - OL <
          cle.position + cle.cols := by
  unfold run exec_list
  apply foldl_invariant
    (fun st : state num_adj => ∀ wr ∈ st.log,
      ∃ cle, s.l_copy_list[wr.k]? = some cle ∧ cle.hasto_record wr.time = true ∧
        wr.tid < s.P ∧ OL ≤ wr.i ∧ wr.i < OL + chunk s.num_gridpoints s.P wr.tid ∧
        cle.position ≤ wr.tid * chunk_base s.num_gridpoints s.P + wr.i - OL ∧
        wr.tid * chunk_base s.num_gridpoints s.P + wr.i - OL <
          cle.position + cle.cols)
    (exec s) (run_actions s.num_timesteps)
  · intro st a _ hst wr hwr
    cases a with
    | exchange n => exact hst wr hwr
    | substep n m =>
      simp only [exec] at hwr
      rw [substep_all_log, List.mem_append] at hwr
      rcases hwr with hwr | hwr
      · exact hst wr hwr
      · rw [List.mem_flatMap] at hwr
        obtain ⟨tid, htid, hwr⟩ := hwr
        rw [List.mem_range] at htid
        rw [mem_record_worker] at hwr
        obtain ⟨k, cle, hk, hr, i, hi1, hi2, hb⟩ := hwr
        obtain ⟨b1, b2, b3, b4, _, b6, _⟩ := mem_record_body _ _ _ _ _ _ _ _ _ _ _ hb
        have hle := chunk_base_mul_le s.num_gridpoints s.P tid (by omega) htid
        have hmem : cle ∈ s.l_copy_list := mem_of_getElem? _ _ _ hk
        have hc := (record_cond_iff s.num_gridpoints s.P tid cle i hi1 (by omega)
          (hwin cle hmem)).1 b6
        rw [b1, b2, b3, b4]
        exact ⟨cle, hk, hr, htid, hi1, hi2, hc.1, hc.2⟩
  · intro wr hwr
    simp [init_state] at hwr

/-- C12. In a run from the memory the constructor sets up, every store into
the scratch buffer is made for a window selected at that time step, by a
worker `tid < P` at an owned local index `i`, so that the grid point
`g = tid * chunk_base + i - OL` lies in the owned range of the worker, and `g`
lies in the interval `[pos, pos + cols)` of the window; two stores for the same
window, time step and grid point are made by the same worker (at the same
local index). -/
theorem recorder_writes_disjoint {num_adj : Nat} (s : solver num_adj)
    (l_mat_indices : Nat → Nat) (a0 : Nat → arena num_adj) (scratch0 : Nat → real)
    (hN : s.num_gridpoints + 2 * OL < 9223372036854775808)
    (hwin : ∀ cle ∈ s.l_copy_list, cle.position + cle.cols < 18446744073709551616) :
    (∀ wr ∈ (run s (init_state s l_mat_indices a0 scratch0)).log,
      ∃ cle, s.l_copy_list[wr.k]? = some cle ∧ cle.hasto_record wr.time = true ∧
        wr.tid < s.P ∧ OL ≤ wr.i ∧
        wr.tid * chunk_base s.num_gridpoints s.P ≤
          wr.tid * chunk_base s.num_gridpoints s.P + wr.i - OL ∧
        wr.tid * chunk_base s.num_gridpoints s.P + wr.i - OL <
          wr.tid * chunk_base s.num_gridpoints s.P + chunk s.num_gridpoints s.P wr.tid ∧
        cle.position ≤ wr.tid * chunk_base s.num_gridpoints s.P + wr.i - OL ∧
        wr.tid * chunk_base s.num_gridpoints s.P + wr.i - OL <
          cle.position + cle.cols) ∧
    (∀ wr1 ∈ (run s (init_state s l_mat_indices a0 scratch0)).log,
      ∀ wr2 ∈ (run s (init_state s l_mat_indices a0 scratch0)).log,
        wr1.k = wr2.k → wr1.time = wr2.time →
        wr1.tid * chunk_base s.num_gridpoints s.P + wr1.i - OL =
          wr2.tid * chunk_base s.num_gridpoints s.P + wr2.i - OL →
        wr1.tid = wr2.tid ∧ wr1.i = wr2.i) := by
  have hlog := run_log_owned s l_mat_indices a0 scratch0 hN hwin
  constructor
  · intro wr hwr
    obtain ⟨cle, h1, h2, h3, h4, h5, h6, h7⟩ := hlog wr hwr
    exact ⟨cle, h1, h2, h3, h4, by omega, by omega, h6, h7⟩
  · intro wr1 hwr1 wr2 hwr2 _ _ hg
    obtain ⟨_, _, _, a3, a4, a5, _, _⟩ := hlog wr1 hwr1
    obtain ⟨_, _, _, b3, b4, b5, _, _⟩ := hlog wr2 hwr2
    have ht : wr1.tid = wr2.tid :=
      chunk_ranges_disjoint s.num_gridpoints s.P wr1.tid wr2.tid
        (wr1.tid * chunk_base s.num_gridpoints s.P + wr1.i - OL) a3 b3
        (by omega) (by omega) (by omega) (by omega)
    refine ⟨ht, ?_⟩
    rw [ht] at hg
    omega

theorem recorder_writes_disjoint_witness :
    hard_source_solver.num_gridpoints + 2 * OL < 9223372036854775808 ∧
    (∀ cle ∈ hard_source_solver.l_copy_list,
      cle.position + cle.cols < 18446744073709551616) ∧
    (∀ wr1 ∈ (run hard_source_solver
        (init_state hard_source_solver (fun _ => 0) (fun _ => zero_arena) (fun _ => 0))).log,
      ∀ wr2 ∈ (run hard_source_solver
        (init_state hard_source_solver (fun _ => 0) (fun _ => zero_arena) (fun _ => 0))).log,
        wr1.k = wr2.k → wr1.time = wr2.time →
        wr1.tid * chunk_base hard_source_solver.num_gridpoints hard_source_solver.P +
            wr1.i - OL =
          wr2.tid * chunk_base hard_source_solver.num_gridpoints hard_source_solver.P +
            wr2.i - OL →
        wr1.tid = wr2.tid ∧ wr1.i = wr2.i) :=
  ⟨by decide,
    by simp [hard_source_solver, example_solver, example_window],
    (recorder_writes_disjoint hard_source_solver (fun _ => 0) (fun _ => zero_arena)
      (fun _ => 0) (by decide)
      (by simp [hard_source_solver, example_solver, example_window])).2⟩

end mbsolve

namespace mbsolve

/-! ## Result assembly -/

theorem std_copy_apply (src : Nat → real) (first count : Nat) (dest : Nat → real)
    (j : Nat) :
    std_copy src first count dest j = if j < count then src (first + j) else dest j := by
  unfold std_copy
  have h := foldl_pointwise (fun (d : Nat → real) x => Function.update d x (src (first + x)))
    (fun d => d) (fun _ x => src (first + x))
    (fun d x i hi => by simp [Function.update, hi])
    (fun d x => by simp)
    (fun _ _ _ _ => rfl)
    (List.range count) (List.nodup_range count) dest j
  simp only [List.mem_range] at h
  exact h

theorem bulk_copy_body_fst (mem : (Nat → real) × (Nat → result))
    (kc : Nat × copy_list_entry_sized) : (bulk_copy_body mem kc).1 = mem.1 := rfl

theorem bulk_copy_body_other (mem : (Nat → real) × (Nat → result))
    (kc : Nat × copy_list_entry_sized) (k : Nat) (h : k ≠ kc.1) :
    (bulk_copy_body mem kc).2 k = mem.2 k := by
  simp [bulk_copy_body, Function.update, h]

theorem bulk_copy_body_self (mem : (Nat → real) × (Nat → result))
    (k : Nat) (cle : copy_list_entry_sized) :
    ((bulk_copy_body mem (k, cle)).2 k).real_part =
      std_copy mem.1 (cle.offset_scratch_real 0 0).toNat cle.size (mem.2 k).real_part ∧
    ((bulk_copy_body mem (k, cle)).2 k).imag_part =
      if cle.is_complex then
        std_copy mem.1 (cle.offset_scratch_imag 0 0).toNat cle.size (mem.2 k).imag_part
      else (mem.2 k).imag_part := by
  by_cases hc : cle.is_complex = true <;> simp [bulk_copy_body, hc]

/-- The loop of the bulk copy, started at entry number `n`: the scratch
buffer is not written, the container of an entry of the list gets the copies
of that entry, every other container is not written. -/
theorem bulk_copy_loop :
    ∀ (l : List copy_list_entry_sized) (n : Nat) (mem : (Nat → real) × (Nat → result))
      (k : Nat),
      ((l.enumFrom n).foldl bulk_copy_body mem).1 = mem.1 ∧
      (∀ cle, n ≤ k → l[k - n]? = some cle →
        (((l.enumFrom n).foldl bulk_copy_body mem).2 k).real_part =
          std_copy mem.1 (cle.offset_scratch_real 0 0).toNat cle.size (mem.2 k).real_part ∧
        (((l.enumFrom n).foldl bulk_copy_body mem).2 k).imag_part =
          if cle.is_complex then
            std_copy mem.1 (cle.offset_scratch_imag 0 0).toNat cle.size (mem.2 k).imag_part
          else (mem.2 k).imag_part) ∧
      ((k < n ∨ n + l.length ≤ k) →
        ((l.enumFrom n).foldl bulk_copy_body mem).2 k = mem.2 k) := by
  intro l
  induction l with
  | nil =>
    intro n mem k
    simp
  | cons c cs ih =>
    intro n mem k
    simp only [List.enumFrom_cons, List.foldl_cons]
    obtain ⟨h1, h2, h3⟩ := ih (n + 1) (bulk_copy_body mem (n, c)) k
    refine ⟨by rw [h1, bulk_copy_body_fst], ?_, ?_⟩
    · intro cle hnk hk
      by_cases hkn : k = n
      · subst hkn
        rw [Nat.sub_self, List.getElem?_cons_zero, Option.some.injEq] at hk
        subst hk
        rw [h3 (Or.inl (Nat.lt_succ_self k))]
        exact bulk_copy_body_self mem k c
      · have e : k - n = (k - (n + 1)) + 1 := by omega
        rw [e, List.getElem?_cons_succ] at hk
        have h4 := h2 cle (by omega) hk
        rw [bulk_copy_body_fst, bulk_copy_body_other mem (n, c) k hkn] at h4
        exact h4
    · intro hk
      rw [h3 (by simp only [List.length_cons] at hk; omega)]
      apply bulk_copy_body_other
      simp only [List.length_cons] at hk
      show k ≠ n
      omega

end mbsolve

namespace mbsolve

/-- C13. After the parallel region of `run` and the bulk copy, for entry
number `k` of the copy list with non-negative scratch offsets: entry `j` of
the real part of its result container, for `j < get_size()`, is the scratch
value at the real offset plus `j`; for a complex entry the same holds for the
imaginary part and the imaginary offset, for a real entry the imaginary part
is not written; the containers are not written beyond `get_size()` entries;
and the scratch buffer is as the parallel region left it. -/
theorem result_assembly {num_adj : Nat} (s : solver num_adj) (st : state num_adj)
    (m_copy_list : List copy_list_entry_sized) (results : Nat → result)
    (k : Nat) (cle : copy_list_entry_sized) (hk : m_copy_list[k]? = some cle)
    (hr : 0 ≤ cle.offset_scratch_real 0 0)
    (hi : cle.is_complex = true → 0 ≤ cle.offset_scratch_imag 0 0) :
    (∀ j, j < cle.size →
      ((bulk_copy m_copy_list (run s st).scratch results).2 k).real_part j =
        (run s st).scratch (cle.offset_scratch_real 0 0 + (j : Int)).toNat) ∧
    (cle.is_complex = true → ∀ j, j < cle.size →
      ((bulk_copy m_copy_list (run s st).scratch results).2 k).imag_part j =
        (run s st).scratch (cle.offset_scratch_imag 0 0 + (j : Int)).toNat) ∧
    (cle.is_complex = false →
      ((bulk_copy m_copy_list (run s st).scratch results).2 k).imag_part =
        (results k).imag_part) ∧
    (∀ j, cle.size ≤ j →
      ((bulk_copy m_copy_list (run s st).scratch results).2 k).real_part j =
          (results k).real_part j ∧
        ((bulk_copy m_copy_list (run s st).scratch results).2 k).imag_part j =
          (results k).imag_part j) ∧
    (bulk_copy m_copy_list (run s st).scratch results).1 = (run s st).scratch := by
  obtain ⟨h1, h2, _⟩ := bulk_copy_loop m_copy_list 0 ((run s st).scratch, results) k
  obtain ⟨h3, h4⟩ := h2 cle (Nat.zero_le k) hk
  have hbc : bulk_copy m_copy_list (run s st).scratch results =
      (m_copy_list.enumFrom 0).foldl bulk_copy_body ((run s st).scratch, results) := rfl
  rw [hbc, h3, h4]
  refine ⟨?_, ?_, ?_, ?_, h1⟩
  · intro j hj
    have e : (cle.offset_scratch_real 0 0 + (j : Int)).toNat =
        (cle.offset_scratch_real 0 0).toNat + j := by omega
    rw [std_copy_apply, if_pos hj, e]
  · intro hc j hj
    have := hi hc
    have e : (cle.offset_scratch_imag 0 0 + (j : Int)).toNat =
        (cle.offset_scratch_imag 0 0).toNat + j := by omega
    rw [if_pos hc, std_copy_apply, if_pos hj, e]
  · intro hc
    rw [if_neg (by simp [hc])]
  · intro j hj
    constructor
    · rw [std_copy_apply, if_neg (by omega)]
    · by_cases hc : cle.is_complex = true
      · rw [if_pos hc, std_copy_apply, if_neg (by omega)]
      · rw [if_neg hc]

theorem result_assembly_witness :
    [example_mk_entry ⟨true⟩ 0][0]? = some (example_mk_entry ⟨true⟩ 0) ∧
    0 ≤ (example_mk_entry ⟨true⟩ 0).offset_scratch_real 0 0 ∧
    ((example_mk_entry ⟨true⟩ 0).is_complex = true →
      0 ≤ (example_mk_entry ⟨true⟩ 0).offset_scratch_imag 0 0) ∧
    (∀ j, j < (example_mk_entry ⟨true⟩ 0).size →
      ((bulk_copy [example_mk_entry ⟨true⟩ 0]
          (run hard_source_solver (init_state hard_source_solver (fun _ => 0)
            (fun _ => zero_arena) (fun _ => 0))).scratch
          (fun _ => ⟨fun _ => 0, fun _ => 0⟩)).2 0).real_part j =
        (run hard_source_solver (init_state hard_source_solver (fun _ => 0)
            (fun _ => zero_arena) (fun _ => 0))).scratch
          ((example_mk_entry ⟨true⟩ 0).offset_scratch_real 0 0 + (j : Int)).toNat) :=
  ⟨rfl, by decide, fun _ => by decide,
    (result_assembly hard_source_solver
      (init_state hard_source_solver (fun _ => 0) (fun _ => zero_arena) (fun _ => 0))
      [example_mk_entry ⟨true⟩ 0] (fun _ => ⟨fun _ => 0, fun _ => 0⟩) 0
      (example_mk_entry ⟨true⟩ 0) rfl (by decide) (fun _ => by decide)).1⟩

end mbsolve

namespace mbsolve

/-! ## The update kernels on their index range -/

theorem mem_loop_range_iff (size border i : Nat) (h1 : border + 1 ≤ size)
    (h2 : size < 2147483648) :
    i ∈ loop_range size border ↔ border ≤ i ∧ i < size - border - 1 := by
  rw [mem_loop_range, loop_end_eq size border h1 (by omega)]

theorem update_d_body_rk4 {num_adj : Nat} (c : Nat → sim_constants_clvl_rk num_adj)
    (a : arena num_adj) (i : Nat) (hq : (c (a.mat_indices i)).has_qm = true) :
    (update_d_body c a i).d i =
      rk4_step (c (a.mat_indices i)) (a.e_o i) (a.e i) (a.d i) := by
  have hhalf : ∀ v : Fin num_adj → real, (fun j => v j / 2) = (1 / 2 : real) • v := by
    intro v
    funext j
    simp only [Pi.smul_apply, smul_eq_mul]
    ring
  have hsix : ∀ v1 v2 v3 v4 : Fin num_adj → real,
      (fun j => (v1 j + 2 * v2 j + 2 * v3 j + v4 j) / 6) =
        (1 / 6 : real) • (v1 + (2 : real) • v2 + (2 : real) • v3 + v4) := by
    intro v1 v2 v3 v4
    funext j
    simp only [Pi.smul_apply, Pi.add_apply, smul_eq_mul]
    ring
  simp only [update_d_body, hq, if_true, Function.update_same, rk4_step, hhalf, hsix]

theorem update_d_body_no_qm {num_adj : Nat} (c : Nat → sim_constants_clvl_rk num_adj)
    (a : arena num_adj) (i : Nat) (hq : (c (a.mat_indices i)).has_qm = false) :
    (update_d_body c a i).d i = a.d i := by
  simp [update_d_body, hq]

/-- C14. For array lengths that fit an `int` and `border + 1 <= size`:
`update_d` replaces `d[i]` by the Runge-Kutta step `rk4_step` of the claim
(with the coefficient record of `mat_indices[i]`, `e_o[i]`, `e[i]` and the old
`d[i]`) at every index `border <= i < size - border - 1` whose material has a
quantum system, and leaves `d[i]` as it is at an index of that range whose
material has none and at every index outside the range. -/
theorem update_d_rk4 {num_adj : Nat} (c : Nat → sim_constants_clvl_rk num_adj)
    (size border : Nat) (a : arena num_adj) (h1 : border + 1 ≤ size)
    (h2 : size < 2147483648) (i : Nat) :
    (border ≤ i → i < size - border - 1 → (c (a.mat_indices i)).has_qm = true →
      (update_d size border c a).d i =
        rk4_step (c (a.mat_indices i)) (a.e_o i) (a.e i) (a.d i)) ∧
    (border ≤ i → i < size - border - 1 → (c (a.mat_indices i)).has_qm = false →
      (update_d size border c a).d i = a.d i) ∧
    (¬(border ≤ i ∧ i < size - border - 1) → (update_d size border c a).d i = a.d i) := by
  have hmem := mem_loop_range_iff size border i h1 h2
  refine ⟨?_, ?_, ?_⟩
  · intro ha hb hq
    rw [update_d_d, if_pos (hmem.2 ⟨ha, hb⟩)]
    exact update_d_body_rk4 c a i hq
  · intro ha hb hq
    rw [update_d_d, if_pos (hmem.2 ⟨ha, hb⟩)]
    exact update_d_body_no_qm c a i hq
  · intro hn
    rw [update_d_d, if_neg (fun h => hn (hmem.1 h))]

theorem update_d_rk4_witness :
    0 + 1 ≤ 70 ∧ 70 < 2147483648 ∧
    (update_d 70 0 (fun _ => example_qm_consts) zero_arena).d 5 =
      rk4_step example_qm_consts 0 0 0 :=
  ⟨by decide, by decide,
    (update_d_rk4 (fun _ => example_qm_consts) 70 0 zero_arena (by decide) (by decide)
      5).1 (by decide) (by decide) rfl⟩

/-- C15. For array lengths that fit an `int` and `border + 1 <= size`: at
every index `border <= i < size - border - 1`, `update_fdtd` sets `e_o[i]` to
the old `e[i]` and `e[i]` to
`e[i] + M_CE * (-sigma * e[i] - p[i] + (h[i + 1] - h[i]) * d_x_inv)` with the
coefficient record of `mat_indices[i]` and the arrays as they were before the
call; `e` and `e_o` are unchanged outside that range, and `h`, `p`, `d` and
`mat_indices` are unchanged. -/
theorem update_fdtd_spec {num_adj : Nat} (c : Nat → sim_constants_clvl_rk num_adj)
    (size border : Nat) (a : arena num_adj) (h1 : border + 1 ≤ size)
    (h2 : size < 2147483648) :
    (∀ i, border ≤ i → i < size - border - 1 →
      (update_fdtd size border c a).e_o i = a.e i ∧
      (update_fdtd size border c a).e i =
        a.e i + (c (a.mat_indices i)).M_CE *
          (-((c (a.mat_indices i)).sigma * a.e i) - a.p i +
            (a.h (i + 1) - a.h i) * (c (a.mat_indices i)).d_x_inv)) ∧
    (∀ i, ¬(border ≤ i ∧ i < size - border - 1) →
      (update_fdtd size border c a).e_o i = a.e_o i ∧
      (update_fdtd size border c a).e i = a.e i) ∧
    (update_fdtd size border c a).h = a.h ∧
    (update_fdtd size border c a).p = a.p ∧
    (update_fdtd size border c a).d = a.d ∧
    (update_fdtd size border c a).mat_indices = a.mat_indices := by
  refine ⟨?_, ?_, update_fdtd_h c size border a, update_fdtd_p c size border a,
    update_fdtd_d c size border a, update_fdtd_mat_indices c size border a⟩
  · intro i ha hb
    have hmem := (mem_loop_range_iff size border i h1 h2).2 ⟨ha, hb⟩
    rw [update_fdtd_e_o, update_fdtd_e, if_pos hmem, if_pos hmem]
    exact ⟨rfl, rfl⟩
  · intro i hn
    have hmem : ¬ i ∈ loop_range size border :=
      fun h => hn ((mem_loop_range_iff size border i h1 h2).1 h)
    rw [update_fdtd_e_o, update_fdtd_e, if_neg hmem, if_neg hmem]
    exact ⟨rfl, rfl⟩

theorem update_fdtd_spec_witness :
    0 + 1 ≤ 70 ∧ 70 < 2147483648 ∧
    (update_fdtd 70 0 example_consts (ramp_arenas 0)).e_o 5 = (ramp_arenas 0).e 5 :=
  ⟨by decide, by decide,
    ((update_fdtd_spec example_consts 70 0 (ramp_arenas 0) (by decide) (by decide)).1 5
      (by decide) (by decide)).1⟩

end mbsolve

namespace mbsolve

/-- C18. For array lengths that fit an `int` and `border + 1 <= size`:
`update_h` sets `h[i]` to `h[i] + M_CH * (e[i] - e[i - 1])` (coefficient
record of `mat_indices[i]`, the electric field as passed in) exactly at the
indices `border + 1 <= i <= size - border - 2` and leaves `h` as it is at
every other index, in particular at `border` and at `size - border - 1`; `e`,
`p` and `d` are unchanged. In a substep of `run` the electric field passed in
is the one after `update_fdtd` and `apply_sources_rk` of that substep, which
is also the electric field at the end of the substep. -/
theorem update_h_spec {num_adj : Nat} (c : Nat → sim_constants_clvl_rk num_adj)
    (size bd : Nat) (a : arena num_adj) (h1 : bd + 1 ≤ size)
    (h2 : size < 2147483648) :
    (∀ i, bd + 1 ≤ i → i ≤ size - bd - 2 →
      (update_h size bd c a).h i =
        a.h i + (c (a.mat_indices i)).M_CH * (a.e i - a.e (i - 1))) ∧
    (∀ i, ¬(bd + 1 ≤ i ∧ i ≤ size - bd - 2) →
      (update_h size bd c a).h i = a.h i) ∧
    (update_h size bd c a).h bd = a.h bd ∧
    (update_h size bd c a).h (size - bd - 1) = a.h (size - bd - 1) ∧
    (update_h size bd c a).e = a.e ∧
    (update_h size bd c a).p = a.p ∧
    (update_h size bd c a).d = a.d ∧
    (∀ (s : solver num_adj) (n m tid : Nat) (b : arena num_adj) (i : Nat),
      ¬(tid = s.P - 1 ∧ i = OL + chunk s.num_gridpoints s.P tid) → ¬(tid = 0 ∧ i = OL) →
      (substep_worker s n m tid b).h i =
        (update_h (arena_size s.num_gridpoints s.P tid) (border m) s.l_sim_consts
          { (update_fdtd (arena_size s.num_gridpoints s.P tid) (border m) s.l_sim_consts
              (update_d (arena_size s.num_gridpoints s.P tid) (border m) s.l_sim_consts b)) with
            e := apply_sources_rk
              (update_fdtd (arena_size s.num_gridpoints s.P tid) (border m) s.l_sim_consts
                (update_d (arena_size s.num_gridpoints s.P tid) (border m)
                  s.l_sim_consts b)).e
              s.m_source_data s.l_sim_sources (n * OL + m)
              (wrap32 ((tid : Int) * (chunk_base s.num_gridpoints s.P : Int)))
              (chunk s.num_gridpoints s.P tid) }).h i ∧
      (substep_worker s n m tid b).e =
        apply_sources_rk
          (update_fdtd (arena_size s.num_gridpoints s.P tid) (border m) s.l_sim_consts
            (update_d (arena_size s.num_gridpoints s.P tid) (border m)
              s.l_sim_consts b)).e
          s.m_source_data s.l_sim_sources (n * OL + m)
          (wrap32 ((tid : Int) * (chunk_base s.num_gridpoints s.P : Int)))
          (chunk s.num_gridpoints s.P tid)) := by
  have hmem : ∀ i, (i ∈ loop_range size bd ∧ bd + 1 ≤ i) ↔
      (bd + 1 ≤ i ∧ i ≤ size - bd - 2) := by
    intro i
    rw [mem_loop_range_iff size bd i h1 h2]
    omega
  have hout : ∀ i, ¬(bd + 1 ≤ i ∧ i ≤ size - bd - 2) →
      (update_h size bd c a).h i = a.h i := by
    intro i hn
    rw [update_h_h, if_neg (fun h => hn ((hmem i).1 h))]
  refine ⟨?_, hout, hout _ (by omega), hout _ (by omega), update_h_e c size bd a,
    update_h_p c size bd a, update_h_d c size bd a, ?_⟩
  · intro i ha hb
    rw [update_h_h, if_pos ((hmem i).2 ⟨ha, hb⟩)]
  · intro s n m tid b i hp1 hp2
    refine ⟨?_, substep_worker_e s n m tid b⟩
    rw [substep_worker_h, if_neg hp1, if_neg hp2, substep_worker_e]

theorem update_h_spec_witness :
    0 + 1 ≤ 70 ∧ 70 < 2147483648 ∧
    (update_h 70 0 example_consts (ramp_arenas 0)).h 0 = (ramp_arenas 0).h 0 :=
  ⟨by decide, by decide,
    (update_h_spec example_consts 70 0 (ramp_arenas 0) (by decide) (by decide)).2.2.1⟩

/-- C19. At the end of every substep of `run`, for every `N` and every
`P >= 1`, the magnetic field of the first worker at local index `OL` is zero
and the magnetic field of the last worker at local index `OL + chunk` is
zero; at every other index of every worker the magnetic field is the one that
`update_h` left (nothing else is pinned). -/
theorem outer_boundary_condition {num_adj : Nat} (s : solver num_adj)
    (st0 : state num_adj) (hP : 1 ≤ s.P) (j n m : Nat)
    (hj : (run_actions s.num_timesteps)[j]? = some (action.substep n m)) :
    ((exec_list s st0 ((run_actions s.num_timesteps).take (j + 1))).arenas 0).h OL = 0 ∧
    ((exec_list s st0 ((run_actions s.num_timesteps).take (j + 1))).arenas (s.P - 1)).h
        (OL + chunk s.num_gridpoints s.P (s.P - 1)) = 0 ∧
    (∀ tid i, tid < s.P →
      ¬(tid = s.P - 1 ∧ i = OL + chunk s.num_gridpoints s.P tid) → ¬(tid = 0 ∧ i = OL) →
      ((exec_list s st0 ((run_actions s.num_timesteps).take (j + 1))).arenas tid).h i =
        (update_h (arena_size s.num_gridpoints s.P tid) (border m) s.l_sim_consts
          { (update_fdtd (arena_size s.num_gridpoints s.P tid) (border m) s.l_sim_consts
              (update_d (arena_size s.num_gridpoints s.P tid) (border m) s.l_sim_consts
                ((exec_list s st0 ((run_actions s.num_timesteps).take j)).arenas tid))) with
            e := ((exec_list s st0
              ((run_actions s.num_timesteps).take (j + 1))).arenas tid).e }).h i) := by
  rw [exec_list_take_succ s st0 _ j _ hj]
  simp only [exec]
  refine ⟨?_, ?_, ?_⟩
  · rw [substep_all_arenas s n m _ 0 (by omega), substep_worker_h]
    by_cases h : 0 = s.P - 1 ∧ OL = OL + chunk s.num_gridpoints s.P 0
    · rw [if_pos h]
    · rw [if_neg h, if_pos ⟨rfl, rfl⟩]
  · rw [substep_all_arenas s n m _ (s.P - 1) (by omega), substep_worker_h,
      if_pos ⟨rfl, rfl⟩]
  · intro tid i ht hp1 hp2
    rw [substep_all_arenas s n m _ tid ht, substep_worker_h, if_neg hp1, if_neg hp2]

theorem outer_boundary_condition_witness :
    1 ≤ offdiag_solver.P ∧
    (run_actions offdiag_solver.num_timesteps)[1]? = some (action.substep 0 0) ∧
    ((exec_list offdiag_solver
        (init_state offdiag_solver (fun _ => 0) (fun _ => zero_arena) (fun _ => 0))
        ((run_actions offdiag_solver.num_timesteps).take (1 + 1))).arenas 0).h OL = 0 :=
  ⟨by decide, by decide,
    (outer_boundary_condition offdiag_solver
      (init_state offdiag_solver (fun _ => 0) (fun _ => zero_arena) (fun _ => 0))
      (by decide) 1 0 0 (by decide)).1⟩

/-- C20. For a substep index `m < OL`, `border = m - m % VEC` is a multiple
of `VEC`, at most `m`, not below any multiple of `VEC` that is at most `m`,
non-decreasing in `m`, and at most `OL - VEC < OL`; every owned index
`OL <= i < OL + chunk` of a worker lies in the index range
`border <= i < size - border - 1` of `update_d`, `update_fdtd` and `update_h`,
and above `border`, where `update_h` writes; and every substep of `run` has
such an index `m < OL`. -/
theorem border_parameter (m : Nat) (hm : m < OL) :
    VEC ∣ border m ∧ border m ≤ m ∧
    (∀ b, VEC ∣ b → b ≤ m → b ≤ border m) ∧
    (∀ m2, m ≤ m2 → border m ≤ border m2) ∧
    border m ≤ OL - VEC ∧ OL - VEC < OL ∧
    (∀ N P tid i, arena_size N P tid < 2147483648 → OL ≤ i → i < OL + chunk N P tid →
      i ∈ loop_range (arena_size N P tid) (border m) ∧ border m + 1 ≤ i ∧
      border m ≤ i ∧ i ≤ arena_size N P tid - border m - 2) ∧
    (∀ T n m2, action.substep n m2 ∈ run_actions T → m2 < OL) := by
  have hOL : OL = 32 := rfl
  have hVEC : VEC = 4 := rfl
  have hb : ∀ x, border x = x - x % 4 := fun _ => rfl
  refine ⟨?_, border_le m, ?_, ?_, ?_, by decide, ?_, fun T n m2 h => substep_index_lt T n m2 h⟩
  · rw [hb, hVEC]
    omega
  · intro b hdiv hle
    rw [hb]
    rw [hVEC] at hdiv
    omega
  · intro m2 hle
    rw [hb, hb]
    omega
  · rw [hb, hOL, hVEC]
    omega
  · intro N P tid i hs hi1 hi2
    have hsz : arena_size N P tid = chunk N P tid + 2 * 32 := rfl
    rw [mem_loop_range_iff _ _ _ (by rw [hb]; omega) hs]
    rw [hb]
    omega

theorem border_parameter_witness :
    7 < OL ∧ border 7 ≤ OL - VEC :=
  ⟨by decide, (border_parameter 7 (by decide)).2.2.2.2.1⟩

end mbsolve

namespace mbsolve

/-! ## Source injection on a list of sources -/

/-- An entry that no hard or soft source of the list is applied to is
unchanged by `apply_sources_rk`. -/
theorem apply_sources_rk_other (source_data : Nat → real) (time base_pos chunk i : Nat) :
    ∀ (srcs : List sim_source) (t_e : Nat → real),
      (∀ src ∈ srcs, 0 < source_at src base_pos →
        source_at src base_pos < ((chunk + 2 * OL : Nat) : Int) →
        src.type = source_type.hard_source ∨ src.type = source_type.soft_source →
        (source_at src base_pos).toNat ≠ i) →
      apply_sources_rk t_e source_data srcs time base_pos chunk i = t_e i := by
  intro srcs
  induction srcs with
  | nil => intro t_e _; rfl
  | cons x rest ih =>
    intro t_e h
    unfold apply_sources_rk
    rw [List.foldl_cons]
    have h1 := ih (apply_source_body source_data time base_pos chunk t_e x)
      (fun src hs => h src (List.mem_cons_of_mem _ hs))
    unfold apply_sources_rk at h1
    rw [h1, apply_source_body_apply]
    have hx := h x (List.mem_cons_self _ _)
    by_cases hc : 0 < source_at x base_pos ∧
        source_at x base_pos < ((chunk + 2 * OL : Nat) : Int) ∧
        (source_at x base_pos).toNat = i
    · rw [if_pos hc]
      cases hty : x.type with
      | hard_source => exact absurd hc.2.2 (hx hc.1 hc.2.1 (Or.inl hty))
      | soft_source => exact absurd hc.2.2 (hx hc.1 hc.2.1 (Or.inr hty))
      | other => rfl
    · rw [if_neg hc]

/-- With pairwise distinct local positions, the entry at the position of an
applied source of the list is what the loop body of that source alone makes
of the entry before the call. -/
theorem apply_sources_rk_at (source_data : Nat → real) (time base_pos chunk : Nat) :
    ∀ (srcs : List sim_source) (t_e : Nat → real),
      srcs.Pairwise (fun a b => source_at a base_pos ≠ source_at b base_pos) →
      ∀ src ∈ srcs, 0 < source_at src base_pos →
        source_at src base_pos < ((chunk + 2 * OL : Nat) : Int) →
        apply_sources_rk t_e source_data srcs time base_pos chunk
            (source_at src base_pos).toNat =
          match src.type with
          | source_type.hard_source => source_data (src.data_base_idx + time)
          | source_type.soft_source =>
              t_e (source_at src base_pos).toNat + source_data (src.data_base_idx + time)
          | source_type.other => t_e (source_at src base_pos).toNat := by
  intro srcs
  induction srcs with
  | nil => intro t_e _ src hs; exact absurd hs (List.not_mem_nil _)
  | cons x rest ih =>
    intro t_e hp src hs h0 h1
    rw [List.pairwise_cons] at hp
    have hstep : apply_sources_rk t_e source_data (x :: rest) time base_pos chunk =
        apply_sources_rk (apply_source_body source_data time base_pos chunk t_e x)
          source_data rest time base_pos chunk := rfl
    rw [hstep]
    rcases List.mem_cons.1 hs with hx | hr
    · subst hx
      rw [apply_sources_rk_other source_data time base_pos chunk _ rest _
        (fun s2 hs2 h20 _ _ heq => hp.1 s2 hs2 (by omega))]
      have hb := apply_source_body_apply source_data time base_pos chunk t_e src
        (source_at src base_pos).toNat
      rw [if_pos ⟨h0, h1, rfl⟩] at hb
      exact hb
    · rw [ih _ hp.2 src hr h0 h1]
      have hne : source_at x base_pos ≠ source_at src base_pos := hp.1 src hr
      have hsame : apply_source_body source_data time base_pos chunk t_e x
          (source_at src base_pos).toNat = t_e (source_at src base_pos).toNat := by
        rw [apply_source_body_apply, if_neg]
        rintro ⟨hx0, _, hxe⟩
        exact hne (by omega)
      rw [hsame]

/-- C16. For a source list whose translated local positions are pairwise
distinct: after `apply_sources_rk` at time `t`, the electric field at the
local position of an applied hard source is `source_data[data_base_idx + t]`,
at the local position of an applied soft source it is the previous value plus
`source_data[data_base_idx + t]`, and every entry that is not the local
position of an applied hard or soft source is unchanged. A source is applied
when its local position `at` satisfies `0 < at < chunk + 2 * OL`. -/
theorem source_injection (t_e source_data : Nat → real) (srcs : List sim_source)
    (time base_pos chunk : Nat)
    (hdist : srcs.Pairwise (fun a b => source_at a base_pos ≠ source_at b base_pos)) :
    (∀ src ∈ srcs, 0 < source_at src base_pos →
      source_at src base_pos < ((chunk + 2 * OL : Nat) : Int) →
      src.type = source_type.hard_source →
      apply_sources_rk t_e source_data srcs time base_pos chunk
          (source_at src base_pos).toNat = source_data (src.data_base_idx + time)) ∧
    (∀ src ∈ srcs, 0 < source_at src base_pos →
      source_at src base_pos < ((chunk + 2 * OL : Nat) : Int) →
      src.type = source_type.soft_source →
      apply_sources_rk t_e source_data srcs time base_pos chunk
          (source_at src base_pos).toNat =
        t_e (source_at src base_pos).toNat + source_data (src.data_base_idx + time)) ∧
    (∀ i, (∀ src ∈ srcs, 0 < source_at src base_pos →
        source_at src base_pos < ((chunk + 2 * OL : Nat) : Int) →
        src.type = source_type.hard_source ∨ src.type = source_type.soft_source →
        (source_at src base_pos).toNat ≠ i) →
      apply_sources_rk t_e source_data srcs time base_pos chunk i = t_e i) := by
  refine ⟨?_, ?_, ?_⟩
  · intro src hs h0 h1 hty
    rw [apply_sources_rk_at source_data time base_pos chunk srcs t_e hdist src hs h0 h1, hty]
  · intro src hs h0 h1 hty
    rw [apply_sources_rk_at source_data time base_pos chunk srcs t_e hdist src hs h0 h1, hty]
  · intro i h
    exact apply_sources_rk_other source_data time base_pos chunk i srcs t_e h

theorem source_injection_witness :
    ([⟨source_type.hard_source, 50, 0⟩, ⟨source_type.soft_source, 51, 0⟩] :
      List sim_source).Pairwise (fun a b => source_at a 0 ≠ source_at b 0) ∧
    apply_sources_rk (fun _ => 7) (fun t => (t : real) + 1)
        [⟨source_type.hard_source, 50, 0⟩, ⟨source_type.soft_source, 51, 0⟩] 2 0 35
        (source_at ⟨source_type.hard_source, 50, 0⟩ 0).toNat = 3 :=
  ⟨by decide, by
    rw [(source_injection (fun _ => 7) (fun t => (t : real) + 1)
      [⟨source_type.hard_source, 50, 0⟩, ⟨source_type.soft_source, 51, 0⟩] 2 0 35
      (by decide)).1 ⟨source_type.hard_source, 50, 0⟩ (List.mem_cons_self _ _)
      (by decide) (by decide) rfl]
    norm_num⟩

end mbsolve

namespace mbsolve

/-! ## Which worker applies a source -/

/-- C17 as stated fails: with 70 grid points and 2 workers, the hard source
at grid point 50 has the local index 82 in worker 0, which is in the right
halo of worker 0 (its owned indices are `32 .. 66`), and `apply_sources_rk` of
worker 0 writes the source value 1 of time step 0 there. -/
theorem source_in_halo_counterexample :
    hard_source_solver.l_sim_sources = [⟨source_type.hard_source, 50, 0⟩] ∧
    source_at ⟨source_type.hard_source, 50, 0⟩
      (wrap32 (((0 : Nat) : Int) *
        (chunk_base hard_source_solver.num_gridpoints hard_source_solver.P : Int))) = 82 ∧
    ¬(OL ≤ 82 ∧ 82 < OL + chunk hard_source_solver.num_gridpoints hard_source_solver.P 0) ∧
    zero_arena.e 82 = 0 ∧
    apply_sources_rk zero_arena.e hard_source_solver.m_source_data
      hard_source_solver.l_sim_sources 0
      (wrap32 (((0 : Nat) : Int) *
        (chunk_base hard_source_solver.num_gridpoints hard_source_solver.P : Int)))
      (chunk hard_source_solver.num_gridpoints hard_source_solver.P 0) 82 = 1 := by
  refine ⟨rfl, by decide, by decide, rfl, ?_⟩
  have hs : hard_source_solver.l_sim_sources = [⟨source_type.hard_source, 50, 0⟩] := rfl
  have hat : source_at ⟨source_type.hard_source, 50, 0⟩
      (wrap32 (((0 : Nat) : Int) *
        (chunk_base hard_source_solver.num_gridpoints hard_source_solver.P : Int))) = 82 := by
    decide
  have hch : ((chunk hard_source_solver.num_gridpoints hard_source_solver.P 0 + 2 * OL : Nat)
      : Int) = 99 := by decide
  rw [hs]
  unfold apply_sources_rk
  rw [List.foldl_cons, List.foldl_nil, apply_source_body_apply, hat, hch,
    if_pos ⟨by decide, by decide, rfl⟩]
  simp [hard_source_solver, example_solver]

/-- C17, amended. For a worker `tid < P`, a grid that fits an `int` together
with the halos, and a source inside the grid: the local index of the source is
`x_idx - tid * chunk_base + OL`; the loop body of `apply_sources_rk` changes
nothing unless this index is above 0 and below the array length
`chunk + 2 * OL` (that is, unless the source lies in the owned range or within
the halos of the worker, the first halo entry excepted); for such an index it
stores the source value (hard source) or adds it (soft source) at that index,
whether the index is owned or in a halo; a source of another type changes
nothing. -/
theorem source_applied_iff (N P tid : Nat) (src : sim_source) (ht : tid < P)
    (hN : N + 2 * OL < 2147483648) (hx : src.x_idx < N)
    (source_data t_e : Nat → real) (time : Nat) :
    source_at src (wrap32 ((tid : Int) * (chunk_base N P : Int))) =
      (src.x_idx : Int) - ((tid * chunk_base N P : Nat) : Int) + (OL : Int) ∧
    ((0 < source_at src (wrap32 ((tid : Int) * (chunk_base N P : Int))) ∧
        source_at src (wrap32 ((tid : Int) * (chunk_base N P : Int))) <
          ((chunk N P tid + 2 * OL : Nat) : Int)) ↔
      (tid * chunk_base N P < src.x_idx + OL ∧
        src.x_idx + OL < tid * chunk_base N P + chunk N P tid + 2 * OL)) ∧
    (¬(tid * chunk_base N P < src.x_idx + OL ∧
        src.x_idx + OL < tid * chunk_base N P + chunk N P tid + 2 * OL) →
      apply_source_body source_data time (wrap32 ((tid : Int) * (chunk_base N P : Int)))
        (chunk N P tid) t_e src = t_e) ∧
    (tid * chunk_base N P < src.x_idx + OL →
      src.x_idx + OL < tid * chunk_base N P + chunk N P tid + 2 * OL →
      src.type = source_type.hard_source →
      apply_source_body source_data time (wrap32 ((tid : Int) * (chunk_base N P : Int)))
          (chunk N P tid) t_e src =
        Function.update t_e (src.x_idx + OL - tid * chunk_base N P)
          (source_data (src.data_base_idx + time))) ∧
    (tid * chunk_base N P < src.x_idx + OL →
      src.x_idx + OL < tid * chunk_base N P + chunk N P tid + 2 * OL →
      src.type = source_type.soft_source →
      apply_source_body source_data time (wrap32 ((tid : Int) * (chunk_base N P : Int)))
          (chunk N P tid) t_e src =
        Function.update t_e (src.x_idx + OL - tid * chunk_base N P)
          (t_e (src.x_idx + OL - tid * chunk_base N P) +
            source_data (src.data_base_idx + time))) ∧
    (src.type = source_type.other →
      apply_source_body source_data time (wrap32 ((tid : Int) * (chunk_base N P : Int)))
        (chunk N P tid) t_e src = t_e) := by
  have hOL : OL = 32 := rfl
  have hle := chunk_base_mul_le N P tid (by omega) ht
  have hcast : (tid : Int) * (chunk_base N P : Int) = ((tid * chunk_base N P : Nat) : Int) := by
    push_cast
    rfl
  have hat : source_at src (wrap32 ((tid : Int) * (chunk_base N P : Int))) =
      (src.x_idx : Int) - ((tid * chunk_base N P : Nat) : Int) + (OL : Int) := by
    rw [hcast]
    apply source_at_eq
    · omega
    · omega
    · omega
  have hiff : (0 < source_at src (wrap32 ((tid : Int) * (chunk_base N P : Int))) ∧
        source_at src (wrap32 ((tid : Int) * (chunk_base N P : Int))) <
          ((chunk N P tid + 2 * OL : Nat) : Int)) ↔
      (tid * chunk_base N P < src.x_idx + OL ∧
        src.x_idx + OL < tid * chunk_base N P + chunk N P tid + 2 * OL) := by
    rw [hat]
    omega
  have htn : tid * chunk_base N P < src.x_idx + OL →
      (source_at src (wrap32 ((tid : Int) * (chunk_base N P : Int)))).toNat =
        src.x_idx + OL - tid * chunk_base N P := by
    intro h
    rw [hat]
    omega
  refine ⟨hat, hiff, ?_, ?_, ?_, ?_⟩
  · intro hn
    unfold apply_source_body
    simp only []
    rw [if_neg (fun h => hn (hiff.1 h))]
  · intro h1 h2 hty
    unfold apply_source_body
    simp only []
    rw [if_pos (hiff.2 ⟨h1, h2⟩), hty, htn h1]
  · intro h1 h2 hty
    unfold apply_source_body
    simp only []
    rw [if_pos (hiff.2 ⟨h1, h2⟩), hty, htn h1]
  · intro hty
    unfold apply_source_body
    simp only []
    rw [hty]
    split_ifs <;> rfl

theorem source_applied_iff_witness :
    0 < 2 ∧ 70 + 2 * OL < 2147483648 ∧
    (⟨source_type.hard_source, 50, 0⟩ : sim_source).x_idx < 70 ∧
    source_at ⟨source_type.hard_source, 50, 0⟩
        (wrap32 (((0 : Nat) : Int) * (chunk_base 70 2 : Int))) =
      (((⟨source_type.hard_source, 50, 0⟩ : sim_source).x_idx : Nat) : Int) -
        ((0 * chunk_base 70 2 : Nat) : Int) + (OL : Int) :=
  ⟨by decide, by decide, by decide,
    (source_applied_iff 70 2 0 ⟨source_type.hard_source, 50, 0⟩ (by decide) (by decide)
      (by decide) (fun _ => 0) (fun _ => 0) 0).1⟩

end mbsolve

namespace mbsolve

/-! ## How even the split is -/

/-- C21 as stated fails for 5 grid points and 3 workers: the first worker
owns 1 point and the last one 3, because the whole remainder `5 % 3 = 2` goes
to the last worker. -/
theorem even_split_counterexample :
    1 ≤ 3 ∧ chunk 5 3 0 = 1 ∧ chunk 5 3 2 = 3 ∧ ¬(chunk 5 3 2 ≤ chunk 5 3 0 + 1) := by
  decide

/-- C21, amended. For `P >= 1` every worker but the last owns `N / P` points
and the last owns `N / P + N % P`, so the chunk sizes of two workers differ by
at most `N % P`, which is below `P`; they differ by at most one point for all
pairs of workers exactly when `N % P <= 1`. -/
theorem chunk_split (N P : Nat) (hP : 1 ≤ P) :
    (∀ tid, tid < P → tid ≠ P - 1 → chunk N P tid = N / P) ∧
    chunk N P (P - 1) = N / P + N % P ∧
    N % P < P ∧
    (∀ tid1 tid2, tid1 < P → tid2 < P → chunk N P tid1 ≤ chunk N P tid2 + N % P) ∧
    ((∀ tid1 tid2, tid1 < P → tid2 < P → chunk N P tid1 ≤ chunk N P tid2 + 1) ↔
      N % P ≤ 1) := by
  have hlast : chunk N P (P - 1) = N / P + N % P := by
    simp [chunk, chunk_base, chunk_rem]
  have hother : ∀ tid, tid ≠ P - 1 → chunk N P tid = N / P :=
    fun tid h => chunk_of_not_last N P tid h
  have hmod : N % P < P := Nat.mod_lt _ (by omega)
  have hval : ∀ tid, chunk N P tid = N / P ∨ chunk N P tid = N / P + N % P := by
    intro tid
    by_cases h : tid = P - 1
    · right; rw [h]; exact hlast
    · left; exact hother tid h
  refine ⟨fun tid _ h => hother tid h, hlast, hmod, ?_, ?_⟩
  · intro t1 t2 _ _
    rcases hval t1 with h1 | h1 <;> rcases hval t2 with h2 | h2 <;> omega
  · constructor
    · intro h
      by_cases hP1 : P = 1
      · subst hP1
        simp [Nat.mod_one]
      · have h0 := h (P - 1) 0 (by omega) (by omega)
        rw [hlast, hother 0 (by omega)] at h0
        omega
    · intro h t1 t2 _ _
      rcases hval t1 with h1 | h1 <;> rcases hval t2 with h2 | h2 <;> omega

theorem chunk_split_witness :
    1 ≤ 3 ∧ chunk 5 3 (3 - 1) = 5 / 3 + 5 % 3 :=
  ⟨by decide, (chunk_split 5 3 (by decide)).2.1⟩

end mbsolve

namespace mbsolve

/-! ## Scratch cells that no worker writes -/

theorem apply_writes_other (addr : Nat) :
    ∀ (ws : List scratch_write) (sc : Nat → real),
      (∀ wr ∈ ws, wr.addr ≠ addr) → apply_writes sc ws addr = sc addr := by
  intro ws
  induction ws with
  | nil => intro sc _; rfl
  | cons w ws ih =>
    intro sc h
    unfold apply_writes
    rw [List.foldl_cons]
    have h1 := ih (Function.update sc w.addr w.value)
      (fun wr hwr => h wr (List.mem_cons_of_mem _ hwr))
    unfold apply_writes at h1
    rw [h1, Function.update_noteq]
    exact fun he => h w (List.mem_cons_self _ _) he.symm

/-- A scratch cell that is not the address of any store in the log of the
steps `l` still holds what it held before the steps. -/
theorem exec_list_scratch_unwritten {num_adj : Nat} (s : solver num_adj)
    (l : List action) (st0 : state num_adj) (addr : Nat)
    (h : ∀ wr ∈ (exec_list s st0 l).log, wr.addr ≠ addr) :
    (exec_list s st0 l).scratch addr = st0.scratch addr := by
  induction l using List.reverseRecOn with
  | nil => rfl
  | append_singleton l a ih =>
    rw [exec_list_append] at h ⊢
    simp only [exec_list, List.foldl_cons, List.foldl_nil] at h ⊢
    cases a with
    | exchange n =>
      simp only [exec] at h ⊢
      exact ih h
    | substep n m =>
      simp only [exec] at h ⊢
      rw [substep_all_log] at h
      have h1 : ∀ wr ∈ (List.foldl (exec s) st0 l).log, wr.addr ≠ addr :=
        fun wr hwr => h wr (List.mem_append_left _ hwr)
      have h2 := ih h1
      simp only [exec_list] at h2
      rw [← h2]
      show apply_writes _ _ addr = _
      apply apply_writes_other
      intro wr hwr
      exact h wr (List.mem_append_right _ hwr)

end mbsolve

namespace mbsolve

/-- The stores of a run with one worker, one grid point, one time step and one
window: each is made by worker 0 at local index `OL` at time step 0 for that
window. -/
theorem single_point_log {num_adj : Nat} (s : solver num_adj) (cle : copy_list_entry)
    (hP : s.P = 1) (hN : s.num_gridpoints = 1) (hT : s.num_timesteps = 1)
    (hl : s.l_copy_list = [cle]) (st0 : state num_adj) (h0 : st0.log = []) :
    ∀ wr ∈ (run s st0).log,
      ∃ a, wr ∈ record_body s.num_lvl s.calc_population 1 1 0 0 0 cle a 32 := by
  intro wr hwr
  have hra : run_actions s.num_timesteps = [action.exchange 0, action.substep 0 0] := by
    rw [hT]
    decide
  unfold run at hwr
  rw [hra] at hwr
  simp only [exec_list, List.foldl_cons, List.foldl_nil, exec] at hwr
  rw [substep_all_log] at hwr
  simp only [h0, List.nil_append] at hwr
  rw [List.mem_flatMap] at hwr
  obtain ⟨tid, htid, hwr⟩ := hwr
  rw [hP, List.mem_range] at htid
  have ht0 : tid = 0 := by omega
  subst ht0
  rw [mem_record_worker] at hwr
  obtain ⟨k2, cle2, hk2, _, i, hi1, hi2, hb⟩ := hwr
  rw [hl] at hk2
  rw [hN, hP] at hi2 hb
  have hch : chunk 1 1 0 = 1 := by decide
  have hOL : OL = 32 := rfl
  rw [hch, hOL] at hi2
  rw [hOL] at hi1
  have hi : i = 32 := by omega
  subst hi
  cases k2 with
  | zero =>
    simp only [List.getElem?_cons_zero, Option.some.injEq] at hk2
    subst hk2
    exact ⟨_, hb⟩
  | succ k3 => simp at hk2

/-- C22 fails on two inputs, for every content `scratch0` of the freshly
allocated scratch buffer. For the off-diagonal density window of
`offdiag_solver`, `run` makes no store at all, and the bulk copy puts the
unwritten scratch cell 0 into the result. For the complex window of
`complex_solver`, every store of `run` goes to cell 0 (the real part), and the
bulk copy puts the unwritten cell 1 into the imaginary part of the result. -/
theorem unwritten_cells_copied (scratch0 : Nat → real) (results : Nat → result) :
    ((run offdiag_solver
        (init_state offdiag_solver (fun _ => 0) (fun _ => zero_arena) scratch0)).log = [] ∧
      offdiag_entry.size = 1 ∧ offdiag_entry.offset_scratch_real 0 0 = 0 ∧
      ((bulk_copy [offdiag_entry]
        (run offdiag_solver
          (init_state offdiag_solver (fun _ => 0) (fun _ => zero_arena) scratch0)).scratch
        results).2 0).real_part 0 = scratch0 0) ∧
    ((∀ wr ∈ (run complex_solver
        (init_state complex_solver (fun _ => 0) (fun _ => zero_arena) scratch0)).log,
        wr.addr = 0) ∧
      complex_entry.size = 1 ∧ complex_entry.is_complex = true ∧
      complex_entry.offset_scratch_imag 0 0 = 1 ∧
      ((bulk_copy [complex_entry]
        (run complex_solver
          (init_state complex_solver (fun _ => 0) (fun _ => zero_arena) scratch0)).scratch
        results).2 0).imag_part 0 = scratch0 1) := by
  have hoff : (run offdiag_solver
      (init_state offdiag_solver (fun _ => 0) (fun _ => zero_arena) scratch0)).log = [] := by
    rw [List.eq_nil_iff_forall_not_mem]
    intro wr hwr
    obtain ⟨a, hb⟩ := single_point_log offdiag_solver offdiag_window rfl rfl rfl rfl _ rfl
      wr hwr
    have h9 := (mem_record_body _ _ _ _ _ _ _ _ _ _ _ hb).2.2.2.2.2.2.2.2.1
    have := (h9 rfl).1
    simp [offdiag_window] at this
  have hcx : ∀ wr ∈ (run complex_solver
      (init_state complex_solver (fun _ => 0) (fun _ => zero_arena) scratch0)).log,
      wr.addr = 0 := by
    intro wr hwr
    obtain ⟨a, hb⟩ := single_point_log complex_solver complex_entry.tocopy_list_entry
      rfl rfl rfl rfl _ rfl wr hwr
    rw [(mem_record_body _ _ _ _ _ _ _ _ _ _ _ hb).2.2.2.2.1]
    decide
  refine ⟨⟨hoff, rfl, by decide, ?_⟩, ⟨hcx, rfl, rfl, by decide, ?_⟩⟩
  · obtain ⟨_, h2, _⟩ := bulk_copy_loop [offdiag_entry] 0
      ((run offdiag_solver
        (init_state offdiag_solver (fun _ => 0) (fun _ => zero_arena) scratch0)).scratch,
        results) 0
    have h3 := (h2 offdiag_entry (Nat.le_refl 0) rfl).1
    have hbc : ∀ sc, bulk_copy [offdiag_entry] sc results =
        ([offdiag_entry].enumFrom 0).foldl bulk_copy_body (sc, results) := fun _ => rfl
    rw [hbc, h3, std_copy_apply, if_pos (by decide)]
    have e : (offdiag_entry.offset_scratch_real 0 0).toNat + 0 = 0 := by decide
    rw [e]
    exact exec_list_scratch_unwritten offdiag_solver _
      (init_state offdiag_solver (fun _ => 0) (fun _ => zero_arena) scratch0) 0
      (fun wr hwr => by
        have hwr2 : wr ∈ (run offdiag_solver
            (init_state offdiag_solver (fun _ => 0) (fun _ => zero_arena) scratch0)).log := hwr
        rw [hoff] at hwr2
        exact absurd hwr2 (List.not_mem_nil _))
  · obtain ⟨_, h2, _⟩ := bulk_copy_loop [complex_entry] 0
      ((run complex_solver
        (init_state complex_solver (fun _ => 0) (fun _ => zero_arena) scratch0)).scratch,
        results) 0
    have h3 := (h2 complex_entry (Nat.le_refl 0) rfl).2
    have hbc : ∀ sc, bulk_copy [complex_entry] sc results =
        ([complex_entry].enumFrom 0).foldl bulk_copy_body (sc, results) := fun _ => rfl
    have hc : complex_entry.is_complex = true := rfl
    rw [hbc, h3, if_pos hc, std_copy_apply, if_pos (by decide)]
    have e : (complex_entry.offset_scratch_imag 0 0).toNat + 0 = 1 := by decide
    rw [e]
    exact exec_list_scratch_unwritten complex_solver _
      (init_state complex_solver (fun _ => 0) (fun _ => zero_arena) scratch0) 1
      (fun wr hwr => by
        have := hcx wr hwr
        omega)

end mbsolve

namespace mbsolve

/-! ## Array indices stay inside the arrays -/

theorem loop_indices_bound (size bd i : Nat) (h1 : bd + 1 ≤ size) (h2 : size < 2147483648)
    (h : i ∈ loop_range size bd) : bd ≤ i ∧ i + 1 < size := by
  have := (mem_loop_range_iff size bd i h1 h2).1 h
  omega

/-- C23. For every worker `tid < P` of a grid with `N + 2 * OL < 2^31` and
every substep index `m < OL`: every index of its own arrays that the worker
uses in the substep (in `update_d`, `update_fdtd` with `i + 1`,
`apply_sources_rk`, `update_h` with `i - 1`, the boundary pins and the
recorder) and in the halo exchange lies in `[0, chunk + 2 * OL)`, and every
index at which it reads the arrays of worker `tid - 1` or `tid + 1` in the
halo exchange lies inside the arrays of that worker, which exists. -/
theorem arena_index_safety {num_adj : Nat} (s : solver num_adj) (tid m : Nat)
    (ht : tid < s.P) (hN : s.num_gridpoints + 2 * OL < 2147483648) (hm : m < OL) :
    (∀ idx ∈ substep_indices s m tid,
      0 ≤ idx ∧ idx < ((arena_size s.num_gridpoints s.P tid : Nat) : Int)) ∧
    (∀ idx ∈ exchange_own_indices s.num_gridpoints s.P tid,
      0 ≤ idx ∧ idx < ((arena_size s.num_gridpoints s.P tid : Nat) : Int)) ∧
    (∀ idx ∈ exchange_prev_indices s.num_gridpoints s.P tid,
      tid - 1 < s.P ∧ 0 ≤ idx ∧
      idx < ((arena_size s.num_gridpoints s.P (tid - 1) : Nat) : Int)) ∧
    (∀ idx ∈ exchange_next_indices s.P tid,
      tid + 1 < s.P ∧ 0 ≤ idx ∧
      idx < ((arena_size s.num_gridpoints s.P (tid + 1) : Nat) : Int)) := by
  have hOL : OL = 32 := rfl
  have hle := chunk_base_mul_le s.num_gridpoints s.P tid (by omega) ht
  have hsz : ∀ t, arena_size s.num_gridpoints s.P t = chunk s.num_gridpoints s.P t + 2 * 32 :=
    fun _ => rfl
  have hb := border_le m
  have h1 : border m + 1 ≤ arena_size s.num_gridpoints s.P tid := by
    rw [hsz]; omega
  have h2 : arena_size s.num_gridpoints s.P tid < 2147483648 := by
    rw [hsz]; omega
  refine ⟨?_, ?_, ?_, ?_⟩
  · intro idx hidx
    simp only [substep_indices, List.mem_append] at hidx
    rcases hidx with ((((hd | hf) | hs) | hh) | hp) | hr
    · simp only [update_d_indices, List.mem_map] at hd
      obtain ⟨i, hi, rfl⟩ := hd
      have := loop_indices_bound _ _ i h1 h2 hi
      omega
    · simp only [update_fdtd_indices, List.mem_flatMap] at hf
      obtain ⟨i, hi, hm2⟩ := hf
      have := loop_indices_bound _ _ i h1 h2 hi
      simp only [List.mem_cons, List.mem_singleton, List.not_mem_nil, or_false] at hm2
      rcases hm2 with rfl | rfl <;> omega
    · simp only [source_indices, List.mem_filterMap] at hs
      obtain ⟨src, _, hsrc⟩ := hs
      split_ifs at hsrc with hc
      · have hidx2 : idx = source_at src
            (wrap32 ((tid : Int) * (chunk_base s.num_gridpoints s.P : Int))) := by
          cases hty : src.type <;> simp [hty] at hsrc
          · exact hsrc.symm
          · exact hsrc.symm
        rw [hidx2, hsz]
        have := hc.2
        push_cast at this ⊢
        rw [hOL] at this
        omega
    · simp only [update_h_indices, List.mem_flatMap] at hh
      obtain ⟨i, hi, hm2⟩ := hh
      have := loop_indices_bound _ _ i h1 h2 hi
      split_ifs at hm2 with hc
      · simp only [List.mem_cons, List.mem_singleton, List.not_mem_nil, or_false] at hm2
        rcases hm2 with rfl | rfl <;> omega
      · simp only [List.mem_singleton] at hm2
        subst hm2
        omega
    · simp only [pin_indices, List.mem_append] at hp
      rcases hp with hp | hp
      · split_ifs at hp
        · simp only [List.mem_singleton] at hp
          subst hp
          rw [hsz, hOL]
          omega
        · exact absurd hp (List.not_mem_nil _)
      · split_ifs at hp
        · simp only [List.mem_singleton] at hp
          subst hp
          rw [hsz, hOL]
          omega
        · exact absurd hp (List.not_mem_nil _)
    · simp only [record_indices, List.mem_map, List.mem_range'_1] at hr
      obtain ⟨i, hi, rfl⟩ := hr
      rw [hsz]
      rw [hOL] at hi
      omega
  · intro idx hidx
    simp only [exchange_own_indices, List.mem_append] at hidx
    rcases hidx with hl | hr
    · split_ifs at hl
      · simp only [List.mem_map, List.mem_range] at hl
        obtain ⟨i, hi, rfl⟩ := hl
        rw [hsz]
        rw [hOL] at hi
        omega
      · exact absurd hl (List.not_mem_nil _)
    · split_ifs at hr with hc
      · simp only [List.mem_map, List.mem_range] at hr
        obtain ⟨i, hi, rfl⟩ := hr
        rw [hsz, chunk_of_not_last s.num_gridpoints s.P tid (by omega)]
        rw [hOL] at hi ⊢
        push_cast
        omega
      · exact absurd hr (List.not_mem_nil _)
  · intro idx hidx
    simp only [exchange_prev_indices] at hidx
    split_ifs at hidx with hc
    · simp only [List.mem_map, List.mem_range] at hidx
      obtain ⟨i, hi, rfl⟩ := hidx
      rw [hsz, chunk_of_not_last s.num_gridpoints s.P (tid - 1) (by omega)]
      rw [hOL] at hi
      push_cast
      omega
    · exact absurd hidx (List.not_mem_nil _)
  · intro idx hidx
    simp only [exchange_next_indices] at hidx
    split_ifs at hidx with hc
    · simp only [List.mem_map, List.mem_range] at hidx
      obtain ⟨i, hi, rfl⟩ := hidx
      rw [hsz]
      rw [hOL] at hi ⊢
      push_cast
      omega
    · exact absurd hidx (List.not_mem_nil _)

theorem arena_index_safety_witness :
    1 < hard_source_solver.P ∧
    hard_source_solver.num_gridpoints + 2 * OL < 2147483648 ∧ 5 < OL ∧
    (∀ idx ∈ substep_indices hard_source_solver 5 1,
      0 ≤ idx ∧
      idx < ((arena_size hard_source_solver.num_gridpoints hard_source_solver.P 1 : Nat)
        : Int)) :=
  ⟨by decide, by decide, by decide,
    (arena_index_safety hard_source_solver 1 5 (by decide) (by decide) (by decide)).1⟩

end mbsolve

namespace mbsolve

/-! ## The equilibrium of the Runge-Kutta step -/

theorem rk4_step_stages {num_adj : Nat} (sc : sim_constants_clvl_rk num_adj) (e_o e : real)
    (d : Fin num_adj → real) :
    rk4_step sc e_o e d =
      d + (1 / 6 : real) • (rk4_k1 sc e_o d + (2 : real) • rk4_k2 sc e_o e d +
        (2 : real) • rk4_k3 sc e_o e d + rk4_k4 sc e_o e d) := rfl

/-- C25. For array lengths that fit an `int`, `border + 1 <= size`, and an
index `border <= i < size - border - 1` whose material has a quantum system:
if `e_o[i] = e[i] = E` and `(M + U * E) * d[i] + d_eq = 0`, then the four
stage vectors of the Runge-Kutta step are zero and `update_d` leaves `d[i]`
unchanged, whatever the time step `d_t` of the coefficient record is. -/
theorem equilibrium_fixed_point {num_adj : Nat} (c : Nat → sim_constants_clvl_rk num_adj)
    (size bd : Nat) (a : arena num_adj) (h1 : bd + 1 ≤ size) (h2 : size < 2147483648)
    (i : Nat) (hi1 : bd ≤ i) (hi2 : i < size - bd - 1)
    (hq : (c (a.mat_indices i)).has_qm = true) (E : real)
    (heo : a.e_o i = E) (he : a.e i = E)
    (heq : ((c (a.mat_indices i)).M + E • (c (a.mat_indices i)).U).mulVec (a.d i) +
      (c (a.mat_indices i)).d_eq = 0) :
    rk4_k1 (c (a.mat_indices i)) (a.e_o i) (a.d i) = 0 ∧
    rk4_k2 (c (a.mat_indices i)) (a.e_o i) (a.e i) (a.d i) = 0 ∧
    rk4_k3 (c (a.mat_indices i)) (a.e_o i) (a.e i) (a.d i) = 0 ∧
    rk4_k4 (c (a.mat_indices i)) (a.e_o i) (a.e i) (a.d i) = 0 ∧
    (update_d size bd c a).d i = a.d i := by
  have havg : (E + E) / 2 = E := by ring
  have k1 : rk4_k1 (c (a.mat_indices i)) E (a.d i) = 0 := by
    unfold rk4_k1
    rw [heq, smul_zero]
  have k2 : rk4_k2 (c (a.mat_indices i)) E E (a.d i) = 0 := by
    unfold rk4_k2
    rw [k1, havg, smul_zero, add_zero, heq, smul_zero]
  have k3 : rk4_k3 (c (a.mat_indices i)) E E (a.d i) = 0 := by
    unfold rk4_k3
    rw [k2, havg, smul_zero, add_zero, heq, smul_zero]
  have k4 : rk4_k4 (c (a.mat_indices i)) E E (a.d i) = 0 := by
    unfold rk4_k4
    rw [k3, add_zero, heq, smul_zero]
  rw [heo, he]
  refine ⟨k1, k2, k3, k4, ?_⟩
  rw [update_d_d, if_pos ((mem_loop_range_iff size bd i h1 h2).2 ⟨hi1, hi2⟩),
    update_d_body_rk4 c a i hq, rk4_step_stages, heo, he, k1, k2, k3, k4]
  simp

theorem equilibrium_fixed_point_witness :
    0 + 1 ≤ 70 ∧ 70 < 2147483648 ∧ 0 ≤ 5 ∧ 5 < 70 - 0 - 1 ∧
    (example_eq_consts).has_qm = true ∧ eq_arena.e_o 5 = 0 ∧ eq_arena.e 5 = 0 ∧
    (update_d 70 0 (fun _ => example_eq_consts) eq_arena).d 5 = eq_arena.d 5 :=
  ⟨by decide, by decide, by decide, by decide, rfl, rfl, rfl,
    (equilibrium_fixed_point (fun _ => example_eq_consts) 70 0 eq_arena (by decide)
      (by decide) 5 (by decide) (by decide) rfl 0 rfl rfl (by
        funext j
        simp [example_eq_consts, eq_arena, Matrix.neg_mulVec])).2.2.2.2⟩

end mbsolve

namespace mbsolve

/-! ## The source table -/

theorem fill_source_data_apply (src : source) (dt : real) (b : Nat) (data : Nat → real) :
    ∀ T, b + T ≤ 4294967296 → ∀ idx,
      fill_source_data src T dt b data idx =
        if b ≤ idx ∧ idx < b + T then src.get_value (((idx - b : Nat) : real) * dt)
        else data idx := by
  intro T
  induction T with
  | zero =>
    intro _ idx
    rw [if_neg (by omega)]
    rfl
  | succ T ih =>
    intro hT idx
    have hw : wrap32 ((b : Int) + (T : Int)) = b + T := by
      unfold wrap32
      omega
    have hstep : fill_source_data src (T + 1) dt b data =
        Function.update (fill_source_data src T dt b data) (b + T)
          (src.get_value ((T : real) * dt)) := by
      unfold fill_source_data
      rw [List.range_succ, List.foldl_append, List.foldl_cons, List.foldl_nil, hw]
    rw [hstep]
    by_cases he : idx = b + T
    · subst he
      rw [Function.update_same, if_pos (by omega), Nat.add_sub_cancel_left]
    · rw [Function.update_noteq he, ih (by omega) idx]
      by_cases hc : b ≤ idx ∧ idx < b + T
      · rw [if_pos hc, if_pos (by omega)]
      · rw [if_neg hc, if_neg (by omega)]

/-- The loop over the sources, started with the list `acc`, the table `data`
and the base index `b`: it appends one entry per source, source number `k`
gets the base index `b + k * T` and its values at `b + k * T + j`, and the
table below `b` is not written. -/
theorem build_sources_spec (T : Nat) (dt dx : real) :
    ∀ (srcs : List source) (acc : List sim_source) (data : Nat → real) (b : Nat),
      b + srcs.length * T < 4294967296 →
      ∃ new : List sim_source,
        (srcs.foldl (build_sources_body T dt dx) (acc, data, b)).1 = acc ++ new ∧
        new.length = srcs.length ∧
        (∀ k src, srcs[k]? = some src →
          new[k]? = some ⟨src.type, real_to_uint (src.position / dx), b + k * T⟩ ∧
          ∀ j, j < T →
            (srcs.foldl (build_sources_body T dt dx) (acc, data, b)).2.1 (b + k * T + j) =
              src.get_value ((j : real) * dt)) ∧
        (∀ idx, idx < b →
          (srcs.foldl (build_sources_body T dt dx) (acc, data, b)).2.1 idx = data idx) := by
  intro srcs
  induction srcs with
  | nil =>
    intro acc data b _
    exact ⟨[], by simp, rfl, by simp, fun _ _ => rfl⟩
  | cons x xs ih =>
    intro acc data b hb
    have hlen : (x :: xs).length * T = xs.length * T + T := by
      rw [List.length_cons, Nat.succ_mul]
    rw [hlen] at hb
    have hw : wrap32 ((b : Int) + (T : Int)) = b + T := by
      unfold wrap32
      omega
    have hstep : (x :: xs).foldl (build_sources_body T dt dx) (acc, data, b) =
        xs.foldl (build_sources_body T dt dx)
          (acc ++ [⟨x.type, real_to_uint (x.position / dx), b⟩],
            fill_source_data x T dt b data, b + T) := by
      rw [List.foldl_cons]
      simp only [build_sources_body, hw]
    rw [hstep]
    obtain ⟨new, h1, h2, h3, h4⟩ := ih (acc ++ [⟨x.type, real_to_uint (x.position / dx), b⟩])
      (fill_source_data x T dt b data) (b + T) (by omega)
    refine ⟨⟨x.type, real_to_uint (x.position / dx), b⟩ :: new, ?_, by simp [h2], ?_, ?_⟩
    · rw [h1]
      simp
    · intro k src hk
      cases k with
      | zero =>
        simp only [List.getElem?_cons_zero, Option.some.injEq] at hk
        subst hk
        refine ⟨by simp, ?_⟩
        intro j hj
        rw [h4 _ (by omega), fill_source_data_apply x dt b data T (by omega),
          if_pos (by omega)]
        congr 2
        have : b + 0 * T + j - b = j := by omega
        rw [this]
      | succ k =>
        simp only [List.getElem?_cons_succ] at hk ⊢
        obtain ⟨h5, h6⟩ := h3 k src hk
        have hidx : b + T + k * T = b + (k + 1) * T := by
          rw [Nat.succ_mul]
          omega
        refine ⟨by rw [h5, hidx], ?_⟩
        intro j hj
        rw [← hidx]
        exact h6 j hj
    · intro idx hidx
      rw [h4 idx (by omega), fill_source_data_apply x dt b data T (by omega),
        if_neg (by omega)]

/-- C24. When `num_sources * num_timesteps` fits the `unsigned int` base
index, the constructor gives source number `k` the base offset
`k * num_timesteps` and stores its value at time `j * dt` at
`source_data[k * num_timesteps + j]` for every `j < num_timesteps`; and in
every substep of `run` the time index `t = n * OL + m` is below
`num_timesteps`, so the lookup `source_data[data_base_idx + t]` reads an index
in `[k * num_timesteps, (k + 1) * num_timesteps)`, below
`num_timesteps * num_sources`, which holds the value of that source at time
`t * dt`. -/
theorem source_table_safety (srcs : List source) (T : Nat) (dt dx : real)
    (data0 : Nat → real) (hfit : srcs.length * T < 4294967296) :
    (build_sources srcs T dt dx data0).1.length = srcs.length ∧
    ∀ k src, srcs[k]? = some src →
      ∃ ss, (build_sources srcs T dt dx data0).1[k]? = some ss ∧ ss.type = src.type ∧
        ss.data_base_idx = k * T ∧
        (∀ j, j < T →
          (build_sources srcs T dt dx data0).2.1 (k * T + j) =
            src.get_value ((j : real) * dt)) ∧
        (∀ n m, action.substep n m ∈ run_actions T →
          n * OL + m < T ∧
          k * T ≤ ss.data_base_idx + (n * OL + m) ∧
          ss.data_base_idx + (n * OL + m) < (k + 1) * T ∧
          ss.data_base_idx + (n * OL + m) < T * srcs.length ∧
          (build_sources srcs T dt dx data0).2.1 (ss.data_base_idx + (n * OL + m)) =
            src.get_value (((n * OL + m : Nat) : real) * dt)) := by
  obtain ⟨new, h1, h2, h3, _⟩ := build_sources_spec T dt dx srcs [] data0 0 (by omega)
  have hb : build_sources srcs T dt dx data0 =
      srcs.foldl (build_sources_body T dt dx) ([], data0, 0) := rfl
  rw [hb, h1, List.nil_append]
  refine ⟨h2, ?_⟩
  intro k src hk
  obtain ⟨h5, h6⟩ := h3 k src hk
  have hklt : k < srcs.length := by
    rcases Nat.lt_or_ge k srcs.length with h | h
    · exact h
    · rw [List.getElem?_eq_none h] at hk
      exact absurd hk (by simp)
  have hmul : (k + 1) * T ≤ T * srcs.length := by
    rw [Nat.mul_comm T]
    exact Nat.mul_le_mul_right T hklt
  have hsucc : (k + 1) * T = k * T + T := Nat.succ_mul k T
  refine ⟨_, h5, rfl, by simp, ?_, ?_⟩
  · intro j hj
    have := h6 j hj
    rw [Nat.zero_add] at this
    exact this
  · intro n m hnm
    have ht := substep_time_lt T n m hnm
    have hv := h6 (n * OL + m) ht
    simp only [Nat.zero_add] at hv ⊢
    exact ⟨ht, by omega, by omega, by omega, hv⟩

theorem source_table_safety_witness :
    example_sources.length * 40 < 4294967296 ∧
    (build_sources example_sources 40 1 1 (fun _ => 0)).1.length = example_sources.length :=
  ⟨by decide, (source_table_safety example_sources 40 1 1 (fun _ => 0) (by decide)).1⟩

end mbsolve

namespace mbsolve

/-! ## The global material-index map -/

theorem find_mat_idx_spec (id_to_idx : String → Nat) (x : real) :
    ∀ regions : List region,
      (∀ reg, regions.find? (fun r => decide (r.x_start ≤ x ∧ x ≤ r.x_end)) = some reg →
        find_mat_idx id_to_idx x regions = id_to_idx reg.material_id) ∧
      (regions.find? (fun r => decide (r.x_start ≤ x ∧ x ≤ r.x_end)) = none →
        find_mat_idx id_to_idx x regions = 0) := by
  intro regions
  induction regions with
  | nil =>
    exact ⟨fun reg h => by simp at h, fun _ => rfl⟩
  | cons r rs ih =>
    by_cases hc : r.x_start ≤ x ∧ x ≤ r.x_end
    · have hf : (r :: rs).find? (fun r => decide (r.x_start ≤ x ∧ x ≤ r.x_end)) = some r := by
        simp [List.find?, hc]
      rw [hf]
      refine ⟨fun reg h => ?_, fun h => by simp at h⟩
      simp only [Option.some.injEq] at h
      subst h
      simp only [find_mat_idx, hc, and_self, if_true]
    · have hf : (r :: rs).find? (fun r => decide (r.x_start ≤ x ∧ x ≤ r.x_end)) =
          rs.find? (fun r => decide (r.x_start ≤ x ∧ x ≤ r.x_end)) := by
        simp [List.find?, hc]
      rw [hf]
      have hstep : find_mat_idx id_to_idx x (r :: rs) = find_mat_idx id_to_idx x rs := by
        simp only [find_mat_idx, hc, if_false]
      rw [hstep]
      exact ih

theorem build_mat_indices_apply (N : Nat) (dx : real) (regions : List region)
    (id_to_idx : String → Nat) (l0 : Nat → Nat) (i : Nat) :
    build_mat_indices N dx regions id_to_idx l0 i =
      if i < N then find_mat_idx id_to_idx ((i : real) * dx) regions else l0 i := by
  unfold build_mat_indices
  have h := foldl_pointwise
    (fun (l : Nat → Nat) x =>
      Function.update l x (find_mat_idx id_to_idx ((x : real) * dx) regions))
    (fun l => l) (fun _ x => find_mat_idx id_to_idx ((x : real) * dx) regions)
    (fun l x j hj => by simp [Function.update, hj])
    (fun l x => by simp)
    (fun _ _ _ _ => rfl)
    (List.range N) (List.nodup_range N) l0 i
  simp only [List.mem_range] at h
  exact h

/-- The loop over the used materials, started with the table `acc`, the map
`m` and the counter `j`: when it succeeds it appends one record per material,
in order, material number `k` gets the index `j + k` when the identifiers of
the materials are pairwise distinct, and the map is unchanged at every other
identifier. -/
theorem build_sim_consts_spec {num_adj : Nat} (env : environment num_adj) (num_lvl : Nat)
    (dt dx : real) :
    ∀ (mats : List String) (acc : List (sim_constants_clvl_rk num_adj)) (m : String → Nat)
      (j : Nat) (table : List (sim_constants_clvl_rk num_adj)) (m2 : String → Nat),
      build_sim_consts env num_lvl dt dx mats acc m j = Except.ok (table, m2) →
      ∃ new : List (sim_constants_clvl_rk num_adj),
        table = acc ++ new ∧ new.length = mats.length ∧
        (∀ (k : Nat) (mat_id : String), mats[k]? = some mat_id →
          ∃ sc, new[k]? = some sc ∧
            make_sim_constants env num_lvl dt dx (env.get_from_library mat_id) =
              Except.ok sc) ∧
        (mats.Pairwise
            (fun a b => (env.get_from_library a).id ≠ (env.get_from_library b).id) →
          ∀ (k : Nat) (mat_id : String), mats[k]? = some mat_id → m2 (env.get_from_library mat_id).id = j + k) ∧
        (∀ id, (∀ mat_id ∈ mats, (env.get_from_library mat_id).id ≠ id) → m2 id = m id) := by
  intro mats
  induction mats with
  | nil =>
    intro acc m j table m2 h
    simp only [build_sim_consts, Except.ok.injEq, Prod.mk.injEq] at h
    obtain ⟨rfl, rfl⟩ := h
    exact ⟨[], by simp, rfl, by simp, fun _ => by simp, fun _ _ => rfl⟩
  | cons x xs ih =>
    intro acc m j table m2 h
    simp only [build_sim_consts] at h
    cases hm : make_sim_constants env num_lvl dt dx (env.get_from_library x) with
    | error msg =>
      rw [hm] at h
      simp at h
    | ok sc =>
      rw [hm] at h
      simp only [] at h
      obtain ⟨new, h1, h2, h3, h4, h5⟩ := ih _ _ _ _ _ h
      refine ⟨sc :: new, by rw [h1]; simp, by simp [h2], ?_, ?_, ?_⟩
      · intro k mat_id hk
        cases k with
        | zero =>
          simp only [List.getElem?_cons_zero, Option.some.injEq] at hk
          subst hk
          exact ⟨sc, by simp, hm⟩
        | succ k =>
          simp only [List.getElem?_cons_succ] at hk ⊢
          exact h3 k mat_id hk
      · intro hp k mat_id hk
        rw [List.pairwise_cons] at hp
        cases k with
        | zero =>
          simp only [List.getElem?_cons_zero, Option.some.injEq] at hk
          subst hk
          rw [h5 _ (fun mat_id hmem => (hp.1 mat_id hmem).symm), Function.update_same]
          rfl
        | succ k =>
          simp only [List.getElem?_cons_succ] at hk
          rw [h4 hp.2 k mat_id hk]
          omega
      · intro id hid
        rw [h5 id (fun mat_id hmem => hid mat_id (List.mem_cons_of_mem _ hmem)),
          Function.update_noteq]
        exact fun he => hid x (List.mem_cons_self _ _) he.symm

/-- C26. When the first part of the constructor succeeds and the used
materials have pairwise distinct identifiers: the coefficient table has one
record per used material, in the iteration order, the record of material
number `k` is the one made from that material and `id_to_idx` gives its
identifier the index `k`; and for every grid point `i < N` the map
`l_mat_indices` holds `id_to_idx` of the material of the first region, in
device order, with `x_start <= i * dx <= x_end` (the index `k` when that
material is used material number `k`), and 0 when there is no such region. -/
theorem material_index_map {num_adj : Nat} (env : environment num_adj) (num_lvl : Nat)
    (dt dx : real) (dev : device) (N : Nat) (l0 : Nat → Nat)
    (table : List (sim_constants_clvl_rk num_adj)) (id_to_idx : String → Nat)
    (hok : construct_sim_consts env num_lvl dt dx dev = Except.ok (table, id_to_idx))
    (hdist : dev.used_materials.Pairwise
      (fun a b => (env.get_from_library a).id ≠ (env.get_from_library b).id)) :
    table.length = dev.used_materials.length ∧
    (∀ (k : Nat) (mat_id : String), dev.used_materials[k]? = some mat_id →
      id_to_idx (env.get_from_library mat_id).id = k ∧
      ∃ sc, table[k]? = some sc ∧
        make_sim_constants env num_lvl dt dx (env.get_from_library mat_id) = Except.ok sc) ∧
    (∀ i, i < N →
      (∀ reg, dev.regions.find?
          (fun r => decide (r.x_start ≤ (i : real) * dx ∧ (i : real) * dx ≤ r.x_end)) =
            some reg →
        build_mat_indices N dx dev.regions id_to_idx l0 i = id_to_idx reg.material_id ∧
        ∀ (k : Nat) (mat_id : String), dev.used_materials[k]? = some mat_id →
          (env.get_from_library mat_id).id = reg.material_id →
          build_mat_indices N dx dev.regions id_to_idx l0 i = k) ∧
      (dev.regions.find?
          (fun r => decide (r.x_start ≤ (i : real) * dx ∧ (i : real) * dx ≤ r.x_end)) = none →
        build_mat_indices N dx dev.regions id_to_idx l0 i = 0)) := by
  unfold construct_sim_consts at hok
  split_ifs at hok with hreg
  obtain ⟨new, h1, h2, h3, h4, _⟩ := build_sim_consts_spec env num_lvl dt dx _ _ _ _ _ _ hok
  rw [List.nil_append] at h1
  subst h1
  refine ⟨h2, ?_, ?_⟩
  · intro k mat_id hk
    refine ⟨?_, h3 k mat_id hk⟩
    rw [h4 hdist k mat_id hk, Nat.zero_add]
  · intro i hi
    rw [build_mat_indices_apply, if_pos hi]
    obtain ⟨f1, f2⟩ := find_mat_idx_spec id_to_idx ((i : real) * dx) dev.regions
    refine ⟨fun reg hreg2 => ⟨f1 reg hreg2, ?_⟩, f2⟩
    intro k mat_id hk hid
    rw [f1 reg hreg2, ← hid, h4 hdist k mat_id hk, Nat.zero_add]

theorem material_index_map_witness :
    ∃ (table : List (sim_constants_clvl_rk 3)) (id_to_idx : String → Nat),
      construct_sim_consts example_env 2 1 1 example_device = Except.ok (table, id_to_idx) ∧
      example_device.used_materials.Pairwise
        (fun a b => (example_env.get_from_library a).id ≠
          (example_env.get_from_library b).id) ∧
      table.length = example_device.used_materials.length :=
  ⟨_, _, rfl, by decide,
    (material_index_map example_env 2 1 1 example_device 10 (fun _ => 0) _ _ rfl
      (by decide)).1⟩

end mbsolve

namespace mbsolve

/-! ## The steps of `run` and the time index they hand on -/

theorem run_actions_substeps_length (T : Nat) :
    ((run_actions T).filter (fun a => a.time.isSome)).length = T := by
  have h2 : ((run_actions T).filterMap action.time).length = T := by
    rw [run_actions_time, List.length_range]
  have : ∀ l : List action,
      (l.filter (fun a => a.time.isSome)).length = (l.filterMap action.time).length := by
    intro l
    induction l with
    | nil => rfl
    | cons a l ih =>
      cases a with
      | exchange n => simpa [action.time] using ih
      | substep n m => simpa [action.time] using ih
  rw [this, h2]

theorem run_actions_exchanges (T : Nat) :
    (run_actions T).filter (fun a => a.time.isNone) =
      (List.range (T / OL + 1)).map action.exchange := by
  unfold run_actions
  rw [List.filter_flatMap]
  simp only [block_actions_exchanges]
  induction (List.range (T / OL + 1)) with
  | nil => rfl
  | cons a l ih => simp [ih]

theorem run_actions_head (T : Nat) :
    (run_actions T).head? = some (action.exchange 0) := by
  unfold run_actions
  rw [List.range_succ_eq_map]
  rfl

/-- C10. The function `run` executes the steps `run_actions T` one after the
other (`T = num_timesteps`), the memory after `j + 1` steps being the effect
of step `j` on the memory after `j` steps. Among these steps the substeps have
the time indices `0, 1, ..., T - 1` in this order (so there are `T` substeps),
the exchanges are those of the blocks `0, ..., T / OL`, one each, the first
step is the exchange of block 0, and an exchange is only followed by substep 0
of its block, substep `m` only by substep `m + 1` of its block or, after `OL`
substeps, by the exchange of the next block. A substep with time index `t`
runs `substep_worker` for every worker `tid < P`, hands `t` to
`apply_sources_rk` and to the recorder, stores only for windows with
`hasto_record(t)` and with the time stamp `t`, and writes these stores into
the scratch buffer; an exchange has no time index and leaves the scratch
buffer and the store history as they are. -/
theorem time_step_enumeration {num_adj : Nat} (s : solver num_adj) (st0 : state num_adj) :
    ((run_actions s.num_timesteps).filterMap action.time = List.range s.num_timesteps ∧
      ((run_actions s.num_timesteps).filter (fun a => a.time.isSome)).length =
        s.num_timesteps ∧
      (run_actions s.num_timesteps).filter (fun a => a.time.isNone) =
        (List.range (s.num_timesteps / OL + 1)).map action.exchange ∧
      (run_actions s.num_timesteps).head? = some (action.exchange 0) ∧
      List.Chain' action.follows (run_actions s.num_timesteps)) ∧
    (run s st0 = exec_list s st0 (run_actions s.num_timesteps) ∧
      run s st0 = exec_list s st0
        ((run_actions s.num_timesteps).take (run_actions s.num_timesteps).length) ∧
      exec_list s st0 ((run_actions s.num_timesteps).take 0) = st0 ∧
      ∀ j a, (run_actions s.num_timesteps)[j]? = some a →
        exec_list s st0 ((run_actions s.num_timesteps).take (j + 1)) =
          exec s (exec_list s st0 ((run_actions s.num_timesteps).take j)) a) ∧
    (∀ (st : state num_adj) (n m t : Nat), action.time (action.substep n m) = some t →
      t = n * OL + m ∧
      (∀ tid, tid < s.P →
        (exec s st (action.substep n m)).arenas tid =
          substep_worker s n m tid (st.arenas tid) ∧
        ((exec s st (action.substep n m)).arenas tid).e =
          apply_sources_rk
            (update_fdtd (arena_size s.num_gridpoints s.P tid) (border m) s.l_sim_consts
              (update_d (arena_size s.num_gridpoints s.P tid) (border m) s.l_sim_consts
                (st.arenas tid))).e
            s.m_source_data s.l_sim_sources t
            (wrap32 ((tid : Int) * (chunk_base s.num_gridpoints s.P : Int)))
            (chunk s.num_gridpoints s.P tid)) ∧
      (exec s st (action.substep n m)).log = st.log ++
        (List.range s.P).flatMap (fun tid =>
          record_worker s.num_lvl s.calc_population s.l_copy_list s.num_gridpoints s.P tid t
            ((exec s st (action.substep n m)).arenas tid)) ∧
      (exec s st (action.substep n m)).scratch = apply_writes st.scratch
        ((List.range s.P).flatMap (fun tid =>
          record_worker s.num_lvl s.calc_population s.l_copy_list s.num_gridpoints s.P tid t
            ((exec s st (action.substep n m)).arenas tid))) ∧
      (∀ wr ∈ (List.range s.P).flatMap (fun tid =>
          record_worker s.num_lvl s.calc_population s.l_copy_list s.num_gridpoints s.P tid t
            ((exec s st (action.substep n m)).arenas tid)),
        wr.time = t ∧ wr.tid < s.P ∧
        ∃ cle, s.l_copy_list[wr.k]? = some cle ∧ cle.hasto_record t = true)) ∧
    (∀ (st : state num_adj) (n : Nat),
      action.time (action.exchange n) = none ∧
      (exec s st (action.exchange n)).arenas =
        exchange_all s.num_gridpoints s.P st.arenas ∧
      (exec s st (action.exchange n)).scratch = st.scratch ∧
      (exec s st (action.exchange n)).log = st.log) := by
  refine ⟨⟨run_actions_time _, run_actions_substeps_length _, run_actions_exchanges _,
    run_actions_head _, blocks_chain _ _ (le_refl _)⟩, ⟨rfl, ?_, rfl, ?_⟩, ?_, ?_⟩
  · rw [List.take_length]
    rfl
  · intro j a hj
    exact exec_list_take_succ s st0 _ j a hj
  · intro st n m t ht
    have htt : t = n * OL + m := by
      simp only [action.time, Option.some.injEq] at ht
      exact ht.symm
    subst htt
    refine ⟨rfl, ?_, substep_all_log s n m st, rfl, ?_⟩
    · intro tid htid
      have h1 : (exec s st (action.substep n m)).arenas tid =
          substep_worker s n m tid (st.arenas tid) := substep_all_arenas s n m st tid htid
      refine ⟨h1, ?_⟩
      rw [h1, substep_worker_e]
    · intro wr hwr
      rw [List.mem_flatMap] at hwr
      obtain ⟨tid, htid, hwr⟩ := hwr
      rw [List.mem_range] at htid
      rw [mem_record_worker] at hwr
      obtain ⟨k, cle, hk, hr, i, _, _, hb⟩ := hwr
      obtain ⟨b1, b2, b3, _⟩ := mem_record_body _ _ _ _ _ _ _ _ _ _ _ hb
      rw [b1, b2, b3]
      exact ⟨rfl, htid, cle, hk, hr⟩
  · intro st n
    exact ⟨rfl, rfl, rfl, rfl⟩

end mbsolve

namespace mbsolve

theorem time_step_enumeration_witness :
    (run_actions hard_source_solver.num_timesteps)[34]? = some (action.substep 1 0) ∧
    action.time (action.substep 1 0) = some 32 ∧
    exec_list hard_source_solver
        (init_state hard_source_solver (fun _ => 0) (fun _ => zero_arena) (fun _ => 0))
        ((run_actions hard_source_solver.num_timesteps).take (34 + 1)) =
      exec hard_source_solver
        (exec_list hard_source_solver
          (init_state hard_source_solver (fun _ => 0) (fun _ => zero_arena) (fun _ => 0))
          ((run_actions hard_source_solver.num_timesteps).take 34))
        (action.substep 1 0) ∧
    32 = 1 * OL + 0 ∧
    (exec hard_source_solver
        (init_state hard_source_solver (fun _ => 0) (fun _ => zero_arena) (fun _ => 0))
        (action.substep 1 0)).scratch =
      apply_writes
        (init_state hard_source_solver (fun _ => 0) (fun _ => zero_arena) (fun _ => 0)).scratch
        ((List.range hard_source_solver.P).flatMap (fun tid =>
          record_worker hard_source_solver.num_lvl hard_source_solver.calc_population
            hard_source_solver.l_copy_list hard_source_solver.num_gridpoints
            hard_source_solver.P tid 32
            ((exec hard_source_solver
              (init_state hard_source_solver (fun _ => 0) (fun _ => zero_arena) (fun _ => 0))
              (action.substep 1 0)).arenas tid))) :=
  ⟨by decide, rfl,
    (time_step_enumeration hard_source_solver
      (init_state hard_source_solver (fun _ => 0) (fun _ => zero_arena)
        (fun _ => 0))).2.1.2.2.2 34 _ (by decide),
    ((time_step_enumeration hard_source_solver
      (init_state hard_source_solver (fun _ => 0) (fun _ => zero_arena)
        (fun _ => 0))).2.2.1
      (init_state hard_source_solver (fun _ => 0) (fun _ => zero_arena) (fun _ => 0))
      1 0 32 rfl).1,
    ((time_step_enumeration hard_source_solver
      (init_state hard_source_solver (fun _ => 0) (fun _ => zero_arena)
        (fun _ => 0))).2.2.1
      (init_state hard_source_solver (fun _ => 0) (fun _ => zero_arena) (fun _ => 0))
      1 0 32 rfl).2.2.2.1⟩

end mbsolve

namespace mbsolve

/-! ## Counting the stores of a window that may reach beyond the grid -/

/-- Number of points of `[pos, w)` in a range of consecutive numbers. -/
theorem countP_window_upto (pos w a n : Nat) :
    List.countP (fun g => decide (pos ≤ g ∧ g < w)) (List.range' a n) =
      (min (a + n) w - min (a + n) pos) - (min a w - min a pos) := by
  induction n with
  | zero => simp
  | succ n ih =>
    rw [List.range'_concat, List.countP_append, ih, List.countP_singleton]
    simp only [Nat.one_mul]
    by_cases h : pos ≤ a + n ∧ a + n < w
    · simp only [h, and_self, decide_True, if_true]
      omega
    · simp only [h, decide_False]
      simp only [Bool.false_eq_true, if_false]
      omega

section record_count_gen
variable {num_adj : Nat} (num_lvl : Nat) (cp : (Fin num_adj → real) → Nat → real)
  (N P tid time k : Nat) (cle : copy_list_entry) (a : arena num_adj)

/-- The window test of the recorder, on the global index; the end of the
window is `pos + cols` in `uint64_t`. -/
theorem record_cond_iff_gen (i : Nat) (hi : OL ≤ i)
    (hs : tid * chunk_base N P + i < 9223372036854775808) :
    (wrap64 (to_int64 (wrap64 (record_base_idx N P tid + (i : Int)))) ≥ cle.position ∧
      wrap64 (to_int64 (wrap64 (record_base_idx N P tid + (i : Int)))) <
        wrap64 ((cle.position : Int) + (cle.cols : Int))) ↔
    (cle.position ≤ tid * chunk_base N P + i - OL ∧
      tid * chunk_base N P + i - OL < wrap64 ((cle.position : Int) + (cle.cols : Int))) := by
  rw [record_idx_eq N P tid i hi hs, wrap64_natCast _ (by omega)]

theorem record_body_length_gen (i : Nat) (hi : OL ≤ i)
    (hs : tid * chunk_base N P + i < 9223372036854775808)
    (hty : cle.type = record_type.electric ∨ cle.type = record_type.inversion ∨
      (cle.type = record_type.density ∧ cle.row_idx = cle.col_idx)) :
    (record_body num_lvl cp N P tid time k cle a i).length =
      if decide (cle.position ≤ tid * chunk_base N P + i - OL ∧
        tid * chunk_base N P + i - OL <
          wrap64 ((cle.position : Int) + (cle.cols : Int))) then 1 else 0 := by
  have hc := record_cond_iff_gen N P tid cle i hi hs
  unfold record_body
  simp only []
  by_cases h : cle.position ≤ tid * chunk_base N P + i - OL ∧
      tid * chunk_base N P + i - OL < wrap64 ((cle.position : Int) + (cle.cols : Int))
  · rw [if_pos (hc.2 h)]
    simp only [h, and_self, decide_True, if_true]
    rcases hty with h1 | h1 | ⟨h1, h2⟩
    · rw [h1]; rfl
    · rw [h1]; rfl
    · rw [h1]
      simp only []
      rw [if_pos h2]
      rfl
  · rw [if_neg (fun h2 => h (hc.1 h2))]
    simp only [h, decide_False]
    rfl

/-- Number of stores of one worker for a window in a substep: the number of
grid points of the window in the owned range of the worker. -/
theorem record_window_length_gen (ht : tid < P) (hP : 1 ≤ P)
    (hN : N + 2 * OL < 2147483648)
    (hty : cle.type = record_type.electric ∨ cle.type = record_type.inversion ∨
      (cle.type = record_type.density ∧ cle.row_idx = cle.col_idx)) :
    (record_window num_lvl cp N P tid time a k cle).length =
      if cle.hasto_record time then
        (min (tid * chunk_base N P + chunk N P tid) (wrap64 ((cle.position : Int) + (cle.cols : Int))) -
            min (tid * chunk_base N P + chunk N P tid) cle.position) -
          (min (tid * chunk_base N P) (wrap64 ((cle.position : Int) + (cle.cols : Int))) -
            min (tid * chunk_base N P) cle.position)
      else 0 := by
  have hOL : OL = 32 := rfl
  have hle := chunk_base_mul_le N P tid hP ht
  unfold record_window
  by_cases hr : cle.hasto_record time = true
  · rw [if_pos hr, if_pos hr]
    rw [length_flatMap_indicator _
      (fun i => decide (cle.position ≤ tid * chunk_base N P + i - OL ∧
        tid * chunk_base N P + i - OL <
          wrap64 ((cle.position : Int) + (cle.cols : Int))))]
    · rw [← countP_window_upto cle.position (wrap64 ((cle.position : Int) + (cle.cols : Int)))
        (tid * chunk_base N P) (chunk N P tid)]
      rw [List.range'_eq_map_range, List.range'_eq_map_range, List.countP_map,
        List.countP_map]
      apply List.countP_congr
      intro x _
      simp only [Function.comp, decide_eq_true_eq]
      have e : tid * chunk_base N P + (OL + x) - OL = tid * chunk_base N P + x := by omega
      rw [e]
    · intro i hi
      rw [List.mem_range'_1] at hi
      exact record_body_length_gen num_lvl cp N P tid time k cle a i hi.1 (by omega) hty
  · rw [if_neg hr, if_neg hr]
    rfl

end record_count_gen

/-- Number of stores of all workers for window `k` in one substep: the
number of grid points of the window inside the grid if the window is selected
at this time, else none. -/
theorem substep_all_count_gen {num_adj : Nat} (s : solver num_adj) (n m : Nat)
    (ar : Nat → arena num_adj) (k : Nat) (cle : copy_list_entry)
    (hk : s.l_copy_list[k]? = some cle)
    (hty : cle.type = record_type.electric ∨ cle.type = record_type.inversion ∨
      (cle.type = record_type.density ∧ cle.row_idx = cle.col_idx))
    (hN : s.num_gridpoints + 2 * OL < 2147483648) (hP : 1 ≤ s.P) :
    List.countP (fun w => decide (w.k = k))
        ((List.range s.P).flatMap (fun tid =>
          record_worker s.num_lvl s.calc_population s.l_copy_list s.num_gridpoints s.P tid
            (n * OL + m) (ar tid))) =
      if cle.hasto_record (n * OL + m) then
        min s.num_gridpoints (wrap64 ((cle.position : Int) + (cle.cols : Int))) - min s.num_gridpoints cle.position
      else 0 := by
  have hlast := last_chunk_end s.num_gridpoints s.P hP
  by_cases hr : cle.hasto_record (n * OL + m) = true
  · rw [if_pos hr]
    rw [countP_flatMap_range _ _
      (fun t => if t = s.P then
          (min s.num_gridpoints (wrap64 ((cle.position : Int) + (cle.cols : Int))) - min s.num_gridpoints cle.position)
        else (min (t * chunk_base s.num_gridpoints s.P) (wrap64 ((cle.position : Int) + (cle.cols : Int))) -
          min (t * chunk_base s.num_gridpoints s.P) cle.position)) s.P]
    · simp only [if_true]
      rw [if_neg (by omega)]
      simp only [Nat.zero_mul]
      omega
    · intro t ht
      rw [record_worker_count _ _ _ _ _ _ _ cle _ _ hk,
        record_window_length_gen _ _ _ _ _ _ _ cle _ ht hP hN hty, if_pos hr]
      by_cases htl : t + 1 = s.P
      · have : t = s.P - 1 := by omega
        subst this
        rw [hlast]
        simp only [htl, if_true]
        rw [if_neg (by omega)]
      · rw [if_neg htl, if_neg (by omega), chunk_of_not_last _ _ _ (by omega), Nat.succ_mul]
    · intro t ht
      have hle := chunk_base_mul_le s.num_gridpoints s.P t hP ht
      have hcb := chunk_base_le_chunk s.num_gridpoints s.P t
      by_cases htl : t + 1 = s.P
      · simp only [htl, if_true]
        rw [if_neg (by omega)]
        omega
      · rw [if_neg htl, if_neg (by omega), Nat.succ_mul]
        omega
  · rw [if_neg hr, List.countP_eq_zero]
    intro wr hwr
    rw [List.mem_flatMap] at hwr
    obtain ⟨tid, _, hwr⟩ := hwr
    rw [mem_record_worker] at hwr
    obtain ⟨k2, cle2, hk2, hr2, i, _, _, hb⟩ := hwr
    simp only [decide_eq_true_eq]
    intro hkk
    rw [(mem_record_body _ _ _ _ _ _ _ _ _ _ _ hb).1] at hkk
    subst hkk
    rw [hk] at hk2
    cases hk2
    exact hr hr2

/-- Number of stores for window `k` after a list of steps. -/
theorem exec_list_count_gen {num_adj : Nat} (s : solver num_adj) (k : Nat)
    (cle : copy_list_entry) (hk : s.l_copy_list[k]? = some cle)
    (hty : cle.type = record_type.electric ∨ cle.type = record_type.inversion ∨
      (cle.type = record_type.density ∧ cle.row_idx = cle.col_idx))
    (hN : s.num_gridpoints + 2 * OL < 2147483648) (hP : 1 ≤ s.P)
    (l : List action) (st : state num_adj) :
    List.countP (fun w => decide (w.k = k)) (exec_list s st l).log =
      List.countP (fun w => decide (w.k = k)) st.log +
        List.countP cle.hasto_record (l.filterMap action.time) *
          (min s.num_gridpoints (wrap64 ((cle.position : Int) + (cle.cols : Int))) -
            min s.num_gridpoints cle.position) := by
  induction l generalizing st with
  | nil => simp [exec_list]
  | cons a l ih =>
    have e : exec_list s st (a :: l) = exec_list s (exec s st a) l := rfl
    rw [e, ih]
    cases a with
    | exchange n =>
      rw [List.filterMap_cons_none (by rfl)]
      rfl
    | substep n m =>
      rw [List.filterMap_cons_some (by rfl : action.time (action.substep n m) = some (n * OL + m)),
        List.countP_cons]
      simp only [exec]
      rw [substep_all_log, List.countP_append,
        substep_all_count_gen s n m _ k cle hk hty hN hP]
      by_cases hr : cle.hasto_record (n * OL + m) = true
      · simp only [hr, if_true]
        rw [Nat.add_mul]
        omega
      · simp only [hr]
        simp only [Bool.false_eq_true, if_false, Nat.add_zero]

/-- Where a store in the log of a run comes from: a substep of `run`, a
window of the copy list that is selected at the time of the substep and whose
type the recorder handles, a worker and one of its owned indices that passes
the window test of the code; and the address of the store. -/
theorem run_log_origin {num_adj : Nat} (s : solver num_adj)
    (l_mat_indices : Nat → Nat) (a0 : Nat → arena num_adj) (scratch0 : Nat → real) :
    ∀ wr ∈ (run s (init_state s l_mat_indices a0 scratch0)).log,
      ∃ (cle : copy_list_entry) (n m : Nat),
        action.substep n m ∈ run_actions s.num_timesteps ∧
        s.l_copy_list[wr.k]? = some cle ∧ wr.time = n * OL + m ∧
        cle.hasto_record wr.time = true ∧
        wr.tid < s.P ∧ OL ≤ wr.i ∧ wr.i < OL + chunk s.num_gridpoints s.P wr.tid ∧
        wr.addr = wrap64 (cle.offset_scratch_real wr.time
          (wrap64 (record_base_idx s.num_gridpoints s.P wr.tid - (cle.position : Int))) +
            (wr.i : Int)) ∧
        (wrap64 (to_int64 (wrap64 (record_base_idx s.num_gridpoints s.P wr.tid +
            (wr.i : Int)))) ≥ cle.position ∧
          wrap64 (to_int64 (wrap64 (record_base_idx s.num_gridpoints s.P wr.tid +
            (wr.i : Int)))) < wrap64 ((cle.position : Int) + (cle.cols : Int))) ∧
        (cle.type = record_type.electric ∨ cle.type = record_type.inversion ∨
          (cle.type = record_type.density ∧ cle.row_idx = cle.col_idx)) := by
  unfold run exec_list
  apply foldl_invariant
    (fun st : state num_adj => ∀ wr ∈ st.log,
      ∃ (cle : copy_list_entry) (n m : Nat),
        action.substep n m ∈ run_actions s.num_timesteps ∧
        s.l_copy_list[wr.k]? = some cle ∧ wr.time = n * OL + m ∧
        cle.hasto_record wr.time = true ∧
        wr.tid < s.P ∧ OL ≤ wr.i ∧ wr.i < OL + chunk s.num_gridpoints s.P wr.tid ∧
        wr.addr = wrap64 (cle.offset_scratch_real wr.time
          (wrap64 (record_base_idx s.num_gridpoints s.P wr.tid - (cle.position : Int))) +
            (wr.i : Int)) ∧
        (wrap64 (to_int64 (wrap64 (record_base_idx s.num_gridpoints s.P wr.tid +
            (wr.i : Int)))) ≥ cle.position ∧
          wrap64 (to_int64 (wrap64 (record_base_idx s.num_gridpoints s.P wr.tid +
            (wr.i : Int)))) < wrap64 ((cle.position : Int) + (cle.cols : Int))) ∧
        (cle.type = record_type.electric ∨ cle.type = record_type.inversion ∨
          (cle.type = record_type.density ∧ cle.row_idx = cle.col_idx)))
    (exec s) (run_actions s.num_timesteps)
  · intro st a ha hst wr hwr
    cases a with
    | exchange n => exact hst wr hwr
    | substep n m =>
      simp only [exec] at hwr
      rw [substep_all_log, List.mem_append] at hwr
      rcases hwr with hwr | hwr
      · exact hst wr hwr
      · rw [List.mem_flatMap] at hwr
        obtain ⟨tid, htid, hwr⟩ := hwr
        rw [List.mem_range] at htid
        rw [mem_record_worker] at hwr
        obtain ⟨k, cle, hk, hr, i, hi1, hi2, hb⟩ := hwr
        obtain ⟨b1, b2, b3, b4, b5, b6, _, _, b9, b10⟩ :=
          mem_record_body _ _ _ _ _ _ _ _ _ _ _ hb
        have hty : cle.type = record_type.electric ∨ cle.type = record_type.inversion ∨
            (cle.type = record_type.density ∧ cle.row_idx = cle.col_idx) := by
          cases hc : cle.type with
          | electric => exact Or.inl rfl
          | inversion => exact Or.inr (Or.inl rfl)
          | density => exact Or.inr (Or.inr ⟨rfl, (b9 hc).1⟩)
          | other => exact absurd hc b10
        rw [b1, b2, b3, b4]
        exact ⟨cle, n, m, ha, hk, rfl, hr, htid, hi1, hi2, b5, b6, hty⟩
  · intro wr hwr
    simp [init_state] at hwr

end mbsolve

namespace mbsolve

/-! ## Scratch-buffer bound -/

/-- A sum taken in `uint64_t` is at most the exact sum. -/
theorem wrap64_add_le (a b : Nat) : wrap64 ((a : Int) + (b : Int)) ≤ a + b := by
  unfold wrap64
  omega

/-- C5 as stated fails in two ways. For a density window with
`row_idx != col_idx`: the window of `offdiag_solver` has one column and is
selected at the only time step, so the claimed number of stores is 1, but
`run` makes no store for it. For a window that reaches beyond the grid: the
window of `wide_window_solver` has the two columns `0, 1` on a grid of one
point and is selected at the only time step, so the claimed number of stores
is 2, but `run` makes one store for it. -/
theorem scratch_count_counterexample :
    (List.countP offdiag_window.hasto_record (List.range offdiag_solver.num_timesteps) *
        offdiag_window.cols = 1 ∧
      List.countP (fun w => decide (w.k = 0))
          (run offdiag_solver
            (init_state offdiag_solver (fun _ => 0) (fun _ => zero_arena) (fun _ => 0))).log ≠
        List.countP offdiag_window.hasto_record (List.range offdiag_solver.num_timesteps) *
          offdiag_window.cols) ∧
    (wide_window_solver.l_copy_list[0]? = some (example_window 0 2 0) ∧
      List.countP (example_window 0 2 0).hasto_record
          (List.range wide_window_solver.num_timesteps) * (example_window 0 2 0).cols = 2 ∧
      List.countP (fun w => decide (w.k = 0))
          (run wide_window_solver
            (init_state wide_window_solver (fun _ => 0) (fun _ => zero_arena)
              (fun _ => 0))).log = 1) := by
  refine ⟨?_, rfl, by decide, ?_⟩
  · have h1 : List.countP offdiag_window.hasto_record
        (List.range offdiag_solver.num_timesteps) * offdiag_window.cols = 1 := by decide
    refine ⟨h1, ?_⟩
    rw [h1]
    have h0 : List.countP (fun w => decide (w.k = 0))
        (run offdiag_solver
          (init_state offdiag_solver (fun _ => 0) (fun _ => zero_arena) (fun _ => 0))).log = 0 := by
      rw [List.countP_eq_zero]
      intro wr hwr
      exfalso
      obtain ⟨a, hb⟩ := single_point_log offdiag_solver offdiag_window rfl rfl rfl rfl _ rfl
        wr hwr
      have h9 := (mem_record_body _ _ _ _ _ _ _ _ _ _ _ hb).2.2.2.2.2.2.2.2.1
      have := (h9 rfl).1
      simp [offdiag_window] at this
    rw [h0]
    decide
  · unfold run
    rw [exec_list_count_gen wide_window_solver 0 (example_window 0 2 0) rfl (Or.inl rfl)
      (by decide) (by decide), run_actions_time]
    have h0 : List.countP (fun w => decide (w.k = 0))
        (init_state wide_window_solver (fun _ => 0) (fun _ => zero_arena)
          (fun _ => 0)).log = 0 := rfl
    rw [h0]
    decide

/-- C5, amended. For window `k` of the copy list, on a grid with
`N + 2 * OL < 2^31` and `P >= 1`, in a full `run` from the memory the
constructor sets up: if the window has type electric, inversion, or density
with `row_idx = col_idx`, the number of stores made for it by all workers
together is the number of selected time steps below `num_timesteps` times the
number of grid points `g < N` with `pos <= g < pos + cols` (the sum taken in
`uint64_t`, as the code does), which is `cols` when `pos + cols <= N`; for a
window of any other kind no store is made. Every store for the window is made
at a selected time step below `num_timesteps`, by the worker that owns the
grid point, for a grid point of the window; and when the scratch offset of the
window is a row start plus the grid point (in `uint64_t`) and the rows of the
selected time steps lie in a region `[lo, hi)`, the address of the store is
the row start plus the column and lies in `[lo, hi)`. -/
theorem scratch_buffer_bound {num_adj : Nat} (s : solver num_adj)
    (l_mat_indices : Nat → Nat) (a0 : Nat → arena num_adj) (scratch0 : Nat → real)
    (k : Nat) (cle : copy_list_entry) (hk : s.l_copy_list[k]? = some cle)
    (hN : s.num_gridpoints + 2 * OL < 2147483648) (hP : 1 ≤ s.P) :
    ((cle.type = record_type.electric ∨ cle.type = record_type.inversion ∨
        (cle.type = record_type.density ∧ cle.row_idx = cle.col_idx)) →
      List.countP (fun w => decide (w.k = k))
          (run s (init_state s l_mat_indices a0 scratch0)).log =
        List.countP cle.hasto_record (List.range s.num_timesteps) *
          (min s.num_gridpoints (wrap64 ((cle.position : Int) + (cle.cols : Int))) -
            min s.num_gridpoints cle.position) ∧
      (cle.position + cle.cols ≤ s.num_gridpoints →
        List.countP (fun w => decide (w.k = k))
            (run s (init_state s l_mat_indices a0 scratch0)).log =
          List.countP cle.hasto_record (List.range s.num_timesteps) * cle.cols)) ∧
    (¬(cle.type = record_type.electric ∨ cle.type = record_type.inversion ∨
        (cle.type = record_type.density ∧ cle.row_idx = cle.col_idx)) →
      List.countP (fun w => decide (w.k = k))
          (run s (init_state s l_mat_indices a0 scratch0)).log = 0 ∧
      ∀ wr ∈ (run s (init_state s l_mat_indices a0 scratch0)).log, wr.k ≠ k) ∧
    (∀ wr ∈ (run s (init_state s l_mat_indices a0 scratch0)).log, wr.k = k →
      wr.time < s.num_timesteps ∧ cle.hasto_record wr.time = true ∧ wr.tid < s.P ∧
      OL ≤ wr.i ∧ wr.i < OL + chunk s.num_gridpoints s.P wr.tid ∧
      cle.position ≤ wr.tid * chunk_base s.num_gridpoints s.P + wr.i - OL ∧
      wr.tid * chunk_base s.num_gridpoints s.P + wr.i - OL < cle.position + cle.cols ∧
      wr.tid * chunk_base s.num_gridpoints s.P + wr.i - OL < s.num_gridpoints) ∧
    (∀ (row_start : Nat → Nat) (lo hi : Nat),
      (∀ t g, cle.offset_scratch_real t g =
        to_int64 (wrap64 ((row_start t : Int) + (g : Int)))) →
      (∀ t, t < s.num_timesteps → cle.hasto_record t = true →
        lo ≤ row_start t ∧ row_start t + cle.cols ≤ hi) →
      hi < 18446744073709551616 →
      ∀ wr ∈ (run s (init_state s l_mat_indices a0 scratch0)).log, wr.k = k →
        wr.addr = row_start wr.time +
          (wr.tid * chunk_base s.num_gridpoints s.P + wr.i - OL - cle.position) ∧
        lo ≤ wr.addr ∧ wr.addr < hi) := by
  have hOL : OL = 32 := rfl
  have horigin := run_log_origin s l_mat_indices a0 scratch0
  -- the facts about one store for window `k`
  have hfacts : ∀ wr ∈ (run s (init_state s l_mat_indices a0 scratch0)).log, wr.k = k →
      (cle.type = record_type.electric ∨ cle.type = record_type.inversion ∨
        (cle.type = record_type.density ∧ cle.row_idx = cle.col_idx)) ∧
      wr.time < s.num_timesteps ∧ cle.hasto_record wr.time = true ∧ wr.tid < s.P ∧
      OL ≤ wr.i ∧ wr.i < OL + chunk s.num_gridpoints s.P wr.tid ∧
      cle.position ≤ wr.tid * chunk_base s.num_gridpoints s.P + wr.i - OL ∧
      wr.tid * chunk_base s.num_gridpoints s.P + wr.i - OL < cle.position + cle.cols ∧
      wr.tid * chunk_base s.num_gridpoints s.P + wr.i - OL < s.num_gridpoints ∧
      wr.addr = wrap64 (cle.offset_scratch_real wr.time
        (wrap64 (record_base_idx s.num_gridpoints s.P wr.tid - (cle.position : Int))) +
          (wr.i : Int)) := by
    intro wr hwr hwk
    obtain ⟨cle2, n, m, hnm, c1, c2, c3, c4, c5, c6, c7, c8, c9⟩ := horigin wr hwr
    rw [hwk, hk] at c1
    cases c1
    have hle := chunk_base_mul_le s.num_gridpoints s.P wr.tid hP c4
    have hc := (record_cond_iff_gen s.num_gridpoints s.P wr.tid cle wr.i c5 (by omega)).1 c8
    have hwle := wrap64_add_le cle.position cle.cols
    have htime := substep_time_lt _ n m hnm
    rw [← c2] at htime
    exact ⟨c9, htime, c3, c4, c5, c6, hc.1, by omega, by omega, c7⟩
  refine ⟨?_, ?_, ?_, ?_⟩
  · intro hty
    have hcount : List.countP (fun w => decide (w.k = k))
        (run s (init_state s l_mat_indices a0 scratch0)).log =
        List.countP cle.hasto_record (List.range s.num_timesteps) *
          (min s.num_gridpoints (wrap64 ((cle.position : Int) + (cle.cols : Int))) -
            min s.num_gridpoints cle.position) := by
      unfold run
      rw [exec_list_count_gen s k cle hk hty hN hP, run_actions_time]
      simp [init_state]
    refine ⟨hcount, ?_⟩
    intro hwin
    rw [hcount]
    have hp : wrap64 ((cle.position : Int) + (cle.cols : Int)) = cle.position + cle.cols := by
      have := wrap64_natCast (cle.position + cle.cols) (by omega)
      push_cast at this
      exact this
    rw [hp]
    congr 1
    omega
  · intro hnty
    have hnone : ∀ wr ∈ (run s (init_state s l_mat_indices a0 scratch0)).log, wr.k ≠ k :=
      fun wr hwr hwk => hnty (hfacts wr hwr hwk).1
    refine ⟨?_, hnone⟩
    rw [List.countP_eq_zero]
    intro wr hwr
    simp only [decide_eq_true_eq]
    exact hnone wr hwr
  · intro wr hwr hwk
    exact (hfacts wr hwr hwk).2.1 |> fun h1 =>
      ⟨h1, (hfacts wr hwr hwk).2.2.1, (hfacts wr hwr hwk).2.2.2.1,
        (hfacts wr hwr hwk).2.2.2.2.1, (hfacts wr hwr hwk).2.2.2.2.2.1,
        (hfacts wr hwr hwk).2.2.2.2.2.2.1, (hfacts wr hwr hwk).2.2.2.2.2.2.2.1,
        (hfacts wr hwr hwk).2.2.2.2.2.2.2.2.1⟩
  · intro row_start lo hi hoff hrow hhi wr hwr hwk
    obtain ⟨_, f1, f2, f3, f4, f5, f6, f7, f8, f9⟩ := hfacts wr hwr hwk
    have hle := chunk_base_mul_le s.num_gridpoints s.P wr.tid hP f3
    have hr := hrow wr.time f1 f2
    have hbase : record_base_idx s.num_gridpoints s.P wr.tid =
        ((wr.tid * chunk_base s.num_gridpoints s.P : Nat) : Int) - 32 := by
      unfold record_base_idx
      rw [hOL]
      push_cast
      apply to_int64_wrap64
      · have : (0 : Int) ≤ ((wr.tid * chunk_base s.num_gridpoints s.P : Nat) : Int) :=
          Int.natCast_nonneg _
        push_cast at this
        omega
      · have : ((wr.tid * chunk_base s.num_gridpoints s.P : Nat) : Int) <
            9223372036854775808 := by omega
        push_cast at this
        omega
    have haddr : wr.addr = row_start wr.time +
        (wr.tid * chunk_base s.num_gridpoints s.P + wr.i - 32 - cle.position) := by
      rw [f9]
      apply scratch_addr_eq (row_start wr.time)
        (wr.tid * chunk_base s.num_gridpoints s.P) cle.position wr.i _ _ (by omega)
        (by omega) (by omega)
      rw [hoff, hbase]
    refine ⟨?_, ?_, ?_⟩
    · rw [haddr, hOL]
    · omega
    · omega

theorem scratch_buffer_bound_witness :
    (hard_source_solver.l_copy_list[0]? = some (example_window 0 70 0) ∧
      hard_source_solver.num_gridpoints + 2 * OL < 2147483648 ∧
      1 ≤ hard_source_solver.P) ∧
    List.countP (fun w => decide (w.k = 0))
        (run hard_source_solver
          (init_state hard_source_solver (fun _ => 0) (fun _ => zero_arena) (fun _ => 0))).log =
      List.countP (example_window 0 70 0).hasto_record
        (List.range hard_source_solver.num_timesteps) * (example_window 0 70 0).cols :=
  ⟨⟨rfl, by decide, by decide⟩,
    ((scratch_buffer_bound hard_source_solver (fun _ => 0) (fun _ => zero_arena) (fun _ => 0)
      0 (example_window 0 70 0) rfl (by decide) (by decide)).1 (Or.inl rfl)).2
      (by decide)⟩

end mbsolve

namespace mbsolve

/-! ## Source fidelity, up to the scratch buffer -/

/-- The scratch cell `addr` after a list of stores, when some store of the
list goes to `addr` and every store of the list to `addr` has the value
`v`. -/
theorem apply_writes_value (addr : Nat) (v : real) :
    ∀ (ws : List scratch_write) (sc : Nat → real),
      (∃ wr ∈ ws, wr.addr = addr) → (∀ wr ∈ ws, wr.addr = addr → wr.value = v) →
      apply_writes sc ws addr = v := by
  intro ws
  induction ws using List.reverseRecOn with
  | nil =>
    intro sc h
    obtain ⟨wr, hwr, _⟩ := h
    exact absurd hwr (List.not_mem_nil _)
  | append_singleton ws w ih =>
    intro sc hex hall
    have hstep : apply_writes sc (ws ++ [w]) =
        Function.update (apply_writes sc ws) w.addr w.value := by
      unfold apply_writes
      rw [List.foldl_append, List.foldl_cons, List.foldl_nil]
    rw [hstep]
    by_cases hw : w.addr = addr
    · rw [← hw, Function.update_same]
      exact hall w (List.mem_append_right _ (List.mem_singleton_self _)) hw
    · rw [Function.update_noteq (fun h => hw h.symm)]
      apply ih sc
      · obtain ⟨wr, hwr, hwa⟩ := hex
        rcases List.mem_append.1 hwr with h | h
        · exact ⟨wr, h, hwa⟩
        · rw [List.mem_singleton] at h
          subst h
          exact absurd hwa hw
      · intro wr hwr
        exact hall wr (List.mem_append_left _ hwr)

/-- C3. With exactly one source, a hard source at grid index `k`, every time
index below `num_timesteps` belongs to a substep of `run`, and at the end of
the substep with time index `n * OL + m` the worker that owns `k` holds
`source_data[n * OL + m]` in its electric field at local index
`k - tid * chunk_base + OL`. The scratch buffer after the substep is the
scratch buffer before it with the stores `ws` of the substep applied. The
stores into an electric-field window that covers `k` and is selected at this
time contain one of the owner for `k`, at the address that the code computes
from the scratch offset of the window, with this value; every store of the
substep into that window for grid index `k` has this value; and when no store
of the substep for another window or grid index goes to that address, the
scratch buffer holds `source_data[n * OL + m]` at that address at the end of
the substep. -/
theorem source_fidelity {num_adj : Nat} (s : solver num_adj) (st0 : state num_adj)
    (k : Nat) (hsrc : s.l_sim_sources = [⟨source_type.hard_source, k, 0⟩])
    (hk : k < s.num_gridpoints)
    (hN : s.num_gridpoints + 2 * OL < 2147483648) (hP : 1 ≤ s.P)
    (tid : Nat) (ht : tid < s.P)
    (hown1 : tid * chunk_base s.num_gridpoints s.P ≤ k)
    (hown2 : k < tid * chunk_base s.num_gridpoints s.P + chunk s.num_gridpoints s.P tid) :
    (∀ t, t < s.num_timesteps → ∃ (j n m : Nat),
      (run_actions s.num_timesteps)[j]? = some (action.substep n m) ∧ n * OL + m = t) ∧
    (∀ (j n m : Nat), (run_actions s.num_timesteps)[j]? = some (action.substep n m) →
      ((exec_list s st0 ((run_actions s.num_timesteps).take (j + 1))).arenas tid).e
          (k - tid * chunk_base s.num_gridpoints s.P + OL) =
        s.m_source_data (n * OL + m) ∧
      ∃ ws, (exec_list s st0 ((run_actions s.num_timesteps).take (j + 1))).log =
          (exec_list s st0 ((run_actions s.num_timesteps).take j)).log ++ ws ∧
        (exec_list s st0 ((run_actions s.num_timesteps).take (j + 1))).scratch =
          apply_writes (exec_list s st0 ((run_actions s.num_timesteps).take j)).scratch ws ∧
        ∀ (w : Nat) (cle : copy_list_entry), s.l_copy_list[w]? = some cle →
          cle.type = record_type.electric → cle.hasto_record (n * OL + m) = true →
          cle.position ≤ k → k < cle.position + cle.cols →
          cle.position + cle.cols < 18446744073709551616 →
          (∃ wr ∈ ws, wr.k = w ∧ wr.time = n * OL + m ∧ wr.tid = tid ∧
            wr.i = k - tid * chunk_base s.num_gridpoints s.P + OL ∧
            wr.value = s.m_source_data (n * OL + m) ∧
            wr.addr = wrap64 (cle.offset_scratch_real (n * OL + m)
              (wrap64 (record_base_idx s.num_gridpoints s.P tid - (cle.position : Int))) +
              ((k - tid * chunk_base s.num_gridpoints s.P + OL : Nat) : Int))) ∧
          (∀ wr ∈ ws, wr.k = w →
            wr.tid * chunk_base s.num_gridpoints s.P + wr.i = k + OL →
            wr.value = s.m_source_data (n * OL + m)) ∧
          ((∀ wr ∈ ws,
              wr.addr = wrap64 (cle.offset_scratch_real (n * OL + m)
                (wrap64 (record_base_idx s.num_gridpoints s.P tid - (cle.position : Int))) +
                ((k - tid * chunk_base s.num_gridpoints s.P + OL : Nat) : Int)) →
              wr.k = w ∧ wr.tid * chunk_base s.num_gridpoints s.P + wr.i = k + OL) →
            (exec_list s st0 ((run_actions s.num_timesteps).take (j + 1))).scratch
                (wrap64 (cle.offset_scratch_real (n * OL + m)
                  (wrap64 (record_base_idx s.num_gridpoints s.P tid -
                    (cle.position : Int))) +
                  ((k - tid * chunk_base s.num_gridpoints s.P + OL : Nat) : Int))) =
              s.m_source_data (n * OL + m))) := by
  have hOL : OL = 32 := rfl
  refine ⟨fun t ht => substep_exists _ t ht, ?_⟩
  intro j n m hj
  rw [exec_list_take_succ s st0 _ j _ hj]
  simp only [exec]
  have hval : ∀ a : arena num_adj,
      (substep_worker s n m tid a).e (k - tid * chunk_base s.num_gridpoints s.P + OL) =
        s.m_source_data (n * OL + m) :=
    fun a => hard_source_owner_value s k hsrc hN hP tid ht hown1 hown2 n m a
  refine ⟨?_, _, substep_all_log s n m _, rfl, ?_⟩
  · rw [substep_all_arenas s n m _ tid ht]
    exact hval _
  · intro w cle hw hty hrec hpos1 hpos2 hpos3
    have hle := chunk_base_mul_le s.num_gridpoints s.P tid hP ht
    have hfirst : ∃ wr ∈ (List.range s.P).flatMap (fun tid =>
          record_worker s.num_lvl s.calc_population s.l_copy_list s.num_gridpoints s.P tid
            (n * OL + m) ((substep_all s n m
              (exec_list s st0 ((run_actions s.num_timesteps).take j))).arenas tid)),
        wr.k = w ∧ wr.time = n * OL + m ∧ wr.tid = tid ∧
        wr.i = k - tid * chunk_base s.num_gridpoints s.P + OL ∧
        wr.value = s.m_source_data (n * OL + m) ∧
        wr.addr = wrap64 (cle.offset_scratch_real (n * OL + m)
          (wrap64 (record_base_idx s.num_gridpoints s.P tid - (cle.position : Int))) +
          ((k - tid * chunk_base s.num_gridpoints s.P + OL : Nat) : Int)) := by
      refine ⟨⟨w, n * OL + m, tid, k - tid * chunk_base s.num_gridpoints s.P + OL,
        wrap64 (cle.offset_scratch_real (n * OL + m)
          (wrap64 (record_base_idx s.num_gridpoints s.P tid - (cle.position : Int))) +
          ((k - tid * chunk_base s.num_gridpoints s.P + OL : Nat) : Int)),
        s.m_source_data (n * OL + m)⟩, ?_, rfl, rfl, rfl, rfl, rfl, rfl⟩
      rw [List.mem_flatMap]
      refine ⟨tid, List.mem_range.2 ht, ?_⟩
      rw [mem_record_worker]
      refine ⟨w, cle, hw, hrec, k - tid * chunk_base s.num_gridpoints s.P + OL,
        by omega, by omega, ?_⟩
      unfold record_body
      simp only []
      rw [record_idx_eq _ _ _ _ (by omega) (by omega), wrap64_natCast _ (by omega)]
      have hp : wrap64 ((cle.position : Int) + (cle.cols : Int)) = cle.position + cle.cols := by
        have := wrap64_natCast (cle.position + cle.cols) hpos3
        push_cast at this
        exact this
      rw [hp, if_pos ⟨by omega, by omega⟩, hty]
      simp only [List.mem_singleton]
      rw [substep_all_arenas s n m _ tid ht, hval]
    have hsame : ∀ wr ∈ (List.range s.P).flatMap (fun tid =>
          record_worker s.num_lvl s.calc_population s.l_copy_list s.num_gridpoints s.P tid
            (n * OL + m) ((substep_all s n m
              (exec_list s st0 ((run_actions s.num_timesteps).take j))).arenas tid)),
        wr.k = w → wr.tid * chunk_base s.num_gridpoints s.P + wr.i = k + OL →
        wr.value = s.m_source_data (n * OL + m) := by
      intro wr hwr hwk hwg
      rw [List.mem_flatMap] at hwr
      obtain ⟨tid2, ht2, hwr⟩ := hwr
      rw [List.mem_range] at ht2
      rw [mem_record_worker] at hwr
      obtain ⟨w2, cle2, hw2, _, i, hi1, hi2, hb⟩ := hwr
      obtain ⟨b1, _, b3, b4, _, _, b7, _⟩ := mem_record_body _ _ _ _ _ _ _ _ _ _ _ hb
      have hww : w2 = w := by rw [← b1]; exact hwk
      subst hww
      rw [hw] at hw2
      cases hw2
      rw [b3, b4] at hwg
      have htid : tid2 = tid := by
        apply chunk_ranges_disjoint s.num_gridpoints s.P tid2 tid k ht2 ht
        · omega
        · omega
        · exact hown1
        · exact hown2
      subst htid
      rw [b7 hty, substep_all_arenas s n m _ tid2 ht]
      have hi : i = k - tid2 * chunk_base s.num_gridpoints s.P + OL := by omega
      rw [hi]
      exact hval _
    refine ⟨hfirst, hsame, ?_⟩
    intro hinj
    obtain ⟨wr0, hwr0, _, _, _, _, _, ha0⟩ := hfirst
    exact apply_writes_value _ _ _ _ ⟨wr0, hwr0, ha0⟩
      (fun wr hwr hwa => hsame wr hwr (hinj wr hwr hwa).1 (hinj wr hwr hwa).2)

end mbsolve

namespace mbsolve

theorem source_fidelity_witness :
    (hard_source_solver.l_sim_sources = [⟨source_type.hard_source, 50, 0⟩] ∧
      50 < hard_source_solver.num_gridpoints ∧
      hard_source_solver.num_gridpoints + 2 * OL < 2147483648 ∧
      1 ≤ hard_source_solver.P ∧ 1 < hard_source_solver.P ∧
      1 * chunk_base hard_source_solver.num_gridpoints hard_source_solver.P ≤ 50 ∧
      50 < 1 * chunk_base hard_source_solver.num_gridpoints hard_source_solver.P +
        chunk hard_source_solver.num_gridpoints hard_source_solver.P 1) ∧
    (run_actions hard_source_solver.num_timesteps)[1]? = some (action.substep 0 0) ∧
    ((exec_list hard_source_solver
        (init_state hard_source_solver (fun _ => 0) (fun _ => zero_arena) (fun _ => 0))
        ((run_actions hard_source_solver.num_timesteps).take (1 + 1))).arenas 1).e
        (50 - 1 * chunk_base hard_source_solver.num_gridpoints hard_source_solver.P + OL) =
      hard_source_solver.m_source_data (0 * OL + 0) ∧
    (exec_list hard_source_solver
        (init_state hard_source_solver (fun _ => 0) (fun _ => zero_arena) (fun _ => 0))
        ((run_actions hard_source_solver.num_timesteps).take (1 + 1))).scratch 50 =
      hard_source_solver.m_source_data (0 * OL + 0) := by
  have hj : (run_actions hard_source_solver.num_timesteps)[1]? =
      some (action.substep 0 0) := by decide
  refine ⟨⟨rfl, by decide, by decide, by decide, by decide, by decide, by decide⟩, hj, ?_⟩
  obtain ⟨_, hstep⟩ := source_fidelity hard_source_solver
    (init_state hard_source_solver (fun _ => 0) (fun _ => zero_arena) (fun _ => 0))
    50 rfl (by decide) (by decide) (by decide) 1 (by decide) (by decide) (by decide)
  obtain ⟨he, ws, hlog, _, hwin⟩ := hstep 1 0 0 hj
  refine ⟨he, ?_⟩
  obtain ⟨_, _, hsc⟩ := hwin 0 (example_window 0 70 0) rfl rfl rfl (by decide) (by decide)
    (by decide)
  have haddr : wrap64 ((example_window 0 70 0).offset_scratch_real (0 * OL + 0)
      (wrap64 (record_base_idx hard_source_solver.num_gridpoints hard_source_solver.P 1 -
        ((example_window 0 70 0).position : Int))) +
      ((50 - 1 * chunk_base hard_source_solver.num_gridpoints hard_source_solver.P + OL : Nat)
        : Int)) = 50 := by decide
  rw [haddr] at hsc
  apply hsc
  intro wr hwr hwa
  -- the stores of the substep
  have hL : (exec_list hard_source_solver
      (init_state hard_source_solver (fun _ => 0) (fun _ => zero_arena) (fun _ => 0))
      ((run_actions hard_source_solver.num_timesteps).take (1 + 1))).log =
      (exec_list hard_source_solver
        (init_state hard_source_solver (fun _ => 0) (fun _ => zero_arena) (fun _ => 0))
        ((run_actions hard_source_solver.num_timesteps).take 1)).log ++
      (List.range hard_source_solver.P).flatMap (fun tid =>
        record_worker hard_source_solver.num_lvl hard_source_solver.calc_population
          hard_source_solver.l_copy_list hard_source_solver.num_gridpoints
          hard_source_solver.P tid (0 * OL + 0)
          ((substep_all hard_source_solver 0 0 (exec_list hard_source_solver
            (init_state hard_source_solver (fun _ => 0) (fun _ => zero_arena) (fun _ => 0))
            ((run_actions hard_source_solver.num_timesteps).take 1))).arenas tid)) := by
    rw [exec_list_take_succ hard_source_solver _ _ 1 _ hj]
    exact substep_all_log hard_source_solver 0 0 _
  have hws := List.append_cancel_left (hlog.symm.trans hL)
  rw [hws, List.mem_flatMap] at hwr
  obtain ⟨tid2, ht2, hwr⟩ := hwr
  rw [List.mem_range] at ht2
  rw [mem_record_worker] at hwr
  obtain ⟨k2, cle2, hk2, _, i, hi1, hi2, hb⟩ := hwr
  obtain ⟨b1, _, b3, b4, b5, _⟩ := mem_record_body _ _ _ _ _ _ _ _ _ _ _ hb
  have hl : hard_source_solver.l_copy_list = [example_window 0 70 0] := rfl
  rw [hl] at hk2
  have hOL : OL = 32 := rfl
  have hP2 : hard_source_solver.P = 2 := rfl
  have hcb : chunk_base hard_source_solver.num_gridpoints hard_source_solver.P = 35 := by
    decide
  cases k2 with
  | succ k3 => simp at hk2
  | zero =>
    simp only [List.getElem?_cons_zero, Option.some.injEq] at hk2
    subst hk2
    rw [hwa] at b5
    rw [b1, b3, b4, hcb, hOL]
    rw [hP2] at ht2
    rw [hOL] at hi1 hi2
    have hcases : tid2 = 0 ∨ tid2 = 1 := by omega
    rcases hcases with h0 | h1
    · subst h0
      have hoff : (example_window 0 70 0).offset_scratch_real (0 * OL + 0)
          (wrap64 (record_base_idx hard_source_solver.num_gridpoints hard_source_solver.P 0 -
            ((example_window 0 70 0).position : Int))) = -32 := by decide
      have hch : chunk hard_source_solver.num_gridpoints hard_source_solver.P 0 = 35 := by
        decide
      rw [hoff] at b5
      rw [hch] at hi2
      unfold wrap64 at b5
      omega
    · subst h1
      have hoff : (example_window 0 70 0).offset_scratch_real (0 * OL + 0)
          (wrap64 (record_base_idx hard_source_solver.num_gridpoints hard_source_solver.P 1 -
            ((example_window 0 70 0).position : Int))) = 3 := by decide
      have hch : chunk hard_source_solver.num_gridpoints hard_source_solver.P 1 = 35 := by
        decide
      rw [hoff] at b5
      rw [hch] at hi2
      unfold wrap64 at b5
      omega

end mbsolve

namespace mbsolve

/-! ## The example with two materials -/

/-- With the coefficient records `two_material_consts`, the electric field
after `update_d` and `update_fdtd`. -/
theorem two_material_fdtd_e (size bd : Nat) (a : arena 3) (i : Nat) :
    (update_fdtd size bd two_material_consts (update_d size bd two_material_consts a)).e i =
      if i ∈ loop_range size bd then
        a.e i + ((a.mat_indices i : real) + 1) * (a.h (i + 1) - a.h i)
      else a.e i := by
  rw [update_fdtd_e]
  by_cases hr : i ∈ loop_range size bd
  · rw [if_pos hr, if_pos hr, update_d_p, if_pos hr, update_d_e, update_d_h,
      update_d_mat_indices]
    simp [update_d_body, two_material_consts, example_consts]
  · rw [if_neg hr, if_neg hr, update_d_e]

/-- With the coefficient records `two_material_consts`, the magnetic field
after `update_h`. -/
theorem two_material_update_h (size bd : Nat) (a : arena 3) (i : Nat) :
    (update_h size bd two_material_consts a).h i =
      if i ∈ loop_range size bd ∧ bd + 1 ≤ i then a.h i + (a.e i - a.e (i - 1))
      else a.h i := by
  rw [update_h_h]
  by_cases hr : i ∈ loop_range size bd ∧ bd + 1 ≤ i
  · rw [if_pos hr, if_pos hr]
    simp [two_material_consts, example_consts]
  · rw [if_neg hr, if_neg hr]

/-- One substep of a worker of a solver with the coefficient records
`two_material_consts` and a single hard source at grid point `x`. -/
theorem two_material_substep (s : solver 3) (hc : s.l_sim_consts = two_material_consts)
    (x : Nat) (hsrc : s.l_sim_sources = [⟨source_type.hard_source, x, 0⟩]) (n m tid : Nat)
    (a : arena 3) :
    (∀ i, (substep_worker s n m tid a).e i =
      if 0 < source_at ⟨source_type.hard_source, x, 0⟩
            (wrap32 ((tid : Int) * (chunk_base s.num_gridpoints s.P : Int))) ∧
          source_at ⟨source_type.hard_source, x, 0⟩
            (wrap32 ((tid : Int) * (chunk_base s.num_gridpoints s.P : Int))) <
            ((chunk s.num_gridpoints s.P tid + 2 * OL : Nat) : Int) ∧
          (source_at ⟨source_type.hard_source, x, 0⟩
            (wrap32 ((tid : Int) * (chunk_base s.num_gridpoints s.P : Int)))).toNat = i
        then s.m_source_data (n * OL + m)
        else if i ∈ loop_range (arena_size s.num_gridpoints s.P tid) (border m) then
          a.e i + ((a.mat_indices i : real) + 1) * (a.h (i + 1) - a.h i)
        else a.e i) ∧
    (∀ i, (substep_worker s n m tid a).h i =
      if tid = s.P - 1 ∧ i = OL + chunk s.num_gridpoints s.P tid then 0
      else if tid = 0 ∧ i = OL then 0
      else if i ∈ loop_range (arena_size s.num_gridpoints s.P tid) (border m) ∧
          border m + 1 ≤ i then
        a.h i + ((substep_worker s n m tid a).e i - (substep_worker s n m tid a).e (i - 1))
      else a.h i) ∧
    (substep_worker s n m tid a).mat_indices = a.mat_indices := by
  refine ⟨?_, ?_, substep_worker_mat_indices s n m tid a⟩
  · intro i
    rw [substep_worker_e, hsrc, hc]
    unfold apply_sources_rk
    rw [List.foldl_cons, List.foldl_nil, apply_source_body_apply, two_material_fdtd_e]
    split_ifs <;> simp
  · intro i
    rw [substep_worker_h, hc, two_material_update_h]
    simp only [update_fdtd_h, update_d_h]

/-- After the first exchange of a run from zeroed arrays, the fields of a
worker are zero and its material indices are those the constructor stored. -/
theorem first_exchange_fields {num_adj : Nat} (s : solver num_adj) (l_mat_indices : Nat → Nat)
    (a0 : Nat → arena num_adj) (scratch0 : Nat → real)
    (hz : ∀ t i, (a0 t).e i = 0 ∧ (a0 t).h i = 0) (tid : Nat) (ht : tid < s.P) :
    (∀ i, ((exec s (init_state s l_mat_indices a0 scratch0) (action.exchange 0)).arenas tid).e i
        = 0 ∧
      ((exec s (init_state s l_mat_indices a0 scratch0) (action.exchange 0)).arenas tid).h i
        = 0) ∧
    ((exec s (init_state s l_mat_indices a0 scratch0) (action.exchange 0)).arenas tid).mat_indices
      = (init_arena l_mat_indices s.l_sim_consts s.num_gridpoints s.P tid (a0 tid)).mat_indices := by
  have hzero : ∀ t i,
      ((init_state s l_mat_indices a0 scratch0).arenas t).e i = 0 ∧
      ((init_state s l_mat_indices a0 scratch0).arenas t).h i = 0 := by
    intro t i
    simp only [init_state]
    split_ifs
    · obtain ⟨h1, h2⟩ := init_arena_e_h l_mat_indices s.l_sim_consts
        s.num_gridpoints s.P t (a0 t) i
      rw [h1, h2]
      constructor <;> split_ifs <;> first | rfl | exact (hz t i).1 | exact (hz t i).2
    · exact hz t i
  constructor
  · intro i
    simp only [exec, exchange_all]
    rw [if_pos ht]
    obtain ⟨a1, _, a3, _⟩ := exchange_worker_apply s.num_gridpoints s.P tid
      ((init_state s l_mat_indices a0 scratch0).arenas (tid - 1))
      ((init_state s l_mat_indices a0 scratch0).arenas tid)
      ((init_state s l_mat_indices a0 scratch0).arenas (tid + 1)) i
    rw [a1, a3]
    simp only [(hzero _ _).1, (hzero _ _).2]
    simp
  · simp only [exec, exchange_all]
    rw [if_pos ht, exchange_worker_mat_indices]
    simp only [init_state]
    rw [if_pos ht]

end mbsolve

namespace mbsolve

theorem two_material_actions :
    (run_actions two_material_solver.num_timesteps).take 3 =
      [action.exchange 0, action.substep 0 0, action.substep 0 1] := by decide

/-- C1. The code is not invariant under the number of workers on an ordinary
input with `N / P ≥ OL`: 64 grid points, 2 time steps, two materials (`M_CE`
is 2 on grid points 0..31 and 1 on grid points 32..63), a hard source of
constant value 1 at grid point 32, all fields zero at the start. With two
workers, index 32 of worker 1 is owned (grid point 32, index 64 of the single
worker); index 31 of worker 1 is its left halo copy of grid point 31, and
the constructor stored material index 0 for it instead of 1. The third step
of `run` is the substep with time index 1; after it the magnetic field at
grid point 32 is 1 in the run with two workers and 0 in the run with a single
worker. -/
theorem partition_material_halo_divergence :
    (1 < two_material_solver.P ∧
      OL ≤ chunk_base two_material_solver.num_gridpoints two_material_solver.P ∧
      two_material_solver.num_gridpoints + 2 * OL < 2 ^ 31 ∧
      OL ≤ 32 ∧ 32 < OL + chunk two_material_solver.num_gridpoints two_material_solver.P 1 ∧
      32 + 1 * chunk_base two_material_solver.num_gridpoints two_material_solver.P = 64 ∧
      global_idx two_material_solver.num_gridpoints two_material_solver.P 1 32 = 32 ∧
      global_idx two_material_solver.num_gridpoints 1 0 64 = 32 ∧
      global_idx two_material_solver.num_gridpoints 1 0 63 = 31 ∧
      (run_actions two_material_solver.num_timesteps)[2]? = some (action.substep 0 1)) ∧
    (((init_state two_material_solver two_material_map (fun _ => zero_arena)
        (fun _ => 0)).arenas 1).mat_indices 31 = 0 ∧
      ((init_state (single_worker two_material_solver) two_material_map (fun _ => zero_arena)
        (fun _ => 0)).arenas 0).mat_indices 63 = 1) ∧
    ((exec_list two_material_solver
        (init_state two_material_solver two_material_map (fun _ => zero_arena) (fun _ => 0))
        ((run_actions two_material_solver.num_timesteps).take 3)).arenas 1).h 32 = 1 ∧
    ((exec_list (single_worker two_material_solver)
        (init_state (single_worker two_material_solver) two_material_map
          (fun _ => zero_arena) (fun _ => 0))
        ((run_actions two_material_solver.num_timesteps).take 3)).arenas 0).h 64 = 0 := by
  have hmA : (init_arena two_material_map two_material_solver.l_sim_consts
      two_material_solver.num_gridpoints two_material_solver.P 1 zero_arena).mat_indices 31
      = 0 := by
    rw [init_arena_mat_indices, if_pos (by decide), if_neg (by decide)]
  have hmB : (init_arena two_material_map (single_worker two_material_solver).l_sim_consts
      (single_worker two_material_solver).num_gridpoints
      (single_worker two_material_solver).P 0 zero_arena).mat_indices 63 = 1 := by
    rw [init_arena_mat_indices, if_pos (by decide), if_pos (by decide)]
    decide
  have hOL : OL = 32 := rfl
  have hb0 : border 0 = 0 := rfl
  have hb1 : border 1 = 0 := rfl
  refine ⟨⟨by decide, by decide, by decide, by decide, by decide, by decide, by decide,
    by decide, by decide, by decide⟩, ⟨?_, ?_⟩, ?_, ?_⟩
  · simp only [init_state]
    rw [if_pos (by decide)]
    exact hmA
  · simp only [init_state]
    rw [if_pos (by decide)]
    exact hmB
  · rw [two_material_actions]
    obtain ⟨hE, hM⟩ := first_exchange_fields two_material_solver two_material_map
      (fun _ => zero_arena) (fun _ => 0) (fun _ _ => ⟨rfl, rfl⟩) 1 (by decide)
    simp only [exec_list, List.foldl_cons, List.foldl_nil]
    generalize hst : exec two_material_solver
      (init_state two_material_solver two_material_map (fun _ => zero_arena) (fun _ => 0))
      (action.exchange 0) = stE at hE hM
    have e1 : (exec two_material_solver (exec two_material_solver stE (action.substep 0 0))
        (action.substep 0 1)).arenas 1 =
        substep_worker two_material_solver 0 1 1
          (substep_worker two_material_solver 0 0 1 (stE.arenas 1)) := by
      simp [exec, substep_all, two_material_solver]
    rw [e1]
    obtain ⟨pA, qA, mA⟩ := two_material_substep two_material_solver rfl 32 rfl 0 0 1
      (stE.arenas 1)
    obtain ⟨pB, qB, _⟩ := two_material_substep two_material_solver rfl 32 rfl 0 1 1
      (substep_worker two_material_solver 0 0 1 (stE.arenas 1))
    have hat : source_at ⟨source_type.hard_source, 32, 0⟩
        (wrap32 (((1 : Nat) : Int) *
          (chunk_base two_material_solver.num_gridpoints two_material_solver.P : Int)))
        = 32 := by decide
    have hch : ((chunk two_material_solver.num_gridpoints two_material_solver.P 1
        + 2 * OL : Nat) : Int) = 96 := by decide
    have hr : ∀ i, i ∈ loop_range
        (arena_size two_material_solver.num_gridpoints two_material_solver.P 1) 0
          ↔ i < 95 := by
      intro i
      rw [mem_loop_range]
      have h1 : loop_end (arena_size two_material_solver.num_gridpoints
          two_material_solver.P 1) 0 = 95 := by decide
      rw [h1]
      omega
    have hd0 : two_material_solver.m_source_data (0 * OL + 0) = 1 := rfl
    have hd1 : two_material_solver.m_source_data (0 * OL + 1) = 1 := rfl
    have hP1 : two_material_solver.P - 1 = 1 := rfl
    have hOLc : OL + chunk two_material_solver.num_gridpoints two_material_solver.P 1
        = 64 := by decide
    have htn : Int.toNat 32 = 32 := rfl
    have hm31 : (substep_worker two_material_solver 0 0 1 (stE.arenas 1)).mat_indices 31
        = 0 := by
      rw [mA, hM]
      exact hmA
    -- after the substep with time index 0
    have A30 : (substep_worker two_material_solver 0 0 1 (stE.arenas 1)).e 30 = 0 := by
      rw [pA 30, hat, hch, hd0, (hE 30).1, (hE 30).2, (hE 31).2]
      norm_num [hb0, hb1, hr, hOL, htn]
    have A31 : (substep_worker two_material_solver 0 0 1 (stE.arenas 1)).e 31 = 0 := by
      rw [pA 31, hat, hch, hd0, (hE 31).1, (hE 31).2, (hE 32).2]
      norm_num [hb0, hb1, hr, hOL, htn]
    have A32 : (substep_worker two_material_solver 0 0 1 (stE.arenas 1)).e 32 = 1 := by
      rw [pA 32, hat, hch, hd0]
      norm_num [htn]
    have Ah31 : (substep_worker two_material_solver 0 0 1 (stE.arenas 1)).h 31 = 0 := by
      rw [qA 31, A31, A30, (hE 31).2, hP1, hOLc]
      norm_num [hb0, hb1, hr, hOL, htn]
    have Ah32 : (substep_worker two_material_solver 0 0 1 (stE.arenas 1)).h 32 = 1 := by
      rw [qA 32, A32, A31, (hE 32).2, hP1, hOLc]
      norm_num [hb0, hb1, hr, hOL, htn]
    -- after the substep with time index 1
    have B31 : (substep_worker two_material_solver 0 1 1
        (substep_worker two_material_solver 0 0 1 (stE.arenas 1))).e 31 = 1 := by
      rw [pB 31, hat, hch, hd1, A31, Ah31, Ah32, hm31]
      norm_num [hb0, hb1, hr, hOL, htn]
    have B32 : (substep_worker two_material_solver 0 1 1
        (substep_worker two_material_solver 0 0 1 (stE.arenas 1))).e 32 = 1 := by
      rw [pB 32, hat, hch, hd1]
      norm_num [htn]
    rw [qB 32, B32, B31, Ah32, hP1, hOLc]
    norm_num [hb0, hb1, hr, hOL, htn]
  · rw [two_material_actions]
    obtain ⟨hE, hM⟩ := first_exchange_fields (single_worker two_material_solver)
      two_material_map (fun _ => zero_arena) (fun _ => 0) (fun _ _ => ⟨rfl, rfl⟩) 0
      (by decide)
    simp only [exec_list, List.foldl_cons, List.foldl_nil]
    generalize hst : exec (single_worker two_material_solver)
      (init_state (single_worker two_material_solver) two_material_map
        (fun _ => zero_arena) (fun _ => 0))
      (action.exchange 0) = stE at hE hM
    have e1 : (exec (single_worker two_material_solver)
        (exec (single_worker two_material_solver) stE (action.substep 0 0))
        (action.substep 0 1)).arenas 0 =
        substep_worker (single_worker two_material_solver) 0 1 0
          (substep_worker (single_worker two_material_solver) 0 0 0 (stE.arenas 0)) := by
      simp [exec, substep_all, single_worker]
    rw [e1]
    obtain ⟨pA, qA, mA⟩ := two_material_substep (single_worker two_material_solver) rfl 32
      rfl 0 0 0 (stE.arenas 0)
    obtain ⟨pB, qB, _⟩ := two_material_substep (single_worker two_material_solver) rfl 32
      rfl 0 1 0 (substep_worker (single_worker two_material_solver) 0 0 0 (stE.arenas 0))
    have hat : source_at ⟨source_type.hard_source, 32, 0⟩
        (wrap32 (((0 : Nat) : Int) *
          (chunk_base (single_worker two_material_solver).num_gridpoints
            (single_worker two_material_solver).P : Int))) = 64 := by decide
    have hch : ((chunk (single_worker two_material_solver).num_gridpoints
        (single_worker two_material_solver).P 0 + 2 * OL : Nat) : Int) = 128 := by decide
    have hr : ∀ i, i ∈ loop_range
        (arena_size (single_worker two_material_solver).num_gridpoints
          (single_worker two_material_solver).P 0) 0 ↔ i < 127 := by
      intro i
      rw [mem_loop_range]
      have h1 : loop_end (arena_size (single_worker two_material_solver).num_gridpoints
          (single_worker two_material_solver).P 0) 0 = 127 := by decide
      rw [h1]
      omega
    have hd0 : (single_worker two_material_solver).m_source_data (0 * OL + 0) = 1 := rfl
    have hd1 : (single_worker two_material_solver).m_source_data (0 * OL + 1) = 1 := rfl
    have hP1 : (single_worker two_material_solver).P - 1 = 0 := rfl
    have hOLc : OL + chunk (single_worker two_material_solver).num_gridpoints
        (single_worker two_material_solver).P 0 = 96 := by decide
    have htn : Int.toNat 64 = 64 := rfl
    have hm63 : (substep_worker (single_worker two_material_solver) 0 0 0
        (stE.arenas 0)).mat_indices 63 = 1 := by
      rw [mA, hM]
      exact hmB
    -- after the substep with time index 0
    have A62 : (substep_worker (single_worker two_material_solver) 0 0 0
        (stE.arenas 0)).e 62 = 0 := by
      rw [pA 62, hat, hch, hd0, (hE 62).1, (hE 62).2, (hE 63).2]
      norm_num [hb0, hb1, hr, hOL, htn]
    have A63 : (substep_worker (single_worker two_material_solver) 0 0 0
        (stE.arenas 0)).e 63 = 0 := by
      rw [pA 63, hat, hch, hd0, (hE 63).1, (hE 63).2, (hE 64).2]
      norm_num [hb0, hb1, hr, hOL, htn]
    have A64 : (substep_worker (single_worker two_material_solver) 0 0 0
        (stE.arenas 0)).e 64 = 1 := by
      rw [pA 64, hat, hch, hd0]
      norm_num [htn]
    have Ah63 : (substep_worker (single_worker two_material_solver) 0 0 0
        (stE.arenas 0)).h 63 = 0 := by
      rw [qA 63, A63, A62, (hE 63).2, hP1, hOLc]
      norm_num [hb0, hb1, hr, hOL, htn]
    have Ah64 : (substep_worker (single_worker two_material_solver) 0 0 0
        (stE.arenas 0)).h 64 = 1 := by
      rw [qA 64, A64, A63, (hE 64).2, hP1, hOLc]
      norm_num [hb0, hb1, hr, hOL, htn]
    -- after the substep with time index 1
    have B63 : (substep_worker (single_worker two_material_solver) 0 1 0
        (substep_worker (single_worker two_material_solver) 0 0 0 (stE.arenas 0))).e 63
        = 2 := by
      rw [pB 63, hat, hch, hd1, A63, Ah63, Ah64, hm63]
      norm_num [hb0, hb1, hr, hOL, htn]
    have B64 : (substep_worker (single_worker two_material_solver) 0 1 0
        (substep_worker (single_worker two_material_solver) 0 0 0 (stE.arenas 0))).e 64
        = 1 := by
      rw [pB 64, hat, hch, hd1]
      norm_num [htn]
    rw [qB 64, B64, B63, Ah64, hP1, hOLc]
    norm_num [hb0, hb1, hr, hOL, htn]

end mbsolve
